import Mathlib

/-!
# devicedb: cluster coordination core

A shallow embedding of the Raft storage adaptor (`cloud/raft/storage.go`), of the
simple partitioning strategy, of the cluster controller and of the node of a
bucket (`node.go`), with the properties their specification states about them.

Conventions of the embedding:

* `uint64` values are natural numbers below `U64`; every arithmetic operation of
  the source that can wrap is written with an explicit `% U64`.
* byte strings are lists of naturals (each a byte value).
* a Go method that mutates its receiver and returns an error is a function from
  the receiver to the pair of its result and the receiver afterwards.
* a Go runtime panic and a loop that never terminates are the outcomes
  `Err.panic` and `Err.diverge`; they are not errors returned to a caller.
-/

namespace Raft

/-- The number of values of a Go `uint64`. -/
def U64 : Nat := 18446744073709551616

/-- Byte strings. -/
abbrev Bytes := List Nat

/-- Outcomes other than a normal return. The first seven are error values handed
back to the caller; `panic` and `diverge` are abnormal terminations. -/
inductive Err where
  | snapOutOfDate
  | compacted
  | driver (code : Nat)
  | codec (code : Nat)
  | entryKeyDecode
  | notMonotonic
  | indexMismatch
  | panic
  | diverge
  deriving DecidableEq, Repr

/-- Go `raftpb.Entry`. -/
structure Entry where
  Term : Nat
  Index : Nat
  Typ : Nat
  Data : Bytes
  deriving DecidableEq, Repr, Inhabited

/-- Go `raftpb.HardState`. -/
structure HardState where
  Term : Nat
  Vote : Nat
  Commit : Nat
  deriving DecidableEq, Repr, Inhabited

/-- Go `raftpb.ConfState`. -/
structure ConfState where
  Nodes : List Nat
  deriving DecidableEq, Repr, Inhabited

/-- Go `raftpb.SnapshotMetadata`. -/
structure SnapshotMetadata where
  ConfState : ConfState
  Index : Nat
  Term : Nat
  deriving DecidableEq, Repr, Inhabited

/-- Go `raftpb.Snapshot`. -/
structure Snapshot where
  Data : Bytes
  Metadata : SnapshotMetadata
  deriving DecidableEq, Repr, Inhabited

/-- The protobuf encoders and decoders of `raftpb` (`Marshal` / `Unmarshal`), taken
as a parameter: the generated code is not part of the repository. An error of
the codec carries a code. -/
structure Codec where
  marshalSnapshot : Snapshot → Except Nat Bytes
  unmarshalSnapshot : Bytes → Except Nat Snapshot
  marshalHardState : HardState → Except Nat Bytes
  unmarshalHardState : Bytes → Except Nat HardState
  marshalEntry : Entry → Except Nat Bytes
  unmarshalEntry : Bytes → Except Nat Entry

/-- The contract of the codec: marshalling never fails and unmarshalling inverts it. -/
structure Codec.RoundTrip (c : Codec) : Prop where
  snapshot : ∀ s, ∃ b, c.marshalSnapshot s = .ok b ∧ c.unmarshalSnapshot b = .ok s
  hardState : ∀ h, ∃ b, c.marshalHardState h = .ok b ∧ c.unmarshalHardState b = .ok h
  entry : ∀ e, ∃ b, c.marshalEntry e = .ok b ∧ c.unmarshalEntry b = .ok e

/-! ## Keys (`storage.go`, lines 13-50) -/

def KeySnapshot : Bytes := [0]

def KeyHardState : Bytes := [1]

def KeyPrefixEntry : Bytes := [2]

/-- Go `binary.BigEndian.PutUint64`: the eight bytes of `v`, most significant first. -/
def putUint64 (v : Nat) : Bytes :=
  [v / 2 ^ 56 % 256, v / 2 ^ 48 % 256, v / 2 ^ 40 % 256, v / 2 ^ 32 % 256,
   v / 2 ^ 24 % 256, v / 2 ^ 16 % 256, v / 2 ^ 8 % 256, v % 256]

/-- Go `binary.BigEndian.Uint64` on the first eight bytes of `b` (the callers pass
exactly eight). -/
def getUint64 (b : Bytes) : Nat :=
  (b.take 8).foldl (fun acc x => acc * 256 + x % 256) 0

def entryKey (index : Nat) : Bytes :=
  KeyPrefixEntry ++ putUint64 index

def entryIndex (e : Bytes) : Except Err Nat :=
  if e.length ≠ KeyPrefixEntry.length + 8 then
    .error .entryKeyDecode
  else
    .ok (getUint64 (e.drop KeyPrefixEntry.length))

/-- The keys of the indices `firstIndex .. lastIndex`. The loop `for i := firstIndex;
i <= lastIndex; i++` over `uint64` cannot leave through its condition when
`lastIndex` is the largest `uint64`: it then runs past the end of `keys`, a
runtime panic. -/
def entryKeys (firstIndex lastIndex : Nat) : Except Err (List Bytes) :=
  if firstIndex > lastIndex then
    .ok []
  else if lastIndex = U64 - 1 then
    .error .panic
  else
    .ok ((List.range (lastIndex - firstIndex + 1)).map (fun k => entryKey (firstIndex + k)))

/-! ## The storage driver

The interface `devicedb.StorageDriver` and `devicedb.Batch` are declared outside
the sources at hand. -/

/-- One staged operation of a `devicedb.Batch`. -/
inductive Op where
  | put (key value : Bytes)
  | delete (key : Bytes)
  deriving DecidableEq, Repr

/-- Modelled from the spec: `devicedb.Batch`, whose source is missing, is the list of the
operations staged so far, oldest first; the store commits them as one atomic
write, a later operation on a key superseding an earlier one. -/
structure Batch where
  ops : List Op
  deriving DecidableEq, Repr

def NewBatch : Batch := ⟨[]⟩

def Batch.Put (b : Batch) (key value : Bytes) : Batch := ⟨b.ops ++ [Op.put key value]⟩

def Batch.Delete (b : Batch) (key : Bytes) : Batch := ⟨b.ops ++ [Op.delete key]⟩

/-- Byte-wise lexicographic order (`bytes.Compare a b < 0`). -/
def bytesLt : Bytes → Bytes → Bool
  | [], [] => false
  | [], _ :: _ => true
  | _ :: _, [] => false
  | a :: as, b :: bs => decide (a < b) || (a == b && bytesLt as bs)

/-- Modelled from the spec: the implementation of `devicedb.StorageDriver` is missing; the
spec calls it "an ordered byte→byte store supporting batch atomicity, point get,
range scan, and delete". `kv` holds the pairs in ascending key order, one per
key. `faults` scripts the driver's failures: every call of the driver consumes
the head of the list and fails with that code when there is one; a driver whose
list is empty never fails. -/
structure StorageDriver where
  kv : List (Bytes × Bytes)
  faults : List (Option Nat)
  deriving DecidableEq, Repr

/-- The fault, if any, of the next driver call, and the driver after the call was counted. -/
def StorageDriver.nextFault (d : StorageDriver) : Option Nat × StorageDriver :=
  match d.faults with
  | [] => (none, d)
  | f :: fs => (f, { d with faults := fs })

/-- Insert or replace the pair of `key`, keeping the key order. -/
def kvPut (key value : Bytes) : List (Bytes × Bytes) → List (Bytes × Bytes)
  | [] => [(key, value)]
  | (k, v) :: rest =>
    if bytesLt key k then (key, value) :: (k, v) :: rest
    else if key = k then (key, value) :: rest
    else (k, v) :: kvPut key value rest

/-- Remove the pair of `key`, if any. -/
def kvDelete (key : Bytes) (kv : List (Bytes × Bytes)) : List (Bytes × Bytes) :=
  kv.filter (fun p => p.1 ≠ key)

def kvApply (kv : List (Bytes × Bytes)) : Op → List (Bytes × Bytes)
  | .put k v => kvPut k v kv
  | .delete k => kvDelete k kv

def kvGet (kv : List (Bytes × Bytes)) (key : Bytes) : Option Bytes :=
  (kv.find? (fun p => p.1 = key)).map (fun p => p.2)

def StorageDriver.Open (d : StorageDriver) : Option Err × StorageDriver :=
  match d.nextFault with
  | (some c, d1) => (some (.driver c), d1)
  | (none, d1) => (none, d1)

/-- Point reads: one result per key, `none` for a key without a value. -/
def StorageDriver.Get (d : StorageDriver) (keys : List Bytes) :
    Except Err (List (Option Bytes)) × StorageDriver :=
  match d.nextFault with
  | (some c, d1) => (.error (.driver c), d1)
  | (none, d1) => (.ok (keys.map (kvGet d1.kv)), d1)

/-- Range scan: the pairs whose key starts with one of `pfxs`, in key order. -/
def StorageDriver.GetMatches (d : StorageDriver) (pfxs : List Bytes) :
    Except Err (List (Bytes × Bytes)) × StorageDriver :=
  match d.nextFault with
  | (some c, d1) => (.error (.driver c), d1)
  | (none, d1) => (.ok (d1.kv.filter (fun p => pfxs.any (fun q => q.isPrefixOf p.1))), d1)

/-- The error reported by an iterator once it is exhausted (`iterator.Error()`). -/
def StorageDriver.iteratorError (d : StorageDriver) : Option Err × StorageDriver :=
  match d.nextFault with
  | (some c, d1) => (some (.driver c), d1)
  | (none, d1) => (none, d1)

/-- Atomic write: all of the batch's operations in order, or none of them on failure. -/
def StorageDriver.Batch (d : StorageDriver) (b : Batch) : Option Err × StorageDriver :=
  match d.nextFault with
  | (some c, d1) => (some (.driver c), d1)
  | (none, d1) => (none, { d1 with kv := b.ops.foldl kvApply d1.kv })

/-! ## The in-memory storage of the Raft library -/

/-- Go `raft.MemoryStorage`: `ents[i]` has log position `i + ents[0].Index`; `ents[0]` is
a dummy entry standing for the last compacted position. -/
structure MemoryStorage where
  hardState : HardState
  snapshot : Snapshot
  ents : List Entry
  deriving DecidableEq, Repr

/-- Go `raft.NewMemoryStorage`: a log holding only the dummy entry at index 0, term 0. -/
def NewMemoryStorage : MemoryStorage :=
  { hardState := default, snapshot := default, ents := [default] }

/-- Go slice expression `xs[k:]`, which panics when `k` exceeds the length. -/
def sliceFrom {α : Type} (xs : List α) (k : Nat) : Except Err (List α) :=
  if k ≤ xs.length then .ok (xs.drop k) else .error .panic

/-- Modelled from the spec: `MemoryStorage.firstIndex` of the embedded Raft library
(`ms.ents[0].Index + 1`); reading `ents[0]` of an empty slice panics. -/
def MemoryStorage.firstIndex (ms : MemoryStorage) : Except Err Nat :=
  match ms.ents with
  | [] => .error .panic
  | d :: _ => .ok ((d.Index + 1) % U64)

/-- Modelled from the spec: `MemoryStorage.lastIndex` of the embedded Raft library
(`ms.ents[0].Index + uint64(len(ms.ents)) - 1`). -/
def MemoryStorage.lastIndex (ms : MemoryStorage) : Except Err Nat :=
  match ms.ents with
  | [] => .error .panic
  | d :: _ => .ok ((d.Index + ms.ents.length + (U64 - 1)) % U64)

/-- Modelled from the spec: `MemoryStorage.SetHardState` of the embedded Raft library. -/
def MemoryStorage.SetHardState (ms : MemoryStorage) (st : HardState) : Except Err MemoryStorage :=
  .ok { ms with hardState := st }

/-- Modelled from the spec: `MemoryStorage.ApplySnapshot` of the embedded Raft library: a
snapshot that is not newer than the current one is refused, otherwise it
replaces the snapshot and the log becomes the single dummy entry at the
snapshot's index and term. -/
def MemoryStorage.ApplySnapshot (ms : MemoryStorage) (snap : Snapshot) : Except Err MemoryStorage :=
  let msIndex := ms.snapshot.Metadata.Index
  let snapIndex := snap.Metadata.Index
  if msIndex ≥ snapIndex then
    .error .snapOutOfDate
  else
    .ok { ms with
      snapshot := snap
      ents := [{ Term := snap.Metadata.Term, Index := snap.Metadata.Index, Typ := 0, Data := [] }] }

/-- Modelled from the spec: `MemoryStorage.CreateSnapshot` of the embedded Raft library. It
refuses an index at or below the current snapshot, panics on an index beyond
the last one, and otherwise records index, term of the entry at that
position, the configuration state when one is given, and the data. -/
def MemoryStorage.CreateSnapshot (ms : MemoryStorage) (i : Nat) (cs : Option ConfState)
    (data : Bytes) : Except Err (Snapshot × MemoryStorage) :=
  if i ≤ ms.snapshot.Metadata.Index then
    .error .snapOutOfDate
  else
    match ms.ents with
    | [] => .error .panic
    | d :: _ =>
      let offset := d.Index
      if i > (d.Index + ms.ents.length + (U64 - 1)) % U64 then
        .error .panic
      else
        match ms.ents[(i + U64 - offset) % U64]? with
        | none => .error .panic
        | some e =>
          let snapshot : Snapshot :=
            { Data := data
              Metadata :=
                { Index := i
                  Term := e.Term
                  ConfState := cs.getD ms.snapshot.Metadata.ConfState } }
          .ok (snapshot, { ms with snapshot := snapshot })

/-- Modelled from the spec: `MemoryStorage.Compact` of the embedded Raft library: the entry at
`compactIndex` becomes the new dummy entry and everything before it is dropped. -/
def MemoryStorage.Compact (ms : MemoryStorage) (compactIndex : Nat) : Except Err MemoryStorage :=
  match ms.ents with
  | [] => .error .panic
  | d :: _ =>
    let offset := d.Index
    if compactIndex ≤ offset then
      .error .compacted
    else if compactIndex > (d.Index + ms.ents.length + (U64 - 1)) % U64 then
      .error .panic
    else
      let i := compactIndex - offset
      match ms.ents[i]? with
      | none => .error .panic
      | some e =>
        .ok { ms with
          ents := { Term := e.Term, Index := e.Index, Typ := 0, Data := [] } :: ms.ents.drop (i + 1) }

/-- Modelled from the spec: `MemoryStorage.Append` of the embedded Raft library. Entries
below the first index are cut off; the rest replaces the log from the position
of its first entry on; a gap between the log and the first entry panics. Only
the `Index` of the first entry and the number of entries are looked at. -/
def MemoryStorage.Append (ms : MemoryStorage) (entries : List Entry) : Except Err MemoryStorage :=
  match entries with
  | [] => .ok ms
  | e0 :: _ =>
    match ms.ents with
    | [] => .error .panic
    | d :: _ =>
      let first := (d.Index + 1) % U64
      let last := (e0.Index + entries.length + (U64 - 1)) % U64
      if last < first then
        .ok ms
      else
        match (if first > e0.Index then sliceFrom entries (first - e0.Index) else .ok entries) with
        | .error e => .error e
        | .ok [] => .error .panic
        | .ok (f0 :: rest) =>
          let offset := (f0.Index + U64 - d.Index) % U64
          if ms.ents.length > offset then
            .ok { ms with ents := ms.ents.take offset ++ f0 :: rest }
          else if ms.ents.length = offset then
            .ok { ms with ents := ms.ents ++ f0 :: rest }
          else
            .error .panic

/-! ## RaftStorage (`storage.go`, lines 52-454) -/

structure RaftStorage where
  isOpen : Bool
  isEmpty : Bool
  storageDriver : StorageDriver
  memoryStorage : MemoryStorage
  deriving DecidableEq, Repr

def NewRaftStorage (storageDriver : StorageDriver) : RaftStorage :=
  { isOpen := false
    isEmpty := true
    storageDriver := storageDriver
    memoryStorage := NewMemoryStorage }

/-- The loop of `Open` over the iterator (lines 141-173): `entries` and
`lastEntryIndex` are the loop's variables, `isEmpty` the flag of the storage. -/
def readEntries (c : Codec) :
    List (Bytes × Bytes) → List Entry → Option Nat → Bool → Except Err (List Entry) × Bool
  | [], entries, _, isEmpty => (.ok entries, isEmpty)
  | (ek, encodedEntry) :: rest, entries, lastEntryIndex, isEmpty =>
    match entryIndex ek with
    | .error e => (.error e, isEmpty)
    | .ok expectedEntryIndex =>
      if (match lastEntryIndex with
          | some l => decide ((l + 1) % U64 ≠ expectedEntryIndex)
          | none => false) then
        (.error .notMonotonic, isEmpty)
      else
        match c.unmarshalEntry encodedEntry with
        | .error code => (.error (.codec code), isEmpty)
        | .ok entry =>
          if entry.Index ≠ expectedEntryIndex then
            (.error .indexMismatch, isEmpty)
          else
            readEntries c rest (entries ++ [entry]) (some expectedEntryIndex) false

/-- Lines 87-109 of `Open`: the stored snapshot, if any, is applied to the memory storage. -/
def RaftStorage.openSnapshot (c : Codec) (rs : RaftStorage) : Option Err × RaftStorage :=
  match rs.storageDriver.Get [KeySnapshot] with
  | (.error e, d) => (some e, { rs with storageDriver := d })
  | (.ok [], d) => (some .panic, { rs with storageDriver := d })
  | (.ok (none :: _), d) => (none, { rs with storageDriver := d })
  | (.ok (some encoded :: _), d) =>
    match c.unmarshalSnapshot encoded with
    | .error code => (some (.codec code), { rs with storageDriver := d })
    | .ok snapshot =>
      match rs.memoryStorage.ApplySnapshot snapshot with
      | .error e => (some e, { rs with storageDriver := d })
      | .ok ms => (none, { rs with storageDriver := d, memoryStorage := ms, isEmpty := false })

/-- Lines 111-133 of `Open`: the stored hard state, if any, is set in the memory storage. -/
def RaftStorage.openHardState (c : Codec) (rs : RaftStorage) : Option Err × RaftStorage :=
  match rs.storageDriver.Get [KeyHardState] with
  | (.error e, d) => (some e, { rs with storageDriver := d })
  | (.ok [], d) => (some .panic, { rs with storageDriver := d })
  | (.ok (none :: _), d) => (none, { rs with storageDriver := d })
  | (.ok (some encoded :: _), d) =>
    match c.unmarshalHardState encoded with
    | .error code => (some (.codec code), { rs with storageDriver := d })
    | .ok hardState =>
      match rs.memoryStorage.SetHardState hardState with
      | .error e => (some e, { rs with storageDriver := d })
      | .ok ms => (none, { rs with storageDriver := d, memoryStorage := ms, isEmpty := false })

/-- Lines 135-187 of `Open`: the stored entries are read in key order, checked and appended. -/
def RaftStorage.openEntries (c : Codec) (rs : RaftStorage) : Option Err × RaftStorage :=
  match rs.storageDriver.GetMatches [KeyPrefixEntry] with
  | (.error e, d) => (some e, { rs with storageDriver := d })
  | (.ok pairs, d) =>
    match readEntries c pairs [] none rs.isEmpty with
    | (.error e, isEmpty) => (some e, { rs with storageDriver := d, isEmpty := isEmpty })
    | (.ok entries, isEmpty) =>
      match d.iteratorError with
      | (some e, d1) => (some e, { rs with storageDriver := d1, isEmpty := isEmpty })
      | (none, d1) =>
        match rs.memoryStorage.Append entries with
        | .error e => (some e, { rs with storageDriver := d1, isEmpty := isEmpty })
        | .ok ms =>
          (none, { rs with storageDriver := d1, isEmpty := isEmpty, memoryStorage := ms, isOpen := true })

def RaftStorage.Open (c : Codec) (rs : RaftStorage) : Option Err × RaftStorage :=
  match rs.storageDriver.Open with
  | (some e, d) => (some e, { rs with storageDriver := d })
  | (none, d) =>
    -- reset memory storage
    match RaftStorage.openSnapshot c { rs with storageDriver := d, memoryStorage := NewMemoryStorage } with
    | (some e, rs1) => (some e, rs1)
    | (none, rs1) =>
      match RaftStorage.openHardState c rs1 with
      | (some e, rs2) => (some e, rs2)
      | (none, rs2) => RaftStorage.openEntries c rs2

def RaftStorage.IsEmpty (rs : RaftStorage) : Bool :=
  rs.isEmpty

def RaftStorage.FirstIndex (rs : RaftStorage) : Except Err Nat :=
  rs.memoryStorage.firstIndex

def RaftStorage.LastIndex (rs : RaftStorage) : Except Err Nat :=
  rs.memoryStorage.lastIndex

def RaftStorage.SetHardState (c : Codec) (rs : RaftStorage) (st : HardState) :
    Option Err × RaftStorage :=
  let memoryStorageCopy := rs.memoryStorage
  match rs.memoryStorage.SetHardState st with
  | .error e => (some e, rs)
  | .ok ms =>
    if !rs.isOpen then
      (none, { rs with memoryStorage := ms })
    else
      match c.marshalHardState st with
      | .error code => (some (.codec code), { rs with memoryStorage := memoryStorageCopy })
      | .ok encodedHardState =>
        let storageBatch := NewBatch.Put KeyHardState encodedHardState
        match rs.storageDriver.Batch storageBatch with
        | (some e, d) => (some e, { rs with storageDriver := d, memoryStorage := memoryStorageCopy })
        | (none, d) => (none, { rs with storageDriver := d, memoryStorage := ms })

def RaftStorage.ApplySnapshot (c : Codec) (rs : RaftStorage) (snap : Snapshot) :
    Option Err × RaftStorage :=
  let memoryStorageCopy := rs.memoryStorage
  match rs.memoryStorage.ApplySnapshot snap with
  | .error e => (some e, rs)
  | .ok ms =>
    if !rs.isOpen then
      (none, { rs with memoryStorage := ms })
    else
      match memoryStorageCopy.firstIndex, memoryStorageCopy.lastIndex with
      | .ok firstIndex, .ok lastIndex =>
        match entryKeys firstIndex lastIndex with
        | .error e => (some e, { rs with memoryStorage := ms })
        | .ok purgedEntryKeys =>
          match c.marshalSnapshot snap with
          | .error code => (some (.codec code), { rs with memoryStorage := memoryStorageCopy })
          | .ok encodedSnap =>
            let storageBatch := (purgedEntryKeys.foldl Batch.Delete NewBatch).Put KeySnapshot encodedSnap
            match rs.storageDriver.Batch storageBatch with
            | (some e, d) => (some e, { rs with storageDriver := d, memoryStorage := memoryStorageCopy })
            | (none, d) => (none, { rs with storageDriver := d, memoryStorage := ms })
      | _, _ => (some .panic, { rs with memoryStorage := ms })

def RaftStorage.CreateSnapshot (c : Codec) (rs : RaftStorage) (i : Nat) (cs : Option ConfState)
    (data : Bytes) : Except Err Snapshot × RaftStorage :=
  let memoryStorageCopy := rs.memoryStorage
  match rs.memoryStorage.firstIndex with
  | .error e => (.error e, rs)
  | .ok originalFirstIndex =>
    match rs.memoryStorage.CreateSnapshot i cs data with
    | .error e => (.error e, rs)
    | .ok (snap, ms1) =>
      match ms1.Compact i with
      | .error e => (.error e, { rs with memoryStorage := memoryStorageCopy })
      | .ok ms =>
        if !rs.isOpen then
          (.ok snap, { rs with memoryStorage := ms })
        else
          match c.marshalSnapshot snap with
          | .error code => (.error (.codec code), { rs with memoryStorage := memoryStorageCopy })
          | .ok encodedSnap =>
            match ms.firstIndex with
            | .error e => (.error e, { rs with memoryStorage := ms })
            | .ok newFirstIndex =>
              match entryKeys originalFirstIndex ((newFirstIndex + (U64 - 1)) % U64) with
              | .error e => (.error e, { rs with memoryStorage := ms })
              | .ok purgedEntryKeys =>
                let storageBatch :=
                  (purgedEntryKeys.foldl Batch.Delete NewBatch).Put KeySnapshot encodedSnap
                match rs.storageDriver.Batch storageBatch with
                | (some e, d) =>
                  (.error e, { rs with storageDriver := d, memoryStorage := memoryStorageCopy })
                | (none, d) => (.ok snap, { rs with storageDriver := d, memoryStorage := ms })

/-- The loop `for i := lo; i <= hi; i++` over `uint64` (line 425): the indices it
visits. With `hi` the largest `uint64` the condition never fails and the loop
does not end. -/
def indexLoop (lo hi : Nat) : Except Err (List Nat) :=
  if lo > hi then
    .ok []
  else if hi = U64 - 1 then
    .error .diverge
  else
    .ok (List.range' lo (hi - lo + 1))

/-- The loop of lines 432-443: every entry is encoded and staged under its own key;
the first encoding error ends the loop. -/
def putEntries (c : Codec) : List Entry → Batch → Except Nat Batch
  | [], storageBatch => .ok storageBatch
  | entry :: rest, storageBatch =>
    match c.marshalEntry entry with
    | .error code => .error code
    | .ok encodedEntry => putEntries c rest (storageBatch.Put (entryKey entry.Index) encodedEntry)

def RaftStorage.Append (c : Codec) (rs : RaftStorage) (entries : List Entry) :
    Option Err × RaftStorage :=
  match entries with
  | [] => (none, rs)
  | e0 :: _ =>
    let memoryStorageCopy := rs.memoryStorage
    match rs.memoryStorage.firstIndex, rs.memoryStorage.lastIndex with
    | .ok originalFirstIndex, .ok originalLastIndex =>
      if (e0.Index + entries.length + (U64 - 1)) % U64 < originalFirstIndex then
        (none, rs)
      else
        match rs.memoryStorage.Append entries with
        | .error e => (some e, rs)
        | .ok ms =>
          if !rs.isOpen then
            (none, { rs with memoryStorage := ms })
          else
            -- truncate compacted entries
            match (if originalFirstIndex > e0.Index then
                     sliceFrom entries (originalFirstIndex - e0.Index)
                   else .ok entries) with
            | .error e => (some e, { rs with memoryStorage := ms })
            | .ok [] => (some .panic, { rs with memoryStorage := ms })
            | .ok (f0 :: rest) =>
              -- purge all old entries whose index >= entries[0].Index
              match indexLoop f0.Index originalLastIndex with
              | .error e => (some e, { rs with memoryStorage := ms })
              | .ok purged =>
                -- put all newly appended entries into the storage
                match putEntries c (f0 :: rest)
                    ((purged.map entryKey).foldl Batch.Delete NewBatch) with
                | .error code =>
                  (some (.codec code), { rs with memoryStorage := memoryStorageCopy })
                | .ok storageBatch =>
                  match rs.storageDriver.Batch storageBatch with
                  | (some e, d) =>
                    (some e, { rs with storageDriver := d, memoryStorage := memoryStorageCopy })
                  | (none, d) => (none, { rs with storageDriver := d, memoryStorage := ms })
    | _, _ => (some .panic, rs)

def RaftStorage.Close (rs : RaftStorage) : Option Err × RaftStorage :=
  match rs.storageDriver.nextFault with
  | (f, d) =>
    (f.map Err.driver,
      { isOpen := false, isEmpty := true, storageDriver := d, memoryStorage := NewMemoryStorage })

/-- A codec for examples: a value is written as the list of its fields. -/
def listCodec : Codec where
  marshalSnapshot s :=
    .ok (s.Metadata.Index :: s.Metadata.Term :: s.Metadata.ConfState.Nodes.length ::
      (s.Metadata.ConfState.Nodes ++ s.Data))
  unmarshalSnapshot
    | i :: t :: n :: rest =>
      .ok { Data := rest.drop n
            Metadata := { Index := i, Term := t, ConfState := ⟨rest.take n⟩ } }
    | _ => .error 1
  marshalHardState h := .ok [h.Term, h.Vote, h.Commit]
  unmarshalHardState
    | [t, v, k] => .ok ⟨t, v, k⟩
    | _ => .error 1
  marshalEntry e := .ok (e.Term :: e.Index :: e.Typ :: e.Data)
  unmarshalEntry
    | t :: i :: ty :: d => .ok ⟨t, i, ty, d⟩
    | _ => .error 1

/-! ## Predicates of the specification -/

/-- The entries carry the indices `start, start + 1, ...` in this order, and all of
them are `uint64` values. -/
def consecutiveFrom : Nat → List Entry → Bool
  | start, [] => decide (start ≤ U64)
  | start, e :: es => e.Index == start && consecutiveFrom (start + 1) es

/-- The argument of an `Append` as the Raft library hands it over: entries whose
`Index` fields count up by one from the first entry's. -/
def entriesConsecutive : List Entry → Bool
  | [] => true
  | e0 :: rest => consecutiveFrom e0.Index (e0 :: rest)

/-- A well-formed in-memory log: there is a dummy entry, and the entries after it
carry the indices that follow the dummy entry's, all of them `uint64` values. -/
def MemoryStorage.WellFormed (ms : MemoryStorage) : Prop :=
  match ms.ents with
  | [] => False
  | d :: es => consecutiveFrom (d.Index + 1) es = true

/-- The indices that have an entry key in the store are exactly the indices
`FirstIndex() .. LastIndex()` of the in-memory log. -/
def RaftStorage.StoreMemoryAgree (rs : RaftStorage) : Prop :=
  ∃ f l, rs.FirstIndex = .ok f ∧ rs.LastIndex = .ok l ∧
    ∀ i, i < U64 → (entryKey i ∈ rs.storageDriver.kv.map Prod.fst ↔ f ≤ i ∧ i ≤ l)

/-- One call of a mutating operation of `RaftStorage`. -/
inductive Call where
  | append (entries : List Entry)
  | setHardState (st : HardState)
  | createSnapshot (i : Nat) (cs : Option ConfState) (data : Bytes)
  | applySnapshot (snap : Snapshot)
  deriving DecidableEq, Repr

/-- The error, if any, of one call and the storage after it. -/
def RaftStorage.call (c : Codec) (rs : RaftStorage) : Call → Option Err × RaftStorage
  | .append entries => rs.Append c entries
  | .setHardState st => rs.SetHardState c st
  | .createSnapshot i cs data =>
    match rs.CreateSnapshot c i cs data with
    | (.ok _, rs1) => (none, rs1)
    | (.error e, rs1) => (some e, rs1)
  | .applySnapshot snap => rs.ApplySnapshot c snap

/-- The storage after a sequence of calls that all return without error; `none` as
soon as one of them does not. -/
def RaftStorage.run (c : Codec) (rs : RaftStorage) : List Call → Option RaftStorage
  | [] => some rs
  | k :: ks =>
    match rs.call c k with
    | (none, rs1) => RaftStorage.run c rs1 ks
    | (some _, _) => none

/-- A call whose `Append` argument, if it is one, has consecutive indices. -/
def Call.consecutive : Call → Bool
  | .append entries => entriesConsecutive entries
  | _ => true

/-- The index of an applied snapshot is a `uint64` value (the type of the Go field). -/
def Call.typed : Call → Bool
  | .applySnapshot snap => decide (snap.Metadata.Index < U64)
  | _ => true

/-- A driver none of whose coming calls is scripted to fail. -/
def StorageDriver.reliable (d : StorageDriver) : Prop :=
  ∀ f ∈ d.faults, f = none

/-- The index of an applied snapshot is below the largest `uint64`, so that the first
index after it does not wrap around. -/
def Call.belowMax : Call → Bool
  | .applySnapshot snap => decide (snap.Metadata.Index + 1 < U64)
  | _ => true

/-- The `n` low base-256 digits of `v`, most significant first. -/
def beDigits : Nat → Nat → List Nat
  | 0, _ => []
  | n + 1, v => (v / 256 ^ n % 256) :: beDigits n v

/-- The encoding of an entry by the codec (the empty string where the codec fails). -/
def Codec.encEntry (c : Codec) (e : Entry) : Bytes :=
  match c.marshalEntry e with
  | .ok b => b
  | .error _ => []

/-- The encoding of a snapshot by the codec (the empty string where the codec fails). -/
def Codec.encSnapshot (c : Codec) (s : Snapshot) : Bytes :=
  match c.marshalSnapshot s with
  | .ok b => b
  | .error _ => []

/-- The encoding of a hard state by the codec (the empty string where the codec fails). -/
def Codec.encHardState (c : Codec) (h : HardState) : Bytes :=
  match c.marshalHardState h with
  | .ok b => b
  | .error _ => []

/-- The pair a stored entry occupies in the store. -/
def Codec.entryPair (c : Codec) (e : Entry) : Bytes × Bytes :=
  (entryKey e.Index, c.encEntry e)

/-- A store holding an encoded snapshot and an encoded hard state, if any, and the
given entries under their entry keys. -/
def Codec.storeList (c : Codec) (snap hs : Option Bytes) (es : List Entry) :
    List (Bytes × Bytes) :=
  (match snap with
    | some a => [(KeySnapshot, a)]
    | none => []) ++
  ((match hs with
    | some b => [(KeyHardState, b)]
    | none => []) ++
  es.map c.entryPair)

/-- The content of the store that mirrors an in-memory state: the snapshot and the
hard state under their keys, when they were ever written, and every entry after
the dummy entry under its entry key. -/
def Codec.storeOf (c : Codec) (hasSnapshot hasHardState : Bool) (ms : MemoryStorage) :
    List (Bytes × Bytes) :=
  c.storeList (if hasSnapshot then some (c.encSnapshot ms.snapshot) else none)
    (if hasHardState then some (c.encHardState ms.hardState) else none) ms.ents.tail

/-- The store mirrors the memory of an open storage: the log is well formed, its
dummy entry stands at the snapshot's index and term, the store holds exactly
`storeOf`, and a snapshot or hard state that was never written is the zero value. -/
def RaftStorage.Mirrors (c : Codec) (rs : RaftStorage) : Prop :=
  rs.isOpen = true ∧ rs.memoryStorage.WellFormed ∧
    rs.memoryStorage.ents.head? =
      some { Term := rs.memoryStorage.snapshot.Metadata.Term
             Index := rs.memoryStorage.snapshot.Metadata.Index, Typ := 0, Data := [] } ∧
    ∃ hasSnapshot hasHardState,
      rs.storageDriver.kv = c.storeOf hasSnapshot hasHardState rs.memoryStorage ∧
      (hasSnapshot = false → rs.memoryStorage.snapshot = default) ∧
      (hasSnapshot = true → 0 < rs.memoryStorage.snapshot.Metadata.Index) ∧
      (hasHardState = false → rs.memoryStorage.hardState = default)

/-! ## Example states -/

/-- An entry with the given index and term. -/
def exampleEntry (index term : Nat) : Entry :=
  { Term := term, Index := index, Typ := 0, Data := [7] }

/-- A storage freshly opened on an empty store whose driver never fails. -/
def exampleFresh : RaftStorage :=
  (RaftStorage.Open listCodec (NewRaftStorage { kv := [], faults := [] })).2

/-- Two entries whose indices leave a gap. -/
def gapEntries : List Entry :=
  [exampleEntry 1 1, exampleEntry 3 1]

/-- A sequence of calls with consecutive appended entries. -/
def exampleCalls : List Call :=
  [ .append [exampleEntry 1 1, exampleEntry 2 1, exampleEntry 3 1],
    .createSnapshot 2 (some ⟨[1, 2]⟩) [9],
    .append [exampleEntry 3 2, exampleEntry 4 2],
    .setHardState ⟨2, 1, 3⟩ ]

/-- The storage after `exampleCalls`, or the fresh one should a call fail. -/
def exampleAfterCalls : RaftStorage :=
  (exampleFresh.run listCodec exampleCalls).getD exampleFresh

/-- Three entries whose indices are a permutation of `1, 2, 3`. -/
def shuffledEntries : List Entry :=
  [exampleEntry 1 1, exampleEntry 3 1, exampleEntry 2 1]

/-- The storage after the shuffled entries were appended to the fresh one. -/
def exampleShuffled : RaftStorage :=
  (exampleFresh.Append listCodec shuffledEntries).2

/-- The fresh storage with a driver whose next call fails with code 5. -/
def exampleFailing : RaftStorage :=
  { exampleFresh with storageDriver := { kv := [], faults := [some 5] } }

/-- A snapshot at the largest `uint64` index. -/
def maxIndexSnapshot : Snapshot :=
  { Data := [], Metadata := { ConfState := ⟨[]⟩, Index := U64 - 1, Term := 1 } }

/-- An error value handed back to the caller, as opposed to a panic or a loop that does
not end. -/
def Err.returned : Err → Bool
  | .panic => false
  | .diverge => false
  | _ => true

/-- The pairs that the scan of `Open` visits (`GetMatches([][]byte{ KeyPrefixEntry })`): the
pairs of the store whose key starts with the entry prefix, in key order. -/
def entryPairs (kv : List (Bytes × Bytes)) : List (Bytes × Bytes) :=
  kv.filter (fun p => [KeyPrefixEntry].any (fun q => q.isPrefixOf p.1))

/-- A new storage on the store that `exampleCalls` left behind: a snapshot at index 2,
a hard state and the entries 3 and 4. -/
def exampleStored : RaftStorage :=
  NewRaftStorage { kv := exampleAfterCalls.storageDriver.kv, faults := [] }

/-- A snapshot at index 5. -/
def exampleSnapshot : Snapshot :=
  { Data := [9], Metadata := { ConfState := ⟨[1]⟩, Index := 5, Term := 2 } }

/-- A new storage on a store that holds a snapshot and, under a one-byte key of the
entry prefix, something that is no entry. -/
def exampleCorrupt : RaftStorage :=
  NewRaftStorage
    { kv := [(KeySnapshot, [5, 2, 1, 1, 9]), (KeyPrefixEntry, [])], faults := [] }

/-- A snapshot at the index before the largest `uint64`. -/
def nearMaxSnapshot : Snapshot :=
  { Data := [], Metadata := { ConfState := ⟨[]⟩, Index := U64 - 2, Term := 1 } }

/-- The fresh storage after `nearMaxSnapshot` was applied: its first index is the largest
`uint64`, its log is empty. -/
def exampleNearMax : RaftStorage :=
  (exampleFresh.ApplySnapshot listCodec nearMaxSnapshot).2

/-- Two entries the second of which has an index beyond the largest `uint64`, which wraps
around to 0. -/
def wrappingEntries : List Entry :=
  [exampleEntry (U64 - 1) 1, exampleEntry 0 1]

/-- The fresh storage after three entries were appended. -/
def exampleThree : RaftStorage :=
  (exampleFresh.Append listCodec [exampleEntry 1 1, exampleEntry 2 1, exampleEntry 3 1]).2

/-- The fresh storage after a snapshot at index 1 was applied: its first index is 2. -/
def exampleCompacted : RaftStorage :=
  (exampleFresh.ApplySnapshot listCodec
    { Data := [], Metadata := { ConfState := ⟨[]⟩, Index := 1, Term := 1 } }).2

/-- Two entries that both carry the index 1. -/
def repeatedEntries : List Entry :=
  [exampleEntry 1 1, exampleEntry 1 2]

/-- The fresh storage after the entries with the indices 1 and 3 were appended. -/
def exampleGapped : RaftStorage :=
  (exampleFresh.Append listCodec gapEntries).2

/-- An `Append` that returns nil before anything is staged (lines 394-396 and 402-404):
there are no entries, or `entries[0].Index + len(entries) - 1`, in `uint64`
arithmetic, lies below the first index. No other call returns early. -/
def Call.returnsEarly (rs : RaftStorage) : Call → Bool
  | .append [] => true
  | .append (e0 :: rest) =>
    match rs.FirstIndex with
    | .ok f => decide ((e0.Index + (rest.length + 1) + (U64 - 1)) % U64 < f)
    | .error _ => false
  | _ => false

/-- The puts and deletes of a call in the words of the specification, read off the
storage before (`rs`) and after (`rs1`) the call. `SetHardState` writes the hard
state key. `ApplySnapshot` deletes the keys of the old entry range and puts the
snapshot. `CreateSnapshot` deletes the keys of the compacted entries, from the
old first index up to the new one, and puts the new snapshot. `Append` drops the
entries that precede the first index, deletes every key from the index of the
first entry it keeps through the old last index, and puts the entries it keeps. -/
def Call.operations (c : Codec) (rs rs1 : RaftStorage) : Call → Option (List Op)
  | .setHardState st =>
    match c.marshalHardState st with
    | .ok encoded => some [Op.put KeyHardState encoded]
    | .error _ => none
  | .applySnapshot snap =>
    match rs.FirstIndex, rs.LastIndex, c.marshalSnapshot snap with
    | .ok f, .ok l, .ok encoded =>
      some ((List.range' f (l + 1 - f)).map (fun j => Op.delete (entryKey j)) ++
        [Op.put KeySnapshot encoded])
    | _, _, _ => none
  | .createSnapshot _ _ _ =>
    match rs.FirstIndex, rs1.FirstIndex, c.marshalSnapshot rs1.memoryStorage.snapshot with
    | .ok f, .ok f1, .ok encoded =>
      some ((List.range' f (f1 - f)).map (fun j => Op.delete (entryKey j)) ++
        [Op.put KeySnapshot encoded])
    | _, _, _ => none
  | .append entries =>
    match rs.FirstIndex, rs.LastIndex, entries with
    | .ok f, .ok l, e0 :: rest =>
      match (e0 :: rest).drop (f - e0.Index) with
      | k0 :: kept =>
        some ((List.range' k0.Index (l + 1 - k0.Index)).map (fun j => Op.delete (entryKey j)) ++
          (k0 :: kept).map (fun e => Op.put (entryKey e.Index) (c.encEntry e)))
      | [] => none
    | _, _, _ => none

/-- The fresh storage after three entries were appended, with a driver whose next call
fails with code 5. -/
def exampleThreeFailing : RaftStorage :=
  { exampleThree with
    storageDriver := { kv := exampleThree.storageDriver.kv, faults := [some 5] } }

/-- The fresh storage after three entries were appended, with a driver whose next call
succeeds and whose call after that fails with code 5. -/
def exampleThreeScripted : RaftStorage :=
  { exampleThree with
    storageDriver := { kv := exampleThree.storageDriver.kv, faults := [none, some 5] } }

/-- The storage with first index 2 (a snapshot at index 1 was applied), with a driver
whose next call fails with code 5. -/
def exampleCompactedFailing : RaftStorage :=
  { exampleCompacted with
    storageDriver := { kv := exampleCompacted.storageDriver.kv, faults := [some 5] } }

/-! ## Go maps with string keys, and a batch as a map

A map is the list of its pairs, one per key, in the order in which the keys were
first set; this is also the order in which a `range` loop visits the pairs (Go
leaves that order open). -/

/-- The value of `key` in the map (`m[key]`), `none` for a key that is not set. -/
def mapGet {β : Type} (key : Bytes) : List (Bytes × β) → Option β
  | [] => none
  | (k, v) :: rest => if k = key then some v else mapGet key rest

/-- The map after `m[key] = value`. -/
def mapSet {β : Type} (key : Bytes) (value : β) : List (Bytes × β) → List (Bytes × β)
  | [] => [(key, value)]
  | (k, v) :: rest => if k = key then (k, value) :: rest else (k, v) :: mapSet key value rest

/-- The map after `delete(m, key)`. -/
def mapDelete {β : Type} (key : Bytes) (m : List (Bytes × β)) : List (Bytes × β) :=
  m.filter (fun p => p.1 ≠ key)

/-- Go `Op.IsDelete`. -/
def Op.IsDelete : Op → Bool
  | .put _ _ => false
  | .delete _ => true

/-- Go `Op.Key`. -/
def Op.Key : Op → Bytes
  | .put k _ => k
  | .delete k => k

/-- Go `Op.Value`: the value of a put, `nil` for a delete. -/
def Op.Value : Op → Option Bytes
  | .put _ v => some v
  | .delete _ => none

/-- Modelled from the spec: `Batch.Ops()`, whose source is missing, is the map from a key
to the operation staged for it, a later operation on a key having replaced an
earlier one. -/
def Batch.Ops (b : Batch) : List (Bytes × Op) :=
  b.ops.foldl (fun m o => mapSet o.Key o m) []

end Raft

namespace Cluster

/-! ## The simple partitioning strategy

The sources of the strategy (`cloud/cluster/partitioner.go`) are missing; its tests
(`partitioner_test.go`) and its specification are at hand. -/

/-- The errors of the partitioning strategy. -/
inductive Error where
  | EPreconditionFailed
  | ENoNodesAvailable
  deriving DecidableEq, Repr

/-- Go `PeerAddress`, as far as the tests use it. -/
structure PeerAddress where
  NodeID : Nat
  Host : String
  Port : Nat
  deriving DecidableEq, Repr, Inhabited

/-- Go `NodeConfig`: `Tokens` is the set of owned tokens (`map[uint64]bool`),
`PartitionReplicas` maps a partition to the set of replicas the node holds
(`map[uint64]map[uint64]bool`), one pair per partition. -/
structure NodeConfig where
  Address : PeerAddress
  Capacity : Nat
  Tokens : Finset Nat
  PartitionReplicas : List (Nat × Finset Nat)
  deriving DecidableEq

/-- The ids are strictly increasing: sorted and without duplicates. -/
def strictlyIncreasing : List Nat → Bool
  | [] => true
  | [_] => true
  | a :: b :: rest => decide (a < b) && strictlyIncreasing (b :: rest)

/-- Modelled from the spec: step 1 of the mechanism, "per node target = ⌊P/N⌋ or ⌈P/N⌉ (first
`P mod N` nodes in id order receive the ceiling)", as the list of the targets of
the `N` eligible nodes in id order. -/
def targets (P N : Nat) : List Nat :=
  (List.range N).map (fun i => P / N + if i < P % N then 1 else 0)

/-- Modelled from the spec: step 2, "clear any slot owned by a node absent from `nodes` or
with capacity 0 (write 0)"; `ids` are the ids of the nodes with capacity > 0. -/
def clearSlots (ids : List Nat) (slots : List Nat) : List Nat :=
  slots.map (fun s => if s ∈ ids then s else 0)

/-- Modelled from the spec: "release tokens (write 0) in ascending slot order", for the
first `k` slots owned by `id`. -/
def releaseFirst (id : Nat) : Nat → List Nat → List Nat
  | 0, slots => slots
  | _ + 1, [] => []
  | k + 1, s :: rest =>
    if s = id then 0 :: releaseFirst id k rest else s :: releaseFirst id (k + 1) rest

/-- Modelled from the spec: step 3, first half, "for each overfull node, release tokens
(write 0) in ascending slot order until it reaches its target"; `plan` pairs
every eligible node's id with its target. -/
def releaseOverfull (plan : List (Nat × Nat)) (slots : List Nat) : List Nat :=
  plan.foldl (fun acc p => releaseFirst p.1 (acc.count p.1 - p.2) acc) slots

/-- Modelled from the spec: the underfull nodes in ascending id order, each as often as
its remaining shortfall. -/
def shortfalls (plan : List (Nat × Nat)) (slots : List Nat) : List Nat :=
  plan.flatMap (fun p => List.replicate (p.2 - slots.count p.1) p.1)

/-- Modelled from the spec: step 3, second half, "unassigned slots (value 0) are then
distributed to underfull nodes in a deterministic order (ascending slot order
for slots; ascending node id among underfull nodes)"; `fillers` is the list of
`shortfalls`. -/
def fillSlots : List Nat → List Nat → List Nat
  | _, [] => []
  | [], s :: rest => s :: fillSlots [] rest
  | f :: fs, s :: rest =>
    if s = 0 then f :: fillSlots fs rest else s :: fillSlots (f :: fs) rest

/-- Modelled from the spec: the mechanism of section 4.2 on the ids of the eligible nodes. -/
def rebalance (ids : List Nat) (current : List Nat) (P : Nat) : List Nat :=
  let plan := ids.zip (targets P ids.length)
  let released := releaseOverfull plan (clearSlots ids current)
  fillSlots (shortfalls plan released) released

/-- Modelled from the spec: the ids of the nodes eligible for tokens, those with
capacity > 0, in the order of the list. -/
def eligibleIds (nodes : List NodeConfig) : List Nat :=
  (nodes.filter (fun n => decide (0 < n.Capacity))).map (fun n => n.Address.NodeID)

/-- Modelled from the spec: `SimplePartitioningStrategy.AssignTokens` (section 4.2), whose
source is missing. `nodes` is `none` for a nil slice. The preconditions are
checked first and fail with `EPreconditionFailed`; then a list without a node
of capacity > 0 fails with `ENoNodesAvailable`; a Go result `(nil, err)` is
`.error err`. -/
def AssignTokens (nodes : Option (List NodeConfig)) (currentAssignments : List Nat)
    (partitions : Nat) : Except Error (List Nat) :=
  match nodes with
  | none => .error .EPreconditionFailed
  | some nodes =>
    if currentAssignments.length ≠ partitions then
      .error .EPreconditionFailed
    else if partitions = 0 then
      .error .EPreconditionFailed
    else if !strictlyIncreasing (nodes.map (fun n => n.Address.NodeID)) then
      .error .EPreconditionFailed
    else if currentAssignments.any
        (fun id => id != 0 && !nodes.any (fun n => n.Address.NodeID == id)) then
      .error .EPreconditionFailed
    else if eligibleIds nodes = [] then
      .error .ENoNodesAvailable
    else
      .ok (rebalance (eligibleIds nodes) currentAssignments partitions)

/-- The number of tokens a node owns in an assignment. -/
def tokenCount (assignment : List Nat) (id : Nat) : Nat :=
  assignment.count id

/-- The preconditions of `AssignTokens` on a non-nil node list, as the spec lists them:
`|current| = P`, `P > 0`, strictly increasing node ids, and every nonzero id of
`current` is the id of a listed node. -/
def preconditionsHold (nodes : List NodeConfig) (current : List Nat) (P : Nat) : Prop :=
  current.length = P ∧ 0 < P ∧ strictlyIncreasing (nodes.map (fun n => n.Address.NodeID)) = true ∧
    ∀ id ∈ current, id ≠ 0 → ∃ n ∈ nodes, n.Address.NodeID = id

/-- The larger of the two token counts of a balanced assignment, `⌈P/N⌉`, computed as
`AssignmentIsValid` of the tests computes `tokenCountCeil`. -/
def tokenCountCeil (P N : Nat) : Nat :=
  if P % N ≠ 0 then P / N + 1 else P / N

/-- A node of the given id and capacity, owning nothing. -/
def exampleNode (id capacity : Nat) : NodeConfig :=
  { Address := { NodeID := id, Host := "", Port := 0 }, Capacity := capacity
    Tokens := ∅, PartitionReplicas := [] }

/-! ## The cluster controller

`controller.go` is missing from the sources; the controller is modelled from section 4.1 of
the specification, with the tests of `controller_test.go` deciding what the
specification leaves open. -/

/-- Go `PartitionReplica`, as the tests build it: the holder of one replica of a partition. -/
structure PartitionReplica where
  Partition : Nat
  Replica : Nat
  Holder : Nat
  deriving DecidableEq, Repr

/-- Go `ClusterSettings`; 0 is "not yet set". -/
structure ClusterSettings where
  Partitions : Nat
  ReplicationFactor : Nat
  deriving DecidableEq, Repr

/-- Modelled from the spec: `ClusterState` (section 3). `Nodes` is the map from node id to
`NodeConfig`, kept as the list of its pairs in ascending order of the key. -/
structure ClusterState where
  Nodes : List (Nat × NodeConfig)
  Tokens : List Nat
  Partitions : List (List PartitionReplica)
  ClusterSettings : ClusterSettings
  deriving DecidableEq

/-- Modelled from the spec: `ClusterStateDelta` (section 3), one constructor per tag, with the
fields the tests give the deltas. -/
inductive ClusterStateDelta where
  | NodeAdd (NodeID : Nat) (NodeConfig : NodeConfig)
  | NodeRemove (NodeID : Nat)
  | NodeGainToken (NodeID : Nat) (Token : Nat)
  | NodeLoseToken (NodeID : Nat) (Token : Nat)
  | NodeGainPartitionReplica (NodeID : Nat) (Partition : Nat) (Replica : Nat)
  | NodeLosePartitionReplica (NodeID : Nat) (Partition : Nat) (Replica : Nat)
  deriving DecidableEq

/-- Modelled from the spec: `ClusterController` (section 4.1). `PartitioningStrategy` is the
`AssignTokens` of the strategy in use; `LocalUpdates` is `none` for a nil
channel and otherwise the deltas sent so far, oldest first; `strategyCalls`
counts the invocations of the strategy, as the `calls` field of the strategy
of the tests does. -/
structure ClusterController where
  LocalNodeID : Nat
  State : ClusterState
  PartitioningStrategy : Option (List NodeConfig) → List Nat → Nat → Except Error (List Nat)
  LocalUpdates : Option (List ClusterStateDelta)
  strategyCalls : Nat

/-- Modelled from the spec: send deltas on `LocalUpdates`, which "may be nil"; nothing is
sent on a nil channel. -/
def ClusterController.emit (cc : ClusterController) (ds : List ClusterStateDelta) :
    ClusterController :=
  { cc with LocalUpdates := cc.LocalUpdates.map (fun q => q ++ ds) }

/-- Modelled from the spec: insert a pair into the node map `Nodes`, keeping the keys in
ascending order. -/
def insertNode (id : Nat) (cfg : NodeConfig) :
    List (Nat × NodeConfig) → List (Nat × NodeConfig)
  | [] => [(id, cfg)]
  | p :: rest =>
    if id < p.1 then (id, cfg) :: p :: rest
    else if id = p.1 then (id, cfg) :: rest
    else p :: insertNode id cfg rest

/-- Modelled from the spec: remove a key from the node map `Nodes`. -/
def eraseNode (id : Nat) (nodes : List (Nat × NodeConfig)) : List (Nat × NodeConfig) :=
  nodes.filter (fun p => p.1 != id)

/-- Modelled from the spec: change the configuration stored under a key of the node map
`Nodes`. -/
def updateNode (id : Nat) (f : NodeConfig → NodeConfig) (nodes : List (Nat × NodeConfig)) :
    List (Nat × NodeConfig) :=
  nodes.map (fun p => if p.1 = id then (p.1, f p.2) else p)

/-- Modelled from the spec: step 4 of `reassign` for one token `t` and one entry of the node
map. When `prev[t]` and `next[t]` differ, the node of id `prev[t]` loses `t`
from its `Tokens` and loses its partition-replica assignments for partition
`t`, and the node of id `next[t]` gains `t`. -/
def stepNode (prev next : List Nat) (t : Nat) (p : Nat × NodeConfig) : Nat × NodeConfig :=
  match prev[t]?, next[t]? with
  | some s, some o =>
    if s = o then p
    else if p.1 = s then
      (p.1, { p.2 with Tokens := p.2.Tokens.erase t
                       PartitionReplicas := p.2.PartitionReplicas.filter (fun e => e.1 != t) })
    else if p.1 = o then (p.1, { p.2 with Tokens := insert t p.2.Tokens })
    else p
  | _, _ => p

/-- Modelled from the spec: step 4 of `reassign` on the node map, "for each partition index
t ∈ [0, P)" in ascending order, `P` being the length of `prev`. -/
def applyTokens (prev next : List Nat) (nodes : List (Nat × NodeConfig)) :
    List (Nat × NodeConfig) :=
  (List.range prev.length).foldl (fun ns t => ns.map (stepNode prev next t)) nodes

/-- Modelled from the spec: step 4 of `reassign` on the token list,
"update `State.Tokens[t] = next[t]`" for every `t ∈ [0, P)`. -/
def newTokens (prev next : List Nat) : List Nat :=
  (List.range prev.length).map (fun t => (next[t]?).getD (prev.getD t 0))

/-- Modelled from the spec: the local node loses token `t`, `prev[t] ≠ next[t]` and
`prev[t] == LocalNodeID`. -/
def losesToken (localNodeID : Nat) (prev next : List Nat) (t : Nat) : Bool :=
  match prev[t]?, next[t]? with
  | some s, some o => s != o && s == localNodeID
  | _, _ => false

/-- Modelled from the spec: the local node gains token `t`, `prev[t] ≠ next[t]` and
`next[t] == LocalNodeID`. -/
def gainsToken (localNodeID : Nat) (prev next : List Nat) (t : Nat) : Bool :=
  match prev[t]?, next[t]? with
  | some s, some o => s != o && o == localNodeID
  | _, _ => false

/-- Modelled from the spec: the deltas of one reassignment, "losses before gains, each group
in ascending token order". -/
def tokenDeltas (localNodeID : Nat) (prev next : List Nat) : List ClusterStateDelta :=
  ((List.range prev.length).filter (losesToken localNodeID prev next)).map
      (ClusterStateDelta.NodeLoseToken localNodeID) ++
    ((List.range prev.length).filter (gainsToken localNodeID prev next)).map
      (ClusterStateDelta.NodeGainToken localNodeID)

/-- Modelled from the spec: `reassign()` (section 4.1.1). The nodes are passed in ascending
order of id, `prev` is the current `Tokens` and `P` the partition count of the
settings. The controller never fails: when the strategy returns an error the
state is left as it is and nothing is sent. -/
def ClusterController.reassign (cc : ClusterController) : ClusterController :=
  let nodes := cc.State.Nodes.map Prod.snd
  let prev := cc.State.Tokens
  match cc.PartitioningStrategy (some nodes) prev cc.State.ClusterSettings.Partitions with
  | .error _ => { cc with strategyCalls := cc.strategyCalls + 1 }
  | .ok next =>
    { cc with
      State := { cc.State with
        Nodes := applyTokens prev next cc.State.Nodes
        Tokens := newTokens prev next }
      LocalUpdates := cc.LocalUpdates.map (fun q => q ++ tokenDeltas cc.LocalNodeID prev next)
      strategyCalls := cc.strategyCalls + 1 }

/-- Modelled from the spec: `UpdateNodeConfig(nodeID, cfg)`. An unknown node is a no-op; the
address fields (host, port) are overwritten; a changed capacity is stored and
followed by `reassign()`. -/
def ClusterController.UpdateNodeConfig (cc : ClusterController) (nodeID : Nat)
    (cfg : NodeConfig) : ClusterController :=
  match cc.State.Nodes.lookup nodeID with
  | none => cc
  | some current =>
    let withAddress := updateNode nodeID
      (fun n => { n with Address := { n.Address with Host := cfg.Address.Host
                                                     Port := cfg.Address.Port } })
      cc.State.Nodes
    if cfg.Capacity ≠ current.Capacity then
      ClusterController.reassign { cc with
        State := { cc.State with
          Nodes := updateNode nodeID (fun n => { n with Capacity := cfg.Capacity })
            withAddress } }
    else
      { cc with State := { cc.State with Nodes := withAddress } }

/-- Modelled from the spec: `AddNode(nodeID, cfg)`. A known node is a no-op; the node is
inserted, `NodeAdd` is sent first when the node is the local one, and
`reassign()` follows. -/
def ClusterController.AddNode (cc : ClusterController) (nodeID : Nat) (cfg : NodeConfig) :
    ClusterController :=
  match cc.State.Nodes.lookup nodeID with
  | some _ => cc
  | none =>
    let inserted : ClusterController :=
      { cc with State := { cc.State with Nodes := insertNode nodeID cfg cc.State.Nodes } }
    let announced :=
      if cc.LocalNodeID = nodeID then inserted.emit [ClusterStateDelta.NodeAdd nodeID cfg]
      else inserted
    announced.reassign

/-- Modelled from the spec: the token list with the slots of `owned`, the tokens of a
removed node, unassigned. -/
def releaseTokens (owned : Finset Nat) (tokens : List Nat) : List Nat :=
  (List.range tokens.length).map (fun t => if t ∈ owned then 0 else tokens.getD t 0)

/-- Modelled from the spec: `RemoveNode(nodeID)`. An unknown node is a no-op; the owned tokens
of the node are taken before the mutation and their slots become unassigned
with the removal, so that `prev` names only remaining nodes; the removal of the
local node sends `NodeRemove` and no token loss. `reassign()` follows in both
cases, as the test of the local removal counts one call of the strategy. -/
def ClusterController.RemoveNode (cc : ClusterController) (nodeID : Nat) :
    ClusterController :=
  match cc.State.Nodes.lookup nodeID with
  | none => cc
  | some removed =>
    let owned := removed.Tokens
    let erased : ClusterController :=
      { cc with
        State := { cc.State with
          Nodes := eraseNode nodeID cc.State.Nodes
          Tokens := releaseTokens owned cc.State.Tokens } }
    let announced :=
      if cc.LocalNodeID = nodeID then erased.emit [ClusterStateDelta.NodeRemove nodeID]
      else erased
    announced.reassign

/-- Modelled from the spec: the replicas of a node without `replica` of `partition`; the
entry of the partition is dropped when it becomes empty, as the tests expect an
empty map. -/
def dropReplica (partition replica : Nat) (n : NodeConfig) : NodeConfig :=
  { n with
    PartitionReplicas :=
      (n.PartitionReplicas.map
        (fun e => if e.1 = partition then (e.1, e.2.erase replica) else e)).filter
        (fun e => !(e.1 == partition && decide (e.2 = ∅))) }

/-- Modelled from the spec: add `replica` to the set of `partition` in a map from
partitions to replica sets kept in ascending order of the partition. -/
def insertReplica (partition replica : Nat) :
    List (Nat × Finset Nat) → List (Nat × Finset Nat)
  | [] => [(partition, {replica})]
  | e :: rest =>
    if partition < e.1 then (partition, {replica}) :: e :: rest
    else if partition = e.1 then (e.1, insert replica e.2) :: rest
    else e :: insertReplica partition replica rest

/-- Modelled from the spec: the replicas of a node with `replica` of `partition` added. -/
def addReplica (partition replica : Nat) (n : NodeConfig) : NodeConfig :=
  { n with PartitionReplicas := insertReplica partition replica n.PartitionReplicas }

/-- Modelled from the spec: `TakePartitionReplica(partition, replica, nodeID)`. The holder of
the replica moves from its current holder to `nodeID` in `Partitions` and in
the `PartitionReplicas` of both nodes; the loss is sent when the prior holder
is local, the gain when the new holder is local. No reassignment follows. A
command naming an unknown node or replica is ill-formed and a no-op. -/
def ClusterController.TakePartitionReplica (cc : ClusterController)
    (partition replica nodeID : Nat) : ClusterController :=
  match cc.State.Nodes.lookup nodeID,
      (cc.State.Partitions[partition]?).bind (fun rs => rs[replica]?) with
  | some _, some held =>
    let holder := held.Holder
    let nodes := updateNode nodeID (addReplica partition replica)
      (updateNode holder (dropReplica partition replica) cc.State.Nodes)
    let partitions := cc.State.Partitions.modify
      (fun rs => rs.set replica { held with Holder := nodeID }) partition
    let moved : ClusterController :=
      { cc with State := { cc.State with Nodes := nodes, Partitions := partitions } }
    let lost :=
      if holder = cc.LocalNodeID then
        moved.emit [ClusterStateDelta.NodeLosePartitionReplica holder partition replica]
      else moved
    if nodeID = cc.LocalNodeID then
      lost.emit [ClusterStateDelta.NodeGainPartitionReplica nodeID partition replica]
    else lost
  | _, _ => cc

/-- Modelled from the spec: the event of both settings becoming nonzero: the token list gets
its `P` unassigned slots and `reassign()` produces the initial assignment. -/
def ClusterController.startAssignment (cc : ClusterController) : ClusterController :=
  ClusterController.reassign { cc with
    State := { cc.State with
      Tokens := List.replicate cc.State.ClusterSettings.Partitions 0 } }

/-- Modelled from the spec: `SetReplicationFactor(R)`, "set only if currently 0; otherwise
ignore", followed by the initial assignment when both settings are now
nonzero. -/
def ClusterController.SetReplicationFactor (cc : ClusterController) (replicationFactor : Nat) :
    ClusterController :=
  if cc.State.ClusterSettings.ReplicationFactor ≠ 0 then cc
  else
    let stored : ClusterController :=
      { cc with
        State := { cc.State with
          ClusterSettings := { cc.State.ClusterSettings with
            ReplicationFactor := replicationFactor } } }
    if replicationFactor ≠ 0 ∧ cc.State.ClusterSettings.Partitions ≠ 0 then
      stored.startAssignment
    else stored

/-- Modelled from the spec: `SetPartitionCount(P)`, "set only if currently 0; otherwise
ignore", followed by the initial assignment when both settings are now
nonzero. -/
def ClusterController.SetPartitionCount (cc : ClusterController) (partitions : Nat) :
    ClusterController :=
  if cc.State.ClusterSettings.Partitions ≠ 0 then cc
  else
    let stored : ClusterController :=
      { cc with
        State := { cc.State with
          ClusterSettings := { cc.State.ClusterSettings with Partitions := partitions } } }
    if partitions ≠ 0 ∧ cc.State.ClusterSettings.ReplicationFactor ≠ 0 then
      stored.startAssignment
    else stored

/-- Modelled from the spec: the committed cluster commands of section 4.1, with the fields
the tests give their bodies. -/
inductive ClusterCommand where
  | UpdateNodeConfig (NodeID : Nat) (NodeConfig : NodeConfig)
  | AddNode (NodeID : Nat) (NodeConfig : NodeConfig)
  | RemoveNode (NodeID : Nat)
  | TakePartitionReplica (Partition : Nat) (Replica : Nat) (NodeID : Nat)
  | SetReplicationFactor (ReplicationFactor : Nat)
  | SetPartitionCount (Partitions : Nat)

/-- Modelled from the spec: apply one committed command. -/
def ClusterController.step (cc : ClusterController) : ClusterCommand → ClusterController
  | .UpdateNodeConfig nodeID cfg => cc.UpdateNodeConfig nodeID cfg
  | .AddNode nodeID cfg => cc.AddNode nodeID cfg
  | .RemoveNode nodeID => cc.RemoveNode nodeID
  | .TakePartitionReplica partition replica nodeID =>
    cc.TakePartitionReplica partition replica nodeID
  | .SetReplicationFactor replicationFactor => cc.SetReplicationFactor replicationFactor
  | .SetPartitionCount partitions => cc.SetPartitionCount partitions

/-- Modelled from the spec: apply committed commands in order. -/
def ClusterController.run (cc : ClusterController) (commands : List ClusterCommand) :
    ClusterController :=
  commands.foldl ClusterController.step cc

/-- A command is well formed for the token bookkeeping: an added node has a positive id,
carries that id in its address and owns no token yet. -/
def ClusterCommand.wellFormed : ClusterCommand → Bool
  | .AddNode nodeID cfg =>
    decide (0 < nodeID) && decide (cfg.Address.NodeID = nodeID) && decide (cfg.Tokens = ∅)
  | _ => true

/-- The invariants of section 3 on nodes and tokens: the keys of the node map are strictly
increasing, positive and equal to the id in the address of their node; a token
is in the `Tokens` of a node exactly when its slot holds the id of the node;
every slot holds 0 or the id of a node; and no slot exists before both
settings are set. -/
structure ClusterState.Consistent (st : ClusterState) : Prop where
  sorted : (st.Nodes.map Prod.fst).Pairwise (fun a b => a < b)
  keyed : ∀ p ∈ st.Nodes, 0 < p.1 ∧ p.2.Address.NodeID = p.1
  bidirectional : ∀ p ∈ st.Nodes, ∀ t, t ∈ p.2.Tokens ↔ st.Tokens[t]? = some p.1
  known : ∀ s ∈ st.Tokens, s = 0 ∨ s ∈ st.Nodes.map Prod.fst
  unset : st.ClusterSettings.Partitions = 0 ∨ st.ClusterSettings.ReplicationFactor = 0 →
    st.Tokens = []

/-- The strategy names only nodes it was given: every slot of a returned assignment holds 0
or the id of a node of the list passed to it. -/
def namesOnlyNodes
    (strategy : Option (List NodeConfig) → List Nat → Nat → Except Error (List Nat)) : Prop :=
  ∀ nodes current P next, strategy (some nodes) current P = .ok next →
    ∀ s ∈ next, s = 0 ∨ ∃ n ∈ nodes, n.Address.NodeID = s

/-- A controller on an empty cluster state, with `AssignTokens` as its strategy and a
channel on which nothing was sent. -/
def exampleController (localNodeID : Nat) : ClusterController :=
  { LocalNodeID := localNodeID
    State := { Nodes := [], Tokens := [], Partitions := []
               ClusterSettings := { Partitions := 0, ReplicationFactor := 0 } }
    PartitioningStrategy := AssignTokens
    LocalUpdates := some []
    strategyCalls := 0 }

/-- The strategy of the tests that returns a fixed assignment. -/
def fixedStrategy (result : List Nat) :
    Option (List NodeConfig) → List Nat → Nat → Except Error (List Nat) :=
  fun _ _ _ => .ok result

/-- The local node owns four tokens and keeps two of them. -/
def exampleStealing : ClusterController :=
  { LocalNodeID := 1
    State := { Nodes := [(1, { exampleNode 1 1 with Tokens := {0, 1, 2, 3} }),
                         (2, exampleNode 2 1)]
               Tokens := [1, 1, 1, 1], Partitions := []
               ClusterSettings := { Partitions := 4, ReplicationFactor := 2 } }
    PartitioningStrategy := fixedStrategy [1, 1, 2, 2]
    LocalUpdates := some []
    strategyCalls := 0 }

/-- The state of the tests of `AddNode`: node 1 owns the four tokens, node 2 is the local
node and not yet a member, and the strategy will split the tokens. -/
def exampleJoining : ClusterController :=
  { LocalNodeID := 2
    State := { Nodes := [(1, { exampleNode 1 1 with Tokens := {0, 1, 2, 3}
                                                    PartitionReplicas := [(1, {0})] })]
               Tokens := [1, 1, 1, 1]
               Partitions := [[], [{ Partition := 1, Replica := 0, Holder := 1 }]]
               ClusterSettings := { Partitions := 0, ReplicationFactor := 0 } }
    PartitioningStrategy := fixedStrategy [1, 1, 2, 2]
    LocalUpdates := some []
    strategyCalls := 0 }

/-- Two nodes join, both settings are set, and the first node leaves. -/
def exampleCommands : List ClusterCommand :=
  [.AddNode 1 (exampleNode 1 1), .AddNode 2 (exampleNode 2 1), .SetReplicationFactor 2,
    .SetPartitionCount 4, .RemoveNode 1]

/-- The state of the test of the removal of the local node (`controller_test.go`, lines
416-451): node 1 owns the tokens 0 and 1 and holds replica 0 of partition 1,
node 2, the local node, owns the tokens 2 and 3, the settings are not set, and
the strategy returns the given assignment. -/
def exampleLeaving (result : List Nat) : ClusterController :=
  { LocalNodeID := 2
    State := { Nodes := [(1, { exampleNode 1 1 with Tokens := {0, 1}, PartitionReplicas := [(1, {0})] }),
                         (2, { exampleNode 2 1 with Tokens := {2, 3} })]
               Tokens := [1, 1, 2, 2]
               Partitions := [[], [{ Partition := 1, Replica := 0, Holder := 1 }]]
               ClusterSettings := { Partitions := 0, ReplicationFactor := 0 } }
    PartitioningStrategy := fixedStrategy result
    LocalUpdates := some []
    strategyCalls := 0 }

/-- The state of `exampleLeaving` with token 3 missing from the token set of node 2,
although slot 3 of `Tokens` names node 2; the strategy gives every token to
node 1. -/
def exampleLeavingUntracked : ClusterController :=
  { exampleLeaving [1, 1, 1, 1] with
    State := { (exampleLeaving [1, 1, 1, 1]).State with
      Nodes := [(1, { exampleNode 1 1 with Tokens := {0, 1}, PartitionReplicas := [(1, {0})] }),
                (2, { exampleNode 2 1 with Tokens := {2} })] } }

/-- The replicas of `partition` that a node holds according to its `PartitionReplicas`;
none when the map has no entry for the partition. -/
def replicasOf (n : NodeConfig) (partition : Nat) : Finset Nat :=
  (n.PartitionReplicas.lookup partition).getD ∅

/-- The state of the tests of `TakePartitionReplica`: replica 0 of partition 1 is held
by node 1, which is the local node. -/
def exampleReplicated : ClusterController :=
  { LocalNodeID := 1
    State := { Nodes := [(1, { exampleNode 1 1 with Tokens := {0, 1}
                                                    PartitionReplicas := [(1, {0})] }),
                         (2, { exampleNode 2 1 with Tokens := {2, 3} })]
               Tokens := [1, 1, 2, 2]
               Partitions := [[], [{ Partition := 1, Replica := 0, Holder := 1 }]]
               ClusterSettings := { Partitions := 0, ReplicationFactor := 0 } }
    PartitioningStrategy := fixedStrategy [1, 1, 2, 2]
    LocalUpdates := some []
    strategyCalls := 0 }

end Cluster

namespace Devicedb

open Raft (Bytes Op Batch NewBatch StorageDriver bytesLt mapGet mapSet mapDelete)

/-! ## The node of a bucket (`node.go`)

`uint32` values are natural numbers below `U32`. The Go strings of `node.go` (map
keys, lock names, the node id) are byte strings. -/

/-- The number of values of a Go `uint32`. -/
def U32 : Nat := 4294967296

/-- The error values of the package that `node.go` returns (`EEmpty`, `ELength`, `EStorage`,
`EMerkleRange`, declared outside the sources at hand), the error of
`decodePartitionMerkleLeafKey`, an error of the storage driver handed on as it
is, and a runtime panic, which is no error returned to a caller. -/
inductive DBerror where
  | EEmpty
  | ELength
  | EStorage
  | EMerkleRange
  | invalidLeafKey
  | driver (e : Raft.Err)
  | panic
  deriving DecidableEq, Repr

/-! ### Keys (`node.go`, lines 12-78) -/

def MAX_SORTING_KEY_LENGTH : Nat := 255

def MASTER_MERKLE_TREE_PREFIX : Bytes := [0]

def PARTITION_MERKLE_LEAF_PREFIX : Bytes := [1]

def PARTITION_DATA_PREFIX : Bytes := [2]

/-- Go `binary.BigEndian.PutUint32`: the four bytes of `v`, most significant first. -/
def putUint32 (v : Nat) : Bytes :=
  [v / 2 ^ 24 % 256, v / 2 ^ 16 % 256, v / 2 ^ 8 % 256, v % 256]

/-- Go `binary.BigEndian.Uint32` on the first four bytes of `b` (the callers pass at
least four). -/
def getUint32 (b : Bytes) : Nat :=
  (b.take 4).foldl (fun acc x => acc * 256 + x % 256) 0

def nodeBytes (node : Nat) : Bytes :=
  putUint32 node

def encodeMerkleLeafKey (nodeID : Nat) : Bytes :=
  MASTER_MERKLE_TREE_PREFIX ++ nodeBytes nodeID

def encodePartitionDataKey (k : Bytes) : Bytes :=
  PARTITION_DATA_PREFIX ++ k

/-- The slice `k[len(PARTITION_DATA_PREFIX):]`; slicing past the end of `k` panics. -/
def decodePartitionDataKey (k : Bytes) : Except DBerror Bytes :=
  if k.length < PARTITION_DATA_PREFIX.length then
    .error .panic
  else
    .ok (k.drop PARTITION_DATA_PREFIX.length)

def encodePartitionMerkleLeafKey (nodeID : Nat) (k : Bytes) : Bytes :=
  PARTITION_MERKLE_LEAF_PREFIX ++ nodeBytes nodeID ++ k

def decodePartitionMerkleLeafKey (k : Bytes) : Except DBerror (Nat × Bytes) :=
  if k.length < PARTITION_MERKLE_LEAF_PREFIX.length + 5 then
    .error .invalidLeafKey
  else
    let k1 := k.drop PARTITION_MERKLE_LEAF_PREFIX.length
    .ok (getUint32 (k1.take 4), k1.drop 4)

/-! ### Clocks, siblings and sibling sets -/

/-- Go `Dot` as `NewDot(nodeID, count)` builds it (line 557). -/
structure Dot where
  nodeID : Bytes
  count : Nat
  deriving DecidableEq, Repr

/-- Go `DVV`, a dotted version vector, as `NewDVV(dot, context)` builds it (line 557). -/
structure DVV where
  dot : Dot
  context : List (Bytes × Nat)
  deriving DecidableEq, Repr

/-- Go `DVV.Context`. -/
def DVV.Context (dvv : DVV) : List (Bytes × Nat) :=
  dvv.context

/-- Go `Sibling` as `NewSibling(clock, value, timestamp)` builds it (lines 332-337); the
value is `nil` or a byte string. -/
structure Sibling where
  clock : DVV
  value : Option Bytes
  timestamp : Nat
  deriving DecidableEq, Repr

def NewSibling (clock : DVV) (value : Option Bytes) (timestamp : Nat) : Sibling :=
  { clock := clock, value := value, timestamp := timestamp }

/-- Go `Sibling.Timestamp`. -/
def Sibling.Timestamp (s : Sibling) : Nat :=
  s.timestamp

/-- Modelled from the spec: `Sibling.IsTombstone`, whose source is missing: "Tombstones are
siblings with nil value". -/
def Sibling.IsTombstone (s : Sibling) : Bool :=
  s.value.isNone

/-- Modelled from the spec: `SiblingSet`, whose source is missing: "a set of concurrent
versions (Siblings) for one user key". The list holds every sibling once, in
the order in which `Iter()` yields them. -/
structure SiblingSet where
  siblings : List Sibling
  deriving DecidableEq, Repr

/-- Go `NewSiblingSet(map[*Sibling]bool{ ... })`. -/
def NewSiblingSet (siblings : List Sibling) : SiblingSet :=
  ⟨siblings⟩

/-- Modelled from the spec: `SiblingSet.Size`, whose source is missing: the number of
siblings. -/
def SiblingSet.Size (ss : SiblingSet) : Nat :=
  ss.siblings.length

/-- Modelled from the spec: `SiblingSet.Iter`, whose source is missing: the siblings of the
set, one after the other. -/
def SiblingSet.Iter (ss : SiblingSet) : List Sibling :=
  ss.siblings

/-- Modelled from the spec: `SiblingSet.Has`, whose source is missing: whether the sibling
is in the set. -/
def SiblingSet.Has (ss : SiblingSet) (s : Sibling) : Bool :=
  decide (s ∈ ss.siblings)

/-- Modelled from the spec: `SiblingSet.IsTombstoneSet`, whose source is missing: every
sibling of the set is a tombstone. -/
def SiblingSet.IsTombstoneSet (ss : SiblingSet) : Bool :=
  ss.siblings.all Sibling.IsTombstone

/-- Modelled from the spec: `SiblingSet.GetOldestTombstone`, whose source is missing: the
tombstone of the set with the least timestamp ("the oldest tombstone"), `nil`
when the set holds no tombstone. -/
def SiblingSet.GetOldestTombstone (ss : SiblingSet) : Option Sibling :=
  ss.siblings.foldl
    (fun oldest s =>
      if s.IsTombstone then
        match oldest with
        | none => some s
        | some o => if s.Timestamp < o.Timestamp then some s else some o
      else oldest)
    none

/-! ### Updates and the Merkle tree -/

/-- One entry of an `Update`: a key with its sibling set before and after. -/
structure Diff where
  key : Bytes
  oldSiblingSet : SiblingSet
  newSiblingSet : SiblingSet
  deriving DecidableEq, Repr

/-- Go `Diff.Key`. -/
def Diff.Key (d : Diff) : Bytes :=
  d.key

/-- Go `Diff.NewSiblingSet`. -/
def Diff.NewSiblingSet (d : Diff) : SiblingSet :=
  d.newSiblingSet

/-- Modelled from the spec: `Update`, whose source is missing: the diffs staged for the
Merkle tree and the store, one per key, in the order in which `Iter()` yields
them. -/
structure Update where
  diffs : List Diff
  deriving DecidableEq, Repr

def NewUpdate : Update :=
  ⟨[]⟩

/-- Modelled from the spec: `Update.AddDiff`, whose source is missing: the diff of the key
is staged, in place of an earlier diff of the same key. -/
def Update.AddDiff (u : Update) (key : Bytes) (oldSiblingSet newSiblingSet : SiblingSet) :
    Update :=
  ⟨u.diffs.filter (fun d => d.key ≠ key) ++ [⟨key, oldSiblingSet, newSiblingSet⟩]⟩

/-- Modelled from the spec: `Update.Size`, whose source is missing: the number of staged
diffs. -/
def Update.Size (u : Update) : Nat :=
  u.diffs.length

/-- Modelled from the spec: `MerkleTree`, whose source is missing: "a fixed-depth Merkle tree
whose leaves index the keyspace"; `hashes` holds the hash of a node under its
id. What the tree computes is part of `Library`. -/
structure MerkleTree where
  depth : Nat
  hashes : List (Nat × Bytes)
  deriving DecidableEq, Repr

/-- The functions that `node.go` calls and whose sources are not at hand, as parameters:
the clock arithmetic of sibling sets (`Join`, `Event`, `Discard`, `Sync`), their
encoding, and the Merkle tree. `Update` returns the tree after the update and,
per touched leaf, the keys that changed under it. -/
structure Library where
  Join : SiblingSet → List (Bytes × Nat)
  Event : SiblingSet → List (Bytes × Nat) → Bytes → DVV
  Discard : SiblingSet → DVV → SiblingSet
  Sync : SiblingSet → SiblingSet → SiblingSet
  Encode : SiblingSet → Bytes
  Decode : Bytes → Except Nat SiblingSet
  LeafNode : MerkleTree → Bytes → Nat
  NodeHash : MerkleTree → Nat → Bytes
  Update : MerkleTree → Update → MerkleTree × List (Nat × List Bytes)

/-! ### The node (`node.go`, lines 80-517) -/

/-- One of the two `MultiLock`s of a node: `multiLock` holds the locks of keys,
`merkleLock` the locks of leaves. -/
inductive LockName where
  | multiLock
  | merkleLock
  deriving DecidableEq, Repr

/-- A call of `Lock` or `Unlock` on one of the two locks of a node. -/
inductive LockCall where
  | Lock (lock : LockName) (key : Bytes)
  | Unlock (lock : LockName) (key : Bytes)
  deriving DecidableEq, Repr

/-- Go `Node`. The two `MultiLock`s, whose source is missing, are represented by
`lockCalls`, the calls made on them so far, oldest first. `time` holds the
readings of `time.Now().Unix()` still to come, each call taking the next one. -/
structure Node where
  id : Bytes
  storageDriver : StorageDriver
  merkleTree : MerkleTree
  lockCalls : List LockCall
  resolveConflicts : SiblingSet → SiblingSet
  time : List Nat

def Node.ID (node : Node) : Bytes :=
  node.id

/-- One reading of `uint64(time.Now().Unix())`, and the node after the reading. -/
def Node.now (node : Node) : Nat × Node :=
  match node.time with
  | [] => (0, node)
  | t :: rest => (t % Raft.U64, { node with time := rest })

/-- The loop of `Get` over the keys (lines 160-174): the error it returns, if any, and
the slice `keys` as the loop leaves it, the keys it accepted replaced by their
data keys. -/
def checkKeys : List Bytes → Option DBerror × List Bytes
  | [] => (none, [])
  | k :: rest =>
    if k.length = 0 then
      (some .EEmpty, k :: rest)
    else if k.length > MAX_SORTING_KEY_LENGTH then
      (some .ELength, k :: rest)
    else
      match checkKeys rest with
      | (e, rest1) => (e, encodePartitionDataKey k :: rest1)

/-- The loop of `Get` over the values read (lines 187-205); `values[i]` past the end of
`values` panics. -/
def decodeValues (lib : Library) :
    List Bytes → List (Option Bytes) → Except DBerror (List (Option SiblingSet))
  | [], _ => .ok []
  | _ :: _, [] => .error .panic
  | _ :: keys, none :: values =>
    match decodeValues lib keys values with
    | .error e => .error e
    | .ok rest => .ok (none :: rest)
  | _ :: keys, some b :: values =>
    match lib.Decode b with
    | .error _ => .error .EStorage
    | .ok siblingSet =>
      match decodeValues lib keys values with
      | .error e => .error e
      | .ok rest => .ok (some siblingSet :: rest)

/-- Go `Node.Get`: the result, the caller's slice `keys` after the call, and the node
after the call. -/
def Node.Get (lib : Library) (node : Node) (keys : List Bytes) :
    Except DBerror (List (Option SiblingSet)) × List Bytes × Node :=
  if keys.length = 0 then
    (.error .EEmpty, keys, node)
  else
    match checkKeys keys with
    | (some e, keys1) => (.error e, keys1, node)
    | (none, keys1) =>
      -- use storage driver
      match node.storageDriver.Get keys1 with
      | (.error _, d) => (.error .EStorage, keys1, { node with storageDriver := d })
      | (.ok values, d) => (decodeValues lib keys1 values, keys1, { node with storageDriver := d })

/-- The second loop of `updateInit` (lines 279-299); `values[0]` of an empty slice
panics. -/
def readSiblingSets (lib : Library) :
    List Bytes → List (Option Bytes) → List (Bytes × SiblingSet) →
      Except DBerror (List (Bytes × SiblingSet))
  | [], _, siblingSetMap => .ok siblingSetMap
  | _ :: _, [], _ => .error .panic
  | encoded :: keys, siblingSetBytes :: values, siblingSetMap =>
    match decodePartitionDataKey encoded with
    | .error e => .error e
    | .ok key =>
      match siblingSetBytes with
      | none => readSiblingSets lib keys values (mapSet key (NewSiblingSet []) siblingSetMap)
      | some b =>
        match lib.Decode b with
        | .error _ => .error .EStorage
        | .ok siblingSet => readSiblingSets lib keys values (mapSet key siblingSet siblingSetMap)

/-- Go `Node.updateInit`: the result, the caller's slice `keys` after the call (its keys
replaced by their data keys), and the node after the call. -/
def Node.updateInit (lib : Library) (node : Node) (keys : List Bytes) :
    Except DBerror (List (Bytes × SiblingSet)) × List Bytes × Node :=
  -- db objects
  let keys1 := keys.map encodePartitionDataKey
  match node.storageDriver.Get keys1 with
  | (.error _, d) => (.error .EStorage, keys1, { node with storageDriver := d })
  | (.ok values, d) => (readSiblingSets lib keys1 values [], keys1, { node with storageDriver := d })

/-- Go `Node.batch`: the storage batch of an update, and the Merkle tree after the update
was applied to it. -/
def Node.batch (lib : Library) (update : Update) (merkleTree : MerkleTree) :
    Batch × MerkleTree :=
  match lib.Update merkleTree update with
  | (tree1, leafNodes) =>
    -- WRITE PARTITION MERKLE LEAFS
    let batch1 := leafNodes.foldl
      (fun (batch : Batch) (leaf : Nat × List Bytes) =>
        leaf.2.foldl
          (fun (batch : Batch) key => batch.Put (encodePartitionMerkleLeafKey leaf.1 key) [])
          (batch.Put (encodeMerkleLeafKey leaf.1) (lib.NodeHash tree1 leaf.1)))
      NewBatch
    -- WRITE PARTITION OBJECTS
    let batch2 := update.diffs.foldl
      (fun (batch : Batch) diff =>
        batch.Put (encodePartitionDataKey diff.Key) (lib.Encode diff.NewSiblingSet))
      batch1
    (batch2, tree1)

/-- Go `Node.updateToSibling`: the new sibling, and the node after the clock was read. -/
def Node.updateToSibling (node : Node) (o : Op) (c : DVV) (oldestTombstone : Option Sibling) :
    Sibling × Node :=
  if o.IsDelete then
    match oldestTombstone with
    | none =>
      match node.now with
      | (t, node1) => (NewSibling c none t, node1)
    | some tombstone => (NewSibling c none tombstone.Timestamp, node)
  else
    match node.now with
    | (t, node1) => (NewSibling c o.Value t, node1)

/-- The clock that `Batch` derives for an operation on a key (lines 378-384). -/
def Node.updateClock (lib : Library) (node : Node) (context : DVV) (siblingSet : SiblingSet) :
    DVV :=
  let updateContext := context.Context
  let updateContext := if updateContext.length = 0 then lib.Join siblingSet else updateContext
  lib.Event siblingSet updateContext node.ID

/-- The sibling that `Batch` creates for an operation on a key (lines 385-391), and the
node after the clock was read. -/
def Node.newSibling (node : Node) (op : Op) (updateClock : DVV) (siblingSet : SiblingSet) :
    Sibling × Node :=
  if siblingSet.IsTombstoneSet then
    node.updateToSibling op updateClock siblingSet.GetOldestTombstone
  else
    node.updateToSibling op updateClock none

/-- The loop of `Batch` over the operations (lines 368-400): the map of sibling sets,
the update and the node after it. A key without a sibling set or without a
context makes the loop call a method on a nil pointer. -/
def Node.applyOps (lib : Library) (contexts : List (Bytes × DVV)) :
    List (Bytes × Op) → List (Bytes × SiblingSet) → Update → Node →
      Except DBerror (List (Bytes × SiblingSet) × Update × Node)
  | [], siblingSets, update, node => .ok (siblingSets, update, node)
  | (key, op) :: rest, siblingSets, update, node =>
    match mapGet key siblingSets with
    | none => .error .panic
    | some siblingSet =>
      if siblingSet.Size = 0 && op.IsDelete then
        Node.applyOps lib contexts rest (mapDelete key siblingSets) update node
      else
        match mapGet key contexts with
        | none => .error .panic
        | some context =>
          let updateClock := node.updateClock lib context siblingSet
          match node.newSibling op updateClock siblingSet with
          | (newSibling, node1) =>
            let updatedSiblingSet :=
              lib.Sync (lib.Discard siblingSet updateClock) (NewSiblingSet [newSibling])
            let siblingSets1 := mapSet key updatedSiblingSet siblingSets
            let updatedSiblingSet := node.resolveConflicts updatedSiblingSet
            Node.applyOps lib contexts rest siblingSets1
              (update.AddDiff key siblingSet updatedSiblingSet) node1

/-- The ascending list with one more string, put before the first string that is
greater. -/
def insertString (s : Bytes) : List Bytes → List Bytes
  | [] => [s]
  | x :: rest => if bytesLt s x then s :: x :: rest else x :: insertString s rest

/-- Go `sort.Strings`: the strings in ascending byte-wise order. -/
def sortStrings (strings : List Bytes) : List Bytes :=
  strings.foldr insertString []

/-- The leaf of a key, `merkleTree.LeafNode(key)`, a `uint32`. -/
def Node.leafNode (lib : Library) (node : Node) (key : Bytes) : Nat :=
  lib.LeafNode node.merkleTree key % U32

/-- Go `Node.sortedLockKeys`. -/
def Node.sortedLockKeys (lib : Library) (node : Node) (keys : List Bytes) :
    List Bytes × List Bytes :=
  let keyStrings := keys
  let leafSet := keys.foldl
    (fun (leafSet : List (Bytes × Bool)) key =>
      mapSet (nodeBytes (node.leafNode lib key)) true leafSet) []
  let nodeStrings := leafSet.map Prod.fst
  (sortStrings keyStrings, sortStrings nodeStrings)

/-- Go `Node.lock`. -/
def Node.lock (lib : Library) (node : Node) (keys : List Bytes) : Node :=
  match node.sortedLockKeys lib keys with
  | (keyStrings, nodeStrings) =>
    { node with
      lockCalls := node.lockCalls ++ keyStrings.map (LockCall.Lock .multiLock) ++
        nodeStrings.map (LockCall.Lock .merkleLock) }

/-- Go `Node.unlock`; its callers pass data keys, whose first byte `key[1:]` strips. -/
def Node.unlock (lib : Library) (node : Node) (keys : List Bytes) : Node :=
  let tKeys := keys.map (fun key => key.drop 1)
  match node.sortedLockKeys lib tKeys with
  | (keyStrings, nodeStrings) =>
    { node with
      lockCalls := node.lockCalls ++ keyStrings.map (LockCall.Unlock .multiLock) ++
        nodeStrings.map (LockCall.Unlock .merkleLock) }

/-! ### Update batches (`node.go`, lines 519-628) -/

/-- Go `UpdateBatch`. -/
structure UpdateBatch where
  RawBatch : Batch
  Contexts : List (Bytes × DVV)
  deriving DecidableEq, Repr

def NewUpdateBatch : UpdateBatch :=
  { RawBatch := NewBatch, Contexts := [] }

def UpdateBatch.Batch (updateBatch : UpdateBatch) : Batch :=
  updateBatch.RawBatch

def UpdateBatch.Context (updateBatch : UpdateBatch) : List (Bytes × DVV) :=
  updateBatch.Contexts

/-- Go `UpdateBatch.Put`: the error, if any, and the update batch after the call. -/
def UpdateBatch.Put (updateBatch : UpdateBatch) (key : Bytes) (value : Option Bytes)
    (context : Option DVV) : Option DBerror × UpdateBatch :=
  if key.length = 0 then
    (some .EEmpty, updateBatch)
  else if key.length > MAX_SORTING_KEY_LENGTH then
    (some .ELength, updateBatch)
  else
    match context with
    | none => (some .EEmpty, updateBatch)
    | some context =>
      let value := value.getD []
      (none, { RawBatch := updateBatch.Batch.Put key value
               Contexts := mapSet key context updateBatch.Context })

/-- Go `UpdateBatch.Delete`: the error, if any, and the update batch after the call. -/
def UpdateBatch.Delete (updateBatch : UpdateBatch) (key : Bytes) (context : Option DVV) :
    Option DBerror × UpdateBatch :=
  if key.length = 0 then
    (some .EEmpty, updateBatch)
  else if key.length > MAX_SORTING_KEY_LENGTH then
    (some .ELength, updateBatch)
  else
    match context with
    | none => (some .EEmpty, updateBatch)
    | some context =>
      (none, { RawBatch := updateBatch.Batch.Delete key
               Contexts := mapSet key context updateBatch.Context })

/-! ### Batch and Merge (`node.go`, lines 341-467) -/

/-- Go `Node.Batch`: the result and the node after the call. -/
def Node.Batch (lib : Library) (node : Node) (batch : Option UpdateBatch) :
    Except DBerror (List (Bytes × SiblingSet)) × Node :=
  match batch with
  | none => (.error .EEmpty, node)
  | some batch =>
    let keys := batch.Batch.Ops.map Prod.fst
    let node := node.lock lib keys
    match node.updateInit lib keys with
    | (.error e, keys1, node1) => (.error e, node1.unlock lib keys1)
    | (.ok siblingSets, keys1, node1) =>
      match Node.applyOps lib batch.Context batch.Batch.Ops siblingSets NewUpdate node1 with
      | .error e => (.error e, node1.unlock lib keys1)
      | .ok (siblingSets1, update, node2) =>
        match Node.batch lib update node2.merkleTree with
        | (storageBatch, tree1) =>
          match node2.storageDriver.Batch storageBatch with
          | (some _, d) =>
            (.error .EStorage,
              Node.unlock lib { node2 with merkleTree := tree1, storageDriver := d } keys1)
          | (none, d) =>
            (.ok siblingSets1,
              Node.unlock lib { node2 with merkleTree := tree1, storageDriver := d } keys1)

/-- The inner loop of `Merge` over the siblings of the synced set (lines 453-459): the
variable `updatedSiblingSet` and the update after it. -/
def Node.mergeSiblings (node : Node) (key : Bytes) (mySiblingSet : SiblingSet) :
    List Sibling → SiblingSet → Update → SiblingSet × Update
  | [], updatedSiblingSet, update => (updatedSiblingSet, update)
  | sibling :: rest, updatedSiblingSet, update =>
    if !mySiblingSet.Has sibling then
      let updatedSiblingSet := node.resolveConflicts updatedSiblingSet
      Node.mergeSiblings node key mySiblingSet rest updatedSiblingSet
        (update.AddDiff key mySiblingSet updatedSiblingSet)
    else
      Node.mergeSiblings node key mySiblingSet rest updatedSiblingSet update

/-- The loop of `Merge` over the keys (lines 438-460): the update after it. The keys are
the data keys that `updateInit` left in the slice. -/
def Node.mergeKeys (lib : Library) (node : Node) (siblingSets : List (Bytes × Option SiblingSet))
    (mySiblingSets : List (Bytes × SiblingSet)) : List Bytes → Update → Except DBerror Update
  | [], update => .ok update
  | encoded :: rest, update =>
    match decodePartitionDataKey encoded with
    | .error e => .error e
    | .ok key =>
      match (mapGet key siblingSets).join with
      | none => Node.mergeKeys lib node siblingSets mySiblingSets rest update
      | some siblingSet =>
        let mySiblingSet := (mapGet key mySiblingSets).getD (NewSiblingSet [])
        let updatedSiblingSet := lib.Sync siblingSet mySiblingSet
        Node.mergeKeys lib node siblingSets mySiblingSets rest
          (node.mergeSiblings key mySiblingSet updatedSiblingSet.Iter updatedSiblingSet update).2

/-- Go `Node.Merge`: the error, if any, and the node after the call. A map of sibling
sets may be nil, and so may the set of a key. -/
def Node.Merge (lib : Library) (node : Node)
    (siblingSets : Option (List (Bytes × Option SiblingSet))) : Option DBerror × Node :=
  match siblingSets with
  | none => (some .EEmpty, node)
  | some siblingSets =>
    let keys := siblingSets.map Prod.fst
    let node := node.lock lib keys
    match node.updateInit lib keys with
    | (.error e, keys1, node1) => (some e, node1.unlock lib keys1)
    | (.ok mySiblingSets, keys1, node1) =>
      match Node.mergeKeys lib node1 siblingSets mySiblingSets keys1 NewUpdate with
      | .error e => (some e, node1.unlock lib keys1)
      | .ok update =>
        if update.Size ≠ 0 then
          match Node.batch lib update node1.merkleTree with
          | (storageBatch, tree1) =>
            match node1.storageDriver.Batch storageBatch with
            | (e, d) =>
              (e.map DBerror.driver,
                Node.unlock lib { node1 with merkleTree := tree1, storageDriver := d } keys1)
        else
          (none, node1.unlock lib keys1)

/-- The incoming sibling set of a key brings something new: there is one, and syncing it
with the stored set of the key (the empty set where there is none) gives a
sibling that the stored set does not have. -/
def bringsNews (lib : Library) (siblingSets : List (Bytes × Option SiblingSet))
    (mySiblingSets : List (Bytes × SiblingSet)) (key : Bytes) : Bool :=
  match (mapGet key siblingSets).join with
  | none => false
  | some incoming =>
    (lib.Sync incoming ((mapGet key mySiblingSets).getD (NewSiblingSet []))).Iter.any
      (fun s => !((mapGet key mySiblingSets).getD (NewSiblingSet [])).Has s)

/-! ### Example library, policies and nodes -/

/-- The clock has seen the dot: its context records at least the count of the dot for
the node of the dot. -/
def exampleSeen (c : DVV) (d : Dot) : Bool :=
  decide (d.count ≤ (mapGet d.nodeID c.context).getD 0)

/-- A sibling as four numbers: the first byte of the node of its dot, the count of its
dot, its timestamp, and 0 for a tombstone or one more than the first byte of
its value. -/
def exampleEncodeSibling (s : Sibling) : Bytes :=
  [s.clock.dot.nodeID.headD 0, s.clock.dot.count, s.timestamp,
    match s.value with
    | none => 0
    | some v => v.headD 0 + 1]

/-- The siblings that a string of four numbers per sibling stands for. -/
def exampleDecodeSiblings : Bytes → Option (List Sibling)
  | [] => some []
  | n :: c :: t :: v :: rest =>
    (exampleDecodeSiblings rest).map
      (fun siblings =>
        { clock := { dot := ⟨[n], c⟩, context := [] }
          value := if v = 0 then none else some [v - 1]
          timestamp := t } :: siblings)
  | _ => none

/-- A library for examples. A new clock counts one up from what the context records for
the node; a sibling is discarded when the clock has seen its dot; syncing keeps
the siblings of both sets; a sibling set is written as four numbers per
sibling; the leaf of a key is its first byte modulo the number of leaves. -/
def exampleLibrary : Library where
  Join ss := ss.siblings.foldl
    (fun m s => mapSet s.clock.dot.nodeID
      (max s.clock.dot.count ((mapGet s.clock.dot.nodeID m).getD 0)) m) []
  Event _ context id := { dot := ⟨id, (mapGet id context).getD 0 + 1⟩, context := context }
  Discard ss c := ⟨ss.siblings.filter (fun s => !exampleSeen c s.clock.dot)⟩
  Sync a b := ⟨a.siblings ++ b.siblings.filter (fun s => !decide (s ∈ a.siblings))⟩
  Encode ss := ss.siblings.foldr (fun s acc => exampleEncodeSibling s ++ acc) []
  Decode b :=
    match exampleDecodeSiblings b with
    | some siblings => .ok ⟨siblings⟩
    | none => .error 1
  LeafNode tree key := key.headD 0 % 2 ^ tree.depth
  NodeHash _ id := [id % 256]
  Update tree update :=
    (tree, update.diffs.map (fun d => (d.key.headD 0 % 2 ^ tree.depth, [d.key])))

/-- The default policy: every sibling stays. -/
def Default (siblingSet : SiblingSet) : SiblingSet :=
  siblingSet

/-- A policy that keeps only the sibling with the latest timestamp. -/
def exampleLastWriterWins (siblingSet : SiblingSet) : SiblingSet :=
  match siblingSet.siblings with
  | [] => siblingSet
  | s :: rest =>
    ⟨[rest.foldl (fun newest x => if newest.timestamp < x.timestamp then x else newest) s]⟩

/-- A value written by node 2 at time 5. -/
def exampleValue : Sibling :=
  { clock := { dot := ⟨[2], 1⟩, context := [] }, value := some [1], timestamp := 5 }

/-- Two tombstones, of the times 7 and 4. -/
def exampleTombstones : SiblingSet :=
  ⟨[{ clock := { dot := ⟨[2], 1⟩, context := [] }, value := none, timestamp := 7 },
    { clock := { dot := ⟨[3], 1⟩, context := [] }, value := none, timestamp := 4 }]⟩

/-- A node with the id 1 and the given policy on a store that holds `exampleValue` under
the key `a` and the two tombstones under the key `b`; the clock reads 10, then
11. -/
def exampleNode (resolveConflicts : SiblingSet → SiblingSet) : Node :=
  { id := [1]
    storageDriver :=
      { kv := [(encodePartitionDataKey [97], exampleLibrary.Encode ⟨[exampleValue]⟩),
               (encodePartitionDataKey [98], exampleLibrary.Encode exampleTombstones)]
        faults := [] }
    merkleTree := { depth := 2, hashes := [] }
    lockCalls := []
    resolveConflicts := resolveConflicts
    time := [10, 11] }

/-- The example node with a driver whose next call fails with code 5. -/
def exampleNodeFailing : Node :=
  { exampleNode Default with
    storageDriver := { kv := (exampleNode Default).storageDriver.kv, faults := [some 5] } }

/-- A context that has seen one write of node 3. -/
def exampleContext : DVV :=
  { dot := ⟨[], 0⟩, context := [([3], 1)] }

/-- An update batch that puts the value 9 under the key `a`. -/
def examplePut : UpdateBatch :=
  (NewUpdateBatch.Put [97] (some [9]) (some exampleContext)).2

/-- An update batch that deletes the key `b`. -/
def exampleDelete : UpdateBatch :=
  (NewUpdateBatch.Delete [98] (some exampleContext)).2

end Devicedb

/-! # Properties of the Raft storage -/

namespace Raft

/-! ## Entry keys -/

theorem putUint64_eq_beDigits (v : Nat) : putUint64 v = beDigits 8 v := by
  simp [putUint64, beDigits]

theorem beDigits_length (n v : Nat) : (beDigits n v).length = n := by
  induction n with
  | zero => rfl
  | succ n ih => simp [beDigits, ih]

theorem foldl_beDigits (n v a : Nat) :
    (beDigits n v).foldl (fun acc x => acc * 256 + x % 256) a = a * 256 ^ n + v % 256 ^ n := by
  induction n generalizing a with
  | zero => simp [beDigits, Nat.mod_one]
  | succ n ih =>
    simp only [beDigits, List.foldl_cons, ih]
    rw [Nat.mod_pow_succ, Nat.mod_mod]
    ring

theorem lex_step (a b M r s : Nat) (hr : r < M) (hs : s < M) :
    (r + M * a < s + M * b) ↔ (a < b ∨ (a = b ∧ r < s)) := by
  constructor
  · intro h
    rcases Nat.lt_trichotomy a b with hab | hab | hab
    · exact Or.inl hab
    · subst hab; right; exact ⟨rfl, by omega⟩
    · exfalso
      have : M * (b + 1) ≤ M * a := Nat.mul_le_mul_left M hab
      rw [Nat.mul_add] at this
      omega
  · rintro (hab | ⟨rfl, h⟩)
    · have : M * (a + 1) ≤ M * b := Nat.mul_le_mul_left M hab
      rw [Nat.mul_add] at this
      omega
    · omega

theorem bytesLt_beDigits (n i j : Nat) :
    bytesLt (beDigits n i) (beDigits n j) = decide (i % 256 ^ n < j % 256 ^ n) := by
  induction n with
  | zero => simp [beDigits, bytesLt, Nat.mod_one]
  | succ n ih =>
    simp only [beDigits, bytesLt, ih]
    have hpos : 0 < 256 ^ n := by positivity
    have h := lex_step (i / 256 ^ n % 256) (j / 256 ^ n % 256) (256 ^ n) (i % 256 ^ n) (j % 256 ^ n)
      (Nat.mod_lt _ hpos) (Nat.mod_lt _ hpos)
    rw [Nat.mod_pow_succ, Nat.mod_pow_succ]
    by_cases hlt : i % 256 ^ n + 256 ^ n * (i / 256 ^ n % 256) < j % 256 ^ n + 256 ^ n * (j / 256 ^ n % 256)
    · rcases h.mp hlt with h1 | ⟨h1, h2⟩
      · simp [hlt, h1]
      · simp [hlt, h1, h2]
    · have h3 := fun x => hlt (h.mpr x)
      simp only [hlt, decide_False]
      simp
      constructor
      · by_contra h6; exact h3 (Or.inl (by omega))
      · intro h5; by_contra h6; exact h3 (Or.inr ⟨h5, by omega⟩)

theorem U64_eq : U64 = 256 ^ 8 := by norm_num [U64]

theorem getUint64_putUint64 (i : Nat) (h : i < U64) : getUint64 (putUint64 i) = i := by
  have hl : (putUint64 i).take 8 = putUint64 i := by
    apply List.take_of_length_le
    simp [putUint64]
  rw [getUint64, hl, putUint64_eq_beDigits, foldl_beDigits, ← U64_eq, Nat.mod_eq_of_lt h]
  simp

theorem entryIndex_entryKey (i : Nat) (h : i < U64) : entryIndex (entryKey i) = .ok i := by
  have := getUint64_putUint64 i h
  have hl : (putUint64 i).length = 8 := by simp [putUint64]
  simp [entryIndex, entryKey, KeyPrefixEntry, hl, this]

theorem entryKey_inj {i j : Nat} (hi : i < U64) (hj : j < U64) (h : entryKey i = entryKey j) : i = j := by
  have h1 := entryIndex_entryKey i hi
  have h2 := entryIndex_entryKey j hj
  rw [h] at h1
  rw [h1] at h2
  injection h2

theorem bytesLt_entryKey (i j : Nat) (hi : i < U64) (hj : j < U64) :
    bytesLt (entryKey i) (entryKey j) = decide (i < j) := by
  have := bytesLt_beDigits 8 i j
  rw [← U64_eq, Nat.mod_eq_of_lt hi, Nat.mod_eq_of_lt hj] at this
  rw [entryKey, entryKey, putUint64_eq_beDigits, putUint64_eq_beDigits]
  show bytesLt (2 :: beDigits 8 i) (2 :: beDigits 8 j) = _
  rw [bytesLt, this]
  simp

theorem consecutiveFrom_cons (s : Nat) (e : Entry) (es : List Entry) :
    consecutiveFrom s (e :: es) = true ↔ e.Index = s ∧ consecutiveFrom (s + 1) es = true := by
  simp [consecutiveFrom]

theorem consecutiveFrom_bound {s : Nat} {es : List Entry} (h : consecutiveFrom s es = true) :
    s + es.length ≤ U64 := by
  induction es generalizing s with
  | nil => simpa [consecutiveFrom] using h
  | cons e es ih =>
    have := ih ((consecutiveFrom_cons s e es).mp h).2
    simp only [List.length_cons]
    omega

theorem consecutiveFrom_get? {s : Nat} {es : List Entry} (h : consecutiveFrom s es = true)
    {k : Nat} {e : Entry} (hk : es[k]? = some e) : e.Index = s + k := by
  induction es generalizing s k with
  | nil => simp at hk
  | cons x es ih =>
    obtain ⟨h1, h2⟩ := (consecutiveFrom_cons s x es).mp h
    cases k with
    | zero => simp at hk; subst hk; simpa using h1
    | succ k =>
      simp at hk
      have := ih h2 hk
      omega

theorem consecutiveFrom_mem {s : Nat} {es : List Entry} (h : consecutiveFrom s es = true)
    {e : Entry} (he : e ∈ es) : s ≤ e.Index ∧ e.Index < s + es.length := by
  obtain ⟨k, hlt, hk⟩ := List.getElem_of_mem he
  have := consecutiveFrom_get? h (List.getElem?_eq_some.mpr ⟨hlt, hk⟩)
  omega

theorem consecutiveFrom_exists {s : Nat} {es : List Entry} (h : consecutiveFrom s es = true)
    {i : Nat} (h1 : s ≤ i) (h2 : i < s + es.length) : ∃ e ∈ es, e.Index = i := by
  have hlt : i - s < es.length := by omega
  refine ⟨es[i - s], List.getElem_mem _, ?_⟩
  have := consecutiveFrom_get? h (List.getElem?_eq_getElem hlt)
  omega

theorem consecutiveFrom_drop {s : Nat} {es : List Entry} (h : consecutiveFrom s es = true)
    (k : Nat) (hk : k ≤ es.length) : consecutiveFrom (s + k) (es.drop k) = true := by
  induction es generalizing s k with
  | nil => simp at hk; subst hk; simpa using h
  | cons x es ih =>
    obtain ⟨h1, h2⟩ := (consecutiveFrom_cons s x es).mp h
    cases k with
    | zero => simpa using h
    | succ k =>
      simp only [List.drop_succ_cons]
      have := ih h2 k (by simpa using hk)
      rwa [show s + (k + 1) = s + 1 + k by omega]

theorem consecutiveFrom_take {s : Nat} {es : List Entry} (h : consecutiveFrom s es = true)
    (k : Nat) : consecutiveFrom s (es.take k) = true := by
  induction es generalizing s k with
  | nil => simpa using h
  | cons x es ih =>
    obtain ⟨h1, h2⟩ := (consecutiveFrom_cons s x es).mp h
    cases k with
    | zero =>
      have := consecutiveFrom_bound h
      simp [consecutiveFrom]; omega
    | succ k =>
      simp only [List.take_succ_cons]
      exact (consecutiveFrom_cons _ _ _).mpr ⟨h1, ih h2 k⟩

theorem consecutiveFrom_append {s : Nat} {xs ys : List Entry} (hx : consecutiveFrom s xs = true)
    (hy : consecutiveFrom (s + xs.length) ys = true) : consecutiveFrom s (xs ++ ys) = true := by
  induction xs generalizing s with
  | nil => simpa using hy
  | cons x xs ih =>
    obtain ⟨h1, h2⟩ := (consecutiveFrom_cons s x xs).mp hx
    simp only [List.cons_append]
    refine (consecutiveFrom_cons _ _ _).mpr ⟨h1, ih h2 ?_⟩
    rwa [show s + 1 + xs.length = s + (x :: xs).length by simp; omega]

theorem Batch_fault (d : StorageDriver) (b : Batch) (code : Nat) (rest : List (Option Nat))
    (hf : d.faults = some code :: rest) :
    d.Batch b = (some (.driver code), { d with faults := rest }) := by
  simp [StorageDriver.Batch, StorageDriver.nextFault, hf]

theorem faults_ne (code : Nat) (rest : List (Option Nat)) : some code :: rest ≠ rest :=
  fun h => by simpa using congrArg List.length h

theorem SetHardState_batch_failure (c : Codec) (rs : RaftStorage) (st : HardState) (code : Nat)
    (rest : List (Option Nat)) (hopen : rs.isOpen = true)
    (hf : rs.storageDriver.faults = some code :: rest)
    (hcall : (rs.SetHardState c st).2.storageDriver.faults = rest) :
    (rs.SetHardState c st).1 = some (.driver code) ∧
      (rs.SetHardState c st).2.memoryStorage = rs.memoryStorage := by
  have hne := faults_ne code rest
  have hb := fun b => Batch_fault rs.storageDriver b code rest hf
  generalize hr : rs.SetHardState c st = r at hcall ⊢
  unfold RaftStorage.SetHardState at hr
  simp only [MemoryStorage.SetHardState, hopen, hb] at hr
  repeat' split at hr
  all_goals (subst hr; simp_all)

theorem ApplySnapshot_batch_failure (c : Codec) (rs : RaftStorage) (snap : Snapshot) (code : Nat)
    (rest : List (Option Nat)) (hopen : rs.isOpen = true)
    (hf : rs.storageDriver.faults = some code :: rest)
    (hcall : (rs.ApplySnapshot c snap).2.storageDriver.faults = rest) :
    (rs.ApplySnapshot c snap).1 = some (.driver code) ∧
      (rs.ApplySnapshot c snap).2.memoryStorage = rs.memoryStorage := by
  have hne := faults_ne code rest
  have hb := fun b => Batch_fault rs.storageDriver b code rest hf
  generalize hr : rs.ApplySnapshot c snap = r at hcall ⊢
  unfold RaftStorage.ApplySnapshot at hr
  simp only [MemoryStorage.SetHardState, hopen, hb] at hr
  repeat' split at hr
  all_goals (subst hr; simp_all)

theorem CreateSnapshot_batch_failure (c : Codec) (rs : RaftStorage) (i : Nat) (cs : Option ConfState)
    (data : Bytes) (code : Nat)
    (rest : List (Option Nat)) (hopen : rs.isOpen = true)
    (hf : rs.storageDriver.faults = some code :: rest)
    (hcall : (rs.CreateSnapshot c i cs data).2.storageDriver.faults = rest) :
    (rs.CreateSnapshot c i cs data).1 = .error (.driver code) ∧
      (rs.CreateSnapshot c i cs data).2.memoryStorage = rs.memoryStorage := by
  have hne := faults_ne code rest
  have hb := fun b => Batch_fault rs.storageDriver b code rest hf
  generalize hr : rs.CreateSnapshot c i cs data = r at hcall ⊢
  unfold RaftStorage.CreateSnapshot at hr
  simp only [MemoryStorage.SetHardState, hopen, hb] at hr
  repeat' split at hr
  all_goals (subst hr; simp_all)

theorem Append_batch_failure (c : Codec) (rs : RaftStorage) (entries : List Entry) (code : Nat)
    (rest : List (Option Nat)) (hopen : rs.isOpen = true)
    (hf : rs.storageDriver.faults = some code :: rest)
    (hcall : (rs.Append c entries).2.storageDriver.faults = rest) :
    (rs.Append c entries).1 = some (.driver code) ∧
      (rs.Append c entries).2.memoryStorage = rs.memoryStorage := by
  have hne := faults_ne code rest
  have hb := fun b => Batch_fault rs.storageDriver b code rest hf
  generalize hr : rs.Append c entries = r at hcall ⊢
  unfold RaftStorage.Append at hr
  simp only [MemoryStorage.SetHardState, hopen, hb] at hr
  repeat' split at hr
  all_goals (subst hr; simp_all)
theorem Batch_ok {d d1 : StorageDriver} {b : Batch} (h : d.Batch b = (none, d1)) :
    d1 = { kv := b.ops.foldl kvApply d.kv, faults := d.faults.tail } := by
  unfold StorageDriver.Batch StorageDriver.nextFault at h
  cases hf : d.faults with
  | nil => simp [hf] at h; rw [← h]; rfl
  | cons f fs =>
    cases f with
    | none => simp [hf] at h; rw [← h]; rfl
    | some c => simp [hf] at h

theorem foldl_Delete_ops (keys : List Bytes) (b : Batch) :
    (keys.foldl Batch.Delete b).ops = b.ops ++ keys.map Op.delete := by
  induction keys generalizing b with
  | nil => simp
  | cons k ks ih => simp [List.foldl_cons, ih, Batch.Delete]

theorem putEntries_ops {c : Codec} {es : List Entry} {b sb : Batch}
    (h : putEntries c es b = .ok sb) :
    sb.ops = b.ops ++ es.map (fun e => Op.put (entryKey e.Index) (c.encEntry e)) := by
  induction es generalizing b with
  | nil => simp [putEntries] at h; simp [← h]
  | cons e es ih =>
    unfold putEntries at h
    cases hm : c.marshalEntry e with
    | error code => simp [hm] at h
    | ok enc =>
      simp only [hm] at h
      rw [ih h]
      simp [Batch.Put, Codec.encEntry, hm]

theorem truncate_ok {first : Nat} {e0 f0 : Entry} {tail rest : List Entry}
    (hc : consecutiveFrom e0.Index (e0 :: tail) = true)
    (h : (if first > e0.Index then sliceFrom (e0 :: tail) (first - e0.Index)
          else .ok (e0 :: tail)) = .ok (f0 :: rest)) :
    (e0 :: tail).drop (first - e0.Index) = f0 :: rest ∧ first - e0.Index < (e0 :: tail).length ∧
      f0.Index = e0.Index + (first - e0.Index) := by
  have hdrop : (e0 :: tail).drop (first - e0.Index) = f0 :: rest := by
    by_cases hgt : first > e0.Index
    · simp only [hgt, if_true, sliceFrom] at h
      split at h
      · injection h
      · cases h
    · simp only [hgt, if_false] at h
      injection h with h
      rw [show first - e0.Index = 0 by omega]
      simpa using h
  have hlt : first - e0.Index < (e0 :: tail).length := by
    by_contra hc2
    rw [List.drop_eq_nil_of_le (by omega)] at hdrop
    cases hdrop
  refine ⟨hdrop, hlt, ?_⟩
  have hget : (e0 :: tail)[first - e0.Index]? = some f0 := by
    have := List.getElem?_drop (e0 :: tail) (first - e0.Index) 0
    rw [hdrop] at this
    simpa using this.symm
  exact consecutiveFrom_get? hc hget

theorem U64_val : U64 = 18446744073709551616 := rfl

theorem indexLoop_ok {lo hi : Nat} {purged : List Nat} (h : indexLoop lo hi = .ok purged) :
    (hi < lo ∧ purged = []) ∨ (lo ≤ hi ∧ hi ≠ U64 - 1 ∧ purged = List.range' lo (hi - lo + 1)) := by
  unfold indexLoop at h
  split at h
  · left; injection h with h; exact ⟨by omega, h.symm⟩
  · split at h
    · cases h
    · right; injection h with h; exact ⟨by omega, by assumption, h.symm⟩

theorem mem_Append_ok {ms ms1 : MemoryStorage} {e0 d : Entry} {tail es : List Entry}
    (hents : ms.ents = d :: es) (h : ms.Append (e0 :: tail) = .ok ms1)
    (hearly : ¬(e0.Index + (tail.length + 1) + (U64 - 1)) % U64 < (d.Index + 1) % U64) :
    ∃ f0 rest, (if (d.Index + 1) % U64 > e0.Index then
        sliceFrom (e0 :: tail) ((d.Index + 1) % U64 - e0.Index) else .ok (e0 :: tail))
        = .ok (f0 :: rest) ∧
      (f0.Index + U64 - d.Index) % U64 ≤ es.length + 1 ∧
      ms1 = { ms with ents := (d :: es).take ((f0.Index + U64 - d.Index) % U64) ++ f0 :: rest } := by
  unfold MemoryStorage.Append at h
  simp only [hents, List.length_cons, if_neg hearly] at h
  rcases hT : (if (d.Index + 1) % U64 > e0.Index then
      sliceFrom (e0 :: tail) ((d.Index + 1) % U64 - e0.Index) else .ok (e0 :: tail)) with
    e | (_ | ⟨f0, rest⟩)
  · simp [hT] at h
  · simp [hT] at h
  · simp only [hT] at h
    refine ⟨f0, rest, rfl, ?_⟩
    by_cases h1 : es.length + 1 > (f0.Index + U64 - d.Index) % U64
    · rw [if_pos h1] at h
      injection h with h
      exact ⟨by omega, h.symm⟩
    · by_cases h2 : es.length + 1 = (f0.Index + U64 - d.Index) % U64
      · rw [if_neg h1, if_pos h2] at h
        injection h with h
        refine ⟨by omega, ?_⟩
        rw [← h, ← h2, List.take_of_length_le (by simp)]
      · rw [if_neg h1, if_neg h2] at h
        cases h

/-- What a successful `Append` on an open storage with a well-formed log does. -/
theorem Append_ok {c : Codec} {rs rs1 : RaftStorage} {e0 d : Entry} {tail es : List Entry}
    (hopen : rs.isOpen = true) (hents : rs.memoryStorage.ents = d :: es)
    (hwf : consecutiveFrom (d.Index + 1) es = true)
    (hc : consecutiveFrom e0.Index (e0 :: tail) = true)
    (h : rs.Append c (e0 :: tail) = (none, rs1)) :
    rs1 = rs ∨ ∃ t kept, t < (e0 :: tail).length ∧ kept ≤ es.length ∧
      e0.Index + t = d.Index + 1 + kept ∧ d.Index + 1 + es.length < U64 ∧
      rs1 = { rs with
        memoryStorage := { rs.memoryStorage with ents := d :: (es.take kept ++ (e0 :: tail).drop t) }
        storageDriver :=
          { kv := (((e0 :: tail).drop t).map
                (fun e => Op.put (entryKey e.Index) (c.encEntry e))).foldl kvApply
              (((List.range' (d.Index + 1 + kept) (es.length - kept)).map
                (fun i => Op.delete (entryKey i))).foldl kvApply rs.storageDriver.kv)
            faults := rs.storageDriver.faults.tail } } := by
  have hb1 := consecutiveFrom_bound hwf
  have hb2 := consecutiveFrom_bound hc
  simp only [List.length_cons] at hb2
  unfold RaftStorage.Append at h
  simp only [MemoryStorage.firstIndex, MemoryStorage.lastIndex, hents, List.length_cons, hopen] at h
  by_cases hearly : (e0.Index + (tail.length + 1) + (U64 - 1)) % U64 < (d.Index + 1) % U64
  · left
    rw [if_pos hearly] at h
    injection h with _ h2
    exact h2.symm
  · rw [if_neg hearly] at h
    cases hA : rs.memoryStorage.Append (e0 :: tail) with
    | error e => simp [hA] at h
    | ok ms =>
      obtain ⟨f0, rest, hT, hoff, hms⟩ := mem_Append_ok hents hA hearly
      obtain ⟨hdrop, hlt, hf0⟩ := truncate_ok hc hT
      simp only [hA, hT, Bool.not_true, Bool.false_eq_true, if_false] at h
      have hf0lt : f0.Index < U64 := by simp only [List.length_cons] at hlt; omega
      cases hloop : indexLoop f0.Index ((d.Index + (es.length + 1) + (U64 - 1)) % U64) with
      | error e => simp [hloop] at h
      | ok purged =>
        simp only [hloop] at h
        cases hput : putEntries c (f0 :: rest) (List.foldl Batch.Delete NewBatch (List.map entryKey purged)) with
        | error e => simp [hput] at h
        | ok sb =>
          simp only [hput] at h
          have hops := putEntries_ops hput
          rw [foldl_Delete_ops] at hops
          rcases hbatch : rs.storageDriver.Batch sb with ⟨_ | e, d1⟩
          · simp only [hbatch] at h
            have hd1 := Batch_ok hbatch
            injection h with _ h
            right
            refine ⟨(d.Index + 1) % U64 - e0.Index, f0.Index - (d.Index + 1), hlt, ?_⟩
            have hl := indexLoop_ok hloop
            rw [U64_val] at *
            have hno : d.Index + 1 + es.length < 18446744073709551616 := by
              rcases hl with ⟨h1, _⟩ | ⟨h1, h2, _⟩ <;> omega
            have hkept : f0.Index - (d.Index + 1) ≤ es.length := by omega
            have hge : d.Index + 1 ≤ f0.Index := by omega
            refine ⟨hkept, by omega, hno, ?_⟩
            have hoffv : (f0.Index + 18446744073709551616 - d.Index) % 18446744073709551616
                = (f0.Index - (d.Index + 1)) + 1 := by omega
            have hpur : purged = List.range' (d.Index + 1 + (f0.Index - (d.Index + 1)))
                (es.length - (f0.Index - (d.Index + 1))) := by
              rcases hl with ⟨h1, h2⟩ | ⟨h1, h2, h3⟩
              · rw [h2, show es.length - (f0.Index - (d.Index + 1)) = 0 by omega]; rfl
              · rw [h3]; congr 1 <;> omega
            rw [← h, hd1, hms, hops, hoffv, hdrop, ← hpur]
            simp [NewBatch, List.foldl_append, List.map_map, hopen, Function.comp_def]
          · simp [hbatch] at h

theorem entryKeys_ok {lo hi : Nat} {keys : List Bytes} (h : entryKeys lo hi = .ok keys) :
    (hi < lo ∧ keys = []) ∨
      (lo ≤ hi ∧ hi ≠ U64 - 1 ∧ keys = (List.range' lo (hi - lo + 1)).map entryKey) := by
  unfold entryKeys at h
  split at h
  · left; injection h with h; exact ⟨by omega, h.symm⟩
  · split at h
    · cases h
    · right; injection h with h
      refine ⟨by omega, by assumption, ?_⟩
      rw [← h, List.range'_eq_map_range, List.map_map]
      rfl

/-- What a successful `SetHardState` on an open storage does. -/
theorem SetHardState_ok {c : Codec} {rs rs1 : RaftStorage} {st : HardState}
    (hopen : rs.isOpen = true) (h : rs.SetHardState c st = (none, rs1)) :
    rs1 = { rs with
      memoryStorage := { rs.memoryStorage with hardState := st }
      storageDriver :=
        { kv := kvPut KeyHardState (c.encHardState st) rs.storageDriver.kv
          faults := rs.storageDriver.faults.tail } } := by
  unfold RaftStorage.SetHardState at h
  simp only [MemoryStorage.SetHardState, hopen, Bool.not_true, Bool.false_eq_true, if_false] at h
  cases hm : c.marshalHardState st with
  | error e => simp [hm] at h
  | ok enc =>
    simp only [hm] at h
    rcases hbatch : rs.storageDriver.Batch (NewBatch.Put KeyHardState enc) with ⟨_ | e, d1⟩
    · simp only [hbatch] at h
      injection h with _ h
      rw [← h, Batch_ok hbatch]
      simp [NewBatch, Batch.Put, kvApply, Codec.encHardState, hm, hopen]
    · simp [hbatch] at h

/-- What a successful `ApplySnapshot` on an open storage with a well-formed log does. -/
theorem ApplySnapshot_ok {c : Codec} {rs rs1 : RaftStorage} {snap : Snapshot} {d : Entry}
    {es : List Entry} (hopen : rs.isOpen = true) (hents : rs.memoryStorage.ents = d :: es)
    (hwf : consecutiveFrom (d.Index + 1) es = true)
    (h : rs.ApplySnapshot c snap = (none, rs1)) :
    rs.memoryStorage.snapshot.Metadata.Index < snap.Metadata.Index ∧
      d.Index + 1 + es.length < U64 ∧
      rs1 = { rs with
        memoryStorage := { rs.memoryStorage with
          snapshot := snap
          ents := [{ Term := snap.Metadata.Term, Index := snap.Metadata.Index, Typ := 0, Data := [] }] }
        storageDriver :=
          { kv := kvPut KeySnapshot (c.encSnapshot snap)
              (((List.range' (d.Index + 1) es.length).map
                (fun i => Op.delete (entryKey i))).foldl kvApply rs.storageDriver.kv)
            faults := rs.storageDriver.faults.tail } } := by
  have hb1 := consecutiveFrom_bound hwf
  unfold RaftStorage.ApplySnapshot at h
  simp only [MemoryStorage.ApplySnapshot, MemoryStorage.firstIndex, MemoryStorage.lastIndex, hents,
    List.length_cons, hopen, Bool.not_true, Bool.false_eq_true, if_false] at h
  by_cases hidx : rs.memoryStorage.snapshot.Metadata.Index ≥ snap.Metadata.Index
  · simp [if_pos hidx] at h
  · simp only [if_neg hidx] at h
    cases hk : entryKeys ((d.Index + 1) % U64) ((d.Index + (es.length + 1) + (U64 - 1)) % U64) with
    | error e => simp [hk] at h
    | ok keys =>
      simp only [hk] at h
      cases hm : c.marshalSnapshot snap with
      | error e => simp [hm] at h
      | ok enc =>
        simp only [hm] at h
        rcases hbatch : rs.storageDriver.Batch
            ((keys.foldl Batch.Delete NewBatch).Put KeySnapshot enc) with ⟨_ | e, d1⟩
        · simp only [hbatch] at h
          injection h with _ h
          have hl := entryKeys_ok hk
          rw [U64_val] at *
          have hno : d.Index + 1 + es.length < 18446744073709551616 := by
            rcases hl with ⟨h1, _⟩ | ⟨h1, h2, _⟩ <;> omega
          refine ⟨by omega, hno, ?_⟩
          have hkeys : keys = (List.range' (d.Index + 1) es.length).map entryKey := by
            rcases hl with ⟨h1, h2⟩ | ⟨h1, h2, h3⟩
            · have hz : es.length = 0 := by omega
              simp [h2, hz]
            · have e1 : (d.Index + 1) % 18446744073709551616 = d.Index + 1 := by omega
              have e2 : (d.Index + (es.length + 1) + (18446744073709551616 - 1)) %
                  18446744073709551616 - (d.Index + 1) + 1 = es.length := by omega
              rw [h3, e1, e2]
          rw [← h, Batch_ok hbatch, hkeys]
          simp [NewBatch, Batch.Put, foldl_Delete_ops, kvApply, Codec.encSnapshot, hm, hopen,
            List.foldl_append, List.map_map, Function.comp_def]
        · simp [hbatch] at h

/-- What a successful `CreateSnapshot` on an open storage with a well-formed log does. -/
theorem CreateSnapshot_ok {c : Codec} {rs rs1 : RaftStorage} {i : Nat} {cs : Option ConfState}
    {data : Bytes} {snap : Snapshot} {d : Entry} {es : List Entry}
    (hopen : rs.isOpen = true) (hents : rs.memoryStorage.ents = d :: es)
    (hwf : consecutiveFrom (d.Index + 1) es = true)
    (h : rs.CreateSnapshot c i cs data = (.ok snap, rs1)) :
    ∃ k e, es[k]? = some e ∧ i = d.Index + 1 + k ∧ i + 1 < U64 ∧
      rs.memoryStorage.snapshot.Metadata.Index < i ∧
      snap = { Data := data
               Metadata :=
                { Index := i
                  Term := e.Term
                  ConfState := cs.getD rs.memoryStorage.snapshot.Metadata.ConfState } } ∧
      rs1 = { rs with
        memoryStorage := { rs.memoryStorage with
          snapshot := snap
          ents := { Term := e.Term, Index := i, Typ := 0, Data := [] } :: es.drop (k + 1) }
        storageDriver :=
          { kv := kvPut KeySnapshot (c.encSnapshot snap)
              (((List.range' (d.Index + 1) (k + 1)).map
                (fun j => Op.delete (entryKey j))).foldl kvApply rs.storageDriver.kv)
            faults := rs.storageDriver.faults.tail } } := by
  have hb1 := consecutiveFrom_bound hwf
  unfold RaftStorage.CreateSnapshot at h
  simp only [MemoryStorage.CreateSnapshot, MemoryStorage.firstIndex, hents,
    List.length_cons, hopen, Bool.not_true, Bool.false_eq_true, if_false] at h
  by_cases hidx : i ≤ rs.memoryStorage.snapshot.Metadata.Index
  · simp [if_pos hidx] at h
  · simp only [if_neg hidx] at h
    by_cases hlast : i > (d.Index + (es.length + 1) + (U64 - 1)) % U64
    · simp [if_pos hlast] at h
    · simp only [if_neg hlast] at h
      cases hget : (d :: es)[(i + U64 - d.Index) % U64]? with
      | none => simp [hget] at h
      | some e0 =>
        simp only [hget] at h
        unfold MemoryStorage.Compact at h
        simp only [List.length_cons] at h
        by_cases hcomp : i ≤ d.Index
        · simp [if_pos hcomp] at h
        · simp only [if_neg hcomp, if_neg hlast] at h
          cases hget2 : (d :: es)[i - d.Index]? with
          | none => simp [hget2] at h
          | some e =>
            simp only [hget2] at h
            generalize hs : ({ Data := data, Metadata := { Index := i, Term := e0.Term, ConfState := cs.getD rs.memoryStorage.snapshot.Metadata.ConfState } } : Snapshot) = s0 at h
            cases hm : c.marshalSnapshot s0 with
            | error e => simp [hm] at h
            | ok enc =>
              simp only [hm, MemoryStorage.firstIndex] at h
              cases hk : entryKeys ((d.Index + 1) % U64) (((e.Index + 1) % U64 + (U64 - 1)) % U64) with
              | error e => simp only [hk] at h; simp at h
              | ok keys =>
                simp only [hk] at h
                rcases hbatch : rs.storageDriver.Batch
                    ((keys.foldl Batch.Delete NewBatch).Put KeySnapshot enc) with ⟨_ | e, d1⟩
                · simp only [hbatch] at h
                  injection h with h1 h2
                  injection h1 with h1
                  have hl := entryKeys_ok hk
                  rw [U64_val] at *
                  have hi1 : (i + 18446744073709551616 - d.Index) % 18446744073709551616
                      = i - d.Index := by omega
                  rw [hi1, hget2] at hget
                  injection hget with hget
                  subst hget
                  have hi2 : i - d.Index = (i - d.Index - 1) + 1 := by omega
                  rw [hi2] at hget2
                  simp only [List.getElem?_cons_succ] at hget2
                  have hei := consecutiveFrom_get? hwf hget2
                  have hei2 : e.Index = i := by omega
                  have hno : i + 1 < 18446744073709551616 := by
                    rcases hl with ⟨h3, _⟩ | ⟨h3, h4, _⟩ <;> omega
                  refine ⟨i - d.Index - 1, e, hget2, by omega, hno, by omega, ?_, ?_⟩
                  · rw [← h1, ← hs]
                  · have hkeys : keys = (List.range' (d.Index + 1) (i - d.Index - 1 + 1)).map entryKey := by
                      rcases hl with ⟨h3, h4⟩ | ⟨h3, h4, h5⟩
                      · omega
                      · have e1 : (d.Index + 1) % 18446744073709551616 = d.Index + 1 := by omega
                        have e2 : ((e.Index + 1) % 18446744073709551616 + (18446744073709551616 - 1)) %
                            18446744073709551616 - (d.Index + 1) + 1 = i - d.Index - 1 + 1 := by omega
                        rw [h5, e1, e2]
                    rw [← h2, Batch_ok hbatch, hkeys, ← h1, hei2]
                    have hd : List.drop (i - d.Index + 1) (d :: es) = List.drop (i - d.Index - 1 + 1) es := by
                      rw [hi2]; simp
                    rw [hd]
                    simp [NewBatch, Batch.Put, foldl_Delete_ops, kvApply, Codec.encSnapshot, hm, hopen,
                      List.foldl_append, List.map_map, Function.comp_def]
                · simp [hbatch] at h

/-! ## The keys of the store under the operations of a batch -/

theorem mem_keys_kvPut (k v k1 : Bytes) (l : List (Bytes × Bytes)) :
    k1 ∈ (kvPut k v l).map Prod.fst ↔ k1 = k ∨ k1 ∈ l.map Prod.fst := by
  induction l with
  | nil => simp [kvPut]
  | cons p rest ih =>
    obtain ⟨a, b⟩ := p
    unfold kvPut
    split
    · simp
    · split
      · rename_i h; subst h; simp
      · simp only [List.map_cons, List.mem_cons, ih]
        tauto

theorem mem_keys_kvDelete (k k1 : Bytes) (l : List (Bytes × Bytes)) :
    k1 ∈ (kvDelete k l).map Prod.fst ↔ k1 ≠ k ∧ k1 ∈ l.map Prod.fst := by
  simp only [kvDelete, List.mem_map, List.mem_filter]
  constructor
  · rintro ⟨p, ⟨hp, hne⟩, rfl⟩
    exact ⟨by simpa using hne, p, hp, rfl⟩
  · rintro ⟨hne, p, hp, rfl⟩
    exact ⟨p, ⟨hp, by simpa using hne⟩, rfl⟩

theorem mem_keys_foldl_delete (ks : List Bytes) (k1 : Bytes) (l : List (Bytes × Bytes)) :
    k1 ∈ ((ks.map Op.delete).foldl kvApply l).map Prod.fst ↔ k1 ∉ ks ∧ k1 ∈ l.map Prod.fst := by
  induction ks generalizing l with
  | nil => simp
  | cons k ks ih =>
    simp only [List.map_cons, List.foldl_cons, kvApply, ih, mem_keys_kvDelete, List.mem_cons]
    tauto

theorem mem_keys_foldl_put (ps : List (Bytes × Bytes)) (k1 : Bytes) (l : List (Bytes × Bytes)) :
    k1 ∈ ((ps.map (fun p => Op.put p.1 p.2)).foldl kvApply l).map Prod.fst ↔
      k1 ∈ ps.map Prod.fst ∨ k1 ∈ l.map Prod.fst := by
  induction ps generalizing l with
  | nil => simp
  | cons p ps ih =>
    simp only [List.map_cons, List.foldl_cons, kvApply, ih, mem_keys_kvPut, List.mem_cons]
    tauto

theorem mem_keys_foldl_delete_indices (js : List Nat) (k1 : Bytes) (l : List (Bytes × Bytes)) :
    k1 ∈ ((js.map (fun j => Op.delete (entryKey j))).foldl kvApply l).map Prod.fst ↔
      k1 ∉ js.map entryKey ∧ k1 ∈ l.map Prod.fst := by
  rw [← mem_keys_foldl_delete, List.map_map]
  rfl

theorem mem_keys_foldl_put_entries (c : Codec) (es : List Entry) (k1 : Bytes)
    (l : List (Bytes × Bytes)) :
    k1 ∈ ((es.map (fun e => Op.put (entryKey e.Index) (c.encEntry e))).foldl kvApply l).map
        Prod.fst ↔
      k1 ∈ es.map (fun e => entryKey e.Index) ∨ k1 ∈ l.map Prod.fst := by
  have := mem_keys_foldl_put (es.map c.entryPair) k1 l
  simp only [List.map_map] at this
  exact this

theorem entryKey_ne_KeySnapshot (i : Nat) : entryKey i ≠ KeySnapshot := by
  simp [entryKey, KeySnapshot, KeyPrefixEntry]

theorem entryKey_ne_KeyHardState (i : Nat) : entryKey i ≠ KeyHardState := by
  simp [entryKey, KeyHardState, KeyPrefixEntry]

theorem mem_entryKeys_consecutive {s : Nat} {es : List Entry} (h : consecutiveFrom s es = true)
    {i : Nat} (hi : i < U64) :
    entryKey i ∈ es.map (fun e => entryKey e.Index) ↔ s ≤ i ∧ i < s + es.length := by
  have hb := consecutiveFrom_bound h
  constructor
  · intro hm
    obtain ⟨e, he, hk⟩ := List.mem_map.mp hm
    have hr := consecutiveFrom_mem h he
    have := entryKey_inj (by omega) hi hk
    omega
  · rintro ⟨h1, h2⟩
    obtain ⟨e, he, hk⟩ := consecutiveFrom_exists h h1 h2
    exact List.mem_map.mpr ⟨e, he, by rw [hk]⟩

theorem mem_entryKeys_range (a n : Nat) {i : Nat} (hi : i < U64) (hb : a + n ≤ U64) :
    entryKey i ∈ (List.range' a n).map entryKey ↔ a ≤ i ∧ i < a + n := by
  constructor
  · intro hm
    obtain ⟨j, hj, hk⟩ := List.mem_map.mp hm
    rw [List.mem_range'_1] at hj
    have := entryKey_inj (by omega) hi hk
    omega
  · rintro ⟨h1, h2⟩
    exact List.mem_map.mpr ⟨i, List.mem_range'_1.mpr ⟨h1, h2⟩, rfl⟩

/-! ## Store and memory agreement -/

theorem agree_iff {rs : RaftStorage} {d : Entry} {es : List Entry}
    (hents : rs.memoryStorage.ents = d :: es) :
    rs.StoreMemoryAgree ↔ ∀ i, i < U64 →
      (entryKey i ∈ rs.storageDriver.kv.map Prod.fst ↔
        (d.Index + 1) % U64 ≤ i ∧ i ≤ (d.Index + (es.length + 1) + (U64 - 1)) % U64) := by
  simp only [RaftStorage.StoreMemoryAgree, RaftStorage.FirstIndex, RaftStorage.LastIndex,
    MemoryStorage.firstIndex, MemoryStorage.lastIndex, hents, List.length_cons]
  constructor
  · rintro ⟨f, l, hf, hl, h⟩
    injection hf with hf
    injection hl with hl
    subst hf hl
    exact h
  · intro h
    exact ⟨_, _, rfl, rfl, h⟩

theorem agree_SetHardState {c : Codec} {rs rs1 : RaftStorage} {st : HardState}
    (hopen : rs.isOpen = true) (hwf : rs.memoryStorage.WellFormed) (hagree : rs.StoreMemoryAgree)
    (h : rs.SetHardState c st = (none, rs1)) :
    rs1.memoryStorage.WellFormed ∧ rs1.StoreMemoryAgree := by
  have h1 := SetHardState_ok hopen h
  subst h1
  unfold MemoryStorage.WellFormed at hwf ⊢
  cases hents : rs.memoryStorage.ents with
  | nil => simp [hents] at hwf
  | cons d es =>
    simp only [hents] at hwf ⊢
    refine ⟨hwf, ?_⟩
    refine (agree_iff (show _ = d :: es from rfl)).mpr ?_
    rw [agree_iff hents] at hagree
    intro i hi
    simp only [mem_keys_kvPut, entryKey_ne_KeyHardState, false_or]
    exact hagree i hi

theorem agree_ApplySnapshot {c : Codec} {rs rs1 : RaftStorage} {snap : Snapshot}
    (hopen : rs.isOpen = true) (hwf : rs.memoryStorage.WellFormed) (hagree : rs.StoreMemoryAgree)
    (hsnap : snap.Metadata.Index + 1 < U64)
    (h : rs.ApplySnapshot c snap = (none, rs1)) :
    rs1.memoryStorage.WellFormed ∧ rs1.StoreMemoryAgree := by
  unfold MemoryStorage.WellFormed at hwf ⊢
  cases hents : rs.memoryStorage.ents with
  | nil => simp [hents] at hwf
  | cons d es =>
    simp only [hents] at hwf
    obtain ⟨hlt, hno, h1⟩ := ApplySnapshot_ok hopen hents hwf h
    subst h1
    refine ⟨by simpa [consecutiveFrom] using Nat.le_of_lt hsnap, ?_⟩
    rw [agree_iff rfl]
    rw [agree_iff hents] at hagree
    intro i hi
    have hr := mem_entryKeys_range (d.Index + 1) es.length hi (by omega)
    have ha := hagree i hi
    simp only [mem_keys_kvPut, entryKey_ne_KeySnapshot, false_or,
      mem_keys_foldl_delete_indices, hr, ha, List.length_nil]
    rw [U64_val] at *
    omega

theorem agree_CreateSnapshot {c : Codec} {rs rs1 : RaftStorage} {i : Nat} {cs : Option ConfState}
    {data : Bytes} {snap : Snapshot}
    (hopen : rs.isOpen = true) (hwf : rs.memoryStorage.WellFormed) (hagree : rs.StoreMemoryAgree)
    (h : rs.CreateSnapshot c i cs data = (.ok snap, rs1)) :
    rs1.memoryStorage.WellFormed ∧ rs1.StoreMemoryAgree := by
  unfold MemoryStorage.WellFormed at hwf ⊢
  cases hents : rs.memoryStorage.ents with
  | nil => simp [hents] at hwf
  | cons d es =>
    simp only [hents] at hwf
    obtain ⟨k, e, hget, hik, hno, hlt, hsnap, h1⟩ := CreateSnapshot_ok hopen hents hwf h
    have hb := consecutiveFrom_bound hwf
    have hklt : k < es.length := (List.getElem?_eq_some.mp hget).1
    have hdrop := consecutiveFrom_drop hwf (k + 1) hklt
    subst h1
    refine ⟨?_, ?_⟩
    · show consecutiveFrom (i + 1) (es.drop (k + 1)) = true
      rwa [show i + 1 = d.Index + 1 + (k + 1) by omega]
    · refine (agree_iff (show _ = _ :: es.drop (k + 1) from rfl)).mpr ?_
      rw [agree_iff hents] at hagree
      intro j hj
      have hr := mem_entryKeys_range (d.Index + 1) (k + 1) hj (by omega)
      have ha := hagree j hj
      simp only [mem_keys_kvPut, entryKey_ne_KeySnapshot, false_or,
        mem_keys_foldl_delete_indices, hr, ha, List.length_drop]
      rw [U64_val] at *
      omega

theorem agree_Append {c : Codec} {rs rs1 : RaftStorage} {entries : List Entry}
    (hopen : rs.isOpen = true) (hwf : rs.memoryStorage.WellFormed) (hagree : rs.StoreMemoryAgree)
    (hc : entriesConsecutive entries = true)
    (h : rs.Append c entries = (none, rs1)) :
    rs1.memoryStorage.WellFormed ∧ rs1.StoreMemoryAgree := by
  cases entries with
  | nil =>
    simp only [RaftStorage.Append] at h
    injection h with _ h
    subst h
    exact ⟨hwf, hagree⟩
  | cons e0 tail =>
    simp only [entriesConsecutive] at hc
    unfold MemoryStorage.WellFormed at hwf ⊢
    cases hents : rs.memoryStorage.ents with
    | nil => simp [hents] at hwf
    | cons d es =>
      simp only [hents] at hwf
      rcases Append_ok hopen hents hwf hc h with h1 | ⟨t, kept, ht, hkept, hidx, hno, h1⟩
      · subst h1
        simp only [hents]
        exact ⟨hwf, hagree⟩
      · have hnew := consecutiveFrom_drop hc t (Nat.le_of_lt ht)
        have hnb := consecutiveFrom_bound hnew
        simp only [List.length_drop, List.length_cons] at hnb ht
        subst h1
        refine ⟨?_, ?_⟩
        · show consecutiveFrom (d.Index + 1) (es.take kept ++ (e0 :: tail).drop t) = true
          refine consecutiveFrom_append (consecutiveFrom_take hwf kept) ?_
          rw [List.length_take, Nat.min_eq_left hkept, ← hidx]
          exact hnew
        · refine (agree_iff (show _ = d :: (es.take kept ++ (e0 :: tail).drop t) from rfl)).mpr ?_
          rw [agree_iff hents] at hagree
          intro j hj
          have hr := mem_entryKeys_range (d.Index + 1 + kept) (es.length - kept) hj
            (by omega)
          have hp := mem_entryKeys_consecutive hnew hj
          have ha := hagree j hj
          simp only [mem_keys_foldl_put_entries, mem_keys_foldl_delete_indices, hr, ha, hp,
            List.length_append, List.length_take, List.length_drop, List.length_cons,
            Nat.min_eq_left hkept]
          rw [U64_val] at *
          omega

/-! ## The content of the store -/

theorem bytesLt_irrefl (a : Bytes) : bytesLt a a = false := by
  induction a with
  | nil => rfl
  | cons x xs ih => simp [bytesLt, ih]

theorem bytesLt_asymm {a b : Bytes} (h : bytesLt a b = true) : bytesLt b a = false := by
  induction a generalizing b with
  | nil => cases b <;> simp [bytesLt] at h ⊢
  | cons x xs ih =>
    cases b with
    | nil => simp [bytesLt] at h
    | cons y ys =>
      simp only [bytesLt, Bool.or_eq_true, decide_eq_true_eq, Bool.and_eq_true, beq_iff_eq] at h
      simp only [bytesLt, Bool.or_eq_false_iff, decide_eq_false_iff_not, Bool.and_eq_false_imp,
        beq_iff_eq]
      rcases h with h | ⟨h1, h2⟩
      · exact ⟨by omega, fun h3 => by omega⟩
      · exact ⟨by omega, fun _ => ih h2⟩

theorem kvPut_last {k v : Bytes} {l : List (Bytes × Bytes)}
    (h : ∀ p ∈ l, bytesLt p.1 k = true) : kvPut k v l = l ++ [(k, v)] := by
  induction l with
  | nil => rfl
  | cons p rest ih =>
    obtain ⟨a, b⟩ := p
    have hp := h (a, b) (List.mem_cons_self _ _)
    have h1 : bytesLt k a = false := bytesLt_asymm hp
    have h2 : k ≠ a := by
      intro heq
      subst heq
      rw [bytesLt_irrefl] at hp
      cases hp
    unfold kvPut
    simp only [h1, Bool.false_eq_true, if_false, if_neg h2, List.cons_append]
    rw [ih (fun q hq => h q (List.mem_cons_of_mem _ hq))]

theorem foldl_put_consecutive (c : Codec) {s : Nat} {new : List Entry}
    (hc : consecutiveFrom s new = true) {l : List (Bytes × Bytes)}
    (hl : ∀ p ∈ l, ∀ j, s ≤ j → j < U64 → bytesLt p.1 (entryKey j) = true) :
    (new.map (fun e => Op.put (entryKey e.Index) (c.encEntry e))).foldl kvApply l =
      l ++ new.map c.entryPair := by
  induction new generalizing s l with
  | nil => simp
  | cons e es ih =>
    obtain ⟨h1, h2⟩ := (consecutiveFrom_cons s e es).mp hc
    have hb := consecutiveFrom_bound h2
    simp only [List.map_cons, List.foldl_cons, kvApply]
    rw [kvPut_last (fun p hp => by rw [h1]; exact hl p hp s (Nat.le_refl _) (by omega))]
    rw [ih h2]
    · simp [Codec.entryPair]
    · intro p hp j hj hju
      rcases List.mem_append.mp hp with hp | hp
      · exact hl p hp j (by omega) hju
      · simp only [List.mem_singleton] at hp
        subst hp
        rw [h1, bytesLt_entryKey s j (by omega) hju]
        simp; omega

theorem foldl_delete_eq_filter (js : List Nat) (l : List (Bytes × Bytes)) :
    (js.map (fun j => Op.delete (entryKey j))).foldl kvApply l =
      l.filter (fun p => decide (p.1 ∉ js.map entryKey)) := by
  induction js generalizing l with
  | nil => simp
  | cons j js ih =>
    simp only [List.map_cons, List.foldl_cons, kvApply, ih, kvDelete, List.filter_filter]
    congr 1
    funext p
    simp only [List.mem_cons, not_or, ne_eq, decide_not, Bool.and_eq_true, Bool.not_eq_true',
      decide_eq_false_iff_not, Bool.decide_and]
    rw [Bool.and_comm]

theorem filter_index_lt {s : Nat} {es : List Entry} (h : consecutiveFrom s es = true) (k : Nat) :
    es.filter (fun e => decide (e.Index < s + k)) = es.take k := by
  induction es generalizing s k with
  | nil => simp
  | cons e es ih =>
    obtain ⟨h1, h2⟩ := (consecutiveFrom_cons s e es).mp h
    cases k with
    | zero =>
      simp only [Nat.add_zero, List.take_zero, List.filter_eq_nil_iff, decide_eq_true_eq]
      intro x hx
      have := consecutiveFrom_mem h hx
      omega
    | succ k =>
      have := ih h2 k
      rw [show s + 1 + k = s + (k + 1) by omega] at this
      simp [List.filter_cons, h1, this]

theorem filter_index_ge {s : Nat} {es : List Entry} (h : consecutiveFrom s es = true) (k : Nat) :
    es.filter (fun e => decide (s + k ≤ e.Index)) = es.drop k := by
  induction es generalizing s k with
  | nil => simp
  | cons e es ih =>
    obtain ⟨h1, h2⟩ := (consecutiveFrom_cons s e es).mp h
    cases k with
    | zero =>
      simp only [Nat.add_zero, List.drop_zero, List.filter_eq_self, decide_eq_true_eq]
      intro x hx
      exact (consecutiveFrom_mem h hx).1
    | succ k =>
      have := ih h2 k
      rw [show s + 1 + k = s + (k + 1) by omega] at this
      simp [List.filter_cons, h1, this]

theorem entryPair_fst (c : Codec) (e : Entry) : (c.entryPair e).1 = entryKey e.Index := rfl

theorem bytesLt_KeySnapshot_entryKey (i : Nat) : bytesLt KeySnapshot (entryKey i) = true := by
  simp [bytesLt, KeySnapshot, entryKey, KeyPrefixEntry]

theorem bytesLt_KeyHardState_entryKey (i : Nat) : bytesLt KeyHardState (entryKey i) = true := by
  simp [bytesLt, KeyHardState, entryKey, KeyPrefixEntry]

theorem kvPut_KeySnapshot_storeList (c : Codec) (v : Bytes) (sn hs : Option Bytes)
    (es : List Entry) :
    kvPut KeySnapshot v (c.storeList sn hs es) = c.storeList (some v) hs es := by
  cases sn <;> cases hs <;> cases es <;>
    simp [Codec.storeList, kvPut, bytesLt, KeySnapshot, KeyHardState, Codec.entryPair, entryKey,
      KeyPrefixEntry]

theorem kvPut_KeyHardState_storeList (c : Codec) (v : Bytes) (sn hs : Option Bytes)
    (es : List Entry) :
    kvPut KeyHardState v (c.storeList sn hs es) = c.storeList sn (some v) es := by
  cases sn <;> cases hs <;> cases es <;>
    simp [Codec.storeList, kvPut, bytesLt, KeySnapshot, KeyHardState, Codec.entryPair, entryKey,
      KeyPrefixEntry]

theorem kvGet_KeySnapshot_storeList (c : Codec) (sn hs : Option Bytes) (es : List Entry) :
    kvGet (c.storeList sn hs es) KeySnapshot = sn := by
  cases sn <;> cases hs <;>
    simp [Codec.storeList, kvGet, KeySnapshot, KeyHardState, Codec.entryPair, entryKey,
      KeyPrefixEntry, List.find?_cons, List.find?_map, Function.comp_def]

theorem kvGet_KeyHardState_storeList (c : Codec) (sn hs : Option Bytes) (es : List Entry) :
    kvGet (c.storeList sn hs es) KeyHardState = hs := by
  cases sn <;> cases hs <;>
    simp [Codec.storeList, kvGet, KeySnapshot, KeyHardState, Codec.entryPair, entryKey,
      KeyPrefixEntry, List.find?_cons, List.find?_map, Function.comp_def]

theorem filter_entries_storeList (c : Codec) (sn hs : Option Bytes) (es : List Entry) :
    (c.storeList sn hs es).filter
        (fun p => [KeyPrefixEntry].any (fun q => q.isPrefixOf p.1)) = es.map c.entryPair := by
  have h : (es.map c.entryPair).filter
      (fun p => [KeyPrefixEntry].any (fun q => q.isPrefixOf p.1)) = es.map c.entryPair := by
    rw [List.filter_eq_self]
    intro p hp
    obtain ⟨e, _, rfl⟩ := List.mem_map.mp hp
    simp [Codec.entryPair, entryKey, KeyPrefixEntry]
  cases sn <;> cases hs <;>
    simp [Codec.storeList, KeySnapshot, KeyHardState, List.filter_cons, KeyPrefixEntry] <;>
    simpa [KeyPrefixEntry] using h

theorem filter_delete_storeList (c : Codec) (sn hs : Option Bytes) (es : List Entry)
    (js : List Nat) :
    (c.storeList sn hs es).filter (fun p => decide (p.1 ∉ js.map entryKey)) =
      c.storeList sn hs (es.filter (fun e => decide (entryKey e.Index ∉ js.map entryKey))) := by
  cases sn <;> cases hs <;>
    simp [Codec.storeList, List.filter_cons, entryKey_ne_KeySnapshot, entryKey_ne_KeyHardState,
      List.filter_map, Function.comp_def, entryPair_fst]

theorem storeList_append (c : Codec) (sn hs : Option Bytes) (es new : List Entry) :
    c.storeList sn hs es ++ new.map c.entryPair = c.storeList sn hs (es ++ new) := by
  simp [Codec.storeList, List.append_assoc]

theorem delete_suffix {s : Nat} {es : List Entry} (h : consecutiveFrom s es = true) {kept : Nat}
    (hk : kept ≤ es.length) :
    es.filter (fun e => decide (entryKey e.Index ∉
        (List.range' (s + kept) (es.length - kept)).map entryKey)) = es.take kept := by
  have hb := consecutiveFrom_bound h
  rw [← filter_index_lt h kept]
  apply List.filter_congr
  intro e he
  have hm := consecutiveFrom_mem h he
  have hr := mem_entryKeys_range (s + kept) (es.length - kept) (show e.Index < U64 by omega)
    (by omega)
  simp only [hr, decide_eq_decide]
  omega

theorem delete_init {s : Nat} {es : List Entry} (h : consecutiveFrom s es = true) {n : Nat}
    (hn : n ≤ es.length) :
    es.filter (fun e => decide (entryKey e.Index ∉ (List.range' s n).map entryKey)) =
      es.drop n := by
  have hb := consecutiveFrom_bound h
  rw [← filter_index_ge h n]
  apply List.filter_congr
  intro e he
  have hm := consecutiveFrom_mem h he
  have hr := mem_entryKeys_range s n (show e.Index < U64 by omega) (by omega)
  simp only [hr, decide_eq_decide]
  omega

theorem keys_below_storeList (c : Codec) (sn hs : Option Bytes) {s : Nat} {es : List Entry}
    (h : consecutiveFrom s es = true) :
    ∀ p ∈ c.storeList sn hs es, ∀ j, s + es.length ≤ j → j < U64 →
      bytesLt p.1 (entryKey j) = true := by
  intro p hp j hj hju
  have hes : p ∈ es.map c.entryPair → bytesLt p.1 (entryKey j) = true := by
    intro hp
    obtain ⟨e, he, rfl⟩ := List.mem_map.mp hp
    have hm := consecutiveFrom_mem h he
    rw [entryPair_fst, bytesLt_entryKey _ _ (by omega) hju]
    simp; omega
  cases sn <;> cases hs <;>
    simp only [Codec.storeList, List.nil_append, List.cons_append, List.mem_cons] at hp
  · exact hes hp
  · rcases hp with rfl | hp
    · exact bytesLt_KeyHardState_entryKey j
    · exact hes hp
  · rcases hp with rfl | hp
    · exact bytesLt_KeySnapshot_entryKey j
    · exact hes hp
  · rcases hp with rfl | rfl | hp
    · exact bytesLt_KeySnapshot_entryKey j
    · exact bytesLt_KeyHardState_entryKey j
    · exact hes hp

/-! ## The store mirrors the memory -/

theorem Mirrors_elim {c : Codec} {rs : RaftStorage} (h : rs.Mirrors c) :
    ∃ es hasS hasH, rs.isOpen = true ∧
      rs.memoryStorage.ents =
        { Term := rs.memoryStorage.snapshot.Metadata.Term
          Index := rs.memoryStorage.snapshot.Metadata.Index, Typ := 0, Data := [] } :: es ∧
      consecutiveFrom (rs.memoryStorage.snapshot.Metadata.Index + 1) es = true ∧
      rs.storageDriver.kv = c.storeList
        (if hasS then some (c.encSnapshot rs.memoryStorage.snapshot) else none)
        (if hasH then some (c.encHardState rs.memoryStorage.hardState) else none) es ∧
      (hasS = false → rs.memoryStorage.snapshot = default) ∧
      (hasS = true → 0 < rs.memoryStorage.snapshot.Metadata.Index) ∧
      (hasH = false → rs.memoryStorage.hardState = default) := by
  obtain ⟨hopen, hwf, hhead, hasS, hasH, hkv, h1, h2, h3⟩ := h
  unfold MemoryStorage.WellFormed at hwf
  cases hents : rs.memoryStorage.ents with
  | nil => simp [hents] at hwf
  | cons d es =>
    simp only [hents, List.head?_cons, Option.some.injEq] at hwf hhead
    subst hhead
    refine ⟨es, hasS, hasH, hopen, rfl, hwf, ?_, h1, h2, h3⟩
    rw [hkv, Codec.storeOf, hents]
    rfl

theorem Mirrors_intro {c : Codec} {rs : RaftStorage} (es : List Entry) (hasS hasH : Bool)
    (hopen : rs.isOpen = true)
    (hents : rs.memoryStorage.ents =
        { Term := rs.memoryStorage.snapshot.Metadata.Term
          Index := rs.memoryStorage.snapshot.Metadata.Index, Typ := 0, Data := [] } :: es)
    (hwf : consecutiveFrom (rs.memoryStorage.snapshot.Metadata.Index + 1) es = true)
    (hkv : rs.storageDriver.kv = c.storeList
        (if hasS then some (c.encSnapshot rs.memoryStorage.snapshot) else none)
        (if hasH then some (c.encHardState rs.memoryStorage.hardState) else none) es)
    (h1 : hasS = false → rs.memoryStorage.snapshot = default)
    (h2 : hasS = true → 0 < rs.memoryStorage.snapshot.Metadata.Index)
    (h3 : hasH = false → rs.memoryStorage.hardState = default) : rs.Mirrors c := by
  refine ⟨hopen, ?_, ?_, hasS, hasH, ?_, h1, h2, h3⟩
  · unfold MemoryStorage.WellFormed
    rw [hents]
    exact hwf
  · rw [hents]; rfl
  · rw [hkv, Codec.storeOf, hents]
    rfl

theorem Mirrors_SetHardState {c : Codec} {rs rs1 : RaftStorage} {st : HardState}
    (hm : rs.Mirrors c) (h : rs.SetHardState c st = (none, rs1)) : rs1.Mirrors c := by
  obtain ⟨es, hasS, hasH, hopen, hents, hwf, hkv, h1, h2, h3⟩ := Mirrors_elim hm
  have h4 := SetHardState_ok hopen h
  subst h4
  refine Mirrors_intro es hasS true hopen hents hwf ?_ h1 h2 (by simp)
  show kvPut KeyHardState (c.encHardState st) rs.storageDriver.kv = _
  rw [hkv, kvPut_KeyHardState_storeList]
  rfl

theorem Mirrors_ApplySnapshot {c : Codec} {rs rs1 : RaftStorage} {snap : Snapshot}
    (hm : rs.Mirrors c) (hs : snap.Metadata.Index < U64)
    (h : rs.ApplySnapshot c snap = (none, rs1)) : rs1.Mirrors c := by
  obtain ⟨es, hasS, hasH, hopen, hents, hwf, hkv, h1, h2, h3⟩ := Mirrors_elim hm
  obtain ⟨hlt, hno, h4⟩ := ApplySnapshot_ok hopen hents hwf h
  subst h4
  have hb := consecutiveFrom_bound hwf
  refine Mirrors_intro [] true hasH hopen rfl ?_ ?_ (by simp) (fun _ => by
    show 0 < snap.Metadata.Index
    omega) h3
  · simpa [consecutiveFrom] using hs
  · show kvPut KeySnapshot (c.encSnapshot snap) _ = _
    rw [foldl_delete_eq_filter, hkv, filter_delete_storeList, kvPut_KeySnapshot_storeList]
    have := delete_init hwf (Nat.le_refl es.length)
    simp only [List.drop_length] at this
    rw [this]
    rfl

theorem Mirrors_CreateSnapshot {c : Codec} {rs rs1 : RaftStorage} {i : Nat}
    {cs : Option ConfState} {data : Bytes} {snap : Snapshot}
    (hm : rs.Mirrors c) (h : rs.CreateSnapshot c i cs data = (.ok snap, rs1)) :
    rs1.Mirrors c := by
  obtain ⟨es, hasS, hasH, hopen, hents, hwf, hkv, h1, h2, h3⟩ := Mirrors_elim hm
  obtain ⟨k, e, hget, hik, hno, hlt, hsnap, h4⟩ := CreateSnapshot_ok hopen hents hwf h
  have hklt : k < es.length := (List.getElem?_eq_some.mp hget).1
  have hdrop := consecutiveFrom_drop hwf (k + 1) hklt
  simp only at hik
  subst h4
  refine Mirrors_intro (es.drop (k + 1)) true hasH hopen ?_ ?_ ?_ (by simp) (fun _ => by
    show 0 < snap.Metadata.Index
    rw [hsnap]
    show 0 < i
    omega) h3
  · show _ :: _ = _
    rw [hsnap]
  · show consecutiveFrom (snap.Metadata.Index + 1) _ = true
    rw [hsnap]
    show consecutiveFrom (i + 1) _ = true
    rwa [show i + 1 = rs.memoryStorage.snapshot.Metadata.Index + 1 + (k + 1) by omega]
  · show kvPut KeySnapshot (c.encSnapshot snap) _ = _
    rw [foldl_delete_eq_filter, hkv, filter_delete_storeList, kvPut_KeySnapshot_storeList,
      delete_init hwf hklt]
    rfl

theorem Mirrors_Append {c : Codec} {rs rs1 : RaftStorage} {entries : List Entry}
    (hm : rs.Mirrors c) (hc : entriesConsecutive entries = true)
    (h : rs.Append c entries = (none, rs1)) : rs1.Mirrors c := by
  cases entries with
  | nil =>
    simp only [RaftStorage.Append] at h
    injection h with _ h
    subst h
    exact hm
  | cons e0 tail =>
    simp only [entriesConsecutive] at hc
    obtain ⟨es, hasS, hasH, hopen, hents, hwf, hkv, h1, h2, h3⟩ := Mirrors_elim hm
    rcases Append_ok hopen hents hwf hc h with h4 | ⟨t, kept, ht, hkept, hidx, hno, h4⟩
    · subst h4; exact hm
    · have hnew := consecutiveFrom_drop hc t (Nat.le_of_lt ht)
      simp only at hidx hnew
      subst h4
      have htake := consecutiveFrom_take hwf kept
      have hlen : (es.take kept).length = kept := by
        rw [List.length_take, Nat.min_eq_left hkept]
      refine Mirrors_intro (es.take kept ++ (e0 :: tail).drop t) hasS hasH hopen ?_ ?_ ?_ h1 h2 h3
      · show _ :: _ = _
        rfl
      · show consecutiveFrom (rs.memoryStorage.snapshot.Metadata.Index + 1) _ = true
        refine consecutiveFrom_append htake ?_
        rw [hlen, ← hidx]
        exact hnew
      · show List.foldl kvApply _ _ = _
        rw [foldl_delete_eq_filter, hkv, filter_delete_storeList, delete_suffix hwf hkept]
        rw [hidx] at hnew
        rw [foldl_put_consecutive c hnew, storeList_append]
        have := keys_below_storeList c
          (if hasS then some (c.encSnapshot rs.memoryStorage.snapshot) else none)
          (if hasH then some (c.encHardState rs.memoryStorage.hardState) else none) htake
        rw [hlen] at this
        exact this

/-! ## Reopening -/

theorem nextFault_of {d : StorageDriver} (h : d.nextFault.1 = none ∨ d.reliable) :
    d.nextFault = (none, { kv := d.kv, faults := d.faults.tail }) := by
  obtain ⟨kv, faults⟩ := d
  unfold StorageDriver.nextFault StorageDriver.reliable at *
  cases faults with
  | nil => rfl
  | cons f fs =>
    simp only at h ⊢
    rcases h with h | h
    · subst h; rfl
    · have := h f (List.mem_cons_self _ _)
      subst this; rfl

theorem reliable_tail {d : StorageDriver} (h : d.reliable) :
    StorageDriver.reliable { kv := d.kv, faults := d.faults.tail } := by
  intro f hf
  exact h f (List.mem_of_mem_tail hf)

theorem encEntry_roundtrip {c : Codec} (hc : c.RoundTrip) (e : Entry) :
    c.unmarshalEntry (c.encEntry e) = .ok e := by
  obtain ⟨b, h1, h2⟩ := hc.entry e
  simp [Codec.encEntry, h1, h2]

theorem encSnapshot_roundtrip {c : Codec} (hc : c.RoundTrip) (s : Snapshot) :
    c.unmarshalSnapshot (c.encSnapshot s) = .ok s := by
  obtain ⟨b, h1, h2⟩ := hc.snapshot s
  simp [Codec.encSnapshot, h1, h2]

theorem encHardState_roundtrip {c : Codec} (hc : c.RoundTrip) (s : HardState) :
    c.unmarshalHardState (c.encHardState s) = .ok s := by
  obtain ⟨b, h1, h2⟩ := hc.hardState s
  simp [Codec.encHardState, h1, h2]

theorem readEntries_consecutive {c : Codec} (hc : c.RoundTrip) {s : Nat} {es : List Entry}
    (h : consecutiveFrom s es = true) (acc : List Entry) (last : Option Nat) (flag : Bool)
    (hlast : ∀ l, last = some l → l + 1 = s) :
    (readEntries c (es.map c.entryPair) acc last flag).1 = .ok (acc ++ es) := by
  induction es generalizing s acc last flag with
  | nil => simp [readEntries]
  | cons e es ih =>
    obtain ⟨h1, h2⟩ := (consecutiveFrom_cons s e es).mp h
    have hb := consecutiveFrom_bound h2
    have hlt : e.Index < U64 := by omega
    have hu : c.unmarshalEntry (c.encEntry e) = .ok e := encEntry_roundtrip hc e
    have hnext := ih h2 (acc ++ [e]) (some e.Index) false
      (fun l hl => by injection hl with hl; omega)
    cases last with
    | none =>
      simp only [List.map_cons, readEntries, entryPair_fst, entryIndex_entryKey e.Index hlt,
        Bool.false_eq_true, if_false, hu, ne_eq, not_true_eq_false, hnext, Codec.entryPair]
      simp
    | some l =>
      have hl := hlast l rfl
      have hmod : (l + 1) % U64 = e.Index := by
        rw [hl, h1, Nat.mod_eq_of_lt (by omega)]
      simp only [List.map_cons, readEntries, entryPair_fst, entryIndex_entryKey e.Index hlt,
        hmod, ne_eq, not_true_eq_false, decide_False, Bool.false_eq_true, if_false, hu, hnext,
        Codec.entryPair]
      simp

theorem mem_Append_fresh {ms : MemoryStorage} {d : Entry} {es : List Entry}
    (hents : ms.ents = [d]) (h : consecutiveFrom (d.Index + 1) es = true) :
    ms.Append es = .ok { ms with ents := d :: es } := by
  cases es with
  | nil =>
    simp only [MemoryStorage.Append]
    congr 1
    cases ms
    simp only at hents
    simp [hents]
  | cons e0 tail =>
    obtain ⟨h1, h2⟩ := (consecutiveFrom_cons _ e0 tail).mp h
    have hb := consecutiveFrom_bound h2
    unfold MemoryStorage.Append
    simp only [hents, List.length_cons, h1, List.length_nil]
    rw [U64_val] at *
    have e1 : (d.Index + 1) % 18446744073709551616 = d.Index + 1 := by omega
    have e2 : ¬ (d.Index + 1 + (tail.length + 1) + (18446744073709551616 - 1)) %
        18446744073709551616 < d.Index + 1 := by omega
    have e3 : (d.Index + 1 + 18446744073709551616 - d.Index) % 18446744073709551616 = 1 := by
      omega
    simp [e1, e2, h1, e3]

theorem nextFault_cases (d : StorageDriver) :
    d.nextFault = (none, { kv := d.kv, faults := d.faults.tail }) ∨
      ∃ code, d.nextFault = (some code, { kv := d.kv, faults := d.faults.tail }) ∧
        ¬d.reliable := by
  obtain ⟨kv, faults⟩ := d
  unfold StorageDriver.nextFault StorageDriver.reliable
  cases faults with
  | nil => left; rfl
  | cons f fs =>
    cases f with
    | none => left; rfl
    | some code =>
      right
      refine ⟨code, rfl, fun h => ?_⟩
      have := h (some code) (List.mem_cons_self _ _)
      cases this

theorem openSnapshot_of_store {c : Codec} (hc : c.RoundTrip) (rs : RaftStorage)
    {snapshot : Snapshot} {hs : Option Bytes} {es : List Entry} {hasS : Bool}
    (hmem : rs.memoryStorage = NewMemoryStorage)
    (hkv : rs.storageDriver.kv = c.storeList
        (if hasS then some (c.encSnapshot snapshot) else none) hs es)
    (h1 : hasS = false → snapshot = default)
    (h2 : hasS = true → 0 < snapshot.Metadata.Index)
    (h : (rs.openSnapshot c).1 = none ∨ rs.storageDriver.reliable) :
    ∃ flag, rs.openSnapshot c = (none,
      { isOpen := rs.isOpen, isEmpty := flag
        memoryStorage :=
          { hardState := default, snapshot := snapshot
            ents := [{ Term := snapshot.Metadata.Term, Index := snapshot.Metadata.Index,
                       Typ := 0, Data := [] }] }
        storageDriver := { kv := rs.storageDriver.kv, faults := rs.storageDriver.faults.tail } }) := by
  unfold RaftStorage.openSnapshot StorageDriver.Get at h ⊢
  rcases nextFault_cases rs.storageDriver with hn | ⟨code, hn, hnr⟩
  swap
  · simp [hn, hnr] at h
  simp only [hn, List.map_cons, List.map_nil, hkv, kvGet_KeySnapshot_storeList]
  cases hasS with
  | false =>
    have := h1 rfl
    subst this
    exact ⟨rs.isEmpty, by simp [hmem, NewMemoryStorage, ← hkv]; rfl⟩
  | true =>
    have := h2 rfl
    simp only [if_true, encSnapshot_roundtrip hc, MemoryStorage.ApplySnapshot, hmem,
      NewMemoryStorage]
    refine ⟨false, ?_⟩
    have hnot : ¬ (default : Snapshot).Metadata.Index ≥ snapshot.Metadata.Index := by
      show ¬ (0 ≥ snapshot.Metadata.Index)
      omega
    simp [hnot, ← hkv]

theorem openHardState_of_store {c : Codec} (hc : c.RoundTrip) (rs : RaftStorage)
    {hardState : HardState} {sn : Option Bytes} {es : List Entry} {hasH : Bool}
    (hmem : rs.memoryStorage.hardState = default)
    (hkv : rs.storageDriver.kv = c.storeList sn
        (if hasH then some (c.encHardState hardState) else none) es)
    (h3 : hasH = false → hardState = default)
    (h : (rs.openHardState c).1 = none ∨ rs.storageDriver.reliable) :
    ∃ flag, rs.openHardState c = (none,
      { isOpen := rs.isOpen, isEmpty := flag
        memoryStorage := { rs.memoryStorage with hardState := hardState }
        storageDriver := { kv := rs.storageDriver.kv, faults := rs.storageDriver.faults.tail } }) := by
  unfold RaftStorage.openHardState StorageDriver.Get at h ⊢
  rcases nextFault_cases rs.storageDriver with hn | ⟨code, hn, hnr⟩
  swap
  · simp [hn, hnr] at h
  simp only [hn, List.map_cons, List.map_nil, hkv, kvGet_KeyHardState_storeList]
  cases hasH with
  | false =>
    have := h3 rfl
    subst this
    refine ⟨rs.isEmpty, ?_⟩
    simp only [Bool.false_eq_true, if_false, ← hkv, ← hmem]
  | true =>
    simp only [if_true, encHardState_roundtrip hc, MemoryStorage.SetHardState]
    exact ⟨false, by simp [← hkv]⟩

theorem openEntries_of_store {c : Codec} (hc : c.RoundTrip) (rs : RaftStorage)
    {sn hs : Option Bytes} {d : Entry} {es : List Entry}
    (hmem : rs.memoryStorage.ents = [d])
    (hwf : consecutiveFrom (d.Index + 1) es = true)
    (hkv : rs.storageDriver.kv = c.storeList sn hs es)
    (h : (rs.openEntries c).1 = none ∨ rs.storageDriver.reliable) :
    ∃ flag, rs.openEntries c = (none,
      { isOpen := true, isEmpty := flag
        memoryStorage := { rs.memoryStorage with ents := d :: es }
        storageDriver :=
          { kv := rs.storageDriver.kv, faults := rs.storageDriver.faults.tail.tail } }) := by
  unfold RaftStorage.openEntries StorageDriver.GetMatches at h ⊢
  rcases nextFault_cases rs.storageDriver with hn | ⟨code, hn, hnr⟩
  swap
  · simp [hn, hnr] at h
  have hread := readEntries_consecutive hc hwf [] none rs.isEmpty (fun l hl => by cases hl)
  simp only [hn, hkv, filter_entries_storeList] at h ⊢
  rcases hre : readEntries c (es.map c.entryPair) [] none rs.isEmpty with ⟨res, flag⟩
  rw [hre] at hread
  simp only [List.nil_append] at hread
  subst hread
  simp only [hre] at h ⊢
  unfold StorageDriver.iteratorError at h ⊢
  rcases nextFault_cases { kv := rs.storageDriver.kv, faults := rs.storageDriver.faults.tail }
    with hn2 | ⟨code, hn2, hnr2⟩
  swap
  · rw [hkv] at hn2 hnr2
    simp only [hn2] at h
    rcases h with h | h
    · simp at h
    · have hrel := reliable_tail h
      rw [hkv] at hrel
      exact absurd hrel hnr2
  rw [hkv] at hn2
  simp only [hn2, mem_Append_fresh hmem hwf]
  exact ⟨flag, rfl⟩

/-- Reopening a store that mirrors a memory state rebuilds that state. -/
theorem Open_of_store {c : Codec} (hc : c.RoundTrip) {rs : RaftStorage} {ms : MemoryStorage}
    {es : List Entry} {hasS hasH : Bool}
    (hents : ms.ents =
        { Term := ms.snapshot.Metadata.Term, Index := ms.snapshot.Metadata.Index,
          Typ := 0, Data := [] } :: es)
    (hwf : consecutiveFrom (ms.snapshot.Metadata.Index + 1) es = true)
    (hkv : rs.storageDriver.kv = c.storeList
        (if hasS then some (c.encSnapshot ms.snapshot) else none)
        (if hasH then some (c.encHardState ms.hardState) else none) es)
    (h1 : hasS = false → ms.snapshot = default)
    (h2 : hasS = true → 0 < ms.snapshot.Metadata.Index)
    (h3 : hasH = false → ms.hardState = default)
    (h : (rs.Open c).1 = none ∨ rs.storageDriver.reliable) :
    ∃ flag, rs.Open c = (none,
      { isOpen := true, isEmpty := flag, memoryStorage := ms
        storageDriver :=
          { kv := rs.storageDriver.kv
            faults := rs.storageDriver.faults.tail.tail.tail.tail.tail } }) := by
  unfold RaftStorage.Open StorageDriver.Open at h ⊢
  rcases nextFault_cases rs.storageDriver with hn | ⟨code, hn, hnr⟩
  swap
  · simp [hn, hnr] at h
  simp only [hn] at h ⊢
  -- the snapshot
  rcases hst1 : RaftStorage.openSnapshot c
      { rs with storageDriver := { kv := rs.storageDriver.kv, faults := rs.storageDriver.faults.tail }
                memoryStorage := NewMemoryStorage } with ⟨r1, rs1⟩
  have hs1 := openSnapshot_of_store hc
    { rs with storageDriver := { kv := rs.storageDriver.kv, faults := rs.storageDriver.faults.tail }
              memoryStorage := NewMemoryStorage } rfl hkv h1 h2
  rw [hst1] at hs1
  simp only [hst1] at h ⊢
  have hs1' := hs1 (by
    cases r1 with
    | none => exact Or.inl rfl
    | some e => exact Or.inr (reliable_tail (by simpa using h)))
  obtain ⟨flag1, hs1'⟩ := hs1'
  injection hs1' with hr1 hrs1
  subst hr1 hrs1
  simp only at h ⊢
  -- the hard state
  rcases hst2 : RaftStorage.openHardState c
      { isOpen := rs.isOpen, isEmpty := flag1
        memoryStorage :=
          { hardState := default, snapshot := ms.snapshot
            ents := [{ Term := ms.snapshot.Metadata.Term, Index := ms.snapshot.Metadata.Index,
                       Typ := 0, Data := [] }] }
        storageDriver := { kv := rs.storageDriver.kv, faults := rs.storageDriver.faults.tail.tail } }
    with ⟨r2, rs2⟩
  have hs2 := openHardState_of_store hc
    { isOpen := rs.isOpen, isEmpty := flag1
      memoryStorage :=
        { hardState := default, snapshot := ms.snapshot
          ents := [{ Term := ms.snapshot.Metadata.Term, Index := ms.snapshot.Metadata.Index,
                     Typ := 0, Data := [] }] }
      storageDriver := { kv := rs.storageDriver.kv, faults := rs.storageDriver.faults.tail.tail } }
    rfl hkv h3
  rw [hst2] at hs2
  simp only [hst2] at h ⊢
  have hs2' := hs2 (by
    cases r2 with
    | none => exact Or.inl rfl
    | some e => exact Or.inr (reliable_tail (reliable_tail (by simpa using h))))
  obtain ⟨flag2, hs2'⟩ := hs2'
  injection hs2' with hr2 hrs2
  subst hr2 hrs2
  simp only at h ⊢
  -- the entries
  have hs3 := openEntries_of_store hc
    { isOpen := rs.isOpen, isEmpty := flag2
      memoryStorage :=
        { hardState := ms.hardState, snapshot := ms.snapshot
          ents := [{ Term := ms.snapshot.Metadata.Term, Index := ms.snapshot.Metadata.Index,
                     Typ := 0, Data := [] }] }
      storageDriver :=
        { kv := rs.storageDriver.kv, faults := rs.storageDriver.faults.tail.tail.tail } }
    rfl hwf hkv
  have hs3' := hs3 (by
    rcases h with h | h
    · exact Or.inl h
    · exact Or.inr (reliable_tail (reliable_tail (reliable_tail h))))
  obtain ⟨flag3, hs3'⟩ := hs3'
  refine ⟨flag3, ?_⟩
  rw [hs3']
  obtain ⟨hardState, snapshot, ents⟩ := ms
  simp only at hents
  subst hents
  rfl

/-! ## Round trip through the store -/

theorem listCodec_roundTrip : listCodec.RoundTrip where
  snapshot s := ⟨_, rfl, by
    obtain ⟨data, ⟨⟨nodes⟩, i, t⟩⟩ := s
    simp [listCodec]⟩
  hardState h := ⟨_, rfl, rfl⟩
  entry e := ⟨_, rfl, rfl⟩

theorem Mirrors_call {c : Codec} {rs rs1 : RaftStorage} {k : Call} (hm : rs.Mirrors c)
    (hk : k.consecutive = true) (ht : k.typed = true) (h : rs.call c k = (none, rs1)) :
    rs1.Mirrors c := by
  cases k with
  | append entries => exact Mirrors_Append hm hk h
  | setHardState st => exact Mirrors_SetHardState hm h
  | createSnapshot i cs data =>
    simp only [RaftStorage.call] at h
    rcases hcs : rs.CreateSnapshot c i cs data with ⟨_ | snap, rs2⟩
    · simp [hcs] at h
    · simp only [hcs] at h
      injection h with _ h
      subst h
      exact Mirrors_CreateSnapshot hm hcs
  | applySnapshot snap =>
    exact Mirrors_ApplySnapshot hm (by simpa [Call.typed] using ht) h

theorem Mirrors_run {c : Codec} {calls : List Call} {rs rs1 : RaftStorage} (hm : rs.Mirrors c)
    (hk : ∀ k ∈ calls, k.consecutive = true ∧ k.typed = true)
    (h : rs.run c calls = some rs1) : rs1.Mirrors c := by
  induction calls generalizing rs with
  | nil =>
    simp only [RaftStorage.run, Option.some.injEq] at h
    subst h
    exact hm
  | cons k ks ih =>
    simp only [RaftStorage.run] at h
    rcases hcall : rs.call c k with ⟨_ | e, rs2⟩
    · simp only [hcall] at h
      have hk0 := hk k (List.mem_cons_self _ _)
      exact ih (Mirrors_call hm hk0.1 hk0.2 hcall)
        (fun k1 hk1 => hk k1 (List.mem_cons_of_mem _ hk1)) h
    · simp [hcall] at h

theorem Mirrors_fresh {c : Codec} (hc : c.RoundTrip) {fs : List (Option Nat)}
    {rs0 : RaftStorage}
    (h : (NewRaftStorage { kv := [], faults := fs }).Open c = (none, rs0)) : rs0.Mirrors c := by
  obtain ⟨flag, hopen⟩ := @Open_of_store c hc (NewRaftStorage { kv := [], faults := fs })
    NewMemoryStorage [] false false rfl (show consecutiveFrom 1 [] = true by decide) rfl
    (fun _ => rfl) (by simp) (fun _ => rfl) (Or.inl (by rw [h]))
  rw [hopen] at h
  injection h with _ h
  subst h
  exact Mirrors_intro [] false false rfl rfl (show consecutiveFrom 1 [] = true by decide) rfl
    (fun _ => rfl) (by simp) (fun _ => rfl)

theorem Open_of_Mirrors {c : Codec} (hc : c.RoundTrip) {rs : RaftStorage} (hm : rs.Mirrors c)
    (hrel : rs.storageDriver.reliable) :
    ∃ rs1, rs.Open c = (none, rs1) ∧ rs1.memoryStorage = rs.memoryStorage := by
  obtain ⟨es, hasS, hasH, hopen, hents, hwf, hkv, h1, h2, h3⟩ := Mirrors_elim hm
  obtain ⟨flag, ho⟩ := Open_of_store hc hents hwf hkv h1 h2 h3 (Or.inr hrel)
  exact ⟨_, ho, rfl⟩

/-- C1 (as stated, refuted): after the successful call `Append` of two entries with the
indices 1 and 3 on a storage opened on an empty store, reopening does not
succeed: `Open` reports that the stored entry indices are not consecutive. -/
theorem open_after_gap_append_fails :
    (exampleFresh.run listCodec [Call.append gapEntries]).map
        (fun rs => (rs.Open listCodec).1) = some (some Err.notMonotonic) := by
  decide

/-- C1 (amended): for a codec whose decoders invert its encoders, a storage opened on
an empty store, and a sequence of `Append`, `SetHardState`, `CreateSnapshot` and
`ApplySnapshot` calls that all return without error, in which every `Append`
passes entries with consecutive indices (and the index of an applied snapshot
is a `uint64`), `Open` on the same store, with a driver that does not fail,
succeeds and yields the in-memory state (hard state, snapshot and log, hence
first and last index) that existed after the last call. -/
theorem open_restores_memory (c : Codec) (hc : c.RoundTrip) (fs : List (Option Nat))
    (calls : List Call) (rs0 rs : RaftStorage)
    (hinit : (NewRaftStorage { kv := [], faults := fs }).Open c = (none, rs0))
    (hcalls : ∀ k ∈ calls, k.consecutive = true ∧ k.typed = true)
    (hrun : rs0.run c calls = some rs)
    (hrel : rs.storageDriver.reliable) :
    ∃ rs1, rs.Open c = (none, rs1) ∧ rs1.memoryStorage = rs.memoryStorage ∧
      rs1.FirstIndex = rs.FirstIndex ∧ rs1.LastIndex = rs.LastIndex := by
  obtain ⟨rs1, h1, h2⟩ := Open_of_Mirrors hc (Mirrors_run (Mirrors_fresh hc hinit) hcalls hrun) hrel
  exact ⟨rs1, h1, h2, by simp [RaftStorage.FirstIndex, h2], by simp [RaftStorage.LastIndex, h2]⟩

/-- The amended round trip at `exampleCalls`: three appended entries, a snapshot at
index 2, an overwriting append and a hard state. -/
theorem open_restores_memory_witness :
    ∃ rs1, exampleAfterCalls.Open listCodec = (none, rs1) ∧
      rs1.memoryStorage = exampleAfterCalls.memoryStorage ∧
      rs1.FirstIndex = exampleAfterCalls.FirstIndex ∧
      rs1.LastIndex = exampleAfterCalls.LastIndex :=
  open_restores_memory listCodec listCodec_roundTrip [] exampleCalls exampleFresh
    exampleAfterCalls (by decide) (by decide) (by decide) (by
      intro f hf
      have : exampleAfterCalls.storageDriver.faults = [] := by decide
      rw [this] at hf
      cases hf)

/-! ## Agreement of store and memory, one call at a time -/

theorem call_isOpen (c : Codec) (rs : RaftStorage) (k : Call) :
    (rs.call c k).2.isOpen = rs.isOpen := by
  cases k with
  | append entries =>
    simp only [RaftStorage.call]
    unfold RaftStorage.Append
    repeat' (first | rfl | split)
  | setHardState st =>
    simp only [RaftStorage.call]
    unfold RaftStorage.SetHardState
    repeat' (first | rfl | split | dsimp only)
  | createSnapshot i cs data =>
    simp only [RaftStorage.call]
    split
    all_goals
      rename_i h
      have : (rs.CreateSnapshot c i cs data).2.isOpen = rs.isOpen := by
        unfold RaftStorage.CreateSnapshot
        repeat' (first | rfl | split | dsimp only)
      rw [h] at this
      exact this
  | applySnapshot snap =>
    simp only [RaftStorage.call]
    unfold RaftStorage.ApplySnapshot
    repeat' (first | rfl | split | dsimp only)

theorem exampleFresh_agree : exampleFresh.StoreMemoryAgree := by
  refine (agree_iff (show exampleFresh.memoryStorage.ents = default :: [] from rfl)).mpr ?_
  intro i hi
  have h1 : exampleFresh.storageDriver.kv = [] := rfl
  rw [h1, U64_val] at *
  simp only [List.map_nil, List.not_mem_nil, false_iff]
  show ¬((0 + 1) % 18446744073709551616 ≤ i ∧
    i ≤ (0 + (0 + 1) + (18446744073709551616 - 1)) % 18446744073709551616)
  omega

theorem exampleShuffled_agree : exampleShuffled.StoreMemoryAgree := by
  refine (agree_iff (show exampleShuffled.memoryStorage.ents =
    default :: shuffledEntries from rfl)).mpr ?_
  intro i hi
  have h1 : exampleShuffled.storageDriver.kv.map Prod.fst = (List.range' 1 3).map entryKey := by
    decide
  rw [h1, mem_entryKeys_range 1 3 hi (by decide)]
  rw [U64_val] at *
  show _ ↔ ((0 + 1) % 18446744073709551616 ≤ i ∧
    i ≤ (0 + (3 + 1) + (18446744073709551616 - 1)) % 18446744073709551616)
  omega

/-- C2 (as stated, refuted) at three inputs, each on an open storage whose store and
memory agree. (1) `Append` of entries with the indices 1 and 3 on the fresh
storage returns nil, the store then has a key for index 3 while the log spans
1..2. (2) `ApplySnapshot` of a snapshot at the largest `uint64` index returns
nil; `FirstIndex()` wraps to 0 and `LastIndex()` is that largest index, while
the store has no entry key. (3) On the storage that holds the entries with
the indices 1, 3, 2 at the positions 1, 2, 3, `CreateSnapshot(2)` returns a
snapshot, the log then spans 4..4 and the store has no entry key. -/
theorem store_memory_agreement_fails :
    (exampleFresh.isOpen = true ∧ exampleFresh.StoreMemoryAgree ∧
      (exampleFresh.call listCodec (.append gapEntries)).1 = none ∧
      ¬(exampleFresh.call listCodec (.append gapEntries)).2.StoreMemoryAgree) ∧
    ((exampleFresh.call listCodec (.applySnapshot maxIndexSnapshot)).1 = none ∧
      ¬(exampleFresh.call listCodec (.applySnapshot maxIndexSnapshot)).2.StoreMemoryAgree) ∧
    (exampleShuffled.isOpen = true ∧ exampleShuffled.StoreMemoryAgree ∧
      (exampleShuffled.call listCodec (.createSnapshot 2 none [])).1 = none ∧
      ¬(exampleShuffled.call listCodec (.createSnapshot 2 none [])).2.StoreMemoryAgree) := by
  refine ⟨⟨rfl, exampleFresh_agree, by decide, ?_⟩, ⟨by decide, ?_⟩,
    ⟨rfl, exampleShuffled_agree, by decide, ?_⟩⟩
  · rintro ⟨f, l, hf, hl, h⟩
    have hf' : (exampleFresh.call listCodec (.append gapEntries)).2.FirstIndex = .ok 1 := rfl
    have hl' : (exampleFresh.call listCodec (.append gapEntries)).2.LastIndex = .ok 2 := rfl
    rw [hf'] at hf
    rw [hl'] at hl
    injection hf with hf
    injection hl with hl
    subst hf hl
    have := (h 3 (by decide)).mp (by decide)
    omega
  · rintro ⟨f, l, hf, hl, h⟩
    have hf' : (exampleFresh.call listCodec (.applySnapshot maxIndexSnapshot)).2.FirstIndex
        = .ok 0 := rfl
    have hl' : (exampleFresh.call listCodec (.applySnapshot maxIndexSnapshot)).2.LastIndex
        = .ok (U64 - 1) := rfl
    rw [hf'] at hf
    rw [hl'] at hl
    injection hf with hf
    injection hl with hl
    subst hf hl
    have := (h 0 (by decide)).mpr ⟨Nat.le_refl _, Nat.zero_le _⟩
    revert this
    decide
  · rintro ⟨f, l, hf, hl, h⟩
    have hf' : (exampleShuffled.call listCodec (.createSnapshot 2 none [])).2.FirstIndex
        = .ok 4 := rfl
    have hl' : (exampleShuffled.call listCodec (.createSnapshot 2 none [])).2.LastIndex
        = .ok 4 := rfl
    rw [hf'] at hf
    rw [hl'] at hl
    injection hf with hf
    injection hl with hl
    subst hf hl
    have := (h 4 (by decide)).mpr ⟨Nat.le_refl _, Nat.le_refl _⟩
    revert this
    decide

/-- C2 (amended): on an open storage whose in-memory log is well formed and whose
store has an entry key for exactly the indices `FirstIndex() .. LastIndex()`,
after any `SetHardState`, `CreateSnapshot`, `Append` of entries with consecutive
indices, or `ApplySnapshot` of a snapshot below the largest `uint64` index that
returns nil, the storage is still open, the log is again well formed and the
two sets of indices are again equal. -/
theorem store_memory_agreement_preserved (c : Codec) (rs rs1 : RaftStorage) (k : Call)
    (hopen : rs.isOpen = true) (hwf : rs.memoryStorage.WellFormed)
    (hagree : rs.StoreMemoryAgree) (hk : k.consecutive = true) (hmax : k.belowMax = true)
    (hcall : rs.call c k = (none, rs1)) :
    rs1.isOpen = true ∧ rs1.memoryStorage.WellFormed ∧ rs1.StoreMemoryAgree := by
  have ho := call_isOpen c rs k
  rw [hcall] at ho
  refine ⟨ho.trans hopen, ?_⟩
  cases k with
  | append entries => exact agree_Append hopen hwf hagree hk hcall
  | setHardState st => exact agree_SetHardState hopen hwf hagree hcall
  | createSnapshot i cs data =>
    simp only [RaftStorage.call] at hcall
    rcases hcs : rs.CreateSnapshot c i cs data with ⟨_ | snap, rs2⟩
    · simp [hcs] at hcall
    · simp only [hcs] at hcall
      injection hcall with _ hcall
      subst hcall
      exact agree_CreateSnapshot hopen hwf hagree hcs
  | applySnapshot snap =>
    exact agree_ApplySnapshot hopen hwf hagree (by simpa [Call.belowMax] using hmax) hcall

/-- The amended agreement at the append of two consecutive entries to the fresh storage. -/
theorem store_memory_agreement_preserved_witness :
    (exampleFresh.call listCodec (.append [exampleEntry 1 1, exampleEntry 2 1])).2.isOpen = true ∧
      (exampleFresh.call listCodec
        (.append [exampleEntry 1 1, exampleEntry 2 1])).2.memoryStorage.WellFormed ∧
      (exampleFresh.call listCodec
        (.append [exampleEntry 1 1, exampleEntry 2 1])).2.StoreMemoryAgree :=
  store_memory_agreement_preserved listCodec exampleFresh _
    (.append [exampleEntry 1 1, exampleEntry 2 1]) rfl
    (show consecutiveFrom 1 [] = true by decide) exampleFresh_agree (by decide) (by decide)
    (by decide)

/-! ## Atomicity on a failing batch -/

/-- C3: on an open storage whose driver is about to fail with `code`, each of
`SetHardState`, `Append`, `ApplySnapshot` and `CreateSnapshot` that makes its
`Batch` call (the only driver call of these operations, so the one that uses up
the scripted failure) returns the driver's error, and the in-memory state
(hard state, snapshot, log) is the one before the call. -/
theorem batch_failure_restores_memory (c : Codec) (rs : RaftStorage) (code : Nat)
    (rest : List (Option Nat)) (hopen : rs.isOpen = true)
    (hf : rs.storageDriver.faults = some code :: rest) :
    (∀ st, (rs.SetHardState c st).2.storageDriver.faults = rest →
      (rs.SetHardState c st).1 = some (.driver code) ∧
        (rs.SetHardState c st).2.memoryStorage = rs.memoryStorage) ∧
    (∀ entries, (rs.Append c entries).2.storageDriver.faults = rest →
      (rs.Append c entries).1 = some (.driver code) ∧
        (rs.Append c entries).2.memoryStorage = rs.memoryStorage) ∧
    (∀ snap, (rs.ApplySnapshot c snap).2.storageDriver.faults = rest →
      (rs.ApplySnapshot c snap).1 = some (.driver code) ∧
        (rs.ApplySnapshot c snap).2.memoryStorage = rs.memoryStorage) ∧
    (∀ i cs data, (rs.CreateSnapshot c i cs data).2.storageDriver.faults = rest →
      (rs.CreateSnapshot c i cs data).1 = .error (.driver code) ∧
        (rs.CreateSnapshot c i cs data).2.memoryStorage = rs.memoryStorage) :=
  ⟨fun st h => SetHardState_batch_failure c rs st code rest hopen hf h,
   fun entries h => Append_batch_failure c rs entries code rest hopen hf h,
   fun snap h => ApplySnapshot_batch_failure c rs snap code rest hopen hf h,
   fun i cs data h => CreateSnapshot_batch_failure c rs i cs data code rest hopen hf h⟩

/-- The atomicity at an `Append` of two entries whose batch fails with code 5. -/
theorem batch_failure_restores_memory_witness :
    (exampleFailing.Append listCodec [exampleEntry 1 1, exampleEntry 2 1]).1
        = some (.driver 5) ∧
      (exampleFailing.Append listCodec [exampleEntry 1 1, exampleEntry 2 1]).2.memoryStorage
        = exampleFailing.memoryStorage :=
  (batch_failure_restores_memory listCodec exampleFailing 5 [] rfl rfl).2.1
    [exampleEntry 1 1, exampleEntry 2 1] (by decide)

end Raft

/-! # Properties of the partitioning strategy -/

namespace Cluster

/-! ## Releasing and filling slots -/

theorem releaseFirst_length (id k : Nat) (l : List Nat) : (releaseFirst id k l).length = l.length := by
  induction l generalizing k with
  | nil => cases k <;> rfl
  | cons s rest ih =>
    cases k with
    | zero => rfl
    | succ k =>
      simp only [releaseFirst]
      split <;> simp [ih]

theorem releaseFirst_mem {id k : Nat} {l : List Nat} {x : Nat} (h : x ∈ releaseFirst id k l) :
    x = 0 ∨ x ∈ l := by
  induction l generalizing k with
  | nil => cases k <;> simp [releaseFirst] at h
  | cons s rest ih =>
    cases k with
    | zero => right; simpa [releaseFirst] using h
    | succ k =>
      simp only [releaseFirst] at h
      split at h
      · rcases List.mem_cons.mp h with h | h
        · left; exact h
        · rcases ih h with h | h
          · left; exact h
          · right; exact List.mem_cons_of_mem _ h
      · rcases List.mem_cons.mp h with h | h
        · right; rw [h]; exact List.mem_cons_self _ _
        · rcases ih h with h | h
          · left; exact h
          · right; exact List.mem_cons_of_mem _ h

theorem releaseFirst_count_self {id : Nat} (hid : id ≠ 0) (k : Nat) (l : List Nat) :
    (releaseFirst id k l).count id = l.count id - k := by
  induction l generalizing k with
  | nil => cases k <;> simp [releaseFirst]
  | cons s rest ih =>
    cases k with
    | zero => simp [releaseFirst]
    | succ k =>
      simp only [releaseFirst]
      by_cases hs : s = id
      · subst hs
        have h0 : ¬ (0 = s) := fun h => hid h.symm
        simp only [if_true, List.count_cons, ih, beq_iff_eq, h0, if_false]
        omega
      · have hs' : ¬ (s = id) := hs
        simp only [if_neg hs, List.count_cons, ih, beq_iff_eq, hs', if_false]
        omega

theorem releaseFirst_count_other {id j : Nat} (hj : j ≠ id) (hj0 : j ≠ 0) (k : Nat)
    (l : List Nat) : (releaseFirst id k l).count j = l.count j := by
  induction l generalizing k with
  | nil => cases k <;> simp [releaseFirst]
  | cons s rest ih =>
    cases k with
    | zero => simp [releaseFirst]
    | succ k =>
      simp only [releaseFirst]
      by_cases hs : s = id
      · subst hs
        have h0 : ¬ (0 = j) := fun h => hj0 h.symm
        have h1 : ¬ (s = j) := fun h => hj h.symm
        simp only [if_true, List.count_cons, ih, beq_iff_eq, h0, h1, if_false]
      · simp only [if_neg hs, List.count_cons, ih]

theorem releaseOverfull_length (plan : List (Nat × Nat)) (l : List Nat) :
    (releaseOverfull plan l).length = l.length := by
  induction plan generalizing l with
  | nil => rfl
  | cons p ps ih =>
    simp only [releaseOverfull, List.foldl_cons] at ih ⊢
    rw [ih, releaseFirst_length]

theorem releaseOverfull_mem {plan : List (Nat × Nat)} {l : List Nat} {x : Nat}
    (h : x ∈ releaseOverfull plan l) : x = 0 ∨ x ∈ l := by
  induction plan generalizing l with
  | nil => right; exact h
  | cons p ps ih =>
    simp only [releaseOverfull, List.foldl_cons] at ih h
    rcases ih h with h | h
    · left; exact h
    · exact releaseFirst_mem h

theorem releaseOverfull_count_not_mem {plan : List (Nat × Nat)} {j : Nat}
    (hj : j ∉ plan.map Prod.fst) (hj0 : j ≠ 0) (l : List Nat) :
    (releaseOverfull plan l).count j = l.count j := by
  induction plan generalizing l with
  | nil => rfl
  | cons p ps ih =>
    simp only [List.map_cons, List.mem_cons, not_or] at hj
    simp only [releaseOverfull, List.foldl_cons] at ih ⊢
    rw [ih hj.2, releaseFirst_count_other hj.1 hj0]

theorem releaseOverfull_count {plan : List (Nat × Nat)} (hnd : (plan.map Prod.fst).Nodup)
    (h0 : 0 ∉ plan.map Prod.fst) {id tgt : Nat} (hp : (id, tgt) ∈ plan) (l : List Nat) :
    (releaseOverfull plan l).count id = min (l.count id) tgt := by
  induction plan generalizing l with
  | nil => simp at hp
  | cons p ps ih =>
    simp only [List.map_cons, List.nodup_cons, List.mem_cons, not_or] at hnd h0
    simp only [releaseOverfull, List.foldl_cons] at ih ⊢
    rcases List.mem_cons.mp hp with hp | hp
    · subst hp
      have := releaseOverfull_count_not_mem hnd.1 (Ne.symm h0.1)
        (releaseFirst id (l.count id - tgt) l)
      simp only [releaseOverfull] at this
      rw [this, releaseFirst_count_self (Ne.symm h0.1)]
      simp only
      omega
    · have hne : id ≠ p.1 := by
        intro he
        apply hnd.1
        rw [← he]
        exact List.mem_map.mpr ⟨(id, tgt), hp, rfl⟩
      have hid0 : id ≠ 0 := by
        intro he
        apply h0.2
        rw [← he]
        exact List.mem_map.mpr ⟨(id, tgt), hp, rfl⟩
      rw [ih hnd.2 h0.2 hp, releaseFirst_count_other hne hid0]

theorem clearSlots_length (ids l : List Nat) : (clearSlots ids l).length = l.length := by
  simp [clearSlots]

theorem clearSlots_mem {ids l : List Nat} {x : Nat} (h : x ∈ clearSlots ids l) :
    x = 0 ∨ x ∈ ids := by
  simp only [clearSlots, List.mem_map] at h
  obtain ⟨s, _, hs⟩ := h
  split at hs
  · right; rw [← hs]; assumption
  · left; exact hs.symm

theorem clearSlots_eq_self {ids l : List Nat} (h : ∀ x ∈ l, x ∈ ids) : clearSlots ids l = l := by
  unfold clearSlots
  conv_rhs => rw [← List.map_id l]
  apply List.map_congr_left
  intro x hx
  simp [h x hx]

theorem sum_count_cons {ids : List Nat} (hnd : ids.Nodup) {s : Nat} (hs : s ∈ ids)
    (l : List Nat) :
    (ids.map (fun id => (s :: l).count id)).sum = (ids.map (fun id => l.count id)).sum + 1 := by
  induction ids with
  | nil => simp at hs
  | cons a as ih =>
    simp only [List.nodup_cons] at hnd
    simp only [List.map_cons, List.sum_cons, List.count_cons, beq_iff_eq]
    rcases List.mem_cons.mp hs with h | h
    · subst h
      have : as.map (fun id => List.count id l + if s = id then 1 else 0) =
          as.map (fun id => List.count id l) := by
        apply List.map_congr_left
        intro x hx
        have : s ≠ x := fun he => hnd.1 (he ▸ hx)
        simp [this]
      rw [this]
      simp
      omega
    · have ha : s ≠ a := fun he => hnd.1 (he ▸ h)
      have := ih hnd.2 h
      simp only [List.count_cons, beq_iff_eq] at this
      rw [this]
      simp [ha]
      omega

theorem length_eq_count_add {ids l : List Nat} (hnd : ids.Nodup) (h0 : 0 ∉ ids)
    (hl : ∀ x ∈ l, x = 0 ∨ x ∈ ids) :
    l.length = l.count 0 + (ids.map (fun id => l.count id)).sum := by
  induction l with
  | nil => simp
  | cons s rest ih =>
    have ih' := ih (fun x hx => hl x (List.mem_cons_of_mem _ hx))
    rcases hl s (List.mem_cons_self _ _) with hs | hs
    · subst hs
      have : ids.map (fun id => List.count id (0 :: rest)) =
          ids.map (fun id => List.count id rest) := by
        apply List.map_congr_left
        intro x hx
        have : (0 : Nat) ≠ x := fun he => h0 (he ▸ hx)
        simp [List.count_cons, this]
      rw [this]
      simp only [List.length_cons, List.count_cons_self]
      omega
    · have hs0 : s ≠ 0 := fun he => h0 (he ▸ hs)
      rw [sum_count_cons hnd hs]
      simp only [List.length_cons, List.count_cons, beq_iff_eq, hs0, if_false]
      omega

theorem targets_length (P N : Nat) : (targets P N).length = N := by
  simp [targets]

theorem sum_map_range_ite (N r : Nat) (hr : r ≤ N) :
    ((List.range N).map (fun i => if i < r then 1 else 0)).sum = r := by
  induction N with
  | zero => simp at hr; simp [hr]
  | succ n ih =>
    rw [List.range_succ, List.map_append, List.sum_append]
    by_cases h : r ≤ n
    · rw [ih h]
      have : ¬ n < r := by omega
      simp [this]
    · have hrn : r = n + 1 := by omega
      subst hrn
      have : (List.range n).map (fun i => if i < n + 1 then 1 else 0) =
          (List.range n).map (fun _ => 1) := by
        apply List.map_congr_left
        intro x hx
        have := List.mem_range.mp hx
        simp; omega
      rw [this]
      simp

theorem targets_sum (P N : Nat) (hN : 0 < N) : (targets P N).sum = P := by
  have h1 : (targets P N).sum = ((List.range N).map (fun _ => P / N)).sum +
      ((List.range N).map (fun i => if i < P % N then 1 else 0)).sum := by
    unfold targets
    induction (List.range N) with
    | nil => rfl
    | cons a as ih => simp only [List.map_cons, List.sum_cons, ih]; omega
  rw [h1, sum_map_range_ite N (P % N) (Nat.le_of_lt (Nat.mod_lt _ hN))]
  simp only [List.map_const', List.length_range, List.sum_replicate, smul_eq_mul]
  exact Nat.div_add_mod P N

theorem targets_bounds {P N t : Nat} (h : t ∈ targets P N) :
    P / N ≤ t ∧ t ≤ P / N + (if P % N ≠ 0 then 1 else 0) := by
  simp only [targets, List.mem_map, List.mem_range] at h
  obtain ⟨i, _, rfl⟩ := h
  constructor
  · omega
  · split <;> split <;> omega

theorem shortfalls_length (plan : List (Nat × Nat)) (l : List Nat) :
    (shortfalls plan l).length = (plan.map (fun p => p.2 - l.count p.1)).sum := by
  induction plan with
  | nil => rfl
  | cons p ps ih =>
    simp only [shortfalls, List.flatMap_cons, List.length_append, List.length_replicate,
      List.map_cons, List.sum_cons] at ih ⊢
    rw [ih]

theorem shortfalls_mem {plan : List (Nat × Nat)} {l : List Nat} {x : Nat}
    (h : x ∈ shortfalls plan l) : x ∈ plan.map Prod.fst := by
  simp only [shortfalls, List.mem_flatMap] at h
  obtain ⟨p, hp, hx⟩ := h
  rw [(List.mem_replicate.mp hx).2]
  exact List.mem_map.mpr ⟨p, hp, rfl⟩

theorem shortfalls_count_not_mem {plan : List (Nat × Nat)} {j : Nat}
    (hj : j ∉ plan.map Prod.fst) (l : List Nat) : (shortfalls plan l).count j = 0 := by
  rw [List.count_eq_zero]
  exact fun h => hj (shortfalls_mem h)

theorem shortfalls_count {plan : List (Nat × Nat)} (hnd : (plan.map Prod.fst).Nodup)
    {id tgt : Nat} (hp : (id, tgt) ∈ plan) (l : List Nat) :
    (shortfalls plan l).count id = tgt - l.count id := by
  induction plan with
  | nil => simp at hp
  | cons p ps ih =>
    simp only [List.map_cons, List.nodup_cons] at hnd
    have hcons : shortfalls (p :: ps) l =
        List.replicate (p.2 - l.count p.1) p.1 ++ shortfalls ps l := rfl
    rw [hcons, List.count_append]
    rcases List.mem_cons.mp hp with hp | hp
    · subst hp
      rw [shortfalls_count_not_mem hnd.1]
      simp
    · have hne : p.1 ≠ id := by
        intro he
        apply hnd.1
        rw [he]
        exact List.mem_map.mpr ⟨(id, tgt), hp, rfl⟩
      rw [ih hnd.2 hp, List.count_replicate]
      simp [hne]

theorem sum_sub_add_sum {plan : List (Nat × Nat)} {c : Nat → Nat}
    (h : ∀ p ∈ plan, c p.1 ≤ p.2) :
    (plan.map (fun p => p.2 - c p.1)).sum + ((plan.map Prod.fst).map c).sum =
      (plan.map Prod.snd).sum := by
  induction plan with
  | nil => rfl
  | cons p ps ih =>
    have h1 := h p (List.mem_cons_self _ _)
    have h2 := ih (fun q hq => h q (List.mem_cons_of_mem _ hq))
    simp only [List.map_cons, List.sum_cons] at h2 ⊢
    omega

theorem fillSlots_length (fillers l : List Nat) : (fillSlots fillers l).length = l.length := by
  induction l generalizing fillers with
  | nil => cases fillers <;> rfl
  | cons s rest ih =>
    cases fillers with
    | nil => simp [fillSlots, ih]
    | cons f fs =>
      simp only [fillSlots]
      split <;> simp [ih]

theorem fillSlots_nil (l : List Nat) : fillSlots [] l = l := by
  induction l with
  | nil => rfl
  | cons s rest ih => simp [fillSlots, ih]

theorem fillSlots_mem {fillers l : List Nat} (hlen : fillers.length = l.count 0) {x : Nat}
    (h : x ∈ fillSlots fillers l) : x ∈ fillers ∨ (x ∈ l ∧ x ≠ 0) := by
  induction l generalizing fillers with
  | nil => cases fillers <;> simp [fillSlots] at h
  | cons s rest ih =>
    cases fillers with
    | nil =>
      rw [fillSlots_nil] at h
      right
      refine ⟨h, fun hx => ?_⟩
      subst hx
      have := List.count_pos_iff.mpr h
      simp only [List.length_nil] at hlen
      omega
    | cons f fs =>
      simp only [fillSlots] at h
      by_cases hs : s = 0
      · subst hs
        simp only [if_true, List.mem_cons] at h
        simp only [List.length_cons, List.count_cons_self] at hlen
        rcases h with h | h
        · left; rw [h]; exact List.mem_cons_self _ _
        · rcases ih (by omega) h with h | h
          · left; exact List.mem_cons_of_mem _ h
          · right; exact ⟨List.mem_cons_of_mem _ h.1, h.2⟩
      · simp only [if_neg hs, List.mem_cons] at h
        have hs' : ¬ (s = 0) := hs
        simp only [List.count_cons, beq_iff_eq, hs', if_false, Nat.add_zero] at hlen
        rcases h with h | h
        · right; rw [h]; exact ⟨List.mem_cons_self _ _, hs⟩
        · rcases ih hlen h with h | h
          · left; exact h
          · right; exact ⟨List.mem_cons_of_mem _ h.1, h.2⟩

theorem fillSlots_count {fillers l : List Nat} (hlen : fillers.length = l.count 0) {j : Nat}
    (hj : j ≠ 0) : (fillSlots fillers l).count j = l.count j + fillers.count j := by
  induction l generalizing fillers with
  | nil =>
    cases fillers with
    | nil => rfl
    | cons f fs => simp at hlen
  | cons s rest ih =>
    cases fillers with
    | nil => rw [fillSlots_nil]; simp
    | cons f fs =>
      simp only [fillSlots]
      have hj0 : ¬ (0 = j) := fun h => hj h.symm
      by_cases hs : s = 0
      · subst hs
        simp only [List.length_cons, List.count_cons_self] at hlen
        simp only [if_true, List.count_cons, beq_iff_eq, hj0, if_false, Nat.add_zero]
        rw [ih (by omega)]
        omega
      · have hs' : ¬ (s = 0) := hs
        simp only [List.count_cons, beq_iff_eq, hs', if_false, Nat.add_zero] at hlen
        simp only [if_neg hs, List.count_cons, beq_iff_eq]
        rw [ih hlen]
        simp only [List.count_cons, beq_iff_eq]
        omega

theorem plan_fst (ids : List Nat) (P : Nat) :
    (ids.zip (targets P ids.length)).map Prod.fst = ids := by
  rw [List.map_fst_zip]
  rw [targets_length]

theorem plan_snd (ids : List Nat) (P : Nat) :
    (ids.zip (targets P ids.length)).map Prod.snd = targets P ids.length := by
  rw [List.map_snd_zip]
  rw [targets_length]

/-- The outcome of the mechanism: every slot is owned by an eligible node and every
eligible node owns exactly its target. -/
theorem rebalance_valid {ids current : List Nat} {P : Nat} (hnd : ids.Nodup) (h0 : 0 ∉ ids)
    (hne : ids ≠ []) (hlen : current.length = P) :
    (rebalance ids current P).length = P ∧
      (∀ x ∈ rebalance ids current P, x ∈ ids) ∧
      ∀ p ∈ ids.zip (targets P ids.length), (rebalance ids current P).count p.1 = p.2 := by
  have hN : 0 < ids.length := List.length_pos.mpr hne
  have hfst := plan_fst ids P
  have hsnd := plan_snd ids P
  have hndp : ((ids.zip (targets P ids.length)).map Prod.fst).Nodup := by rw [hfst]; exact hnd
  have h0p : 0 ∉ (ids.zip (targets P ids.length)).map Prod.fst := by rw [hfst]; exact h0
  have hrlen : (releaseOverfull (ids.zip (targets P ids.length)) (clearSlots ids current)).length
      = P := by
    rw [releaseOverfull_length, clearSlots_length, hlen]
  have hrmem : ∀ x ∈ releaseOverfull (ids.zip (targets P ids.length)) (clearSlots ids current),
      x = 0 ∨ x ∈ ids := by
    intro x hx
    rcases releaseOverfull_mem hx with h | h
    · left; exact h
    · exact clearSlots_mem h
  have hrcount : ∀ p ∈ ids.zip (targets P ids.length),
      (releaseOverfull (ids.zip (targets P ids.length)) (clearSlots ids current)).count p.1
        ≤ p.2 := by
    intro p hp
    rw [releaseOverfull_count hndp h0p (show (p.1, p.2) ∈ _ from hp)]
    exact Nat.min_le_right _ _
  have hfill : (shortfalls (ids.zip (targets P ids.length))
      (releaseOverfull (ids.zip (targets P ids.length)) (clearSlots ids current))).length =
      (releaseOverfull (ids.zip (targets P ids.length)) (clearSlots ids current)).count 0 := by
    have h1 := @sum_sub_add_sum (ids.zip (targets P ids.length))
      (fun id => (releaseOverfull (ids.zip (targets P ids.length))
        (clearSlots ids current)).count id) hrcount
    rw [hfst, hsnd, targets_sum P ids.length hN] at h1
    beta_reduce at h1
    have h2 := length_eq_count_add hnd h0 hrmem
    rw [hrlen] at h2
    rw [shortfalls_length]
    omega
  simp only [rebalance]
  refine ⟨by rw [fillSlots_length, hrlen], ?_, ?_⟩
  · intro x hx
    rcases fillSlots_mem hfill hx with h | ⟨h, hx0⟩
    · have := shortfalls_mem h
      rwa [hfst] at this
    · rcases hrmem x h with h | h
      · exact absurd h hx0
      · exact h
  · intro p hp
    have hp0 : p.1 ≠ 0 := by
      intro he
      apply h0p
      rw [← he]
      exact List.mem_map.mpr ⟨p, hp, rfl⟩
    rw [fillSlots_count hfill hp0, shortfalls_count hndp (show (p.1, p.2) ∈ _ from hp)]
    have := hrcount p hp
    omega

/-! ## AssignTokens -/

theorem strictlyIncreasing_pairwise {l : List Nat} (h : strictlyIncreasing l = true) :
    l.Pairwise (· < ·) := by
  induction l with
  | nil => exact List.Pairwise.nil
  | cons a rest ih =>
    cases rest with
    | nil => simp
    | cons b rest =>
      simp only [strictlyIncreasing, Bool.and_eq_true, decide_eq_true_eq] at h
      have hp := ih h.2
      refine List.Pairwise.cons ?_ hp
      intro x hx
      rcases List.mem_cons.mp hx with hx | hx
      · rw [hx]; exact h.1
      · exact Nat.lt_trans h.1 (List.rel_of_pairwise_cons hp hx)

theorem strictlyIncreasing_nodup {l : List Nat} (h : strictlyIncreasing l = true) : l.Nodup :=
  (strictlyIncreasing_pairwise h).imp (fun hab => Nat.ne_of_lt hab)

theorem eligibleIds_sublist (nodes : List NodeConfig) :
    (eligibleIds nodes).Sublist (nodes.map (fun n => n.Address.NodeID)) :=
  List.Sublist.map _ (List.filter_sublist _)

theorem mem_eligibleIds {nodes : List NodeConfig} {id : Nat} :
    id ∈ eligibleIds nodes ↔ ∃ n ∈ nodes, 0 < n.Capacity ∧ n.Address.NodeID = id := by
  simp only [eligibleIds, List.mem_map, List.mem_filter, decide_eq_true_eq]
  constructor
  · rintro ⟨n, ⟨h1, h2⟩, h3⟩; exact ⟨n, h1, h2, h3⟩
  · rintro ⟨n, h1, h2, h3⟩; exact ⟨n, ⟨h1, h2⟩, h3⟩

theorem precondition_check_false {nodes : List NodeConfig} {current : List Nat}
    (h : ∀ id ∈ current, id ≠ 0 → ∃ n ∈ nodes, n.Address.NodeID = id) :
    current.any (fun id => id != 0 && !nodes.any (fun n => n.Address.NodeID == id)) = false := by
  rw [List.any_eq_false]
  intro id hid
  by_cases h0 : id = 0
  · simp [h0]
  · obtain ⟨n, hn, hnid⟩ := h id hid h0
    have hany : nodes.any (fun n => n.Address.NodeID == id) = true :=
      List.any_eq_true.mpr ⟨n, hn, by simp [hnid]⟩
    simp [hany]

theorem AssignTokens_of_preconditions {nodes : List NodeConfig} {current : List Nat} {P : Nat}
    (hpre : preconditionsHold nodes current P) :
    AssignTokens (some nodes) current P =
      if eligibleIds nodes = [] then .error .ENoNodesAvailable
      else .ok (rebalance (eligibleIds nodes) current P) := by
  obtain ⟨h1, h2, h3, h4⟩ := hpre
  unfold AssignTokens
  simp only [h1, ne_eq, not_true_eq_false, if_false, Nat.ne_of_gt h2, h3, Bool.not_true,
    Bool.false_eq_true, precondition_check_false h4]

/-- C4: for `P > 0`, a node list with strictly increasing positive ids of which
`N ≥ 1` nodes have capacity > 0, and a current assignment of length `P` whose
nonzero ids all occur in the list, `AssignTokens` returns no error and an
assignment of length `P` in which every slot holds the id of a listed node and
never 0, every node with capacity > 0 owns between `⌊P/N⌋` and `⌈P/N⌉` tokens
and, when `N ≤ P`, at least one. -/
theorem AssignTokens_valid (nodes : List NodeConfig) (current : List Nat) (P : Nat)
    (hpre : preconditionsHold nodes current P)
    (hpos : ∀ n ∈ nodes, 0 < n.Address.NodeID)
    (hN : 1 ≤ (eligibleIds nodes).length) :
    ∃ a, AssignTokens (some nodes) current P = .ok a ∧ a.length = P ∧
      (∀ s ∈ a, s ≠ 0 ∧ ∃ n ∈ nodes, n.Address.NodeID = s) ∧
      (∀ n ∈ nodes, 0 < n.Capacity →
        P / (eligibleIds nodes).length ≤ tokenCount a n.Address.NodeID ∧
          tokenCount a n.Address.NodeID ≤ tokenCountCeil P (eligibleIds nodes).length) ∧
      ((eligibleIds nodes).length ≤ P →
        ∀ n ∈ nodes, 0 < n.Capacity → 1 ≤ tokenCount a n.Address.NodeID) := by
  have hne : eligibleIds nodes ≠ [] := by
    intro h
    rw [h] at hN
    simp at hN
  have hnd : (eligibleIds nodes).Nodup :=
    (strictlyIncreasing_nodup hpre.2.2.1).sublist (eligibleIds_sublist nodes)
  have h0 : 0 ∉ eligibleIds nodes := by
    intro h
    obtain ⟨n, hn, _, hid⟩ := mem_eligibleIds.mp h
    have := hpos n hn
    omega
  obtain ⟨hlen, hmem, hcount⟩ := rebalance_valid hnd h0 hne hpre.1
  have hbounds : ∀ n ∈ nodes, 0 < n.Capacity →
      P / (eligibleIds nodes).length ≤
          tokenCount (rebalance (eligibleIds nodes) current P) n.Address.NodeID ∧
        tokenCount (rebalance (eligibleIds nodes) current P) n.Address.NodeID ≤
          tokenCountCeil P (eligibleIds nodes).length := by
    intro n hn hcap
    have hid : n.Address.NodeID ∈ (List.zip (eligibleIds nodes)
        (targets P (eligibleIds nodes).length)).map Prod.fst := by
      rw [plan_fst]
      exact mem_eligibleIds.mpr ⟨n, hn, hcap, rfl⟩
    obtain ⟨p, hp, hpid⟩ := List.mem_map.mp hid
    have hc := hcount p hp
    rw [hpid] at hc
    have ht : p.2 ∈ targets P (eligibleIds nodes).length := by
      rw [← plan_snd]
      exact List.mem_map.mpr ⟨p, hp, rfl⟩
    have hb := targets_bounds ht
    unfold tokenCount tokenCountCeil
    rw [hc]
    refine ⟨hb.1, ?_⟩
    by_cases hmod : P % (eligibleIds nodes).length = 0
    · have := hb.2
      simp only [hmod, ne_eq, not_true_eq_false, if_false] at this ⊢
      omega
    · have := hb.2
      simp only [hmod, ne_eq, not_false_eq_true, if_true] at this ⊢
      omega
  refine ⟨rebalance (eligibleIds nodes) current P, ?_, hlen, ?_, hbounds, ?_⟩
  · rw [AssignTokens_of_preconditions hpre, if_neg hne]
  · intro s hs
    have hs' := hmem s hs
    obtain ⟨n, hn, _, hid⟩ := mem_eligibleIds.mp hs'
    exact ⟨fun h => h0 (h ▸ hs'), n, hn, hid⟩
  · intro hNP n hn hcap
    have := (hbounds n hn hcap).1
    have hdiv : 1 ≤ P / (eligibleIds nodes).length :=
      (Nat.one_le_div_iff (by omega)).mpr hNP
    omega

/-- The fresh-start case of C4: four nodes, one of them without capacity, and a
current assignment that names the node without capacity. -/
theorem AssignTokens_valid_witness :
    ∃ a, AssignTokens (some [exampleNode 1 1, exampleNode 2 1, exampleNode 3 0, exampleNode 4 2])
        [3, 3, 3, 1, 1, 1, 1, 1] 8 = .ok a ∧ a.length = 8 ∧
      (∀ s ∈ a, s ≠ 0 ∧
        ∃ n ∈ [exampleNode 1 1, exampleNode 2 1, exampleNode 3 0, exampleNode 4 2],
          n.Address.NodeID = s) ∧
      (∀ n ∈ [exampleNode 1 1, exampleNode 2 1, exampleNode 3 0, exampleNode 4 2],
        0 < n.Capacity →
        8 / (eligibleIds [exampleNode 1 1, exampleNode 2 1, exampleNode 3 0,
            exampleNode 4 2]).length ≤ tokenCount a n.Address.NodeID ∧
          tokenCount a n.Address.NodeID ≤ tokenCountCeil 8
            (eligibleIds [exampleNode 1 1, exampleNode 2 1, exampleNode 3 0,
              exampleNode 4 2]).length) ∧
      ((eligibleIds [exampleNode 1 1, exampleNode 2 1, exampleNode 3 0,
          exampleNode 4 2]).length ≤ 8 →
        ∀ n ∈ [exampleNode 1 1, exampleNode 2 1, exampleNode 3 0, exampleNode 4 2],
          0 < n.Capacity → 1 ≤ tokenCount a n.Address.NodeID) :=
  AssignTokens_valid [exampleNode 1 1, exampleNode 2 1, exampleNode 3 0, exampleNode 4 2]
    [3, 3, 3, 1, 1, 1, 1, 1] 8 ⟨rfl, by decide, rfl, by decide⟩ (by decide) (by decide)

theorem releaseOverfull_fixed {plan : List (Nat × Nat)} {l : List Nat}
    (h : ∀ p ∈ plan, l.count p.1 = p.2) : releaseOverfull plan l = l := by
  induction plan with
  | nil => rfl
  | cons p ps ih =>
    have hp := h p (List.mem_cons_self _ _)
    simp only [releaseOverfull, List.foldl_cons] at ih ⊢
    rw [hp, Nat.sub_self]
    have h0 : releaseFirst p.1 0 l = l := by cases l <;> rfl
    rw [h0]
    exact ih (fun q hq => h q (List.mem_cons_of_mem _ hq))

theorem shortfalls_fixed {plan : List (Nat × Nat)} {l : List Nat}
    (h : ∀ p ∈ plan, l.count p.1 = p.2) : shortfalls plan l = [] := by
  induction plan with
  | nil => rfl
  | cons p ps ih =>
    have hp := h p (List.mem_cons_self _ _)
    have hcons : shortfalls (p :: ps) l =
        List.replicate (p.2 - l.count p.1) p.1 ++ shortfalls ps l := rfl
    rw [hcons, ih (fun q hq => h q (List.mem_cons_of_mem _ hq)), hp, Nat.sub_self]
    rfl

theorem rebalance_fixed {ids r : List Nat} {P : Nat} (hmem : ∀ x ∈ r, x ∈ ids)
    (hcount : ∀ p ∈ ids.zip (targets P ids.length), r.count p.1 = p.2) :
    rebalance ids r P = r := by
  simp only [rebalance, clearSlots_eq_self hmem, releaseOverfull_fixed hcount,
    shortfalls_fixed hcount, fillSlots_nil]

theorem AssignTokens_ok {nodes : List NodeConfig} {current r : List Nat} {P : Nat}
    (h : AssignTokens (some nodes) current P = .ok r) :
    current.length = P ∧ 0 < P ∧
      strictlyIncreasing (nodes.map (fun n => n.Address.NodeID)) = true ∧
      eligibleIds nodes ≠ [] ∧ r = rebalance (eligibleIds nodes) current P := by
  unfold AssignTokens at h
  simp only at h
  split at h
  · cases h
  · split at h
    · cases h
    · split at h
      · cases h
      · split at h
        · cases h
        · split at h
          · cases h
          · rename_i h1 h2 h3 h4 h5
            injection h with h
            refine ⟨by simpa using h1, by omega, by simpa using h3, h5, h.symm⟩

/-- C5: an assignment that `AssignTokens` returned for a list of nodes with positive
ids is returned unchanged, slot for slot, when it is passed back as the current
assignment together with nodes of the same ids and capacities and the same
partition count. -/
theorem AssignTokens_stable (nodes nodes1 : List NodeConfig) (current r : List Nat) (P : Nat)
    (hpos : ∀ n ∈ nodes, 0 < n.Address.NodeID)
    (hsame : nodes1.map (fun n => (n.Address.NodeID, n.Capacity)) =
      nodes.map (fun n => (n.Address.NodeID, n.Capacity)))
    (h : AssignTokens (some nodes) current P = .ok r) :
    AssignTokens (some nodes1) r P = .ok r := by
  obtain ⟨hlen, hP, hinc, hne, hr⟩ := AssignTokens_ok h
  have hids : nodes1.map (fun n => n.Address.NodeID) = nodes.map (fun n => n.Address.NodeID) := by
    have := congrArg (List.map Prod.fst) hsame
    simpa [List.map_map, Function.comp_def] using this
  have helig : eligibleIds nodes1 = eligibleIds nodes := by
    have h1 : ∀ l : List NodeConfig, eligibleIds l =
        ((l.map (fun n => (n.Address.NodeID, n.Capacity))).filter
          (fun p => decide (0 < p.2))).map Prod.fst := by
      intro l
      simp [eligibleIds, List.filter_map, List.map_map, Function.comp_def]
    rw [h1, h1, hsame]
  have hnd : (eligibleIds nodes).Nodup :=
    (strictlyIncreasing_nodup hinc).sublist (eligibleIds_sublist nodes)
  have h0 : 0 ∉ eligibleIds nodes := by
    intro h
    obtain ⟨n, hn, _, hid⟩ := mem_eligibleIds.mp h
    have := hpos n hn
    omega
  obtain ⟨hrlen, hmem, hcount⟩ := rebalance_valid hnd h0 hne hlen
  rw [← hr] at hrlen hmem hcount
  have hpre : preconditionsHold nodes1 r P := by
    refine ⟨hrlen, hP, by rw [hids]; exact hinc, ?_⟩
    intro id hid _
    have := (eligibleIds_sublist nodes).subset (hmem id hid)
    rw [← hids] at this
    obtain ⟨n, hn, hnid⟩ := List.mem_map.mp this
    exact ⟨n, hn, hnid⟩
  rw [AssignTokens_of_preconditions hpre, helig, if_neg hne, rebalance_fixed hmem hcount]

/-- The stability at three nodes and eight partitions, starting from no assignment. -/
theorem AssignTokens_stable_witness :
    AssignTokens (some [exampleNode 1 1, exampleNode 2 1, exampleNode 4 2])
      [1, 1, 1, 2, 2, 2, 4, 4] 8 = .ok [1, 1, 1, 2, 2, 2, 4, 4] :=
  AssignTokens_stable [exampleNode 1 1, exampleNode 2 1, exampleNode 4 2]
    [exampleNode 1 1, exampleNode 2 1, exampleNode 4 2] [0, 0, 0, 0, 0, 0, 0, 0]
    [1, 1, 1, 2, 2, 2, 4, 4] 8 (by decide) rfl rfl

/-- C6: `AssignTokens` fails with `EPreconditionFailed`, returning no assignment, when
the node list is nil, and, for a non-nil list, when the length of the current
assignment differs from `P`, when `P` is 0, when the node ids are not strictly
increasing (whatever the capacities), or when the current assignment holds a
nonzero id that is the id of no listed node. -/
theorem AssignTokens_precondition_failed (nodes : Option (List NodeConfig))
    (current : List Nat) (P : Nat)
    (h : ∀ l, nodes = some l →
      current.length ≠ P ∨ P = 0 ∨
        strictlyIncreasing (l.map (fun n => n.Address.NodeID)) = false ∨
        ∃ id ∈ current, id ≠ 0 ∧ ∀ n ∈ l, n.Address.NodeID ≠ id) :
    AssignTokens nodes current P = .error .EPreconditionFailed := by
  cases nodes with
  | none => rfl
  | some l =>
    unfold AssignTokens
    simp only
    have hcheck : current.length ≠ P ∨ P = 0 ∨
        (!strictlyIncreasing (l.map (fun n => n.Address.NodeID))) = true ∨
        current.any (fun id => id != 0 && !l.any (fun n => n.Address.NodeID == id)) = true := by
      rcases h l rfl with h1 | h1 | h1 | ⟨id, hid, hne, hno⟩
      · exact Or.inl h1
      · exact Or.inr (Or.inl h1)
      · exact Or.inr (Or.inr (Or.inl (by simp [h1])))
      · refine Or.inr (Or.inr (Or.inr ?_))
        rw [List.any_eq_true]
        refine ⟨id, hid, ?_⟩
        have hnone : l.any (fun n => n.Address.NodeID == id) = false := by
          rw [List.any_eq_false]
          intro n hn
          simpa using hno n hn
        simp [hne, hnone]
    split_ifs with a b c d e
    · rfl
    · rfl
    · rfl
    · rfl
    · rcases hcheck with h1 | h1 | h1 | h1 <;> contradiction
    · rcases hcheck with h1 | h1 | h1 | h1 <;> contradiction

/-- Two nodes of capacity 0 with the same id: the precondition failure wins over the
absence of an eligible node. -/
theorem AssignTokens_precondition_failed_witness :
    AssignTokens (some [exampleNode 1 0, exampleNode 1 0]) [0, 0, 0, 0, 0, 0, 0, 0] 8 =
      .error .EPreconditionFailed :=
  AssignTokens_precondition_failed (some [exampleNode 1 0, exampleNode 1 0])
    [0, 0, 0, 0, 0, 0, 0, 0] 8
    (fun l hl => by
      cases hl
      exact Or.inr (Or.inr (Or.inl (by decide))))

/-- C7: when the preconditions hold and the node list is empty or every node in it has
capacity 0, `AssignTokens` fails with `ENoNodesAvailable`, returning no
assignment. -/
theorem AssignTokens_no_nodes_available (nodes : List NodeConfig) (current : List Nat)
    (P : Nat) (hpre : preconditionsHold nodes current P)
    (hcap : nodes = [] ∨ ∀ n ∈ nodes, n.Capacity = 0) :
    AssignTokens (some nodes) current P = .error .ENoNodesAvailable := by
  have hall : ∀ n ∈ nodes, n.Capacity = 0 := by
    rcases hcap with h | h
    · subst h
      intro n hn
      cases hn
    · exact h
  have helig : eligibleIds nodes = [] := by
    unfold eligibleIds
    rw [List.map_eq_nil_iff, List.filter_eq_nil_iff]
    intro n hn
    simp [hall n hn]
  rw [AssignTokens_of_preconditions hpre, if_pos helig]

/-- Two nodes of capacity 0 and eight unassigned partitions. -/
theorem AssignTokens_no_nodes_available_witness :
    AssignTokens (some [exampleNode 1 0, exampleNode 2 0]) [0, 0, 0, 0, 0, 0, 0, 0] 8 =
      .error .ENoNodesAvailable :=
  AssignTokens_no_nodes_available [exampleNode 1 0, exampleNode 2 0]
    [0, 0, 0, 0, 0, 0, 0, 0] 8 ⟨rfl, by decide, rfl, by decide⟩ (Or.inr (by decide))

end Cluster

/-! # Properties of the cluster controller -/

namespace Cluster

/-! ## Deltas of a reassignment -/

theorem losesToken_iff {l : Nat} {prev next : List Nat} {t : Nat} :
    losesToken l prev next t = true ↔
      prev[t]? = some l ∧ ∃ o, next[t]? = some o ∧ o ≠ l := by
  unfold losesToken
  cases hp : prev[t]? with
  | none => simp
  | some s =>
    cases hn : next[t]? with
    | none => simp
    | some o =>
      simp only [Bool.and_eq_true, bne_iff_ne, ne_eq, beq_iff_eq, Option.some.injEq,
        exists_eq_left']
      constructor
      · rintro ⟨h1, h2⟩
        subst h2
        exact ⟨rfl, fun h => h1 h.symm⟩
      · rintro ⟨h1, h2⟩
        subst h1
        exact ⟨fun h => h2 h.symm, rfl⟩

theorem gainsToken_iff {l : Nat} {prev next : List Nat} {t : Nat} :
    gainsToken l prev next t = true ↔
      next[t]? = some l ∧ ∃ s, prev[t]? = some s ∧ s ≠ l := by
  unfold gainsToken
  cases hp : prev[t]? with
  | none => simp
  | some s =>
    cases hn : next[t]? with
    | none => simp
    | some o =>
      simp only [Bool.and_eq_true, bne_iff_ne, ne_eq, beq_iff_eq, Option.some.injEq,
        exists_eq_left']
      constructor
      · rintro ⟨h1, h2⟩
        subst h2
        exact ⟨rfl, h1⟩
      · rintro ⟨h1, h2⟩
        subst h1
        exact ⟨h2, rfl⟩

theorem lt_length_of_slot {l : Nat} {prev : List Nat} {t : Nat}
    (h : prev[t]? = some l) : t < prev.length := by
  by_contra hlt
  rw [List.getElem?_eq_none (by omega)] at h
  cases h

theorem mem_tokenDeltas {l : Nat} {prev next : List Nat} {d : ClusterStateDelta} :
    d ∈ tokenDeltas l prev next ↔
      (∃ t, prev[t]? = some l ∧ (∃ o, next[t]? = some o ∧ o ≠ l) ∧
        d = ClusterStateDelta.NodeLoseToken l t) ∨
      (∃ t, next[t]? = some l ∧ (∃ s, prev[t]? = some s ∧ s ≠ l) ∧
        d = ClusterStateDelta.NodeGainToken l t) := by
  simp only [tokenDeltas, List.mem_append, List.mem_map, List.mem_filter, List.mem_range,
    losesToken_iff, gainsToken_iff]
  constructor
  · rintro (⟨t, ⟨_, h1, h2⟩, rfl⟩ | ⟨t, ⟨_, h1, h2⟩, rfl⟩)
    · exact Or.inl ⟨t, h1, h2, rfl⟩
    · exact Or.inr ⟨t, h1, h2, rfl⟩
  · rintro (⟨t, h1, h2, rfl⟩ | ⟨t, h1, ⟨s, h2, h3⟩, rfl⟩)
    · exact Or.inl ⟨t, ⟨lt_length_of_slot h1, h1, h2⟩, rfl⟩
    · exact Or.inr ⟨t, ⟨lt_length_of_slot h2, h1, s, h2, h3⟩, rfl⟩

theorem tokenDeltas_nodup (l : Nat) (prev next : List Nat) :
    (tokenDeltas l prev next).Nodup := by
  unfold tokenDeltas
  rw [List.nodup_append]
  refine ⟨?_, ?_, ?_⟩
  · refine List.Nodup.map ?_ (List.Nodup.filter _ (List.nodup_range _))
    intro a b h
    injection h
  · refine List.Nodup.map ?_ (List.Nodup.filter _ (List.nodup_range _))
    intro a b h
    injection h
  · intro d h1 h2
    obtain ⟨a, _, rfl⟩ := List.mem_map.mp h1
    obtain ⟨b, _, hb⟩ := List.mem_map.mp h2
    cases hb

theorem tokenDeltas_token {l : Nat} {prev next : List Nat} {d : ClusterStateDelta}
    (h : d ∈ tokenDeltas l prev next) :
    ∃ t, d = ClusterStateDelta.NodeLoseToken l t ∨ d = ClusterStateDelta.NodeGainToken l t := by
  rcases mem_tokenDeltas.mp h with ⟨t, _, _, rfl⟩ | ⟨t, _, _, rfl⟩
  · exact ⟨t, Or.inl rfl⟩
  · exact ⟨t, Or.inr rfl⟩

theorem reassign_ok {cc : ClusterController} {next : List Nat}
    (h : cc.PartitioningStrategy (some (cc.State.Nodes.map Prod.snd)) cc.State.Tokens
      cc.State.ClusterSettings.Partitions = .ok next) :
    cc.reassign =
      { cc with
        State := { cc.State with
          Nodes := applyTokens cc.State.Tokens next cc.State.Nodes
          Tokens := newTokens cc.State.Tokens next }
        LocalUpdates := cc.LocalUpdates.map
          (fun q => q ++ tokenDeltas cc.LocalNodeID cc.State.Tokens next)
        strategyCalls := cc.strategyCalls + 1 } := by
  unfold ClusterController.reassign
  simp only [h]

theorem reassign_error {cc : ClusterController} {e : Error}
    (h : cc.PartitioningStrategy (some (cc.State.Nodes.map Prod.snd)) cc.State.Tokens
      cc.State.ClusterSettings.Partitions = .error e) :
    cc.reassign = { cc with strategyCalls := cc.strategyCalls + 1 } := by
  unfold ClusterController.reassign
  simp only [h]

theorem reassign_strategyCalls (cc : ClusterController) :
    cc.reassign.strategyCalls = cc.strategyCalls + 1 := by
  cases h : cc.PartitioningStrategy (some (cc.State.Nodes.map Prod.snd)) cc.State.Tokens
      cc.State.ClusterSettings.Partitions with
  | error e => rw [reassign_error h]
  | ok next => rw [reassign_ok h]

theorem reassign_LocalUpdates (cc : ClusterController) :
    ∃ ds, cc.reassign.LocalUpdates = cc.LocalUpdates.map (fun q => q ++ ds) ∧
      ∀ d ∈ ds, ∃ t, d = ClusterStateDelta.NodeLoseToken cc.LocalNodeID t ∨
        d = ClusterStateDelta.NodeGainToken cc.LocalNodeID t := by
  cases h : cc.PartitioningStrategy (some (cc.State.Nodes.map Prod.snd)) cc.State.Tokens
      cc.State.ClusterSettings.Partitions with
  | error e =>
    refine ⟨[], ?_, fun d hd => by cases hd⟩
    rw [reassign_error h]
    cases cc.LocalUpdates <;> simp
  | ok next =>
    refine ⟨tokenDeltas cc.LocalNodeID cc.State.Tokens next, ?_, fun d hd => tokenDeltas_token hd⟩
    rw [reassign_ok h]

/-- C8: when `reassign` takes the token list `prev` of the state to the result `next` of
the strategy, the deltas it sends on `LocalUpdates` follow those already sent,
hold no delta twice, and are exactly one `NodeLoseToken{LocalNodeID, t}` for
each slot `t` with `prev[t] = LocalNodeID` and `next[t] ≠ LocalNodeID` and one
`NodeGainToken{LocalNodeID, t}` for each slot `t` with `next[t] = LocalNodeID`
and `prev[t] ≠ LocalNodeID`; so no delta concerns another node or an unchanged
token. -/
theorem reassign_emits_local_changes (cc : ClusterController) (q : List ClusterStateDelta)
    (next : List Nat) (hq : cc.LocalUpdates = some q)
    (hnext : cc.PartitioningStrategy (some (cc.State.Nodes.map Prod.snd)) cc.State.Tokens
      cc.State.ClusterSettings.Partitions = .ok next) :
    ∃ ds, cc.reassign.LocalUpdates = some (q ++ ds) ∧ ds.Nodup ∧
      ∀ d, d ∈ ds ↔
        (∃ t, cc.State.Tokens[t]? = some cc.LocalNodeID ∧
          (∃ o, next[t]? = some o ∧ o ≠ cc.LocalNodeID) ∧
          d = ClusterStateDelta.NodeLoseToken cc.LocalNodeID t) ∨
        (∃ t, next[t]? = some cc.LocalNodeID ∧
          (∃ s, cc.State.Tokens[t]? = some s ∧ s ≠ cc.LocalNodeID) ∧
          d = ClusterStateDelta.NodeGainToken cc.LocalNodeID t) := by
  refine ⟨tokenDeltas cc.LocalNodeID cc.State.Tokens next, ?_, tokenDeltas_nodup _ _ _,
    fun d => mem_tokenDeltas⟩
  rw [reassign_ok hnext]
  simp [hq]

/-- The reassignment of `exampleStealing`: the local node 1 loses tokens 2 and 3. -/
theorem reassign_emits_local_changes_witness :
    ∃ ds, exampleStealing.reassign.LocalUpdates = some ([] ++ ds) ∧ ds.Nodup ∧
      ∀ d, d ∈ ds ↔
        (∃ t, exampleStealing.State.Tokens[t]? = some exampleStealing.LocalNodeID ∧
          (∃ o, [1, 1, 2, 2][t]? = some o ∧ o ≠ exampleStealing.LocalNodeID) ∧
          d = ClusterStateDelta.NodeLoseToken exampleStealing.LocalNodeID t) ∨
        (∃ t, [1, 1, 2, 2][t]? = some exampleStealing.LocalNodeID ∧
          (∃ s, exampleStealing.State.Tokens[t]? = some s ∧ s ≠ exampleStealing.LocalNodeID) ∧
          d = ClusterStateDelta.NodeGainToken exampleStealing.LocalNodeID t) :=
  reassign_emits_local_changes exampleStealing [] [1, 1, 2, 2] rfl rfl

/-! ## Adding the local node -/

theorem emit_reassign_LocalUpdates (cc : ClusterController) (q ds : List ClusterStateDelta)
    (hq : cc.LocalUpdates = some q) :
    ∃ es, (cc.emit ds).reassign.LocalUpdates = some (q ++ ds ++ es) ∧
      ∀ d ∈ es, ∃ t, d = ClusterStateDelta.NodeLoseToken cc.LocalNodeID t ∨
        d = ClusterStateDelta.NodeGainToken cc.LocalNodeID t := by
  obtain ⟨es, h1, h2⟩ := reassign_LocalUpdates (cc.emit ds)
  refine ⟨es, ?_, h2⟩
  rw [h1]
  simp [ClusterController.emit, hq]

/-- C10: when `AddNode` adds an unknown node whose id is `LocalNodeID`, the deltas it sends
on `LocalUpdates` are `NodeAdd{NodeID, NodeConfig}` of the command first and
then only token deltas of the local node, so every `NodeGainToken` of the
following reassignment comes after the `NodeAdd`; and the strategy is invoked
exactly once. -/
theorem AddNode_local_announces_first (cc : ClusterController) (nodeID : Nat)
    (cfg : NodeConfig) (q : List ClusterStateDelta)
    (hunknown : cc.State.Nodes.lookup nodeID = none) (hlocal : cc.LocalNodeID = nodeID)
    (hq : cc.LocalUpdates = some q) :
    ∃ ds, (cc.AddNode nodeID cfg).LocalUpdates =
        some (q ++ ClusterStateDelta.NodeAdd nodeID cfg :: ds) ∧
      (∀ d ∈ ds, ∃ t, d = ClusterStateDelta.NodeLoseToken nodeID t ∨
        d = ClusterStateDelta.NodeGainToken nodeID t) ∧
      (cc.AddNode nodeID cfg).strategyCalls = cc.strategyCalls + 1 := by
  unfold ClusterController.AddNode
  simp only [hunknown, if_pos hlocal]
  obtain ⟨es, h1, h2⟩ := emit_reassign_LocalUpdates
    { cc with State := { cc.State with Nodes := insertNode nodeID cfg cc.State.Nodes } } q
    [ClusterStateDelta.NodeAdd nodeID cfg] hq
  refine ⟨es, ?_, ?_, ?_⟩
  · rw [h1]
    simp
  · intro d hd
    have := h2 d hd
    simpa [hlocal] using this
  · rw [reassign_strategyCalls]
    rfl

/-- The local node 2 joins `exampleJoining` and gains tokens 2 and 3 from node 1. -/
theorem AddNode_local_announces_first_witness :
    ∃ ds, (exampleJoining.AddNode 2 (exampleNode 2 1)).LocalUpdates =
        some ([] ++ ClusterStateDelta.NodeAdd 2 (exampleNode 2 1) :: ds) ∧
      (∀ d ∈ ds, ∃ t, d = ClusterStateDelta.NodeLoseToken 2 t ∨
        d = ClusterStateDelta.NodeGainToken 2 t) ∧
      (exampleJoining.AddNode 2 (exampleNode 2 1)).strategyCalls =
        exampleJoining.strategyCalls + 1 :=
  AddNode_local_announces_first exampleJoining 2 (exampleNode 2 1) [] rfl rfl rfl

/-! ## The node map -/

theorem lookup_some_mem {nodes : List (Nat × NodeConfig)} {id : Nat} {cfg : NodeConfig}
    (h : nodes.lookup id = some cfg) : (id, cfg) ∈ nodes := by
  induction nodes with
  | nil => cases h
  | cons p rest ih =>
    obtain ⟨k, v⟩ := p
    rw [List.lookup_cons] at h
    by_cases hk : id = k
    · subst hk
      simp at h
      subst h
      exact List.mem_cons_self _ _
    · have hne : (id == k) = false := by simpa using hk
      rw [hne] at h
      exact List.mem_cons_of_mem _ (ih h)

theorem lookup_none_not_mem {nodes : List (Nat × NodeConfig)} {id : Nat}
    (h : nodes.lookup id = none) : id ∉ nodes.map Prod.fst := by
  induction nodes with
  | nil => simp
  | cons p rest ih =>
    obtain ⟨k, v⟩ := p
    rw [List.lookup_cons] at h
    by_cases hk : id = k
    · subst hk
      simp at h
    · have hne : (id == k) = false := by simpa using hk
      rw [hne] at h
      simp only [List.map_cons, List.mem_cons, not_or]
      exact ⟨hk, ih h⟩

theorem mem_insertNode {id : Nat} {cfg : NodeConfig} {nodes : List (Nat × NodeConfig)}
    {p : Nat × NodeConfig} (h : p ∈ insertNode id cfg nodes) : p = (id, cfg) ∨ p ∈ nodes := by
  induction nodes with
  | nil => left; simpa [insertNode] using h
  | cons q rest ih =>
    simp only [insertNode] at h
    split_ifs at h with h1 h2
    · rcases List.mem_cons.mp h with h | h
      · exact Or.inl h
      · exact Or.inr h
    · rcases List.mem_cons.mp h with h | h
      · exact Or.inl h
      · exact Or.inr (List.mem_cons_of_mem _ h)
    · rcases List.mem_cons.mp h with h | h
      · exact Or.inr (h ▸ List.mem_cons_self _ _)
      · rcases ih h with h | h
        · exact Or.inl h
        · exact Or.inr (List.mem_cons_of_mem _ h)

theorem insertNode_keys {id : Nat} {cfg : NodeConfig} {nodes : List (Nat × NodeConfig)}
    {k : Nat} : k ∈ (insertNode id cfg nodes).map Prod.fst ↔ k = id ∨ k ∈ nodes.map Prod.fst := by
  induction nodes with
  | nil => simp [insertNode]
  | cons q rest ih =>
    simp only [insertNode]
    split_ifs with h1 h2
    · simp
    · simp only [List.map_cons, List.mem_cons]
      constructor
      · rintro (h | h)
        · exact Or.inl h
        · exact Or.inr (Or.inr h)
      · rintro (h | h | h)
        · exact Or.inl h
        · exact Or.inl (h.trans h2.symm)
        · exact Or.inr h
    · simp only [List.map_cons, List.mem_cons, ih]
      tauto

theorem insertNode_sorted {id : Nat} {cfg : NodeConfig} {nodes : List (Nat × NodeConfig)}
    (hs : (nodes.map Prod.fst).Pairwise (fun a b => a < b)) (hid : id ∉ nodes.map Prod.fst) :
    ((insertNode id cfg nodes).map Prod.fst).Pairwise (fun a b => a < b) := by
  induction nodes with
  | nil => simp [insertNode]
  | cons q rest ih =>
    simp only [List.map_cons, List.pairwise_cons, List.mem_cons, not_or] at hs hid
    simp only [insertNode]
    split_ifs with h1 h2
    · simp only [List.map_cons, List.pairwise_cons, List.mem_cons]
      refine ⟨?_, hs⟩
      rintro b (rfl | hb)
      · exact h1
      · exact Nat.lt_trans h1 (hs.1 b hb)
    · exact absurd h2 hid.1
    · simp only [List.map_cons, List.pairwise_cons]
      refine ⟨?_, ih hs.2 hid.2⟩
      intro b hb
      rcases insertNode_keys.mp hb with rfl | hb
      · omega
      · exact hs.1 b hb

theorem updateNode_keys (id : Nat) (f : NodeConfig → NodeConfig)
    (nodes : List (Nat × NodeConfig)) :
    (updateNode id f nodes).map Prod.fst = nodes.map Prod.fst := by
  unfold updateNode
  rw [List.map_map]
  apply List.map_congr_left
  intro p _
  simp only [Function.comp]
  split <;> rfl

theorem mem_updateNode {id : Nat} {f : NodeConfig → NodeConfig}
    {nodes : List (Nat × NodeConfig)} {p : Nat × NodeConfig} (h : p ∈ updateNode id f nodes) :
    ∃ q ∈ nodes, p.1 = q.1 ∧ (p.2 = q.2 ∨ p.2 = f q.2) := by
  unfold updateNode at h
  obtain ⟨q, hq, rfl⟩ := List.mem_map.mp h
  refine ⟨q, hq, ?_⟩
  split
  · exact ⟨rfl, Or.inr rfl⟩
  · exact ⟨rfl, Or.inl rfl⟩

theorem eraseNode_sorted {id : Nat} {nodes : List (Nat × NodeConfig)}
    (hs : (nodes.map Prod.fst).Pairwise (fun a b => a < b)) :
    ((eraseNode id nodes).map Prod.fst).Pairwise (fun a b => a < b) :=
  hs.sublist (List.Sublist.map _ (List.filter_sublist _))

theorem mem_eraseNode {id : Nat} {nodes : List (Nat × NodeConfig)} {p : Nat × NodeConfig} :
    p ∈ eraseNode id nodes ↔ p ∈ nodes ∧ p.1 ≠ id := by
  simp [eraseNode]

/-! ## One reassignment on the node map -/

theorem stepNode_fst (prev next : List Nat) (t : Nat) (p : Nat × NodeConfig) :
    (stepNode prev next t p).1 = p.1 := by
  unfold stepNode
  repeat' split
  all_goals rfl

theorem stepNode_Address (prev next : List Nat) (t : Nat) (p : Nat × NodeConfig) :
    (stepNode prev next t p).2.Address = p.2.Address := by
  unfold stepNode
  repeat' split
  all_goals rfl

theorem stepNode_mem_other (prev next : List Nat) {t u : Nat} (p : Nat × NodeConfig)
    (h : u ≠ t) : u ∈ (stepNode prev next t p).2.Tokens ↔ u ∈ p.2.Tokens := by
  unfold stepNode
  repeat' split
  all_goals simp [Finset.mem_erase, Finset.mem_insert, h]

/-- Whether `t` is owned by the node of id `id` after step `t`, given whether it was. -/
theorem stepNode_mem_self (prev next : List Nat) (t : Nat) (p : Nat × NodeConfig) :
    t ∈ (stepNode prev next t p).2.Tokens ↔
      ((∃ s o, prev[t]? = some s ∧ next[t]? = some o ∧ s ≠ o ∧ p.1 = o) ∨
        (t ∈ p.2.Tokens ∧
          ¬ ∃ s o, prev[t]? = some s ∧ next[t]? = some o ∧ s ≠ o ∧ p.1 = s)) := by
  unfold stepNode
  cases hp : prev[t]? with
  | none => simp
  | some s =>
    cases hn : next[t]? with
    | none => simp
    | some o =>
      simp only [Option.some.injEq]
      by_cases hso : s = o
      · subst hso
        simp
      · simp only [if_neg hso]
        by_cases h1 : p.1 = s
        · simp only [if_pos h1, Finset.mem_erase, ne_eq, not_true_eq_false, false_and,
            false_iff]
          rintro (⟨s1, o1, rfl, rfl, h3, h4⟩ | ⟨_, h2⟩)
          · exact h3 (h1.symm.trans h4)
          · exact h2 ⟨s, o, rfl, rfl, hso, h1⟩
        · simp only [if_neg h1]
          by_cases h2 : p.1 = o
          · simp only [if_pos h2, Finset.mem_insert, true_or, true_iff]
            exact Or.inl ⟨s, o, rfl, rfl, hso, h2⟩
          · simp only [if_neg h2]
            constructor
            · intro h
              refine Or.inr ⟨h, ?_⟩
              rintro ⟨s1, o1, rfl, rfl, _, h4⟩
              exact h1 h4
            · rintro (⟨s1, o1, rfl, rfl, _, h4⟩ | ⟨h, _⟩)
              · exact absurd h4 h2
              · exact h

theorem foldl_stepNode_fst (prev next : List Nat) (ts : List Nat) (p : Nat × NodeConfig) :
    (ts.foldl (fun q t => stepNode prev next t q) p).1 = p.1 := by
  induction ts generalizing p with
  | nil => rfl
  | cons t rest ih => rw [List.foldl_cons, ih, stepNode_fst]

theorem foldl_stepNode_Address (prev next : List Nat) (ts : List Nat) (p : Nat × NodeConfig) :
    (ts.foldl (fun q t => stepNode prev next t q) p).2.Address = p.2.Address := by
  induction ts generalizing p with
  | nil => rfl
  | cons t rest ih => rw [List.foldl_cons, ih, stepNode_Address]

theorem foldl_stepNode_mem_not (prev next : List Nat) {ts : List Nat} (p : Nat × NodeConfig)
    {u : Nat} (h : u ∉ ts) :
    u ∈ (ts.foldl (fun q t => stepNode prev next t q) p).2.Tokens ↔ u ∈ p.2.Tokens := by
  induction ts generalizing p with
  | nil => rfl
  | cons t rest ih =>
    simp only [List.mem_cons, not_or] at h
    rw [List.foldl_cons, ih _ h.2, stepNode_mem_other prev next p h.1]

theorem foldl_stepNode_mem (prev next : List Nat) {ts : List Nat} (p : Nat × NodeConfig)
    {u : Nat} (hnd : ts.Nodup) (h : u ∈ ts) :
    u ∈ (ts.foldl (fun q t => stepNode prev next t q) p).2.Tokens ↔
      u ∈ (stepNode prev next u p).2.Tokens := by
  induction ts generalizing p with
  | nil => cases h
  | cons t rest ih =>
    rw [List.nodup_cons] at hnd
    rw [List.foldl_cons]
    by_cases hut : u = t
    · subst hut
      exact foldl_stepNode_mem_not prev next _ hnd.1
    · have hrest : u ∈ rest := by
        rcases List.mem_cons.mp h with h | h
        · exact absurd h hut
        · exact h
      rw [ih _ hnd.2 hrest, stepNode_mem_self, stepNode_mem_self, stepNode_fst,
        stepNode_mem_other prev next p hut]

theorem applyTokens_eq (prev next : List Nat) (nodes : List (Nat × NodeConfig)) :
    applyTokens prev next nodes =
      nodes.map (fun p => (List.range prev.length).foldl
        (fun q t => stepNode prev next t q) p) := by
  unfold applyTokens
  generalize List.range prev.length = ts
  induction ts generalizing nodes with
  | nil => simp
  | cons t rest ih =>
    rw [List.foldl_cons, ih, List.map_map]
    rfl

theorem applyTokens_keys (prev next : List Nat) (nodes : List (Nat × NodeConfig)) :
    (applyTokens prev next nodes).map Prod.fst = nodes.map Prod.fst := by
  rw [applyTokens_eq, List.map_map]
  apply List.map_congr_left
  intro p _
  exact foldl_stepNode_fst prev next _ p

theorem newTokens_length (prev next : List Nat) : (newTokens prev next).length = prev.length := by
  simp [newTokens]

theorem newTokens_getElem? (prev next : List Nat) (t : Nat) :
    (newTokens prev next)[t]? =
      if t < prev.length then some ((next[t]?).getD (prev.getD t 0)) else none := by
  unfold newTokens
  rw [List.getElem?_map]
  split
  · rename_i h
    rw [List.getElem?_range h]
    rfl
  · rename_i h
    rw [List.getElem?_eq_none (by simpa using h)]
    rfl

theorem applyTokens_bidirectional {prev next : List Nat} {nodes : List (Nat × NodeConfig)}
    (hb : ∀ p ∈ nodes, ∀ t, t ∈ p.2.Tokens ↔ prev[t]? = some p.1) :
    ∀ p ∈ applyTokens prev next nodes, ∀ t,
      t ∈ p.2.Tokens ↔ (newTokens prev next)[t]? = some p.1 := by
  intro p hp t
  rw [applyTokens_eq] at hp
  obtain ⟨q, hq, rfl⟩ := List.mem_map.mp hp
  rw [foldl_stepNode_fst, newTokens_getElem?]
  by_cases ht : t < prev.length
  · rw [foldl_stepNode_mem prev next q (List.nodup_range _) (List.mem_range.mpr ht),
      stepNode_mem_self, hb q hq t, if_pos ht]
    have hprev : prev[t]? = some (prev.getD t 0) := by
      rw [List.getD_eq_getElem?_getD, List.getElem?_eq_getElem ht]
      rfl
    generalize prev.getD t 0 = s at hprev
    rw [hprev]
    cases hn : next[t]? with
    | none => simp
    | some o =>
      simp only [Option.some.injEq, Option.getD_some]
      constructor
      · rintro (⟨s1, o1, rfl, rfl, _, h⟩ | ⟨h1, h2⟩)
        · exact h.symm
        · by_cases hso : s = o
          · exact hso ▸ h1
          · exact absurd ⟨s, o, rfl, rfl, hso, h1.symm⟩ h2
      · intro h
        by_cases hso : s = o
        · refine Or.inr ⟨hso.trans h, ?_⟩
          rintro ⟨s1, o1, rfl, rfl, h3, _⟩
          exact h3 hso
        · exact Or.inl ⟨s, o, rfl, rfl, hso, h.symm⟩
  · rw [foldl_stepNode_mem_not prev next q (by simpa using ht), hb q hq t, if_neg ht,
      List.getElem?_eq_none (by omega)]

theorem mem_newTokens {prev next : List Nat} {s : Nat} (h : s ∈ newTokens prev next) :
    s ∈ prev ∨ s ∈ next := by
  unfold newTokens at h
  obtain ⟨t, ht, rfl⟩ := List.mem_map.mp h
  rw [List.mem_range] at ht
  cases hn : next[t]? with
  | none =>
    left
    simp only [Option.getD_none]
    rw [List.getD_eq_getElem?_getD, List.getElem?_eq_getElem ht]
    exact List.getElem_mem _
  | some o =>
    right
    simp only [Option.getD_some]
    obtain ⟨hlt, ho⟩ := List.getElem?_eq_some.mp hn
    exact ho ▸ List.getElem_mem _

/-! ## The invariant of nodes and tokens -/

theorem reassign_consistent {cc : ClusterController} (hc : cc.State.Consistent)
    (hs : namesOnlyNodes cc.PartitioningStrategy) : cc.reassign.State.Consistent := by
  cases h : cc.PartitioningStrategy (some (cc.State.Nodes.map Prod.snd)) cc.State.Tokens
      cc.State.ClusterSettings.Partitions with
  | error e =>
    rw [reassign_error h]
    exact hc
  | ok next =>
    rw [reassign_ok h]
    have hnext := hs _ _ _ _ h
    constructor
    · show ((applyTokens cc.State.Tokens next cc.State.Nodes).map Prod.fst).Pairwise _
      rw [applyTokens_keys]
      exact hc.sorted
    · intro p hp
      change p ∈ applyTokens cc.State.Tokens next cc.State.Nodes at hp
      rw [applyTokens_eq] at hp
      obtain ⟨q, hq, rfl⟩ := List.mem_map.mp hp
      rw [foldl_stepNode_fst, foldl_stepNode_Address]
      exact hc.keyed q hq
    · exact applyTokens_bidirectional hc.bidirectional
    · intro s hsmem
      change s ∈ newTokens cc.State.Tokens next at hsmem
      show s = 0 ∨ s ∈ (applyTokens cc.State.Tokens next cc.State.Nodes).map Prod.fst
      rw [applyTokens_keys]
      rcases mem_newTokens hsmem with h1 | h1
      · exact hc.known s h1
      · rcases hnext s h1 with h2 | ⟨n, hn, hid⟩
        · exact Or.inl h2
        · right
          obtain ⟨p, hp, rfl⟩ := List.mem_map.mp hn
          rw [← hid, (hc.keyed p hp).2]
          exact List.mem_map.mpr ⟨p, hp, rfl⟩
    · intro hu
      show newTokens cc.State.Tokens next = []
      rw [hc.unset hu]
      rfl

theorem reassign_PartitioningStrategy (cc : ClusterController) :
    cc.reassign.PartitioningStrategy = cc.PartitioningStrategy := by
  unfold ClusterController.reassign
  simp only
  split <;> rfl

theorem UpdateNodeConfig_consistent {cc : ClusterController} (hc : cc.State.Consistent)
    (hs : namesOnlyNodes cc.PartitioningStrategy) (nodeID : Nat) (cfg : NodeConfig) :
    (cc.UpdateNodeConfig nodeID cfg).State.Consistent := by
  have key : ∀ nodes : List (Nat × NodeConfig),
      nodes.map Prod.fst = cc.State.Nodes.map Prod.fst →
      (∀ p ∈ nodes, ∃ q ∈ cc.State.Nodes, p.1 = q.1 ∧ p.2.Address.NodeID = q.2.Address.NodeID ∧
        p.2.Tokens = q.2.Tokens) →
      ClusterState.Consistent { cc.State with Nodes := nodes } := by
    intro nodes hk hm
    constructor
    · show (nodes.map Prod.fst).Pairwise _
      rw [hk]
      exact hc.sorted
    · intro p hp
      obtain ⟨q, hq, h1, h2, _⟩ := hm p hp
      rw [h1, h2]
      exact hc.keyed q hq
    · intro p hp t
      obtain ⟨q, hq, h1, _, h3⟩ := hm p hp
      rw [h1, h3]
      exact hc.bidirectional q hq t
    · intro s hsmem
      show s = 0 ∨ s ∈ nodes.map Prod.fst
      rw [hk]
      exact hc.known s hsmem
    · exact hc.unset
  unfold ClusterController.UpdateNodeConfig
  split
  · exact hc
  · split
    · refine reassign_consistent ?_ (by exact hs)
      apply key
      · rw [updateNode_keys, updateNode_keys]
      · intro p hp
        obtain ⟨q, hq, h1, h2⟩ := mem_updateNode hp
        obtain ⟨r, hr, h3, h4⟩ := mem_updateNode hq
        refine ⟨r, hr, h1.trans h3, ?_, ?_⟩
        · rcases h2 with h2 | h2 <;> rcases h4 with h4 | h4 <;> rw [h2, h4]
        · rcases h2 with h2 | h2 <;> rcases h4 with h4 | h4 <;> rw [h2, h4]
    · apply key
      · rw [updateNode_keys]
      · intro p hp
        obtain ⟨q, hq, h1, h2⟩ := mem_updateNode hp
        refine ⟨q, hq, h1, ?_, ?_⟩
        · rcases h2 with h2 | h2 <;> rw [h2]
        · rcases h2 with h2 | h2 <;> rw [h2]

theorem emit_State (cc : ClusterController) (ds : List ClusterStateDelta) :
    (cc.emit ds).State = cc.State := rfl

theorem emit_PartitioningStrategy (cc : ClusterController) (ds : List ClusterStateDelta) :
    (cc.emit ds).PartitioningStrategy = cc.PartitioningStrategy := rfl

theorem AddNode_consistent {cc : ClusterController} (hc : cc.State.Consistent)
    (hs : namesOnlyNodes cc.PartitioningStrategy) (nodeID : Nat) (cfg : NodeConfig)
    (hpos : 0 < nodeID) (hid : cfg.Address.NodeID = nodeID) (htok : cfg.Tokens = ∅) :
    (cc.AddNode nodeID cfg).State.Consistent := by
  unfold ClusterController.AddNode
  split
  · exact hc
  · rename_i hlook
    have hnew := lookup_none_not_mem hlook
    have hins : ClusterState.Consistent
        { cc.State with Nodes := insertNode nodeID cfg cc.State.Nodes } := by
      constructor
      · exact insertNode_sorted hc.sorted hnew
      · intro p hp
        rcases mem_insertNode hp with rfl | hp
        · exact ⟨hpos, hid⟩
        · exact hc.keyed p hp
      · intro p hp t
        rcases mem_insertNode hp with rfl | hp
        · show t ∈ cfg.Tokens ↔ cc.State.Tokens[t]? = some nodeID
          rw [htok]
          simp only [Finset.not_mem_empty, false_iff]
          intro hslot
          obtain ⟨hlt, hval⟩ := List.getElem?_eq_some.mp hslot
          rcases hc.known nodeID (hval ▸ List.getElem_mem _) with h0 | hk
          · omega
          · exact hnew hk
        · exact hc.bidirectional p hp t
      · intro s hsmem
        show s = 0 ∨ s ∈ (insertNode nodeID cfg cc.State.Nodes).map Prod.fst
        rcases hc.known s hsmem with h | h
        · exact Or.inl h
        · exact Or.inr (insertNode_keys.mpr (Or.inr h))
      · exact hc.unset
    simp only
    split
    · exact reassign_consistent (by rw [emit_State]; exact hins) (by exact hs)
    · exact reassign_consistent hins (by exact hs)

theorem releaseTokens_getElem? (owned : Finset Nat) (tokens : List Nat) (t : Nat) :
    (releaseTokens owned tokens)[t]? =
      if t < tokens.length then some (if t ∈ owned then 0 else tokens.getD t 0) else none := by
  unfold releaseTokens
  rw [List.getElem?_map]
  split
  · rename_i h
    rw [List.getElem?_range h]
    rfl
  · rename_i h
    rw [List.getElem?_eq_none (by simpa using h)]
    rfl

theorem RemoveNode_consistent {cc : ClusterController} (hc : cc.State.Consistent)
    (hs : namesOnlyNodes cc.PartitioningStrategy) (nodeID : Nat) :
    (cc.RemoveNode nodeID).State.Consistent := by
  unfold ClusterController.RemoveNode
  split
  · exact hc
  · rename_i removed hlook
    have hmem := lookup_some_mem hlook
    have hown := hc.bidirectional _ hmem
    have hslot : ∀ t, t < cc.State.Tokens.length →
        cc.State.Tokens[t]? = some (cc.State.Tokens.getD t 0) := by
      intro t ht
      rw [List.getD_eq_getElem?_getD, List.getElem?_eq_getElem ht]
      rfl
    have hers : ClusterState.Consistent
        { cc.State with
          Nodes := eraseNode nodeID cc.State.Nodes
          Tokens := releaseTokens removed.Tokens cc.State.Tokens } := by
      constructor
      · exact eraseNode_sorted hc.sorted
      · intro p hp
        exact hc.keyed p (mem_eraseNode.mp hp).1
      · intro p hp t
        obtain ⟨hp1, hp2⟩ := mem_eraseNode.mp hp
        show t ∈ p.2.Tokens ↔ (releaseTokens removed.Tokens cc.State.Tokens)[t]? = some p.1
        rw [releaseTokens_getElem?, hc.bidirectional p hp1 t]
        by_cases ht : t < cc.State.Tokens.length
        · rw [if_pos ht, hslot t ht]
          by_cases hto : t ∈ removed.Tokens
          · rw [if_pos hto]
            have h1 := (hown t).mp hto
            rw [hslot t ht] at h1
            simp only [Option.some.injEq] at h1 ⊢
            have := (hc.keyed p hp1).1
            constructor
            · intro h
              exact absurd (h.symm.trans h1) hp2
            · intro h
              omega
          · rw [if_neg hto]
        · rw [if_neg ht, List.getElem?_eq_none (by omega)]
      · intro s hsmem
        change s ∈ releaseTokens removed.Tokens cc.State.Tokens at hsmem
        show s = 0 ∨ s ∈ (eraseNode nodeID cc.State.Nodes).map Prod.fst
        unfold releaseTokens at hsmem
        obtain ⟨t, ht, rfl⟩ := List.mem_map.mp hsmem
        rw [List.mem_range] at ht
        by_cases hto : t ∈ removed.Tokens
        · exact Or.inl (if_pos hto)
        · rw [if_neg hto]
          have hin : cc.State.Tokens.getD t 0 ∈ cc.State.Tokens := by
            obtain ⟨_, hval⟩ := List.getElem?_eq_some.mp (hslot t ht)
            exact hval ▸ List.getElem_mem _
          rcases hc.known _ hin with h | h
          · exact Or.inl h
          · right
            obtain ⟨p, hp, hpk⟩ := List.mem_map.mp h
            refine List.mem_map.mpr ⟨p, mem_eraseNode.mpr ⟨hp, ?_⟩, hpk⟩
            intro hpn
            apply hto
            rw [hown t, hslot t ht, ← hpk, hpn]
      · intro hu
        show releaseTokens removed.Tokens cc.State.Tokens = []
        rw [hc.unset hu]
        rfl
    simp only
    split
    · exact reassign_consistent (by rw [emit_State]; exact hers) (by exact hs)
    · exact reassign_consistent hers (by exact hs)

theorem TakePartitionReplica_consistent {cc : ClusterController} (hc : cc.State.Consistent)
    (partition replica nodeID : Nat) :
    (cc.TakePartitionReplica partition replica nodeID).State.Consistent := by
  unfold ClusterController.TakePartitionReplica
  split
  · rename_i held _ _
    have hmoved : ClusterState.Consistent
        { cc.State with
          Nodes := updateNode nodeID (addReplica partition replica)
            (updateNode held.Holder (dropReplica partition replica) cc.State.Nodes)
          Partitions := cc.State.Partitions.modify
            (fun rs => rs.set replica { held with Holder := nodeID }) partition } := by
      have hm : ∀ p ∈ updateNode nodeID (addReplica partition replica)
          (updateNode held.Holder (dropReplica partition replica) cc.State.Nodes),
          ∃ q ∈ cc.State.Nodes, p.1 = q.1 ∧ p.2.Address = q.2.Address ∧
            p.2.Tokens = q.2.Tokens := by
        intro p hp
        obtain ⟨q, hq, h1, h2⟩ := mem_updateNode hp
        obtain ⟨r, hr, h3, h4⟩ := mem_updateNode hq
        refine ⟨r, hr, h1.trans h3, ?_, ?_⟩
        · rcases h2 with h2 | h2 <;> rcases h4 with h4 | h4 <;> rw [h2, h4] <;> rfl
        · rcases h2 with h2 | h2 <;> rcases h4 with h4 | h4 <;> rw [h2, h4] <;> rfl
      constructor
      · show (List.map Prod.fst (updateNode _ _ (updateNode _ _ _))).Pairwise _
        rw [updateNode_keys, updateNode_keys]
        exact hc.sorted
      · intro p hp
        obtain ⟨q, hq, h1, h2, _⟩ := hm p hp
        rw [h1, h2]
        exact hc.keyed q hq
      · intro p hp t
        obtain ⟨q, hq, h1, _, h3⟩ := hm p hp
        rw [h1, h3]
        exact hc.bidirectional q hq t
      · intro s hsmem
        show s = 0 ∨ s ∈ List.map Prod.fst (updateNode _ _ (updateNode _ _ _))
        rw [updateNode_keys, updateNode_keys]
        exact hc.known s hsmem
      · exact hc.unset
    simp only
    repeat' split
    all_goals exact hmoved
  · exact hc

theorem startAssignment_consistent {cc : ClusterController}
    (hnodes : (cc.State.Nodes.map Prod.fst).Pairwise (fun a b => a < b))
    (hkeyed : ∀ p ∈ cc.State.Nodes, 0 < p.1 ∧ p.2.Address.NodeID = p.1)
    (hempty : ∀ p ∈ cc.State.Nodes, p.2.Tokens = ∅)
    (hset : ¬ (cc.State.ClusterSettings.Partitions = 0 ∨
      cc.State.ClusterSettings.ReplicationFactor = 0))
    (hs : namesOnlyNodes cc.PartitioningStrategy) : cc.startAssignment.State.Consistent := by
  unfold ClusterController.startAssignment
  refine reassign_consistent ?_ (by exact hs)
  constructor
  · exact hnodes
  · exact hkeyed
  · intro p hp t
    show t ∈ p.2.Tokens ↔ (List.replicate cc.State.ClusterSettings.Partitions 0)[t]? = some p.1
    rw [hempty p hp]
    simp only [Finset.not_mem_empty, false_iff]
    intro hslot
    obtain ⟨hlt, hval⟩ := List.getElem?_eq_some.mp hslot
    have := (hkeyed p hp).1
    simp at hval
    omega
  · intro s hsmem
    exact Or.inl (List.eq_of_mem_replicate hsmem)
  · intro hu
    exact absurd hu hset

theorem Consistent.tokens_empty {st : ClusterState} (hc : st.Consistent) (h : st.Tokens = []) :
    ∀ p ∈ st.Nodes, p.2.Tokens = ∅ := by
  intro p hp
  apply Finset.eq_empty_of_forall_not_mem
  intro t ht
  have := (hc.bidirectional p hp t).mp ht
  rw [h] at this
  cases this

theorem SetReplicationFactor_consistent {cc : ClusterController} (hc : cc.State.Consistent)
    (hs : namesOnlyNodes cc.PartitioningStrategy) (replicationFactor : Nat) :
    (cc.SetReplicationFactor replicationFactor).State.Consistent := by
  unfold ClusterController.SetReplicationFactor
  split
  · exact hc
  · rename_i hzero
    have hzero : cc.State.ClusterSettings.ReplicationFactor = 0 := by simpa using hzero
    have htok := hc.unset (Or.inr hzero)
    have hempty := Consistent.tokens_empty hc htok
    simp only
    split
    · rename_i hboth
      refine startAssignment_consistent hc.sorted hc.keyed hempty ?_ (by exact hs)
      show ¬ (cc.State.ClusterSettings.Partitions = 0 ∨ replicationFactor = 0)
      tauto
    · exact ⟨hc.sorted, hc.keyed, hc.bidirectional, hc.known, fun _ => htok⟩

theorem SetPartitionCount_consistent {cc : ClusterController} (hc : cc.State.Consistent)
    (hs : namesOnlyNodes cc.PartitioningStrategy) (partitions : Nat) :
    (cc.SetPartitionCount partitions).State.Consistent := by
  unfold ClusterController.SetPartitionCount
  split
  · exact hc
  · rename_i hzero
    have hzero : cc.State.ClusterSettings.Partitions = 0 := by simpa using hzero
    have htok := hc.unset (Or.inl hzero)
    have hempty := Consistent.tokens_empty hc htok
    simp only
    split
    · rename_i hboth
      refine startAssignment_consistent hc.sorted hc.keyed hempty ?_ (by exact hs)
      show ¬ (partitions = 0 ∨ cc.State.ClusterSettings.ReplicationFactor = 0)
      tauto
    · exact ⟨hc.sorted, hc.keyed, hc.bidirectional, hc.known, fun _ => htok⟩

theorem step_PartitioningStrategy (cc : ClusterController) (k : ClusterCommand) :
    (cc.step k).PartitioningStrategy = cc.PartitioningStrategy := by
  cases k with
  | UpdateNodeConfig nodeID cfg =>
    show (cc.UpdateNodeConfig nodeID cfg).PartitioningStrategy = _
    unfold ClusterController.UpdateNodeConfig
    repeat' (first | rfl | rw [reassign_PartitioningStrategy] | split)
  | AddNode nodeID cfg =>
    show (cc.AddNode nodeID cfg).PartitioningStrategy = _
    unfold ClusterController.AddNode
    repeat' (first | rfl | rw [reassign_PartitioningStrategy] | split)
  | RemoveNode nodeID =>
    show (cc.RemoveNode nodeID).PartitioningStrategy = _
    unfold ClusterController.RemoveNode
    repeat' (first | rfl | rw [reassign_PartitioningStrategy] | split)
  | TakePartitionReplica partition replica nodeID =>
    show (cc.TakePartitionReplica partition replica nodeID).PartitioningStrategy = _
    unfold ClusterController.TakePartitionReplica
    repeat' (first | rfl | split | dsimp only)
  | SetReplicationFactor replicationFactor =>
    show (cc.SetReplicationFactor replicationFactor).PartitioningStrategy = _
    unfold ClusterController.SetReplicationFactor ClusterController.startAssignment
    repeat' (first | rfl | rw [reassign_PartitioningStrategy] | split)
  | SetPartitionCount partitions =>
    show (cc.SetPartitionCount partitions).PartitioningStrategy = _
    unfold ClusterController.SetPartitionCount ClusterController.startAssignment
    repeat' (first | rfl | rw [reassign_PartitioningStrategy] | split)

theorem step_consistent {cc : ClusterController} (hc : cc.State.Consistent)
    (hs : namesOnlyNodes cc.PartitioningStrategy) {k : ClusterCommand}
    (hk : k.wellFormed = true) : (cc.step k).State.Consistent := by
  cases k with
  | UpdateNodeConfig nodeID cfg => exact UpdateNodeConfig_consistent hc hs nodeID cfg
  | AddNode nodeID cfg =>
    simp only [ClusterCommand.wellFormed, Bool.and_eq_true, decide_eq_true_eq] at hk
    exact AddNode_consistent hc hs nodeID cfg hk.1.1 hk.1.2 hk.2
  | RemoveNode nodeID => exact RemoveNode_consistent hc hs nodeID
  | TakePartitionReplica partition replica nodeID =>
    exact TakePartitionReplica_consistent hc partition replica nodeID
  | SetReplicationFactor replicationFactor =>
    exact SetReplicationFactor_consistent hc hs replicationFactor
  | SetPartitionCount partitions => exact SetPartitionCount_consistent hc hs partitions

theorem run_consistent {cc : ClusterController} (hc : cc.State.Consistent)
    (hs : namesOnlyNodes cc.PartitioningStrategy) {commands : List ClusterCommand}
    (hwf : ∀ k ∈ commands, k.wellFormed = true) : (cc.run commands).State.Consistent := by
  induction commands generalizing cc with
  | nil => exact hc
  | cons k rest ih =>
    show ((cc.step k).run rest).State.Consistent
    exact ih (step_consistent hc hs (hwf k (List.mem_cons_self _ _)))
      (by rw [step_PartitioningStrategy]; exact hs)
      (fun j hj => hwf j (List.mem_cons_of_mem _ hj))

/-! ## Counting owned tokens -/

theorem count_eq_length_filter_range (l : List Nat) (a : Nat) :
    l.count a = ((List.range l.length).filter (fun t => decide (l[t]? = some a))).length := by
  induction l with
  | nil => rfl
  | cons x rest ih =>
    rw [List.length_cons, List.range_succ_eq_map, List.filter_cons, List.filter_map,
      List.count_cons, ih]
    have hcomp : ((fun t => decide ((x :: rest)[t]? = some a)) ∘ Nat.succ) =
        (fun t => decide (rest[t]? = some a)) := by
      funext t
      simp
    rw [hcomp]
    by_cases hx : x = a
    · subst hx
      simp
    · have hxa : (x == a) = false := by simpa using hx
      simp [hx, hxa]

theorem card_eq_count {S : Finset Nat} {l : List Nat} {a : Nat}
    (h : ∀ t, t ∈ S ↔ l[t]? = some a) : S.card = l.count a := by
  have hS : S = ((List.range l.length).filter (fun t => decide (l[t]? = some a))).toFinset := by
    ext t
    rw [h t, List.mem_toFinset, List.mem_filter, List.mem_range, decide_eq_true_eq]
    constructor
    · intro ht
      exact ⟨lt_length_of_slot ht, ht⟩
    · exact fun ht => ht.2
  rw [hS, List.toFinset_card_of_nodup (List.Nodup.filter _ (List.nodup_range _)),
    count_eq_length_filter_range]

theorem length_eq_count_zero_add (l : List Nat) :
    l.length = l.count 0 + (l.filter (fun s => decide (s ≠ 0))).length := by
  induction l with
  | nil => rfl
  | cons x rest ih =>
    by_cases hx : x = 0
    · simp only [hx, List.length_cons, List.count_cons_self, ne_eq, not_true_eq_false,
        decide_False, Bool.false_eq_true, not_false_eq_true, List.filter_cons_of_neg] at ih ⊢
      omega
    · have hxa : (x == 0) = false := by simpa using hx
      have hpos : decide (x ≠ 0) = true := by simpa using hx
      have hf : List.filter (fun s => decide (s ≠ 0)) (x :: rest) =
          x :: List.filter (fun s => decide (s ≠ 0)) rest :=
        List.filter_cons_of_pos hpos
      rw [List.length_cons, List.count_cons, hxa, hf, List.length_cons]
      simp only [Bool.false_eq_true, if_false] at ih ⊢
      omega

theorem Consistent.card_sum {st : ClusterState} (hc : st.Consistent) :
    (st.Nodes.map (fun p => p.2.Tokens.card)).sum =
      (st.Tokens.filter (fun s => decide (s ≠ 0))).length := by
  have hcard : st.Nodes.map (fun p => p.2.Tokens.card) =
      (st.Nodes.map Prod.fst).map (fun id => st.Tokens.count id) := by
    rw [List.map_map]
    apply List.map_congr_left
    intro p hp
    exact card_eq_count (hc.bidirectional p hp)
  have hnd : (st.Nodes.map Prod.fst).Nodup := hc.sorted.imp (fun h => Nat.ne_of_lt h)
  have h0 : 0 ∉ st.Nodes.map Prod.fst := by
    intro h
    obtain ⟨p, hp, hp0⟩ := List.mem_map.mp h
    have := (hc.keyed p hp).1
    omega
  have h1 := length_eq_count_add hnd h0 hc.known
  have h2 := length_eq_count_zero_add st.Tokens
  rw [hcard]
  omega

theorem fillSlots_mem_either {fillers l : List Nat} {x : Nat}
    (h : x ∈ fillSlots fillers l) : x ∈ fillers ∨ x ∈ l := by
  induction l generalizing fillers with
  | nil => cases fillers <;> simp [fillSlots] at h
  | cons s rest ih =>
    cases fillers with
    | nil =>
      rw [fillSlots_nil] at h
      exact Or.inr h
    | cons f fs =>
      simp only [fillSlots] at h
      split at h
      · rcases List.mem_cons.mp h with h | h
        · exact Or.inl (h ▸ List.mem_cons_self _ _)
        · rcases ih h with h | h
          · exact Or.inl (List.mem_cons_of_mem _ h)
          · exact Or.inr (List.mem_cons_of_mem _ h)
      · rcases List.mem_cons.mp h with h | h
        · exact Or.inr (h ▸ List.mem_cons_self _ _)
        · rcases ih h with h | h
          · exact Or.inl h
          · exact Or.inr (List.mem_cons_of_mem _ h)

theorem rebalance_mem {ids current : List Nat} {P x : Nat} (h : x ∈ rebalance ids current P) :
    x = 0 ∨ x ∈ ids := by
  simp only [rebalance] at h
  rcases fillSlots_mem_either h with h | h
  · right
    have := shortfalls_mem h
    obtain ⟨p, hp, rfl⟩ := List.mem_map.mp this
    exact (List.of_mem_zip hp).1
  · rcases releaseOverfull_mem h with h | h
    · exact Or.inl h
    · exact clearSlots_mem h

theorem AssignTokens_namesOnlyNodes : namesOnlyNodes AssignTokens := by
  intro nodes current P next h s hs
  obtain ⟨_, _, _, _, hr⟩ := AssignTokens_ok h
  rw [hr] at hs
  rcases rebalance_mem hs with h0 | hmem
  · exact Or.inl h0
  · obtain ⟨n, hn, _, hid⟩ := mem_eligibleIds.mp hmem
    exact Or.inr ⟨n, hn, hid⟩

theorem exampleController_consistent (l : Nat) : (exampleController l).State.Consistent := by
  constructor
  · exact List.Pairwise.nil
  · intro p hp
    cases hp
  · intro p hp
    cases hp
  · intro s hs
    cases hs
  · intro _
    rfl

/-- C9: from a state that meets the invariants of nodes and tokens, with a strategy that
names only nodes it was given, after every sequence of well-formed commands
(those that reassign and those that do not) each node `n` of `State.Nodes` and
each token `t` satisfy `t ∈ n.Tokens ⇔ State.Tokens[t] = n.id`, and the sizes
of the `Tokens` sets of all nodes add up to the number of nonzero entries of
`State.Tokens`. -/
theorem run_keeps_tokens_bidirectional (cc : ClusterController)
    (commands : List ClusterCommand) (hc : cc.State.Consistent)
    (hs : namesOnlyNodes cc.PartitioningStrategy)
    (hwf : ∀ k ∈ commands, k.wellFormed = true) :
    (∀ p ∈ (cc.run commands).State.Nodes, ∀ t,
      t ∈ p.2.Tokens ↔ (cc.run commands).State.Tokens[t]? = some p.1) ∧
      ((cc.run commands).State.Nodes.map (fun p => p.2.Tokens.card)).sum =
        ((cc.run commands).State.Tokens.filter (fun s => decide (s ≠ 0))).length :=
  ⟨(run_consistent hc hs hwf).bidirectional, Consistent.card_sum (run_consistent hc hs hwf)⟩

/-- Two nodes join an empty cluster, both settings are set, and the first node leaves; the
strategy is `AssignTokens`. -/
theorem run_keeps_tokens_bidirectional_witness :
    (∀ p ∈ ((exampleController 2).run exampleCommands).State.Nodes, ∀ t,
      t ∈ p.2.Tokens ↔
        ((exampleController 2).run exampleCommands).State.Tokens[t]? = some p.1) ∧
      (((exampleController 2).run exampleCommands).State.Nodes.map
          (fun p => p.2.Tokens.card)).sum =
        (((exampleController 2).run exampleCommands).State.Tokens.filter
          (fun s => decide (s ≠ 0))).length :=
  run_keeps_tokens_bidirectional (exampleController 2) exampleCommands
    (exampleController_consistent 2) AssignTokens_namesOnlyNodes (by decide)

/-! ## Removing the local node -/

theorem lookup_eq_none_of_not_mem {nodes : List (Nat × NodeConfig)} {id : Nat}
    (h : id ∉ nodes.map Prod.fst) : nodes.lookup id = none := by
  induction nodes with
  | nil => rfl
  | cons p rest ih =>
    obtain ⟨k, v⟩ := p
    simp only [List.map_cons, List.mem_cons, not_or] at h
    rw [List.lookup_cons]
    have hne : (id == k) = false := by simpa using h.1
    rw [hne]
    exact ih h.2

theorem not_mem_eraseNode_keys (id : Nat) (nodes : List (Nat × NodeConfig)) :
    id ∉ (eraseNode id nodes).map Prod.fst := by
  intro h
  obtain ⟨p, hp, hpid⟩ := List.mem_map.mp h
  exact (mem_eraseNode.mp hp).2 hpid

theorem tokenDeltas_eq_nil {l : Nat} {prev next : List Nat}
    (hprev : ∀ t : Nat, prev[t]? ≠ some l) (hnext : l ∉ next) : tokenDeltas l prev next = [] := by
  unfold tokenDeltas
  have h1 : (List.range prev.length).filter (losesToken l prev next) = [] := by
    rw [List.filter_eq_nil_iff]
    intro t _ ht
    exact hprev t (losesToken_iff.mp ht).1
  have h2 : (List.range prev.length).filter (gainsToken l prev next) = [] := by
    rw [List.filter_eq_nil_iff]
    intro t _ ht
    obtain ⟨hlt, hval⟩ := List.getElem?_eq_some.mp (gainsToken_iff.mp ht).1
    exact hnext (hval ▸ List.getElem_mem _)
  rw [h1, h2]
  rfl

/-- C11 refuted: in the state of the test of the local removal, with a strategy that
returns `[1, 1, 2, 2]`, `RemoveNode` of the local node 2 sends `NodeRemove` and
after it two `NodeGainToken` deltas, for the tokens that the new assignment
gives to the removed node. And when token 3 is missing from the token set of
node 2, although slot 3 names the node, a `NodeLoseToken` for it follows the
`NodeRemove`. -/
theorem remove_local_node_sends_more :
    (exampleLeaving [1, 1, 2, 2]).LocalNodeID = 2 ∧
      ((exampleLeaving [1, 1, 2, 2]).State.Nodes.lookup 2).isSome = true ∧
      ((exampleLeaving [1, 1, 2, 2]).RemoveNode 2).LocalUpdates =
        some [ClusterStateDelta.NodeRemove 2, ClusterStateDelta.NodeGainToken 2 2,
          ClusterStateDelta.NodeGainToken 2 3] ∧
      exampleLeavingUntracked.LocalNodeID = 2 ∧
      (exampleLeavingUntracked.State.Nodes.lookup 2).isSome = true ∧
      (exampleLeavingUntracked.RemoveNode 2).LocalUpdates =
        some [ClusterStateDelta.NodeRemove 2, ClusterStateDelta.NodeLoseToken 2 3] := by
  refine ⟨rfl, by decide, ?_, rfl, by decide, ?_⟩
  · decide
  · decide

/-- C11, amended: `RemoveNode` of a known node whose id is `LocalNodeID`, in a state in which
every slot of `State.Tokens` that names the node is in the token set of the
node, and with a strategy whose result, if it returns one, gives no token to
the removed node, sends exactly one delta on `LocalUpdates`,
`NodeRemove{NodeID}`, and so no `NodeLoseToken` for a token the node owned;
afterwards the node is not in `State.Nodes`, and the strategy was called
once. -/
theorem RemoveNode_local_sends_only_remove (cc : ClusterController) (nodeID : Nat)
    (removed : NodeConfig) (q : List ClusterStateDelta) (hpos : 0 < nodeID)
    (hknown : cc.State.Nodes.lookup nodeID = some removed) (hlocal : cc.LocalNodeID = nodeID)
    (hq : cc.LocalUpdates = some q)
    (hown : ∀ t : Nat, cc.State.Tokens[t]? = some nodeID → t ∈ removed.Tokens)
    (hs : ∀ next, cc.PartitioningStrategy
        (some ((eraseNode nodeID cc.State.Nodes).map Prod.snd))
        (releaseTokens removed.Tokens cc.State.Tokens) cc.State.ClusterSettings.Partitions =
          .ok next → nodeID ∉ next) :
    (cc.RemoveNode nodeID).LocalUpdates = some (q ++ [ClusterStateDelta.NodeRemove nodeID]) ∧
      (cc.RemoveNode nodeID).State.Nodes.lookup nodeID = none ∧
      (cc.RemoveNode nodeID).strategyCalls = cc.strategyCalls + 1 := by
  have hprev : ∀ t : Nat, (releaseTokens removed.Tokens cc.State.Tokens)[t]? ≠ some nodeID := by
    intro t ht
    rw [releaseTokens_getElem?] at ht
    split at ht
    · rename_i hlt
      simp only [Option.some.injEq] at ht
      split at ht
      · omega
      · rename_i hnot
        apply hnot
        apply hown t
        rw [List.getElem?_eq_getElem hlt]
        rw [List.getD_eq_getElem?_getD, List.getElem?_eq_getElem hlt] at ht
        exact congrArg some ht
    · cases ht
  unfold ClusterController.RemoveNode
  simp only [hknown, if_pos hlocal]
  cases hres : cc.PartitioningStrategy
      (some ((eraseNode nodeID cc.State.Nodes).map Prod.snd))
      (releaseTokens removed.Tokens cc.State.Tokens) cc.State.ClusterSettings.Partitions with
  | error e =>
    rw [reassign_error (by exact hres)]
    refine ⟨by simp [ClusterController.emit, hq], ?_, rfl⟩
    exact lookup_eq_none_of_not_mem (not_mem_eraseNode_keys nodeID cc.State.Nodes)
  | ok next =>
    have hnext : nodeID ∉ next := hs next hres
    rw [reassign_ok (by exact hres)]
    refine ⟨?_, ?_, rfl⟩
    · have hd := tokenDeltas_eq_nil hprev hnext
      simp [ClusterController.emit, hq, hlocal, hd]
    · apply lookup_eq_none_of_not_mem
      show nodeID ∉ (applyTokens _ next (eraseNode nodeID cc.State.Nodes)).map Prod.fst
      rw [applyTokens_keys]
      exact not_mem_eraseNode_keys nodeID cc.State.Nodes

/-- The test of the local removal: node 2 leaves, the strategy gives every token to node
1. -/
theorem RemoveNode_local_sends_only_remove_witness :
    ((exampleLeaving [1, 1, 1, 1]).RemoveNode 2).LocalUpdates =
        some ([] ++ [ClusterStateDelta.NodeRemove 2]) ∧
      ((exampleLeaving [1, 1, 1, 1]).RemoveNode 2).State.Nodes.lookup 2 = none ∧
      ((exampleLeaving [1, 1, 1, 1]).RemoveNode 2).strategyCalls =
        (exampleLeaving [1, 1, 1, 1]).strategyCalls + 1 :=
  RemoveNode_local_sends_only_remove (exampleLeaving [1, 1, 1, 1]) 2
    { exampleNode 2 1 with Tokens := {2, 3} } [] (by decide) rfl rfl rfl
    (by
      intro t ht
      rcases t with _ | _ | _ | _ | t
      · cases ht
      · cases ht
      · decide
      · decide
      · cases ht)
    (by
      intro next h
      injection h with h
      rw [← h]
      decide)

/-! ## Settings are set once -/

theorem reassign_ClusterSettings (cc : ClusterController) :
    cc.reassign.State.ClusterSettings = cc.State.ClusterSettings := by
  unfold ClusterController.reassign
  simp only
  split <;> rfl

theorem step_ReplicationFactor (cc : ClusterController) (k : ClusterCommand)
    (h : cc.State.ClusterSettings.ReplicationFactor ≠ 0) :
    (cc.step k).State.ClusterSettings.ReplicationFactor =
      cc.State.ClusterSettings.ReplicationFactor := by
  cases k with
  | UpdateNodeConfig nodeID cfg =>
    show (cc.UpdateNodeConfig nodeID cfg).State.ClusterSettings.ReplicationFactor = _
    unfold ClusterController.UpdateNodeConfig
    repeat' (first | rfl | rw [reassign_ClusterSettings] | split)
  | AddNode nodeID cfg =>
    show (cc.AddNode nodeID cfg).State.ClusterSettings.ReplicationFactor = _
    unfold ClusterController.AddNode
    repeat' (first | rfl | rw [reassign_ClusterSettings] | split)
  | RemoveNode nodeID =>
    show (cc.RemoveNode nodeID).State.ClusterSettings.ReplicationFactor = _
    unfold ClusterController.RemoveNode
    repeat' (first | rfl | rw [reassign_ClusterSettings] | split)
  | TakePartitionReplica partition replica nodeID =>
    show (cc.TakePartitionReplica partition replica nodeID).State.ClusterSettings.ReplicationFactor
      = _
    unfold ClusterController.TakePartitionReplica
    repeat' (first | rfl | split | dsimp only)
  | SetReplicationFactor replicationFactor =>
    show (cc.SetReplicationFactor replicationFactor).State.ClusterSettings.ReplicationFactor = _
    unfold ClusterController.SetReplicationFactor
    rw [if_pos h]
  | SetPartitionCount partitions =>
    show (cc.SetPartitionCount partitions).State.ClusterSettings.ReplicationFactor = _
    unfold ClusterController.SetPartitionCount ClusterController.startAssignment
    repeat' (first | rfl | rw [reassign_ClusterSettings] | split)

theorem step_Partitions (cc : ClusterController) (k : ClusterCommand)
    (h : cc.State.ClusterSettings.Partitions ≠ 0) :
    (cc.step k).State.ClusterSettings.Partitions = cc.State.ClusterSettings.Partitions := by
  cases k with
  | UpdateNodeConfig nodeID cfg =>
    show (cc.UpdateNodeConfig nodeID cfg).State.ClusterSettings.Partitions = _
    unfold ClusterController.UpdateNodeConfig
    repeat' (first | rfl | rw [reassign_ClusterSettings] | split)
  | AddNode nodeID cfg =>
    show (cc.AddNode nodeID cfg).State.ClusterSettings.Partitions = _
    unfold ClusterController.AddNode
    repeat' (first | rfl | rw [reassign_ClusterSettings] | split)
  | RemoveNode nodeID =>
    show (cc.RemoveNode nodeID).State.ClusterSettings.Partitions = _
    unfold ClusterController.RemoveNode
    repeat' (first | rfl | rw [reassign_ClusterSettings] | split)
  | TakePartitionReplica partition replica nodeID =>
    show (cc.TakePartitionReplica partition replica nodeID).State.ClusterSettings.Partitions = _
    unfold ClusterController.TakePartitionReplica
    repeat' (first | rfl | split | dsimp only)
  | SetReplicationFactor replicationFactor =>
    show (cc.SetReplicationFactor replicationFactor).State.ClusterSettings.Partitions = _
    unfold ClusterController.SetReplicationFactor ClusterController.startAssignment
    repeat' (first | rfl | rw [reassign_ClusterSettings] | split)
  | SetPartitionCount partitions =>
    show (cc.SetPartitionCount partitions).State.ClusterSettings.Partitions = _
    unfold ClusterController.SetPartitionCount
    rw [if_pos h]

theorem run_ReplicationFactor (cc : ClusterController) (commands : List ClusterCommand)
    (h : cc.State.ClusterSettings.ReplicationFactor ≠ 0) :
    (cc.run commands).State.ClusterSettings.ReplicationFactor =
      cc.State.ClusterSettings.ReplicationFactor := by
  induction commands generalizing cc with
  | nil => rfl
  | cons k rest ih =>
    show ((cc.step k).run rest).State.ClusterSettings.ReplicationFactor = _
    rw [ih (cc.step k) (by rw [step_ReplicationFactor cc k h]; exact h),
      step_ReplicationFactor cc k h]

theorem run_Partitions (cc : ClusterController) (commands : List ClusterCommand)
    (h : cc.State.ClusterSettings.Partitions ≠ 0) :
    (cc.run commands).State.ClusterSettings.Partitions = cc.State.ClusterSettings.Partitions := by
  induction commands generalizing cc with
  | nil => rfl
  | cons k rest ih =>
    show ((cc.step k).run rest).State.ClusterSettings.Partitions = _
    rw [ih (cc.step k) (by rw [step_Partitions cc k h]; exact h), step_Partitions cc k h]

theorem SetReplicationFactor_stored (cc : ClusterController) (replicationFactor : Nat)
    (h : cc.State.ClusterSettings.ReplicationFactor = 0) :
    (cc.SetReplicationFactor replicationFactor).State.ClusterSettings.ReplicationFactor =
      replicationFactor := by
  unfold ClusterController.SetReplicationFactor ClusterController.startAssignment
  rw [if_neg (by simpa using h)]
  simp only
  split
  · rw [reassign_ClusterSettings]
  · rfl

theorem SetPartitionCount_stored (cc : ClusterController) (partitions : Nat)
    (h : cc.State.ClusterSettings.Partitions = 0) :
    (cc.SetPartitionCount partitions).State.ClusterSettings.Partitions = partitions := by
  unfold ClusterController.SetPartitionCount ClusterController.startAssignment
  rw [if_neg (by simpa using h)]
  simp only
  split
  · rw [reassign_ClusterSettings]
  · rfl

/-- C13: `SetReplicationFactor` stores its value when `ReplicationFactor` is 0 and is
ignored otherwise, leaving the whole controller as it was; `SetPartitionCount`
does the same for `Partitions`; and after a first nonzero write no sequence of
later commands, whatever values they write, changes the setting. -/
theorem settings_set_once (cc : ClusterController) (value : Nat) :
    (cc.State.ClusterSettings.ReplicationFactor = 0 →
      (cc.SetReplicationFactor value).State.ClusterSettings.ReplicationFactor = value) ∧
    (cc.State.ClusterSettings.ReplicationFactor ≠ 0 → cc.SetReplicationFactor value = cc) ∧
    (cc.State.ClusterSettings.Partitions = 0 →
      (cc.SetPartitionCount value).State.ClusterSettings.Partitions = value) ∧
    (cc.State.ClusterSettings.Partitions ≠ 0 → cc.SetPartitionCount value = cc) ∧
    (cc.State.ClusterSettings.ReplicationFactor = 0 → value ≠ 0 →
      ∀ commands, ((cc.SetReplicationFactor value).run commands).State.ClusterSettings.ReplicationFactor
        = value) ∧
    (cc.State.ClusterSettings.Partitions = 0 → value ≠ 0 →
      ∀ commands, ((cc.SetPartitionCount value).run commands).State.ClusterSettings.Partitions
        = value) := by
  refine ⟨SetReplicationFactor_stored cc value, ?_, SetPartitionCount_stored cc value, ?_, ?_, ?_⟩
  · intro h
    unfold ClusterController.SetReplicationFactor
    rw [if_pos h]
  · intro h
    unfold ClusterController.SetPartitionCount
    rw [if_pos h]
  · intro h hv commands
    rw [run_ReplicationFactor _ _ (by rw [SetReplicationFactor_stored cc value h]; exact hv),
      SetReplicationFactor_stored cc value h]
  · intro h hv commands
    rw [run_Partitions _ _ (by rw [SetPartitionCount_stored cc value h]; exact hv),
      SetPartitionCount_stored cc value h]

/-- Scenario S6: the replication factor 4 is written to an empty controller, then 5. -/
theorem settings_set_once_witness :
    (((exampleController 1).SetReplicationFactor 4).run
      [ClusterCommand.SetReplicationFactor 5]).State.ClusterSettings.ReplicationFactor = 4 :=
  (settings_set_once (exampleController 1) 4).2.2.2.2.1 rfl (by decide)
    [ClusterCommand.SetReplicationFactor 5]

/-! ## Moving a partition replica -/

theorem lookup_updateNode_self (id : Nat) (f : NodeConfig → NodeConfig)
    (nodes : List (Nat × NodeConfig)) :
    (updateNode id f nodes).lookup id = (nodes.lookup id).map f := by
  induction nodes with
  | nil => rfl
  | cons e rest ih =>
    obtain ⟨k, v⟩ := e
    unfold updateNode at ih ⊢
    by_cases hk : id = k
    · subst hk
      simp [List.lookup_cons]
    · have hne : (id == k) = false := by simpa using hk
      have hne2 : ¬ k = id := fun h => hk h.symm
      simp only [List.map_cons, if_neg hne2, List.lookup_cons, hne]
      exact ih

theorem lookup_updateNode_other {id other : Nat} (f : NodeConfig → NodeConfig)
    (nodes : List (Nat × NodeConfig)) (h : other ≠ id) :
    (updateNode id f nodes).lookup other = nodes.lookup other := by
  induction nodes with
  | nil => rfl
  | cons e rest ih =>
    obtain ⟨k, v⟩ := e
    unfold updateNode at ih ⊢
    by_cases hk : k = id
    · subst hk
      have hne : (other == k) = false := by simpa using h
      simp only [List.map_cons, if_true, List.lookup_cons, hne]
      exact ih
    · simp only [List.map_cons, if_neg hk, List.lookup_cons]
      rw [ih]

theorem lookup_replicas_absent {p : Nat} {m : List (Nat × Finset Nat)}
    (h : p ∉ m.map Prod.fst) : m.lookup p = none := by
  induction m with
  | nil => rfl
  | cons e rest ih =>
    obtain ⟨k, S⟩ := e
    simp only [List.map_cons, List.mem_cons, not_or] at h
    have hne : (p == k) = false := by simpa using h.1
    rw [List.lookup_cons, hne]
    exact ih h.2

/-- The map of `dropReplica` on the list of pairs. -/
theorem dropReplica_PartitionReplicas (p r : Nat) (n : NodeConfig) :
    (dropReplica p r n).PartitionReplicas =
      (n.PartitionReplicas.map
        (fun e => if e.1 = p then (e.1, e.2.erase r) else e)).filter
        (fun e => !(e.1 == p && decide (e.2 = ∅))) := rfl

theorem lookup_drop_absent {p r : Nat} {m : List (Nat × Finset Nat)}
    (h : p ∉ m.map Prod.fst) :
    ((m.map (fun e => if e.1 = p then (e.1, e.2.erase r) else e)).filter
      (fun e => !(e.1 == p && decide (e.2 = ∅)))).lookup p = none := by
  induction m with
  | nil => rfl
  | cons e rest ih =>
    obtain ⟨k, S⟩ := e
    simp only [List.map_cons, List.mem_cons, not_or] at h
    have hk : ¬ k = p := fun hkp => h.1 hkp.symm
    have hne : (p == k) = false := by simpa using h.1
    have hkeep : (!(k == p && decide (S = ∅))) = true := by simp [hk]
    simp only [List.map_cons, if_neg hk, List.filter_cons, hkeep, if_true, List.lookup_cons, hne]
    exact ih h.2

theorem lookup_drop_self {p r : Nat} {m : List (Nat × Finset Nat)}
    (hs : (m.map Prod.fst).Pairwise (fun a b => a < b)) :
    ((m.map (fun e => if e.1 = p then (e.1, e.2.erase r) else e)).filter
      (fun e => !(e.1 == p && decide (e.2 = ∅)))).lookup p =
      if ((m.lookup p).getD ∅).erase r = ∅ then none
      else some (((m.lookup p).getD ∅).erase r) := by
  induction m with
  | nil => simp
  | cons e rest ih =>
    obtain ⟨k, S⟩ := e
    simp only [List.map_cons, List.pairwise_cons] at hs
    by_cases hk : k = p
    · subst hk
      have habsent : k ∉ rest.map Prod.fst := fun hin => Nat.lt_irrefl _ (hs.1 k hin)
      simp only [List.map_cons, if_true, List.lookup_cons, beq_self_eq_true, Option.getD_some]
      by_cases hempty : S.erase r = ∅
      · have hdrop : (!(k == k && decide (S.erase r = ∅))) = false := by simp [hempty]
        rw [if_pos hempty]
        simp only [List.filter_cons, hdrop, Bool.false_eq_true, if_false]
        exact lookup_drop_absent habsent
      · have hkeep : (!(k == k && decide (S.erase r = ∅))) = true := by simp [hempty]
        rw [if_neg hempty]
        simp [List.filter_cons, hempty, List.lookup_cons]
    · have hne : (p == k) = false := by simpa using fun h : p = k => hk h.symm
      have hkeep : (!(k == p && decide (S = ∅))) = true := by simp [hk]
      simp only [List.map_cons, if_neg hk, List.filter_cons, hkeep, if_true, List.lookup_cons,
        hne]
      exact ih hs.2

theorem drop_sorted {p r : Nat} {m : List (Nat × Finset Nat)}
    (hs : (m.map Prod.fst).Pairwise (fun a b => a < b)) :
    (((m.map (fun e => if e.1 = p then (e.1, e.2.erase r) else e)).filter
      (fun e => !(e.1 == p && decide (e.2 = ∅)))).map Prod.fst).Pairwise (fun a b => a < b) := by
  have hkeys : (m.map (fun e => if e.1 = p then (e.1, e.2.erase r) else e)).map Prod.fst =
      m.map Prod.fst := by
    rw [List.map_map]
    apply List.map_congr_left
    intro e _
    simp only [Function.comp]
    split <;> rfl
  exact (hkeys ▸ hs).sublist (List.Sublist.map _ (List.filter_sublist _))

theorem lookup_insertReplica_absent {p r : Nat} {m : List (Nat × Finset Nat)}
    (hs : (m.map Prod.fst).Pairwise (fun a b => a < b)) :
    (insertReplica p r m).lookup p = some (insert r ((m.lookup p).getD ∅)) := by
  induction m with
  | nil => simp [insertReplica, List.lookup_cons]
  | cons e rest ih =>
    obtain ⟨k, S⟩ := e
    simp only [List.map_cons, List.pairwise_cons] at hs
    simp only [insertReplica]
    split_ifs with h1 h2
    · have hne : (p == k) = false := by
        simp only [beq_eq_false_iff_ne, ne_eq]
        omega
      have hrest : rest.lookup p = none := by
        apply lookup_replicas_absent
        intro hin
        have := hs.1 p hin
        omega
      simp only [List.lookup_cons, beq_self_eq_true, hne, hrest, Option.getD_none]
      rfl
    · subst h2
      simp [List.lookup_cons]
    · have hne : (p == k) = false := by simpa using h2
      rw [List.lookup_cons, hne, List.lookup_cons, hne]
      exact ih hs.2

theorem TakePartitionReplica_ok {cc : ClusterController} {p r n : Nat} {held : PartitionReplica}
    {taker : NodeConfig}
    (hheld : (cc.State.Partitions[p]?).bind (fun rs => rs[r]?) = some held)
    (hn : cc.State.Nodes.lookup n = some taker) :
    (cc.TakePartitionReplica p r n).State =
        { cc.State with
          Nodes := updateNode n (addReplica p r)
            (updateNode held.Holder (dropReplica p r) cc.State.Nodes)
          Partitions := cc.State.Partitions.modify
            (fun rs => rs.set r { held with Holder := n }) p } ∧
      (cc.TakePartitionReplica p r n).strategyCalls = cc.strategyCalls ∧
      (cc.TakePartitionReplica p r n).LocalUpdates = cc.LocalUpdates.map (fun q => q ++
        ((if held.Holder = cc.LocalNodeID then
            [ClusterStateDelta.NodeLosePartitionReplica held.Holder p r] else []) ++
          (if n = cc.LocalNodeID then
            [ClusterStateDelta.NodeGainPartitionReplica n p r] else []))) := by
  unfold ClusterController.TakePartitionReplica
  rw [hn, hheld]
  simp only
  split_ifs <;> refine ⟨rfl, rfl, ?_⟩ <;> cases cc.LocalUpdates <;>
    simp [ClusterController.emit]

theorem insert_erase_getD (S : Finset Nat) (r : Nat) :
    insert r ((if S.erase r = ∅ then (none : Option (Finset Nat))
      else some (S.erase r)).getD ∅) = insert r S := by
  have h : (if S.erase r = ∅ then (none : Option (Finset Nat))
      else some (S.erase r)).getD ∅ = S.erase r := by
    split
    · rename_i he
      rw [he]
      rfl
    · rfl
  rw [h]
  ext x
  simp only [Finset.mem_insert, Finset.mem_erase]
  tauto

/-- C12: for a replica `(p, r)` held by `h` and a known node `n`, in a state whose
`PartitionReplicas` maps are kept in ascending order of the partition,
`TakePartitionReplica{p, r, n}` takes `r` out of the replicas of `p` at node
`h` (when `h` is another node than `n`), dropping the entry of `p` when it
becomes empty, adds `r` to the replicas of `p` at node `n`, makes `n` the
holder in `Partitions[p][r]`, sends `NodeLosePartitionReplica{h, p, r}` exactly
when `h` is the local node and then `NodeGainPartitionReplica{n, p, r}` exactly
when `n` is the local node, and leaves the count of strategy invocations as
it was. -/
theorem TakePartitionReplica_moves_one_replica (cc : ClusterController) (p r n : Nat)
    (held : PartitionReplica) (taker : NodeConfig) (q : List ClusterStateDelta)
    (hheld : (cc.State.Partitions[p]?).bind (fun rs => rs[r]?) = some held)
    (hn : cc.State.Nodes.lookup n = some taker)
    (hmaps : ∀ e ∈ cc.State.Nodes,
      (e.2.PartitionReplicas.map Prod.fst).Pairwise (fun a b => a < b))
    (hq : cc.LocalUpdates = some q) :
    (held.Holder ≠ n → ∀ giver, cc.State.Nodes.lookup held.Holder = some giver →
      ∃ giver1, (cc.TakePartitionReplica p r n).State.Nodes.lookup held.Holder = some giver1 ∧
        giver1.PartitionReplicas.lookup p =
          if (replicasOf giver p).erase r = ∅ then none
          else some ((replicasOf giver p).erase r)) ∧
    (∃ taker1, (cc.TakePartitionReplica p r n).State.Nodes.lookup n = some taker1 ∧
      taker1.PartitionReplicas.lookup p = some (insert r (replicasOf taker p))) ∧
    ((cc.TakePartitionReplica p r n).State.Partitions[p]?).bind (fun rs => rs[r]?) =
      some { held with Holder := n } ∧
    (cc.TakePartitionReplica p r n).LocalUpdates = some (q ++
      ((if held.Holder = cc.LocalNodeID then
          [ClusterStateDelta.NodeLosePartitionReplica held.Holder p r] else []) ++
        (if n = cc.LocalNodeID then
          [ClusterStateDelta.NodeGainPartitionReplica n p r] else []))) ∧
    (cc.TakePartitionReplica p r n).strategyCalls = cc.strategyCalls := by
  obtain ⟨hstate, hcalls, hupd⟩ := TakePartitionReplica_ok hheld hn
  have hsortTaker : (taker.PartitionReplicas.map Prod.fst).Pairwise (fun a b => a < b) :=
    hmaps _ (lookup_some_mem hn)
  refine ⟨?_, ?_, ?_, ?_, hcalls⟩
  · intro hne giver hgiver
    have hsortGiver : (giver.PartitionReplicas.map Prod.fst).Pairwise (fun a b => a < b) :=
      hmaps _ (lookup_some_mem hgiver)
    refine ⟨dropReplica p r giver, ?_, ?_⟩
    · rw [hstate]
      show (updateNode n _ (updateNode held.Holder _ cc.State.Nodes)).lookup held.Holder = _
      rw [lookup_updateNode_other _ _ hne, lookup_updateNode_self, hgiver]
      rfl
    · rw [dropReplica_PartitionReplicas]
      exact lookup_drop_self hsortGiver
  · by_cases hsame : held.Holder = n
    · refine ⟨addReplica p r (dropReplica p r taker), ?_, ?_⟩
      · rw [hstate]
        show (updateNode n _ (updateNode held.Holder _ cc.State.Nodes)).lookup n = _
        rw [lookup_updateNode_self, hsame, lookup_updateNode_self, hn]
        rfl
      · show (insertReplica p r (dropReplica p r taker).PartitionReplicas).lookup p = _
        rw [dropReplica_PartitionReplicas, lookup_insertReplica_absent (drop_sorted hsortTaker),
          lookup_drop_self hsortTaker]
        exact congrArg some (insert_erase_getD _ r)
    · refine ⟨addReplica p r taker, ?_, ?_⟩
      · rw [hstate]
        show (updateNode n _ (updateNode held.Holder _ cc.State.Nodes)).lookup n = _
        rw [lookup_updateNode_self, lookup_updateNode_other _ _ (fun h => hsame h.symm), hn]
        rfl
      · show (insertReplica p r taker.PartitionReplicas).lookup p = _
        rw [lookup_insertReplica_absent hsortTaker]
        rfl
  · rw [hstate]
    show ((cc.State.Partitions.modify _ p)[p]?).bind _ = _
    cases hrs : cc.State.Partitions[p]? with
    | none =>
      rw [hrs] at hheld
      cases hheld
    | some rs =>
      rw [hrs] at hheld
      change rs[r]? = some held at hheld
      obtain ⟨hlt, _⟩ := List.getElem?_eq_some.mp hheld
      rw [List.getElem?_modify_eq, hrs]
      show (rs.set r { held with Holder := n })[r]? = _
      rw [List.getElem?_set_self hlt]
  · rw [hupd, hq]
    rfl

/-- Scenario S5 with the local node 1 as the prior holder: node 2 takes replica 0 of
partition 1, node 1 is told of its loss and the strategy is not invoked. -/
theorem TakePartitionReplica_moves_one_replica_witness :
    (exampleReplicated.TakePartitionReplica 1 0 2).LocalUpdates =
        some ([] ++ ([ClusterStateDelta.NodeLosePartitionReplica 1 1 0] ++ [])) ∧
      (exampleReplicated.TakePartitionReplica 1 0 2).strategyCalls =
        exampleReplicated.strategyCalls :=
  (TakePartitionReplica_moves_one_replica exampleReplicated 1 0 2
    { Partition := 1, Replica := 0, Holder := 1 } { exampleNode 2 1 with Tokens := {2, 3} } []
    rfl rfl (by decide) rfl).2.2.2

end Cluster

/-! # Further properties of the Raft storage -/

namespace Raft

/-! ## Append: what is staged and what the log becomes -/

theorem putEntries_marshal {c : Codec} {es : List Entry} {b sb : Batch}
    (h : putEntries c es b = .ok sb) : ∀ e ∈ es, c.marshalEntry e = .ok (c.encEntry e) := by
  induction es generalizing b with
  | nil =>
    intro e he
    cases he
  | cons x es ih =>
    unfold putEntries at h
    cases hm : c.marshalEntry x with
    | error code => simp [hm] at h
    | ok enc =>
      simp only [hm] at h
      intro e he
      rcases List.mem_cons.mp he with rfl | he
      · simp [Codec.encEntry, hm]
      · exact ih h e he

theorem consecutive_take_eq_filter {s b : Nat} {es : List Entry}
    (h : consecutiveFrom s es = true) (hb : s ≤ b) :
    es.take (b - s) = es.filter (fun x => decide (x.Index < b)) := by
  induction es generalizing s with
  | nil => simp
  | cons x rest ih =>
    obtain ⟨h1, h2⟩ := (consecutiveFrom_cons s x rest).mp h
    by_cases hsb : s = b
    · subst hsb
      rw [Nat.sub_self, List.take_zero]
      symm
      rw [List.filter_eq_nil_iff]
      intro y hy
      simp only [decide_eq_true_eq, not_lt]
      rcases List.mem_cons.mp hy with rfl | hy
      · omega
      · have := (consecutiveFrom_mem h2 hy).1
        omega
    · have hlt : x.Index < b := by omega
      have hsub : b - s = (b - (s + 1)) + 1 := by omega
      rw [hsub, List.take_succ_cons, List.filter_cons_of_pos (by simpa using hlt),
        ih h2 (by omega)]

/-- What a successful `Append` on an open storage does when the first appended index is
not below the first index and the appended indices do not wrap around. -/
theorem Append_within {c : Codec} {rs rs1 : RaftStorage} {e0 d : Entry} {tail es : List Entry}
    (hopen : rs.isOpen = true) (hents : rs.memoryStorage.ents = d :: es)
    (hlog : d.Index + es.length < U64)
    (hwithin : (d.Index + 1) % U64 ≤ e0.Index)
    (hnowrap : e0.Index + (tail.length + 1) ≤ U64)
    (h : rs.Append c (e0 :: tail) = (none, rs1)) :
    e0.Index ≤ (d.Index + es.length) % U64 + 1 ∧
      (∀ e ∈ e0 :: tail, c.marshalEntry e = .ok (c.encEntry e)) ∧
      rs.storageDriver.Batch
          ⟨(List.range' e0.Index ((d.Index + es.length) % U64 + 1 - e0.Index)).map
              (fun i => Op.delete (entryKey i)) ++
            (e0 :: tail).map (fun e => Op.put (entryKey e.Index) (c.encEntry e))⟩ =
        (none, rs1.storageDriver) ∧
      rs1.memoryStorage =
        { rs.memoryStorage with
          ents := d :: (es.take (e0.Index - (d.Index + 1) % U64) ++ e0 :: tail) } := by
  unfold RaftStorage.Append at h
  simp only [MemoryStorage.firstIndex, MemoryStorage.lastIndex, hents, List.length_cons, hopen] at h
  have hearly : ¬ (e0.Index + (tail.length + 1) + (U64 - 1)) % U64 < (d.Index + 1) % U64 := by
    rw [U64_val] at *
    omega
  rw [if_neg hearly] at h
  cases hA : rs.memoryStorage.Append (e0 :: tail) with
  | error e => simp [hA] at h
  | ok ms =>
    obtain ⟨f0, rest, hT, hoff, hms⟩ := mem_Append_ok hents hA hearly
    have hnot : ¬ (d.Index + 1) % U64 > e0.Index := by omega
    rw [if_neg hnot] at hT
    injection hT with hT
    injection hT with hf0 hrest
    subst hf0 hrest
    simp only [hA, if_neg hnot, Bool.not_true, Bool.false_eq_true, if_false] at h
    cases hloop : indexLoop e0.Index ((d.Index + (es.length + 1) + (U64 - 1)) % U64) with
    | error e => simp [hloop] at h
    | ok purged =>
      simp only [hloop] at h
      cases hput : putEntries c (e0 :: tail)
          (List.foldl Batch.Delete NewBatch (List.map entryKey purged)) with
      | error e => simp [hput] at h
      | ok sb =>
        simp only [hput] at h
        have hops := putEntries_ops hput
        rw [foldl_Delete_ops] at hops
        rcases hbatch : rs.storageDriver.Batch sb with ⟨_ | e, d1⟩
        · simp only [hbatch] at h
          injection h with _ h
          have hl := indexLoop_ok hloop
          have hlast : (d.Index + (es.length + 1) + (U64 - 1)) % U64 =
              (d.Index + es.length) % U64 := by
            rw [U64_val]
            omega
          rw [hlast] at hl
          have hbound : e0.Index ≤ (d.Index + es.length) % U64 + 1 := by
            rw [U64_val] at *
            rcases hl with ⟨h1, _⟩ | ⟨h1, h2, _⟩ <;> omega
          have hoffv : (e0.Index + U64 - d.Index) % U64 =
              (e0.Index - (d.Index + 1) % U64) + 1 := by
            rw [U64_val] at *
            rcases hl with ⟨h1, _⟩ | ⟨h1, h2, _⟩ <;> omega
          have hpur : purged =
              List.range' e0.Index ((d.Index + es.length) % U64 + 1 - e0.Index) := by
            rcases hl with ⟨h1, h2⟩ | ⟨h1, h2, h3⟩
            · rw [h2, show (d.Index + es.length) % U64 + 1 - e0.Index = 0 by omega]
              rfl
            · rw [h3, show (d.Index + es.length) % U64 - e0.Index + 1 =
                (d.Index + es.length) % U64 + 1 - e0.Index by omega]
          refine ⟨hbound, putEntries_marshal hput, ?_, ?_⟩
          · have hsb : sb = ⟨(List.range' e0.Index
                  ((d.Index + es.length) % U64 + 1 - e0.Index)).map
                  (fun i => Op.delete (entryKey i)) ++
                (e0 :: tail).map (fun e => Op.put (entryKey e.Index) (c.encEntry e))⟩ := by
              cases sb
              simp only [Batch.mk.injEq]
              dsimp only at hops
              rw [hops, ← hpur]
              simp [NewBatch, List.map_map, Function.comp_def]
            rw [← hsb, hbatch, ← h]
          · rw [← h, hms, hoffv]
            simp [List.take_succ_cons]
        · simp [hbatch] at h

theorem firstIndex_of_ents {rs : RaftStorage} {d : Entry} {es : List Entry} {f : Nat}
    (hents : rs.memoryStorage.ents = d :: es) (hf : rs.FirstIndex = .ok f) :
    f = (d.Index + 1) % U64 := by
  unfold RaftStorage.FirstIndex MemoryStorage.firstIndex at hf
  rw [hents] at hf
  injection hf with hf
  exact hf.symm

theorem lastIndex_of_ents {rs : RaftStorage} {d : Entry} {es : List Entry} {l : Nat}
    (hents : rs.memoryStorage.ents = d :: es) (hl : rs.LastIndex = .ok l) :
    l = (d.Index + es.length) % U64 := by
  unfold RaftStorage.LastIndex MemoryStorage.lastIndex at hl
  simp only [hents, List.length_cons] at hl
  have hl := Except.ok.inj hl
  have hmod : ∀ a n : Nat, (a + (n + 1) + (U64 - 1)) % U64 = (a + n) % U64 := by
    intro a n
    rw [U64_val]
    omega
  rw [← hl, hmod]

/-- C14 refuted: on an open storage whose log ends at index `2^64 - 2`, `Append` of two
entries that start directly after the log, at `2^64 - 1`, returns nil and
leaves store and memory as they were: the index of the last appended entry
wraps around to 0, which is below the first index. -/
theorem append_at_wrap_stages_nothing :
    exampleNearMax.isOpen = true ∧ exampleNearMax.FirstIndex = .ok (U64 - 1) ∧
      exampleNearMax.LastIndex = .ok (U64 - 2) ∧
      exampleNearMax.Append listCodec wrappingEntries = (none, exampleNearMax) :=
  ⟨by decide, rfl, rfl, by decide⟩

/-- C14 amended: on an open storage whose log spans the indices `f .. l` (both `uint64`
values), a successful `Append` of entries whose first index is at least `f`
and whose last index does not wrap around starts at most directly after the
log, hands the driver one batch that deletes the entry key of every index from
the first appended index through `l` and then puts each appended entry under
`entryKey(entry.Index)`, and makes the in-memory log the old log up to the
position of the first appended index followed by the appended entries; in a
well-formed log these old entries are those whose index is below the first
appended index. -/
theorem Append_replaces_overlap (c : Codec) (rs rs1 : RaftStorage) (e0 d : Entry)
    (tail es : List Entry) (f l : Nat) (hopen : rs.isOpen = true)
    (hents : rs.memoryStorage.ents = d :: es) (hlog : d.Index + es.length < U64)
    (hf : rs.FirstIndex = .ok f) (hl : rs.LastIndex = .ok l) (hwithin : f ≤ e0.Index)
    (hnowrap : e0.Index + (e0 :: tail).length ≤ U64)
    (h : rs.Append c (e0 :: tail) = (none, rs1)) :
    e0.Index ≤ l + 1 ∧
      (∀ e ∈ e0 :: tail, c.marshalEntry e = .ok (c.encEntry e)) ∧
      rs.storageDriver.Batch
          ⟨(List.range' e0.Index (l + 1 - e0.Index)).map (fun i => Op.delete (entryKey i)) ++
            (e0 :: tail).map (fun e => Op.put (entryKey e.Index) (c.encEntry e))⟩ =
        (none, rs1.storageDriver) ∧
      rs1.memoryStorage =
        { rs.memoryStorage with ents := d :: (es.take (e0.Index - f) ++ e0 :: tail) } ∧
      (rs.memoryStorage.WellFormed →
        es.take (e0.Index - f) = es.filter (fun x => decide (x.Index < e0.Index))) := by
  have hfv := firstIndex_of_ents hents hf
  have hlv := lastIndex_of_ents hents hl
  subst hfv hlv
  obtain ⟨h1, h2, h3, h4⟩ := Append_within hopen hents hlog hwithin hnowrap h
  refine ⟨h1, h2, h3, h4, ?_⟩
  intro hwf
  unfold MemoryStorage.WellFormed at hwf
  rw [hents] at hwf
  cases es with
  | nil => simp
  | cons x rest =>
    have hmod : (d.Index + 1) % U64 = d.Index + 1 := by
      simp only [List.length_cons] at hlog
      rw [U64_val] at *
      omega
    rw [hmod] at hwithin ⊢
    exact consecutive_take_eq_filter hwf hwithin

/-- Two entries at the indices 2 and 3 replace the entries 2 and 3 of a log of three. -/
theorem Append_replaces_overlap_witness :
    (2 : Nat) ≤ 3 + 1 ∧
      (∀ e ∈ [exampleEntry 2 2, exampleEntry 3 2],
        listCodec.marshalEntry e = .ok (listCodec.encEntry e)) ∧
      exampleThree.storageDriver.Batch
          ⟨(List.range' 2 (3 + 1 - 2)).map (fun i => Op.delete (entryKey i)) ++
            [exampleEntry 2 2, exampleEntry 3 2].map
              (fun e => Op.put (entryKey e.Index) (listCodec.encEntry e))⟩ =
        (none, (exampleThree.Append listCodec
          [exampleEntry 2 2, exampleEntry 3 2]).2.storageDriver) ∧
      (exampleThree.Append listCodec [exampleEntry 2 2, exampleEntry 3 2]).2.memoryStorage =
        { exampleThree.memoryStorage with
          ents := default ::
            ([exampleEntry 1 1, exampleEntry 2 1, exampleEntry 3 1].take (2 - 1) ++
              [exampleEntry 2 2, exampleEntry 3 2]) } ∧
      (exampleThree.memoryStorage.WellFormed →
        [exampleEntry 1 1, exampleEntry 2 1, exampleEntry 3 1].take (2 - 1) =
          [exampleEntry 1 1, exampleEntry 2 1, exampleEntry 3 1].filter
            (fun x => decide (x.Index < 2))) :=
  Append_replaces_overlap listCodec exampleThree
    (exampleThree.Append listCodec [exampleEntry 2 2, exampleEntry 3 2]).2
    (exampleEntry 2 2) default [exampleEntry 3 2]
    [exampleEntry 1 1, exampleEntry 2 1, exampleEntry 3 1] 1 3 (by decide) (by decide)
    (by decide) rfl rfl (by decide) (by decide) (Prod.ext (by decide) rfl)

/-! ## Append: entries below the first index -/

theorem Batch_error_kv {d d1 : StorageDriver} {b : Batch} {e : Err}
    (h : d.Batch b = (some e, d1)) : d1.kv = d.kv := by
  unfold StorageDriver.Batch at h
  rcases nextFault_cases d with hn | ⟨code, hn, -⟩
  · rw [hn] at h
    injection h with h _
    cases h
  · rw [hn] at h
    injection h with _ h
    rw [← h]

theorem Batch_nextFault {d d1 : StorageDriver} {b : Batch} (h : d.Batch b = (none, d1)) :
    d.nextFault = (none, { kv := d.kv, faults := d.faults.tail }) := by
  unfold StorageDriver.Batch at h
  rcases nextFault_cases d with hn | ⟨code, hn, -⟩
  · exact hn
  · rw [hn] at h
    injection h with h _
    cases h

/-- Every outcome of `Append` of consecutive entries: the storage is as before, or the
memory is the one before or the one that the memory storage made of the kept
entries, and the store is the one before or the one after a batch of deletions
and of puts of the kept entries; the kept entries are appended entries at or
above the first index. -/
theorem Append_outcomes {c : Codec} {rs : RaftStorage} {e0 d : Entry} {tail es : List Entry}
    (hents : rs.memoryStorage.ents = d :: es)
    (hc : consecutiveFrom e0.Index (e0 :: tail) = true) :
    (rs.Append c (e0 :: tail)).2 = rs ∨
      ∃ (kept : List Entry) (ms : MemoryStorage), (∀ x ∈ kept, x ∈ e0 :: tail ∧ (d.Index + 1) % U64 ≤ x.Index) ∧
        (∀ x ∈ ms.ents, x ∈ d :: es ∨ x ∈ kept) ∧
        ((rs.Append c (e0 :: tail)).2.memoryStorage = ms ∨
          (rs.Append c (e0 :: tail)).2.memoryStorage = rs.memoryStorage) ∧
        ((rs.Append c (e0 :: tail)).2.storageDriver.kv = rs.storageDriver.kv ∨
          ∃ purged : List Nat, (rs.Append c (e0 :: tail)).2.storageDriver.kv =
            (purged.map (fun i => Op.delete (entryKey i)) ++
              kept.map (fun e => Op.put (entryKey e.Index) (c.encEntry e))).foldl kvApply
              rs.storageDriver.kv) := by
  generalize hres : rs.Append c (e0 :: tail) = res
  unfold RaftStorage.Append at hres
  simp only [MemoryStorage.firstIndex, MemoryStorage.lastIndex, hents, List.length_cons] at hres
  by_cases hearly : (e0.Index + (tail.length + 1) + (U64 - 1)) % U64 < (d.Index + 1) % U64
  · left
    rw [if_pos hearly] at hres
    rw [← hres]
  · rw [if_neg hearly] at hres
    cases hA : rs.memoryStorage.Append (e0 :: tail) with
    | error e =>
      left
      simp only [hA] at hres
      rw [← hres]
    | ok ms =>
      right
      obtain ⟨f0, rest, hT, hoff, hms⟩ := mem_Append_ok hents hA hearly
      obtain ⟨hdrop, hlt, hf0⟩ := truncate_ok hc hT
      have hkept : ∀ x ∈ f0 :: rest, x ∈ e0 :: tail ∧ (d.Index + 1) % U64 ≤ x.Index := by
        intro x hx
        rw [← hdrop] at hx
        refine ⟨List.mem_of_mem_drop hx, ?_⟩
        have hcd := consecutiveFrom_drop hc ((d.Index + 1) % U64 - e0.Index) (Nat.le_of_lt hlt)
        have := (consecutiveFrom_mem hcd hx).1
        omega
      have hmem : ∀ x ∈ ms.ents, x ∈ d :: es ∨ x ∈ f0 :: rest := by
        intro x hx
        rw [hms] at hx
        rcases List.mem_append.mp hx with hx | hx
        · exact Or.inl (List.mem_of_mem_take hx)
        · exact Or.inr hx
      refine ⟨f0 :: rest, ms, hkept, hmem, ?_⟩
      simp only [hA, hT] at hres
      by_cases hopen : rs.isOpen = true
      · simp only [hopen, Bool.not_true, Bool.false_eq_true, if_false] at hres
        cases hloop : indexLoop f0.Index ((d.Index + (es.length + 1) + (U64 - 1)) % U64) with
        | error e =>
          simp only [hloop] at hres
          rw [← hres]
          exact ⟨Or.inl rfl, Or.inl rfl⟩
        | ok purged =>
          simp only [hloop] at hres
          cases hput : putEntries c (f0 :: rest)
              (List.foldl Batch.Delete NewBatch (List.map entryKey purged)) with
          | error e =>
            simp only [hput] at hres
            rw [← hres]
            exact ⟨Or.inr rfl, Or.inl rfl⟩
          | ok sb =>
            simp only [hput] at hres
            have hops := putEntries_ops hput
            rw [foldl_Delete_ops] at hops
            rcases hbatch : rs.storageDriver.Batch sb with ⟨_ | e, d1⟩
            · simp only [hbatch] at hres
              rw [← hres]
              refine ⟨Or.inl rfl, Or.inr ⟨purged, ?_⟩⟩
              show d1.kv = _
              rw [Batch_ok hbatch, hops]
              simp [NewBatch, List.map_map, Function.comp_def]
            · simp only [hbatch] at hres
              rw [← hres]
              exact ⟨Or.inr rfl, Or.inl (Batch_error_kv hbatch)⟩
      · have hclosed : rs.isOpen = false := by simpa using hopen
        simp only [hclosed, Bool.not_false, if_true] at hres
        rw [← hres]
        exact ⟨Or.inl rfl, Or.inl rfl⟩

/-- C15 refuted: on an open storage whose first index is 2, `Append` of two entries that
both carry the index 1 returns nil, puts the second of them into the store
under the entry key of index 1, and replaces the in-memory dummy entry by it. -/
theorem append_repeated_index_reaches_store :
    exampleCompacted.FirstIndex = .ok 2 ∧ (∀ e ∈ repeatedEntries, e.Index < 2) ∧
      (exampleCompacted.Append listCodec repeatedEntries).1 = none ∧
      kvGet exampleCompacted.storageDriver.kv (entryKey 1) = none ∧
      kvGet (exampleCompacted.Append listCodec repeatedEntries).2.storageDriver.kv
          (entryKey 1) = some (listCodec.encEntry (exampleEntry 1 2)) ∧
      exampleCompacted.memoryStorage.ents = [{ Term := 1, Index := 1, Typ := 0, Data := [] }] ∧
      (exampleCompacted.Append listCodec repeatedEntries).2.memoryStorage.ents =
        [exampleEntry 1 2] :=
  ⟨rfl, by decide, by decide, by decide, by decide, by decide, by decide⟩

/-- C15 amended: for appended entries whose indices count up by one, `Append` puts into
the store and adds to the in-memory log only appended entries whose index is at
least the first index `f` held before the call, whatever it returns; and when
every appended entry is below `f` it returns nil and leaves the storage, store
and memory, as it was. -/
theorem Append_drops_compacted (c : Codec) (rs : RaftStorage) (entries : List Entry) (f : Nat)
    (hf : rs.FirstIndex = .ok f) (hc : entriesConsecutive entries = true) :
    ((∀ e ∈ entries, e.Index < f) → rs.Append c entries = (none, rs)) ∧
      (∀ x ∈ (rs.Append c entries).2.memoryStorage.ents,
        x ∈ rs.memoryStorage.ents ∨ (x ∈ entries ∧ f ≤ x.Index)) ∧
      ((rs.Append c entries).2.storageDriver.kv = rs.storageDriver.kv ∨
        ∃ ops : List Op, (rs.Append c entries).2.storageDriver.kv = ops.foldl kvApply rs.storageDriver.kv ∧
          ∀ k v, Op.put k v ∈ ops → ∃ e ∈ entries, f ≤ e.Index ∧ k = entryKey e.Index) := by
  cases entries with
  | nil =>
    refine ⟨fun _ => rfl, fun x hx => Or.inl hx, Or.inl rfl⟩
  | cons e0 tail =>
    have hc1 : consecutiveFrom e0.Index (e0 :: tail) = true := hc
    cases hents : rs.memoryStorage.ents with
    | nil =>
      unfold RaftStorage.FirstIndex MemoryStorage.firstIndex at hf
      rw [hents] at hf
      cases hf
    | cons d es =>
      have hfv := firstIndex_of_ents hents hf
      subst hfv
      refine ⟨?_, ?_, ?_⟩
      · intro hbelow
        have hb := consecutiveFrom_bound hc1
        simp only [List.length_cons] at hb
        have hlastmem : (e0 :: tail)[tail.length]? = some ((e0 :: tail)[tail.length]) :=
          List.getElem?_eq_getElem (by simp)
        have hlastidx := consecutiveFrom_get? hc1 hlastmem
        have hlastlt := hbelow _ (List.getElem_mem (by simp : tail.length < (e0 :: tail).length))
        unfold RaftStorage.Append
        simp only [MemoryStorage.firstIndex, MemoryStorage.lastIndex, hents, List.length_cons]
        have hearly : (e0.Index + (tail.length + 1) + (U64 - 1)) % U64 < (d.Index + 1) % U64 := by
          rw [U64_val] at *
          omega
        rw [if_pos hearly]
      · intro x hx
        rcases @Append_outcomes c rs e0 d tail es hents hc1 with hsame | ⟨kept, ms, hkept, hmem, hm, _⟩
        · rw [hsame] at hx
          exact Or.inl (hents ▸ hx)
        · rcases hm with hm | hm
          · rw [hm] at hx
            rcases hmem x hx with h1 | h1
            · exact Or.inl h1
            · exact Or.inr (hkept x h1)
          · rw [hm] at hx
            exact Or.inl (hents ▸ hx)
      · rcases @Append_outcomes c rs e0 d tail es hents hc1 with hsame | ⟨kept, ms, hkept, _, _, hkv⟩
        · rw [hsame]
          exact Or.inl rfl
        · rcases hkv with hkv | ⟨purged, hkv⟩
          · exact Or.inl hkv
          · refine Or.inr ⟨_, hkv, ?_⟩
            intro k v hput
            rcases List.mem_append.mp hput with h1 | h1
            · obtain ⟨i, _, hi⟩ := List.mem_map.mp h1
              cases hi
            · obtain ⟨e, he, hi⟩ := List.mem_map.mp h1
              injection hi with hi1 _
              exact ⟨e, (hkept e he).1, (hkept e he).2, hi1.symm⟩

/-- One entry at index 1 is appended to a storage whose first index is 2. -/
theorem Append_drops_compacted_witness :
    ((∀ e ∈ [exampleEntry 1 1], e.Index < 2) →
        exampleCompacted.Append listCodec [exampleEntry 1 1] = (none, exampleCompacted)) ∧
      (∀ x ∈ (exampleCompacted.Append listCodec [exampleEntry 1 1]).2.memoryStorage.ents,
        x ∈ exampleCompacted.memoryStorage.ents ∨ (x ∈ [exampleEntry 1 1] ∧ 2 ≤ x.Index)) ∧
      ((exampleCompacted.Append listCodec [exampleEntry 1 1]).2.storageDriver.kv =
          exampleCompacted.storageDriver.kv ∨
        ∃ ops : List Op,
          (exampleCompacted.Append listCodec [exampleEntry 1 1]).2.storageDriver.kv =
            ops.foldl kvApply exampleCompacted.storageDriver.kv ∧
          ∀ k v, Op.put k v ∈ ops →
            ∃ e ∈ [exampleEntry 1 1], 2 ≤ e.Index ∧ k = entryKey e.Index) :=
  Append_drops_compacted listCodec exampleCompacted [exampleEntry 1 1] 2 rfl (by decide)

/-! ## Snapshots: what is staged -/

theorem Batch_of_nextFault {d : StorageDriver} (b : Batch)
    (h : d.nextFault = (none, { kv := d.kv, faults := d.faults.tail })) :
    d.Batch b = (none, { kv := b.ops.foldl kvApply d.kv, faults := d.faults.tail }) := by
  unfold StorageDriver.Batch
  rw [h]

/-- C17: on an open storage whose in-memory log spans the indices `f .. l`, a successful
`ApplySnapshot(snap)` hands the driver one batch that deletes `entryKey(j)` for
every `j` from `f` through `l` and then puts the encoded `snap` under the
snapshot key; afterwards the in-memory log holds only the dummy entry of the
snapshot, so it is empty, its first index is the index of `snap` plus one and
its last index the index of `snap` (in `uint64` arithmetic). -/
theorem ApplySnapshot_purges_log (c : Codec) (rs rs1 : RaftStorage) (snap : Snapshot)
    (f l : Nat) (hopen : rs.isOpen = true) (hf : rs.FirstIndex = .ok f)
    (hl : rs.LastIndex = .ok l) (h : rs.ApplySnapshot c snap = (none, rs1)) :
    (∃ encoded, c.marshalSnapshot snap = .ok encoded ∧
      rs.storageDriver.Batch
          ⟨(List.range' f (l + 1 - f)).map (fun j => Op.delete (entryKey j)) ++
            [Op.put KeySnapshot encoded]⟩ = (none, rs1.storageDriver)) ∧
      rs1.memoryStorage.ents =
        [{ Term := snap.Metadata.Term, Index := snap.Metadata.Index, Typ := 0, Data := [] }] ∧
      rs1.memoryStorage.snapshot = snap ∧
      rs1.FirstIndex = .ok ((snap.Metadata.Index + 1) % U64) ∧
      rs1.LastIndex = .ok (snap.Metadata.Index % U64) := by
  have hf1 : rs.memoryStorage.firstIndex = .ok f := hf
  have hl1 : rs.memoryStorage.lastIndex = .ok l := hl
  unfold RaftStorage.ApplySnapshot at h
  simp only [MemoryStorage.ApplySnapshot, hopen, Bool.not_true, Bool.false_eq_true, if_false,
    hf1, hl1] at h
  by_cases hidx : rs.memoryStorage.snapshot.Metadata.Index ≥ snap.Metadata.Index
  · simp [if_pos hidx] at h
  · simp only [if_neg hidx] at h
    cases hk : entryKeys f l with
    | error e => simp [hk] at h
    | ok keys =>
      simp only [hk] at h
      cases hm : c.marshalSnapshot snap with
      | error e => simp [hm] at h
      | ok enc =>
        simp only [hm] at h
        rcases hbatch : rs.storageDriver.Batch
            ((keys.foldl Batch.Delete NewBatch).Put KeySnapshot enc) with ⟨_ | e, d1⟩
        · simp only [hbatch] at h
          injection h with _ h
          have hkeys : keys = (List.range' f (l + 1 - f)).map entryKey := by
            rcases entryKeys_ok hk with ⟨h1, h2⟩ | ⟨h1, _, h3⟩
            · rw [h2, show l + 1 - f = 0 by omega]
              rfl
            · rw [h3, show l - f + 1 = l + 1 - f by omega]
          have hb : (keys.foldl Batch.Delete NewBatch).Put KeySnapshot enc =
              ⟨(List.range' f (l + 1 - f)).map (fun j => Op.delete (entryKey j)) ++
                [Op.put KeySnapshot enc]⟩ := by
            simp [Batch.Put, foldl_Delete_ops, NewBatch, hkeys, List.map_map, Function.comp_def]
          rw [hb] at hbatch
          have hlast : ∀ a : Nat, (a + 1 + (U64 - 1)) % U64 = a % U64 := by
            intro a
            rw [U64_val]
            omega
          refine ⟨⟨enc, rfl, ?_⟩, ?_, ?_, ?_, ?_⟩
          · rw [hbatch, ← h]
          · rw [← h]
          · rw [← h]
          · rw [← h]
            rfl
          · rw [← h]
            show Except.ok _ = _
            simp only [List.length_cons, List.length_nil, zero_add]
            rw [hlast]
        · simp [hbatch] at h

/-- A snapshot at index 5 replaces a log of three entries. -/
theorem ApplySnapshot_purges_log_witness :
    (∃ encoded, listCodec.marshalSnapshot exampleSnapshot = .ok encoded ∧
      exampleThree.storageDriver.Batch
          ⟨(List.range' 1 (3 + 1 - 1)).map (fun j => Op.delete (entryKey j)) ++
            [Op.put KeySnapshot encoded]⟩ =
        (none, (exampleThree.ApplySnapshot listCodec exampleSnapshot).2.storageDriver)) ∧
      (exampleThree.ApplySnapshot listCodec exampleSnapshot).2.memoryStorage.ents =
        [{ Term := exampleSnapshot.Metadata.Term, Index := exampleSnapshot.Metadata.Index
           Typ := 0, Data := [] }] ∧
      (exampleThree.ApplySnapshot listCodec exampleSnapshot).2.memoryStorage.snapshot =
        exampleSnapshot ∧
      (exampleThree.ApplySnapshot listCodec exampleSnapshot).2.FirstIndex =
        .ok ((exampleSnapshot.Metadata.Index + 1) % U64) ∧
      (exampleThree.ApplySnapshot listCodec exampleSnapshot).2.LastIndex =
        .ok (exampleSnapshot.Metadata.Index % U64) :=
  ApplySnapshot_purges_log listCodec exampleThree
    (exampleThree.ApplySnapshot listCodec exampleSnapshot).2 exampleSnapshot 1 3 (by decide)
    rfl rfl (Prod.ext (by decide) rfl)

theorem CreateSnapshot_success_facts {c : Codec} {rs rs1 : RaftStorage} {i : Nat}
    {cs : Option ConfState} {data : Bytes} {snap : Snapshot} (hopen : rs.isOpen = true)
    (h : rs.CreateSnapshot c i cs data = (.ok snap, rs1)) :
    (∃ enc, c.marshalSnapshot snap = .ok enc) ∧
      rs.storageDriver.nextFault =
        (none, { kv := rs.storageDriver.kv, faults := rs.storageDriver.faults.tail }) := by
  unfold RaftStorage.CreateSnapshot at h
  simp only [hopen, Bool.not_true, Bool.false_eq_true, if_false] at h
  repeat' split at h
  all_goals first
    | (injection h with h1 h2; cases h1; done)
    | (injection h with h1 h2
       injection h1 with h1
       subst h1
       exact ⟨⟨_, by assumption⟩, Batch_nextFault (by assumption)⟩)

/-- C16 refuted: on the open storage whose log holds the entries appended with the
indices 1 and 3, `CreateSnapshot(2, ...)` succeeds and returns a snapshot of
index 2, but the in-memory first index becomes 4, not 3, and the batch has
deleted the entry key of index 3 as well. -/
theorem create_snapshot_on_gapped_log :
    exampleGapped.isOpen = true ∧ exampleGapped.FirstIndex = .ok 1 ∧
      (exampleGapped.CreateSnapshot listCodec 2 none []).1.toOption.map
          (fun s => s.Metadata.Index) = some 2 ∧
      (exampleGapped.CreateSnapshot listCodec 2 none []).2.FirstIndex = .ok 4 ∧
      exampleGapped.storageDriver.kv.map Prod.fst = [entryKey 1, entryKey 3] ∧
      (exampleGapped.CreateSnapshot listCodec 2 none []).2.storageDriver.kv.map Prod.fst =
        [KeySnapshot] :=
  ⟨by decide, rfl, by decide, rfl, by decide, by decide⟩

/-- C16 amended: on an open storage with a well-formed log and first index `f`, a
successful `CreateSnapshot(i, cs, data)` returns a snapshot whose index is `i`,
makes the in-memory first index `i + 1`, and hands the driver one batch that
deletes `entryKey(j)` for every `j` from `f` through `i` and then puts the
encoded snapshot under the snapshot key. -/
theorem CreateSnapshot_compacts_and_persists (c : Codec) (rs rs1 : RaftStorage) (i : Nat)
    (cs : Option ConfState) (data : Bytes) (snap : Snapshot) (f : Nat)
    (hopen : rs.isOpen = true) (hwf : rs.memoryStorage.WellFormed)
    (hf : rs.FirstIndex = .ok f) (h : rs.CreateSnapshot c i cs data = (.ok snap, rs1)) :
    snap.Metadata.Index = i ∧ rs1.FirstIndex = .ok (i + 1) ∧
      ∃ encoded, c.marshalSnapshot snap = .ok encoded ∧
        rs.storageDriver.Batch
            ⟨(List.range' f (i + 1 - f)).map (fun j => Op.delete (entryKey j)) ++
              [Op.put KeySnapshot encoded]⟩ = (none, rs1.storageDriver) := by
  cases hents : rs.memoryStorage.ents with
  | nil =>
    unfold MemoryStorage.WellFormed at hwf
    rw [hents] at hwf
    exact absurd hwf id
  | cons d es =>
    have hwf1 : consecutiveFrom (d.Index + 1) es = true := by
      unfold MemoryStorage.WellFormed at hwf
      rw [hents] at hwf
      exact hwf
    have hfv := firstIndex_of_ents hents hf
    obtain ⟨k, e, hk, hi, hno, _, hsnap, hrs1⟩ := CreateSnapshot_ok hopen hents hwf1 h
    obtain ⟨⟨enc, hm⟩, hnf⟩ := CreateSnapshot_success_facts hopen h
    have henc : c.encSnapshot snap = enc := by
      unfold Codec.encSnapshot
      rw [hm]
    have hfd : f = d.Index + 1 := by
      rw [hfv, U64_val]
      rw [U64_val] at hno
      omega
    refine ⟨by rw [hsnap], ?_, enc, hm, ?_⟩
    · rw [hrs1]
      show Except.ok _ = _
      have hmod : (i + 1) % U64 = i + 1 := by
        rw [U64_val]
        rw [U64_val] at hno
        omega
      simp only [hmod]
    · rw [Batch_of_nextFault _ hnf, hrs1, ← henc, hfd,
        show i + 1 - (d.Index + 1) = k + 1 by omega]
      simp [List.foldl_append, kvApply]

/-- A snapshot at index 2 of a log of three entries. -/
theorem CreateSnapshot_compacts_and_persists_witness :
    ∃ snap, (exampleThree.CreateSnapshot listCodec 2 none [9]).1 = .ok snap ∧
      snap.Metadata.Index = 2 ∧
      (exampleThree.CreateSnapshot listCodec 2 none [9]).2.FirstIndex = .ok (2 + 1) ∧
      ∃ encoded, listCodec.marshalSnapshot snap = .ok encoded ∧
        exampleThree.storageDriver.Batch
            ⟨(List.range' 1 (2 + 1 - 1)).map (fun j => Op.delete (entryKey j)) ++
              [Op.put KeySnapshot encoded]⟩ =
          (none, (exampleThree.CreateSnapshot listCodec 2 none [9]).2.storageDriver) :=
  ⟨{ Data := [9], Metadata := { ConfState := ⟨[]⟩, Index := 2, Term := 1 } }, rfl,
    CreateSnapshot_compacts_and_persists listCodec exampleThree
      (exampleThree.CreateSnapshot listCodec 2 none [9]).2 2 none [9]
      { Data := [9], Metadata := { ConfState := ⟨[]⟩, Index := 2, Term := 1 } } 1 (by decide)
      (show consecutiveFrom 1 [exampleEntry 1 1, exampleEntry 2 1, exampleEntry 3 1] = true
        by decide) rfl rfl⟩

/-! ## Opening: the stages -/

theorem readEntries_flag (c : Codec) (pairs : List (Bytes × Bytes)) (acc : List Entry)
    (last : Option Nat) (flag flag1 : Bool) (out : List Entry)
    (h : readEntries c pairs acc last flag = (.ok out, flag1)) :
    flag1 = (flag && pairs.isEmpty) := by
  induction pairs generalizing acc last flag with
  | nil =>
    simp only [readEntries] at h
    injection h with _ h2
    simp [← h2]
  | cons p rest ih =>
    obtain ⟨ek, v⟩ := p
    simp only [readEntries] at h
    repeat' split at h
    all_goals first
      | (injection h with h1 _; cases h1)
      | (rw [ih _ _ _ h]; simp)

theorem entryIndex_error {ek : Bytes} {e : Err} (h : entryIndex ek = .error e) :
    e = .entryKeyDecode ∧ ek.length ≠ 9 := by
  unfold entryIndex at h
  split at h
  · rename_i hlen
    injection h with h
    exact ⟨h.symm, by simpa [KeyPrefixEntry] using hlen⟩
  · cases h

theorem entryIndex_ok {ek : Bytes} {i : Nat} (h : entryIndex ek = .ok i) : ek.length = 9 := by
  unfold entryIndex at h
  split at h
  · cases h
  · rename_i hlen
    simpa [KeyPrefixEntry] using hlen

/-- One round of the loop of `Open`: what it does with the pair at the head. -/
theorem readEntries_cons (c : Codec) (ek v : Bytes) (rest : List (Bytes × Bytes))
    (acc : List Entry) (last : Option Nat) (flag : Bool) :
    (∃ e, readEntries c ((ek, v) :: rest) acc last flag = (.error e, flag) ∧
      e.returned = true ∧
      (ek.length ≠ 9 ∨
        (∃ i l, entryIndex ek = .ok i ∧ last = some l ∧ (l + 1) % U64 ≠ i) ∨
        (∃ code, c.unmarshalEntry v = .error code) ∨
        (∃ i entry, entryIndex ek = .ok i ∧ c.unmarshalEntry v = .ok entry ∧
          entry.Index ≠ i))) ∨
    (∃ entry, entryIndex ek = .ok entry.Index ∧ c.unmarshalEntry v = .ok entry ∧
      (∀ l, last = some l → (l + 1) % U64 = entry.Index) ∧
      readEntries c ((ek, v) :: rest) acc last flag =
        readEntries c rest (acc ++ [entry]) (some entry.Index) false) := by
  cases hidx : entryIndex ek with
  | error e =>
    left
    obtain ⟨he, hlen⟩ := entryIndex_error hidx
    subst he
    exact ⟨.entryKeyDecode, by simp only [readEntries, hidx], rfl, Or.inl hlen⟩
  | ok i =>
    have hafter : ∀ last1 : Option Nat,
        (∀ l, last1 = some l → (l + 1) % U64 = i) →
        (∃ e, readEntries c ((ek, v) :: rest) acc last1 flag = (.error e, flag) ∧
          e.returned = true ∧
          ((∃ code, c.unmarshalEntry v = .error code) ∨
            (∃ entry, c.unmarshalEntry v = .ok entry ∧ entry.Index ≠ i))) ∨
        (∃ entry, c.unmarshalEntry v = .ok entry ∧ entry.Index = i ∧
          readEntries c ((ek, v) :: rest) acc last1 flag =
            readEntries c rest (acc ++ [entry]) (some i) false) := by
      intro last1 hl
      cases hdec : c.unmarshalEntry v with
      | error code =>
        left
        refine ⟨.codec code, ?_, rfl, Or.inl ⟨code, rfl⟩⟩
        cases last1 with
        | none => simp [readEntries, hidx, hdec]
        | some l => simp [readEntries, hidx, hdec, hl l rfl]
      | ok entry =>
        by_cases hmatch : entry.Index = i
        · right
          refine ⟨entry, rfl, hmatch, ?_⟩
          cases last1 with
          | none => simp [readEntries, hidx, hdec, hmatch]
          | some l => simp [readEntries, hidx, hdec, hl l rfl, hmatch]
        · left
          refine ⟨.indexMismatch, ?_, rfl, Or.inr ⟨entry, rfl, hmatch⟩⟩
          cases last1 with
          | none => simp [readEntries, hidx, hdec, hmatch]
          | some l => simp [readEntries, hidx, hdec, hl l rfl, hmatch]
    by_cases hmono : ∃ l, last = some l ∧ (l + 1) % U64 ≠ i
    · left
      obtain ⟨l, hl, hne⟩ := hmono
      refine ⟨.notMonotonic, ?_, rfl, Or.inr (Or.inl ⟨i, l, rfl, hl, hne⟩)⟩
      subst hl
      simp [readEntries, hidx, hne]
    · have hl : ∀ l, last = some l → (l + 1) % U64 = i := by
        intro l hl
        by_contra hne
        exact hmono ⟨l, hl, hne⟩
      rcases hafter last hl with ⟨e, h1, h2, h3⟩ | ⟨entry, h1, h2, h3⟩
      · left
        refine ⟨e, h1, h2, ?_⟩
        rcases h3 with ⟨code, hc⟩ | ⟨entry, hd, hne⟩
        · exact Or.inr (Or.inr (Or.inl ⟨code, hc⟩))
        · exact Or.inr (Or.inr (Or.inr ⟨i, entry, rfl, hd, hne⟩))
      · right
        subst h2
        exact ⟨entry, rfl, h1, hl, h3⟩

theorem readEntries_error_returned (c : Codec) (pairs : List (Bytes × Bytes))
    (acc : List Entry) (last : Option Nat) (flag flag1 : Bool) (e : Err)
    (h : readEntries c pairs acc last flag = (.error e, flag1)) : e.returned = true := by
  induction pairs generalizing acc last flag with
  | nil =>
    simp only [readEntries] at h
    injection h with h1 _
    cases h1
  | cons p rest ih =>
    obtain ⟨ek, v⟩ := p
    rcases readEntries_cons c ek v rest acc last flag with ⟨e1, h1, h2, _⟩ | ⟨entry, _, _, _, h1⟩
    · rw [h1] at h
      injection h with h _
      injection h with h
      exact h ▸ h2
    · rw [h1] at h
      exact ih _ _ _ h

/-- What the loop of `Open` has checked when it ends without error: every pair decodes
to an entry whose `Index` is the index of the key, and the indices count up by
one (in `uint64` arithmetic) from the pair before. -/
theorem readEntries_ok (c : Codec) (pairs : List (Bytes × Bytes)) (acc : List Entry)
    (last : Option Nat) (flag flag1 : Bool) (out : List Entry)
    (h : readEntries c pairs acc last flag = (.ok out, flag1)) :
    ∃ es, out = acc ++ es ∧
      List.Forall₂ (fun p e => entryIndex p.1 = .ok e.Index ∧ c.unmarshalEntry p.2 = .ok e)
        pairs es ∧
      (∀ l e, last = some l → es.head? = some e → (l + 1) % U64 = e.Index) ∧
      List.Chain' (fun a b : Entry => (a.Index + 1) % U64 = b.Index) es := by
  induction pairs generalizing acc last flag with
  | nil =>
    simp only [readEntries] at h
    injection h with h1 _
    injection h1 with h1
    exact ⟨[], by simp [h1], List.Forall₂.nil, by simp, List.chain'_nil⟩
  | cons p rest ih =>
    obtain ⟨ek, v⟩ := p
    rcases readEntries_cons c ek v rest acc last flag with ⟨e1, h1, _, _⟩ | ⟨entry, hi, hd, hl, h1⟩
    · rw [h1] at h
      injection h with h _
      cases h
    · rw [h1] at h
      obtain ⟨es, hout, hall, hhead, hchain⟩ := ih _ _ _ h
      refine ⟨entry :: es, by simp [hout], List.Forall₂.cons ⟨hi, hd⟩ hall, ?_, ?_⟩
      · intro l e hlast he
        simp only [List.head?_cons, Option.some.injEq] at he
        subst he
        exact hl l hlast
      · rw [List.chain'_cons']
        exact ⟨fun e he => hhead _ e rfl he, hchain⟩

theorem driver_Open_kv (d : StorageDriver) : d.Open.2.kv = d.kv := by
  unfold StorageDriver.Open
  rcases nextFault_cases d with hn | ⟨code, hn, -⟩ <;> rw [hn]

theorem driver_Open_error {d : StorageDriver} {e : Err} (h : d.Open.1 = some e) :
    e.returned = true := by
  unfold StorageDriver.Open at h
  rcases nextFault_cases d with hn | ⟨code, hn, -⟩
  · rw [hn] at h
    cases h
  · rw [hn] at h
    injection h with h
    subst h
    rfl

theorem openSnapshot_spec (c : Codec) (rs : RaftStorage) :
    (rs.openSnapshot c).2.isOpen = rs.isOpen ∧
      (rs.openSnapshot c).2.storageDriver.kv = rs.storageDriver.kv ∧
      (rs.memoryStorage.ents.length = 1 → (rs.openSnapshot c).2.memoryStorage.ents.length = 1) ∧
      (∀ e, (rs.openSnapshot c).1 = some e → e.returned = true) ∧
      ((rs.openSnapshot c).1 = none →
        (rs.openSnapshot c).2.isEmpty =
          (rs.isEmpty && (kvGet rs.storageDriver.kv KeySnapshot).isNone)) := by
  unfold RaftStorage.openSnapshot StorageDriver.Get
  rcases nextFault_cases rs.storageDriver with hn | ⟨code, hn, -⟩
  · simp only [hn, List.map_cons, List.map_nil]
    cases hget : kvGet rs.storageDriver.kv KeySnapshot with
    | none => simp
    | some encoded =>
      simp only
      cases hdec : c.unmarshalSnapshot encoded with
      | error code => simp [Err.returned]
      | ok snapshot =>
        simp only [MemoryStorage.ApplySnapshot]
        by_cases hcmp : rs.memoryStorage.snapshot.Metadata.Index ≥ snapshot.Metadata.Index
        · simp [hcmp, Err.returned]
        · simp [hcmp]
  · simp [hn, Err.returned]

theorem openHardState_spec (c : Codec) (rs : RaftStorage) :
    (rs.openHardState c).2.isOpen = rs.isOpen ∧
      (rs.openHardState c).2.storageDriver.kv = rs.storageDriver.kv ∧
      (rs.openHardState c).2.memoryStorage.ents = rs.memoryStorage.ents ∧
      (∀ e, (rs.openHardState c).1 = some e → e.returned = true) ∧
      ((rs.openHardState c).1 = none →
        (rs.openHardState c).2.isEmpty =
          (rs.isEmpty && (kvGet rs.storageDriver.kv KeyHardState).isNone)) := by
  unfold RaftStorage.openHardState StorageDriver.Get
  rcases nextFault_cases rs.storageDriver with hn | ⟨code, hn, -⟩
  · simp only [hn, List.map_cons, List.map_nil]
    cases hget : kvGet rs.storageDriver.kv KeyHardState with
    | none => simp
    | some encoded =>
      simp only
      cases hdec : c.unmarshalHardState encoded with
      | error code => simp [Err.returned]
      | ok hardState => simp [MemoryStorage.SetHardState]
  · simp [hn, Err.returned]

theorem openEntries_spec (c : Codec) (rs : RaftStorage) :
    ((rs.openEntries c).1 = none →
      (rs.openEntries c).2.isOpen = true ∧
        ∃ entries, readEntries c (entryPairs rs.storageDriver.kv) [] none rs.isEmpty =
          (.ok entries, (rs.openEntries c).2.isEmpty)) ∧
      (∀ e, (rs.openEntries c).1 = some e →
        (rs.openEntries c).2.isOpen = rs.isOpen ∧
          (rs.openEntries c).2.memoryStorage = rs.memoryStorage ∧
          (e.returned = true ∨
            ∃ entries flag, readEntries c (entryPairs rs.storageDriver.kv) [] none rs.isEmpty =
              (.ok entries, flag))) := by
  unfold RaftStorage.openEntries StorageDriver.GetMatches
  rcases nextFault_cases rs.storageDriver with hn | ⟨code, hn, -⟩
  · simp only [hn]
    show _ ∧ _
    rcases hread : readEntries c (entryPairs rs.storageDriver.kv) [] none rs.isEmpty with
      ⟨_ | entries, flag⟩
    · rename_i e0
      have hret := readEntries_error_returned c _ _ _ _ _ _ hread
      have hread1 : readEntries c
          (List.filter (fun p => [KeyPrefixEntry].any (fun q => q.isPrefixOf p.1))
            rs.storageDriver.kv) [] none rs.isEmpty = (.error e0, flag) := hread
      simp only [hread1]
      refine ⟨fun h => (by cases h), ?_⟩
      intro e he
      injection he with he
      subst he
      exact ⟨trivial, trivial, Or.inl hret⟩
    · have hread1 : readEntries c
          (List.filter (fun p => [KeyPrefixEntry].any (fun q => q.isPrefixOf p.1))
            rs.storageDriver.kv) [] none rs.isEmpty = (.ok entries, flag) := hread
      simp only [hread1]
      unfold StorageDriver.iteratorError
      rcases nextFault_cases { kv := rs.storageDriver.kv, faults := rs.storageDriver.faults.tail }
        with hn2 | ⟨code2, hn2, -⟩
      · simp only [hn2]
        cases hA : rs.memoryStorage.Append entries with
        | error e1 =>
          refine ⟨fun h => (by cases h), ?_⟩
          intro e he
          exact ⟨rfl, rfl, Or.inr ⟨entries, flag, rfl⟩⟩
        | ok ms =>
          refine ⟨fun _ => ⟨rfl, entries, rfl⟩, ?_⟩
          intro e he
          cases he
      · simp only [hn2]
        refine ⟨fun h => (by cases h), ?_⟩
        intro e he
        injection he with he
        subst he
        exact ⟨trivial, trivial, Or.inl rfl⟩
  · simp only [hn]
    refine ⟨fun h => (by cases h), ?_⟩
    intro e he
    injection he with he
    subst he
    exact ⟨trivial, trivial, Or.inl rfl⟩

/-- The stages of `Open`, one after the other. -/
theorem Open_cases (c : Codec) (rs : RaftStorage) :
    (∃ e, rs.storageDriver.Open.1 = some e ∧
      rs.Open c = (some e, { rs with storageDriver := rs.storageDriver.Open.2 })) ∨
    (rs.storageDriver.Open.1 = none ∧
      ∃ rs0 : RaftStorage,
        rs0 = { rs with storageDriver := rs.storageDriver.Open.2
                        memoryStorage := NewMemoryStorage } ∧
        ((∃ e, (rs0.openSnapshot c).1 = some e ∧ rs.Open c = (some e, (rs0.openSnapshot c).2)) ∨
          ((rs0.openSnapshot c).1 = none ∧
            ((∃ e, ((rs0.openSnapshot c).2.openHardState c).1 = some e ∧
                rs.Open c = (some e, ((rs0.openSnapshot c).2.openHardState c).2)) ∨
              (((rs0.openSnapshot c).2.openHardState c).1 = none ∧
                rs.Open c = ((rs0.openSnapshot c).2.openHardState c).2.openEntries c))))) := by
  unfold RaftStorage.Open
  rcases hO : rs.storageDriver.Open with ⟨_ | e0, d0⟩
  · right
    refine ⟨rfl, _, rfl, ?_⟩
    simp only
    rcases hS : RaftStorage.openSnapshot c
        { rs with storageDriver := d0, memoryStorage := NewMemoryStorage } with ⟨_ | e1, rs1⟩
    · right
      refine ⟨rfl, ?_⟩
      simp only
      rcases hH : RaftStorage.openHardState c rs1 with ⟨_ | e2, rs2⟩
      · right
        exact ⟨rfl, rfl⟩
      · left
        exact ⟨e2, rfl, rfl⟩
    · left
      exact ⟨e1, rfl, rfl⟩
  · left
    exact ⟨e0, rfl, rfl⟩

/-- What holds after an `Open` that returns nil. -/
theorem Open_ok {c : Codec} {rs rs1 : RaftStorage} (h : rs.Open c = (none, rs1)) :
    rs1.isOpen = true ∧
      ∃ entries, readEntries c (entryPairs rs.storageDriver.kv) [] none
          (rs.isEmpty && (kvGet rs.storageDriver.kv KeySnapshot).isNone &&
            (kvGet rs.storageDriver.kv KeyHardState).isNone) = (.ok entries, rs1.isEmpty) := by
  rcases Open_cases c rs with ⟨e, _, h1⟩ | ⟨_, rs0, hrs0, hrest⟩
  · rw [h1] at h
    injection h with h _
    cases h
  · have hkv0 : rs0.storageDriver.kv = rs.storageDriver.kv := by
      rw [hrs0]
      exact driver_Open_kv rs.storageDriver
    have hempty0 : rs0.isEmpty = rs.isEmpty := by rw [hrs0]
    obtain ⟨_, hkvS, _, _, hemptyS⟩ := openSnapshot_spec c rs0
    rcases hrest with ⟨e, _, h1⟩ | ⟨hS, hrest⟩
    · rw [h1] at h
      injection h with h _
      cases h
    · obtain ⟨_, hkvH, _, _, hemptyH⟩ := openHardState_spec c (rs0.openSnapshot c).2
      rcases hrest with ⟨e, _, h1⟩ | ⟨hH, h1⟩
      · rw [h1] at h
        injection h with h _
        cases h
      · obtain ⟨hok, _⟩ := openEntries_spec c ((rs0.openSnapshot c).2.openHardState c).2
        rw [← h1, h] at hok
        obtain ⟨hopen, entries, hread⟩ := hok rfl
        refine ⟨hopen, entries, ?_⟩
        rw [hkvH, hkvS, hkv0, hemptyH hH, hemptyS hS, hkvS, hkv0, hempty0] at hread
        exact hread

/-- What holds after an `Open` that does not return nil. -/
theorem Open_error {c : Codec} {rs rs1 : RaftStorage} {e : Err}
    (h : rs.Open c = (some e, rs1)) :
    rs1.isOpen = rs.isOpen ∧
      (rs.storageDriver.Open.1 ≠ none →
        rs1.memoryStorage = rs.memoryStorage ∧ rs1.isEmpty = rs.isEmpty) ∧
      (rs.storageDriver.Open.1 = none → rs1.memoryStorage.ents.length = 1) ∧
      (e.returned = true ∨
        ∃ entries flag0 flag, readEntries c (entryPairs rs.storageDriver.kv) [] none flag0 =
          (.ok entries, flag)) := by
  rcases Open_cases c rs with ⟨e0, h0, h1⟩ | ⟨hO, rs0, hrs0, hrest⟩
  · rw [h1] at h
    injection h with h2 h3
    injection h2 with h2
    subst h2 h3
    refine ⟨rfl, fun _ => ⟨rfl, rfl⟩, ?_, Or.inl (driver_Open_error h0)⟩
    intro hnone
    rw [hnone] at h0
    cases h0
  · have hkv0 : rs0.storageDriver.kv = rs.storageDriver.kv := by
      rw [hrs0]
      exact driver_Open_kv rs.storageDriver
    have hopen0 : rs0.isOpen = rs.isOpen := by rw [hrs0]
    have hlen0 : rs0.memoryStorage.ents.length = 1 := by rw [hrs0]; rfl
    obtain ⟨hopenS, hkvS, hlenS, hretS, _⟩ := openSnapshot_spec c rs0
    rcases hrest with ⟨e1, he1, h1⟩ | ⟨hS, hrest⟩
    · rw [h1] at h
      injection h with h2 h3
      injection h2 with h2
      subst h2 h3
      exact ⟨hopenS.trans hopen0, fun hne => absurd hO hne, fun _ => hlenS hlen0,
        Or.inl (hretS _ he1)⟩
    · obtain ⟨hopenH, hkvH, hentsH, hretH, _⟩ := openHardState_spec c (rs0.openSnapshot c).2
      rcases hrest with ⟨e1, he1, h1⟩ | ⟨hH, h1⟩
      · rw [h1] at h
        injection h with h2 h3
        injection h2 with h2
        subst h2 h3
        refine ⟨hopenH.trans (hopenS.trans hopen0), fun hne => absurd hO hne, ?_,
          Or.inl (hretH _ he1)⟩
        intro _
        rw [hentsH]
        exact hlenS hlen0
      · obtain ⟨_, herr⟩ := openEntries_spec c ((rs0.openSnapshot c).2.openHardState c).2
        rw [← h1, h] at herr
        obtain ⟨hopenE, hmemE, hretE⟩ := herr e rfl
        refine ⟨hopenE.trans (hopenH.trans (hopenS.trans hopen0)), fun hne => absurd hO hne, ?_, ?_⟩
        · intro _
          rw [hmemE, hentsH]
          exact hlenS hlen0
        · rcases hretE with hr | ⟨entries, flag, hread⟩
          · exact Or.inl hr
          · rw [hkvH, hkvS, hkv0] at hread
            exact Or.inr ⟨entries, _, flag, hread⟩

/-! ## Opening: what the loop refuses -/

theorem readEntries_bad_key (c : Codec) {pairs : List (Bytes × Bytes)} {p : Bytes × Bytes}
    (hp : p ∈ pairs) (hlen : p.1.length ≠ 9) (acc : List Entry) (last : Option Nat)
    (flag flag1 : Bool) (out : List Entry) :
    readEntries c pairs acc last flag ≠ (.ok out, flag1) := by
  induction pairs generalizing acc last flag with
  | nil => cases hp
  | cons q rest ih =>
    obtain ⟨ek, v⟩ := q
    rcases readEntries_cons c ek v rest acc last flag with ⟨e1, h1, _, _⟩ | ⟨entry, hi, _, _, h1⟩
    · rw [h1]
      intro h
      injection h with h _
      cases h
    · rw [h1]
      rcases List.mem_cons.mp hp with rfl | hp
      · exact absurd (entryIndex_ok hi) hlen
      · exact ih hp _ _ _

theorem readEntries_bad_index (c : Codec) {pairs : List (Bytes × Bytes)} {p : Bytes × Bytes}
    {e : Entry} {i : Nat} (hp : p ∈ pairs) (hd : c.unmarshalEntry p.2 = .ok e)
    (hi : entryIndex p.1 = .ok i) (hne : e.Index ≠ i) (acc : List Entry) (last : Option Nat)
    (flag flag1 : Bool) (out : List Entry) :
    readEntries c pairs acc last flag ≠ (.ok out, flag1) := by
  induction pairs generalizing acc last flag with
  | nil => cases hp
  | cons q rest ih =>
    obtain ⟨ek, v⟩ := q
    rcases readEntries_cons c ek v rest acc last flag with
      ⟨e1, h1, _, _⟩ | ⟨entry, hi1, hd1, _, h1⟩
    · rw [h1]
      intro h
      injection h with h _
      cases h
    · rw [h1]
      rcases List.mem_cons.mp hp with rfl | hp
      · rw [hd1] at hd
        rw [hi1] at hi
        injection hd with hd
        injection hi with hi
        subst hd
        exact absurd hi hne
      · exact ih hp _ _ _

theorem readEntries_bad_gap (c : Codec) {pairs : List (Bytes × Bytes)} {a b : Bytes × Bytes}
    {j i k : Nat} (ha : pairs[j]? = some a) (hb : pairs[j + 1]? = some b)
    (hi : entryIndex a.1 = .ok i) (hk : entryIndex b.1 = .ok k) (hne : (i + 1) % U64 ≠ k)
    (acc : List Entry) (last : Option Nat) (flag flag1 : Bool) (out : List Entry) :
    readEntries c pairs acc last flag ≠ (.ok out, flag1) := by
  induction pairs generalizing j acc last flag with
  | nil => cases ha
  | cons q rest ih =>
    obtain ⟨ek, v⟩ := q
    rcases readEntries_cons c ek v rest acc last flag with
      ⟨e1, h1, _, _⟩ | ⟨entry, hi1, _, _, h1⟩
    · rw [h1]
      intro h
      injection h with h _
      cases h
    · rw [h1]
      cases j with
      | zero =>
        simp only [List.getElem?_cons_zero, Option.some.injEq] at ha
        subst ha
        rw [hi1] at hi
        injection hi with hi
        cases rest with
        | nil => cases hb
        | cons q2 rest2 =>
          simp only [zero_add, List.getElem?_cons_succ, List.getElem?_cons_zero,
            Option.some.injEq] at hb
          subst hb
          rcases readEntries_cons c q2.1 q2.2 rest2 (acc ++ [entry]) (some entry.Index) false
            with ⟨e2, h2, _, _⟩ | ⟨entry2, hi2, _, hl2, _⟩
          · show readEntries c ((q2.1, q2.2) :: rest2) _ _ _ ≠ _
            rw [h2]
            intro h
            injection h with h _
            cases h
          · rw [hi2] at hk
            injection hk with hk
            have := hl2 entry.Index rfl
            rw [hi, hk] at this
            exact absurd this hne
      | succ j1 =>
        simp only [List.getElem?_cons_succ] at ha hb
        exact ih ha hb _ _ _

/-- C18: if `Open` returns nil, the pairs it read under the entry prefix, in key order,
decode to entries whose `Index` is the index of their key, and the indices
count up by one from pair to pair; and if some key under the entry prefix is
not 9 bytes long, or two successive keys do not carry successive indices, or
a pair decodes to an entry whose `Index` is not the index of its key, then
`Open` returns an error. -/
theorem Open_validates_entries (c : Codec) (rs : RaftStorage) :
    (∀ rs1, rs.Open c = (none, rs1) →
      ∃ entries,
        List.Forall₂
          (fun p e => entryIndex p.1 = .ok e.Index ∧ c.unmarshalEntry p.2 = .ok e)
          (entryPairs rs.storageDriver.kv) entries ∧
        List.Chain' (fun a b : Entry => (a.Index + 1) % U64 = b.Index) entries) ∧
    (((∃ p ∈ entryPairs rs.storageDriver.kv, p.1.length ≠ 9) ∨
        (∃ j a b i k, (entryPairs rs.storageDriver.kv)[j]? = some a ∧
          (entryPairs rs.storageDriver.kv)[j + 1]? = some b ∧
          entryIndex a.1 = .ok i ∧ entryIndex b.1 = .ok k ∧ (i + 1) % U64 ≠ k) ∨
        (∃ p ∈ entryPairs rs.storageDriver.kv, ∃ e i,
          c.unmarshalEntry p.2 = .ok e ∧ entryIndex p.1 = .ok i ∧ e.Index ≠ i)) →
      ∃ e rs1, rs.Open c = (some e, rs1) ∧ e.returned = true) := by
  constructor
  · intro rs1 h
    obtain ⟨_, entries, hread⟩ := Open_ok h
    obtain ⟨es, hout, hall, _, hchain⟩ := readEntries_ok c _ _ _ _ _ _ hread
    simp only [List.nil_append] at hout
    subst hout
    exact ⟨entries, hall, hchain⟩
  · intro hbad
    have hno : ∀ acc last flag flag1 out,
        readEntries c (entryPairs rs.storageDriver.kv) acc last flag ≠ (.ok out, flag1) := by
      intro acc last flag flag1 out
      rcases hbad with ⟨p, hp, hlen⟩ | ⟨j, a, b, i, k, ha, hb, hi, hk, hne⟩ |
        ⟨p, hp, e, i, hd, hi, hne⟩
      · exact readEntries_bad_key c hp hlen _ _ _ _ _
      · exact readEntries_bad_gap c ha hb hi hk hne _ _ _ _ _
      · exact readEntries_bad_index c hp hd hi hne _ _ _ _ _
    rcases hres : rs.Open c with ⟨_ | e, rs1⟩
    · obtain ⟨_, entries, hread⟩ := Open_ok hres
      exact absurd hread (hno _ _ _ _ _)
    · refine ⟨e, rs1, rfl, ?_⟩
      obtain ⟨_, _, _, hret⟩ := Open_error hres
      rcases hret with hr | ⟨entries, flag0, flag, hread⟩
      · exact hr
      · exact absurd hread (hno _ _ _ _ _)

/-- The store of `exampleStored`, which `Open` accepts, and the store of
`exampleCorrupt`, whose key of one byte it refuses. -/
theorem Open_validates_entries_witness :
    (∃ entries,
      List.Forall₂
        (fun p e => entryIndex p.1 = .ok e.Index ∧ listCodec.unmarshalEntry p.2 = .ok e)
        (entryPairs exampleStored.storageDriver.kv) entries ∧
      List.Chain' (fun a b : Entry => (a.Index + 1) % U64 = b.Index) entries) ∧
    ∃ e rs1, exampleCorrupt.Open listCodec = (some e, rs1) ∧ e.returned = true :=
  ⟨(Open_validates_entries listCodec exampleStored).1 (exampleStored.Open listCodec).2
      (Prod.ext (by decide) rfl),
    (Open_validates_entries listCodec exampleCorrupt).2
      (Or.inl ⟨(KeyPrefixEntry, []), by decide, by decide⟩)⟩

/-- C19 refuted: `Open` on a store that holds a snapshot and a malformed entry key
returns an error, yet the in-memory snapshot is no longer the one before the
call and `IsEmpty` has changed from true to false. -/
theorem open_failure_changes_memory :
    (exampleCorrupt.Open listCodec).1 = some Err.entryKeyDecode ∧
      exampleCorrupt.memoryStorage.snapshot = default ∧
      (exampleCorrupt.Open listCodec).2.memoryStorage.snapshot = exampleSnapshot ∧
      exampleCorrupt.IsEmpty = true ∧
      (exampleCorrupt.Open listCodec).2.IsEmpty = false := by
  decide

/-- C19 amended: when `Open` returns an error the storage is as open as it was before;
the in-memory state and the value of `IsEmpty` are those before the call when
it is the driver's `Open` that failed; after any later failure the memory
storage has been reset and its log holds no entry. -/
theorem open_failure_keeps_or_resets (c : Codec) (rs rs1 : RaftStorage) (e : Err)
    (h : rs.Open c = (some e, rs1)) :
    rs1.isOpen = rs.isOpen ∧
      (rs.storageDriver.Open.1 ≠ none →
        rs1.memoryStorage = rs.memoryStorage ∧ rs1.IsEmpty = rs.IsEmpty) ∧
      (rs.storageDriver.Open.1 = none → rs1.memoryStorage.ents.length = 1) := by
  obtain ⟨h1, h2, h3, _⟩ := Open_error h
  exact ⟨h1, h2, h3⟩

/-- The failing `Open` of `exampleCorrupt`: the storage stays closed and its log empty. -/
theorem open_failure_keeps_or_resets_witness :
    (exampleCorrupt.Open listCodec).2.isOpen = exampleCorrupt.isOpen ∧
      (exampleCorrupt.storageDriver.Open.1 ≠ none →
        (exampleCorrupt.Open listCodec).2.memoryStorage = exampleCorrupt.memoryStorage ∧
          (exampleCorrupt.Open listCodec).2.IsEmpty = exampleCorrupt.IsEmpty) ∧
      (exampleCorrupt.storageDriver.Open.1 = none →
        (exampleCorrupt.Open listCodec).2.memoryStorage.ents.length = 1) :=
  open_failure_keeps_or_resets listCodec exampleCorrupt (exampleCorrupt.Open listCodec).2
    Err.entryKeyDecode (Prod.ext (by decide) rfl)

/-- C20: for a storage whose `IsEmpty` is true, as it is for a newly constructed and for
a closed one, after `Open` returns nil `IsEmpty` is false exactly when the
store holds a value under the snapshot key, a value under the hard-state key,
or a pair whose key starts with the entry prefix. -/
theorem IsEmpty_after_Open (c : Codec) (rs rs1 : RaftStorage) (hnew : rs.IsEmpty = true)
    (h : rs.Open c = (none, rs1)) :
    rs1.IsEmpty = false ↔
      (kvGet rs.storageDriver.kv KeySnapshot).isSome = true ∨
        (kvGet rs.storageDriver.kv KeyHardState).isSome = true ∨
        ∃ p ∈ rs.storageDriver.kv, KeyPrefixEntry.isPrefixOf p.1 = true := by
  obtain ⟨_, entries, hread⟩ := Open_ok h
  have hflag := readEntries_flag c _ _ _ _ _ _ hread
  have hnew1 : rs.isEmpty = true := hnew
  have hpairs : (entryPairs rs.storageDriver.kv).isEmpty = false ↔
      ∃ p ∈ rs.storageDriver.kv, KeyPrefixEntry.isPrefixOf p.1 = true := by
    unfold entryPairs
    rw [Bool.eq_false_iff, ne_eq, List.isEmpty_iff, List.filter_eq_nil_iff]
    simp
  show rs1.isEmpty = false ↔ _
  rw [hflag, hnew1, ← hpairs]
  cases kvGet rs.storageDriver.kv KeySnapshot <;> cases kvGet rs.storageDriver.kv KeyHardState <;>
    cases (entryPairs rs.storageDriver.kv).isEmpty <;> simp

/-- A new storage opened on the store of `exampleStored` is not empty. -/
theorem IsEmpty_after_Open_witness :
    (exampleStored.Open listCodec).2.IsEmpty = false ↔
      (kvGet exampleStored.storageDriver.kv KeySnapshot).isSome = true ∨
        (kvGet exampleStored.storageDriver.kv KeyHardState).isSome = true ∨
        ∃ p ∈ exampleStored.storageDriver.kv, KeyPrefixEntry.isPrefixOf p.1 = true :=
  IsEmpty_after_Open listCodec exampleStored (exampleStored.Open listCodec).2 rfl
    (Prod.ext (by decide) rfl)


/-! ## One batch per operation -/

theorem SetHardState_one_batch {c : Codec} {rs rs1 : RaftStorage} {st : HardState}
    (hopen : rs.isOpen = true) (h : rs.SetHardState c st = (none, rs1)) :
    ∃ ops, Call.operations c rs rs1 (.setHardState st) = some ops ∧
      rs.storageDriver.Batch ⟨ops⟩ = (none, rs1.storageDriver) := by
  unfold RaftStorage.SetHardState at h
  simp only [MemoryStorage.SetHardState, hopen, Bool.not_true, Bool.false_eq_true, if_false] at h
  cases hm : c.marshalHardState st with
  | error e => simp [hm] at h
  | ok enc =>
    simp only [hm] at h
    rcases hbatch : rs.storageDriver.Batch (NewBatch.Put KeyHardState enc) with ⟨_ | e, d1⟩
    · simp only [hbatch] at h
      injection h with _ h
      refine ⟨[Op.put KeyHardState enc], by simp [Call.operations, hm], ?_⟩
      rw [← h]
      exact hbatch
    · simp [hbatch] at h

theorem ApplySnapshot_one_batch {c : Codec} {rs rs1 : RaftStorage} {snap : Snapshot}
    (hopen : rs.isOpen = true) (h : rs.ApplySnapshot c snap = (none, rs1)) :
    ∃ ops, Call.operations c rs rs1 (.applySnapshot snap) = some ops ∧
      rs.storageDriver.Batch ⟨ops⟩ = (none, rs1.storageDriver) := by
  unfold RaftStorage.ApplySnapshot at h
  simp only [hopen, Bool.not_true, Bool.false_eq_true, if_false] at h
  cases hms : rs.memoryStorage.ApplySnapshot snap with
  | error e => simp [hms] at h
  | ok ms =>
    simp only [hms] at h
    cases hf : rs.memoryStorage.firstIndex with
    | error e => simp [hf] at h
    | ok f =>
      cases hl : rs.memoryStorage.lastIndex with
      | error e => simp [hf, hl] at h
      | ok l =>
        simp only [hf, hl] at h
        cases hk : entryKeys f l with
        | error e => simp [hk] at h
        | ok keys =>
          simp only [hk] at h
          cases hm : c.marshalSnapshot snap with
          | error e => simp [hm] at h
          | ok enc =>
            simp only [hm] at h
            rcases hbatch : rs.storageDriver.Batch
                ((keys.foldl Batch.Delete NewBatch).Put KeySnapshot enc) with ⟨_ | e, d1⟩
            · simp only [hbatch] at h
              injection h with _ h
              have hkeys : keys = (List.range' f (l + 1 - f)).map entryKey := by
                rcases entryKeys_ok hk with ⟨h1, h2⟩ | ⟨h1, _, h3⟩
                · rw [h2, show l + 1 - f = 0 by omega]
                  rfl
                · rw [h3, show l - f + 1 = l + 1 - f by omega]
              have hb : (keys.foldl Batch.Delete NewBatch).Put KeySnapshot enc =
                  ⟨(List.range' f (l + 1 - f)).map (fun j => Op.delete (entryKey j)) ++
                    [Op.put KeySnapshot enc]⟩ := by
                simp [Batch.Put, foldl_Delete_ops, NewBatch, hkeys, List.map_map,
                  Function.comp_def]
              rw [hb] at hbatch
              refine ⟨(List.range' f (l + 1 - f)).map (fun j => Op.delete (entryKey j)) ++
                [Op.put KeySnapshot enc], ?_, ?_⟩
              · simp only [Call.operations, RaftStorage.FirstIndex, RaftStorage.LastIndex, hf, hl, hm]
              · rw [← h]
                exact hbatch
            · simp [hbatch] at h

theorem CreateSnapshot_one_batch {c : Codec} {rs rs1 : RaftStorage} {i : Nat}
    {cs : Option ConfState} {data : Bytes} {snap : Snapshot} (hopen : rs.isOpen = true)
    (h : rs.CreateSnapshot c i cs data = (.ok snap, rs1)) :
    ∃ ops, Call.operations c rs rs1 (.createSnapshot i cs data) = some ops ∧
      rs.storageDriver.Batch ⟨ops⟩ = (none, rs1.storageDriver) := by
  unfold RaftStorage.CreateSnapshot at h
  simp only [hopen, Bool.not_true, Bool.false_eq_true, if_false] at h
  cases hf : rs.memoryStorage.firstIndex with
  | error e => simp [hf] at h
  | ok f =>
    simp only [hf] at h
    cases hcs : rs.memoryStorage.CreateSnapshot i cs data with
    | error e => simp [hcs] at h
    | ok p =>
      obtain ⟨snap1, ms1⟩ := p
      simp only [hcs] at h
      cases hcomp : ms1.Compact i with
      | error e => simp [hcomp] at h
      | ok ms =>
        simp only [hcomp] at h
        cases hm : c.marshalSnapshot snap1 with
        | error e => simp [hm] at h
        | ok enc =>
          simp only [hm] at h
          cases hf1 : ms.firstIndex with
          | error e => simp [hf1] at h
          | ok f1 =>
            simp only [hf1] at h
            cases hk : entryKeys f ((f1 + (U64 - 1)) % U64) with
            | error e => simp [hk] at h
            | ok keys =>
              simp only [hk] at h
              rcases hbatch : rs.storageDriver.Batch
                  ((keys.foldl Batch.Delete NewBatch).Put KeySnapshot enc) with ⟨_ | e, d1⟩
              · simp only [hbatch] at h
                injection h with h1 h2
                injection h1 with h1
                have hf1lt : f1 < U64 := by
                  unfold MemoryStorage.firstIndex at hf1
                  split at hf1
                  · cases hf1
                  · injection hf1 with hf1
                    rw [← hf1]
                    exact Nat.mod_lt _ (by decide)
                have hflt : f < U64 := by
                  unfold MemoryStorage.firstIndex at hf
                  split at hf
                  · cases hf
                  · injection hf with hf
                    rw [← hf]
                    exact Nat.mod_lt _ (by decide)
                have hsnap1 : ms1.snapshot = snap1 := by
                  unfold MemoryStorage.CreateSnapshot at hcs
                  repeat' first
                    | split at hcs
                    | (dsimp only at hcs; split at hcs)
                  all_goals first
                    | (cases hcs; done)
                    | (injection hcs with hcs
                       injection hcs with ha hb
                       rw [← hb, ← ha])
                have hsnap : ms.snapshot = ms1.snapshot := by
                  unfold MemoryStorage.Compact at hcomp
                  repeat' first
                    | split at hcomp
                    | (dsimp only at hcomp; split at hcomp)
                  all_goals first
                    | (cases hcomp; done)
                    | (injection hcomp with hcomp
                       rw [← hcomp])
                have hkeys : keys = (List.range' f (f1 - f)).map entryKey := by
                  rw [U64_val] at hf1lt hflt
                  rcases entryKeys_ok hk with ⟨h3, h4⟩ | ⟨h3, h4, h5⟩
                  · rw [U64_val] at h3
                    rw [h4, show f1 - f = 0 by omega]
                    rfl
                  · rw [U64_val] at h3 h4
                    rw [h5, U64_val]
                    congr 2
                    omega
                have hb : (keys.foldl Batch.Delete NewBatch).Put KeySnapshot enc =
                    ⟨(List.range' f (f1 - f)).map (fun j => Op.delete (entryKey j)) ++
                      [Op.put KeySnapshot enc]⟩ := by
                  simp [Batch.Put, foldl_Delete_ops, NewBatch, hkeys, List.map_map,
                    Function.comp_def]
                rw [hb] at hbatch
                refine ⟨(List.range' f (f1 - f)).map (fun j => Op.delete (entryKey j)) ++
                  [Op.put KeySnapshot enc], ?_, ?_⟩
                · rw [← h2]
                  simp only [Call.operations, RaftStorage.FirstIndex, hf, hf1, hsnap, hsnap1, hm]
                · rw [← h2]
                  exact hbatch
              · simp [hbatch] at h

theorem Append_one_batch {c : Codec} {rs rs1 : RaftStorage} {e0 : Entry} {tail : List Entry}
    (hopen : rs.isOpen = true)
    (hearly : Call.returnsEarly rs (.append (e0 :: tail)) = false)
    (h : rs.Append c (e0 :: tail) = (none, rs1)) :
    ∃ ops, Call.operations c rs rs1 (.append (e0 :: tail)) = some ops ∧
      rs.storageDriver.Batch ⟨ops⟩ = (none, rs1.storageDriver) := by
  unfold RaftStorage.Append at h
  simp only [hopen, Bool.not_true, Bool.false_eq_true, if_false] at h
  cases hf : rs.memoryStorage.firstIndex with
  | error e =>
    simp only [hf] at h
    cases h
  | ok f =>
    cases hl : rs.memoryStorage.lastIndex with
    | error e =>
      simp only [hf, hl] at h
      cases h
    | ok l =>
      simp only [hf, hl] at h
      have hne : ¬(e0.Index + (tail.length + 1) + (U64 - 1)) % U64 < f := by
        simpa [Call.returnsEarly, RaftStorage.FirstIndex, hf] using hearly
      simp only [List.length_cons, if_neg hne] at h
      cases hms : rs.memoryStorage.Append (e0 :: tail) with
      | error e => simp [hms] at h
      | ok ms =>
        simp only [hms] at h
        cases htr : (if f > e0.Index then sliceFrom (e0 :: tail) (f - e0.Index)
            else .ok (e0 :: tail)) with
        | error e => simp [htr] at h
        | ok kept =>
          have hdrop : (e0 :: tail).drop (f - e0.Index) = kept := by
            by_cases hgt : f > e0.Index
            · simp only [hgt, if_true, sliceFrom] at htr
              split at htr
              · injection htr
              · cases htr
            · simp only [hgt, if_false] at htr
              injection htr with htr
              rw [show f - e0.Index = 0 by omega]
              simpa using htr
          cases kept with
          | nil => simp [htr] at h
          | cons k0 rest =>
            simp only [htr] at h
            cases hloop : indexLoop k0.Index l with
            | error e => simp [hloop] at h
            | ok purged =>
              simp only [hloop] at h
              cases hput : putEntries c (k0 :: rest)
                  ((purged.map entryKey).foldl Batch.Delete NewBatch) with
              | error e => simp [hput] at h
              | ok sb =>
                simp only [hput] at h
                rcases hbatch : rs.storageDriver.Batch sb with ⟨_ | e, d1⟩
                · simp only [hbatch] at h
                  injection h with _ h
                  have hpurged : purged = List.range' k0.Index (l + 1 - k0.Index) := by
                    rcases indexLoop_ok hloop with ⟨h1, h2⟩ | ⟨h1, _, h3⟩
                    · rw [h2, show l + 1 - k0.Index = 0 by omega]
                      rfl
                    · rw [h3, show l - k0.Index + 1 = l + 1 - k0.Index by omega]
                  have hsb : sb =
                      ⟨(List.range' k0.Index (l + 1 - k0.Index)).map
                          (fun j => Op.delete (entryKey j)) ++
                        (k0 :: rest).map (fun e => Op.put (entryKey e.Index) (c.encEntry e))⟩ := by
                    have := putEntries_ops hput
                    rw [foldl_Delete_ops, hpurged] at this
                    cases sb
                    simp only at this
                    rw [this]
                    simp [NewBatch, List.map_map, Function.comp_def]
                  rw [hsb] at hbatch
                  refine ⟨(List.range' k0.Index (l + 1 - k0.Index)).map
                      (fun j => Op.delete (entryKey j)) ++
                    (k0 :: rest).map (fun e => Op.put (entryKey e.Index) (c.encEntry e)), ?_, ?_⟩
                  · simp only [Call.operations, RaftStorage.FirstIndex, RaftStorage.LastIndex,
                      hf, hl, hdrop]
                  · rw [← h]
                    exact hbatch
                · simp [hbatch] at h

theorem returnsEarly_unchanged {c : Codec} {rs : RaftStorage} {call : Call}
    (hearly : call.returnsEarly rs = true) : rs.call c call = (none, rs) := by
  cases call with
  | append entries =>
    cases entries with
    | nil => rfl
    | cons e0 tail =>
      simp only [Call.returnsEarly, RaftStorage.FirstIndex] at hearly
      cases hf : rs.memoryStorage.firstIndex with
      | error e => simp [hf] at hearly
      | ok f =>
        simp only [hf, decide_eq_true_eq] at hearly
        have hl : ∃ l, rs.memoryStorage.lastIndex = .ok l := by
          unfold MemoryStorage.firstIndex at hf
          unfold MemoryStorage.lastIndex
          split at hf
          · cases hf
          · rename_i d es hents
            rw [hents]
            exact ⟨_, rfl⟩
        obtain ⟨l, hl⟩ := hl
        simp only [RaftStorage.call, RaftStorage.Append, hf, hl, List.length_cons, if_pos hearly]
  | setHardState st => simp [Call.returnsEarly] at hearly
  | createSnapshot i cs data => simp [Call.returnsEarly] at hearly
  | applySnapshot snap => simp [Call.returnsEarly] at hearly

/-- C21 refuted: on an open storage whose driver would fail its next call, `Append` of no
entries returns nil and so does `Append` of an entry below the first index;
the storage, driver included, is as before: no `Batch` call was issued, and no
batch whatsoever takes the driver before the call to the driver after it. -/
theorem append_returns_without_batch :
    exampleThreeFailing.isOpen = true ∧
      exampleThreeFailing.Append listCodec [] = (none, exampleThreeFailing) ∧
      (∀ ops, exampleThreeFailing.storageDriver.Batch ⟨ops⟩ ≠
        (none, (exampleThreeFailing.Append listCodec []).2.storageDriver)) ∧
      exampleCompactedFailing.isOpen = true ∧
      exampleCompactedFailing.FirstIndex = .ok 2 ∧
      exampleCompactedFailing.Append listCodec [exampleEntry 1 1] =
        (none, exampleCompactedFailing) ∧
      (∀ ops, exampleCompactedFailing.storageDriver.Batch ⟨ops⟩ ≠
        (none, (exampleCompactedFailing.Append listCodec [exampleEntry 1 1]).2.storageDriver)) := by
  refine ⟨by decide, rfl, ?_, by decide, rfl, rfl, ?_⟩
  · intro ops h
    have h1 := congrArg Prod.fst h
    rw [Batch_fault exampleThreeFailing.storageDriver ⟨ops⟩ 5 [] rfl] at h1
    cases h1
  · intro ops h
    have h1 := congrArg Prod.fst h
    rw [Batch_fault exampleCompactedFailing.storageDriver ⟨ops⟩ 5 [] rfl] at h1
    cases h1

/-- C21, amended: a call of `SetHardState`, `Append`, `ApplySnapshot` or `CreateSnapshot`
on an open storage that returns nil leaves the storage as it was when it is an
`Append` that returns early (no entries, or all of them below the first index
by the test of line 402); every other such call issues exactly one `Batch`
call: the driver after the call is the driver before it after one `Batch` of
the operation's puts and deletes, in the order the specification gives. -/
theorem call_issues_one_batch (c : Codec) (rs rs1 : RaftStorage) (call : Call)
    (hopen : rs.isOpen = true) (h : rs.call c call = (none, rs1)) :
    if call.returnsEarly rs = true then rs1 = rs
    else ∃ ops, Call.operations c rs rs1 call = some ops ∧
      rs.storageDriver.Batch ⟨ops⟩ = (none, rs1.storageDriver) := by
  by_cases hearly : call.returnsEarly rs = true
  · rw [if_pos hearly]
    rw [returnsEarly_unchanged hearly] at h
    injection h with _ h
    exact h.symm
  · rw [if_neg hearly]
    have hearly1 : call.returnsEarly rs = false := by simpa using hearly
    cases call with
    | append entries =>
      cases entries with
      | nil => simp [Call.returnsEarly] at hearly
      | cons e0 tail => exact Append_one_batch hopen hearly1 h
    | setHardState st => exact SetHardState_one_batch hopen h
    | createSnapshot i cs data =>
      simp only [RaftStorage.call] at h
      cases hres : rs.CreateSnapshot c i cs data with
      | mk r rs2 =>
        cases r with
        | error e => simp [hres] at h
        | ok snap =>
          simp only [hres] at h
          injection h with _ h
          subst h
          exact CreateSnapshot_one_batch hopen hres
    | applySnapshot snap => exact ApplySnapshot_one_batch hopen h

/-- An `Append` that overlaps the log of three entries, on a driver whose second call
would fail: the one batch deletes the key of index 3 and puts the two entries. -/
theorem call_issues_one_batch_witness :
    exampleThreeScripted.isOpen = true ∧
      Call.operations listCodec exampleThreeScripted
          (exampleThreeScripted.call listCodec
            (.append [exampleEntry 3 2, exampleEntry 4 2])).2
          (.append [exampleEntry 3 2, exampleEntry 4 2]) =
        some [Op.delete (entryKey 3), Op.put (entryKey 3) [2, 3, 0, 7],
          Op.put (entryKey 4) [2, 4, 0, 7]] ∧
      (exampleThreeScripted.call listCodec
          (.append [exampleEntry 3 2, exampleEntry 4 2])).2.storageDriver.faults = [some 5] ∧
      (if Call.returnsEarly exampleThreeScripted (.append [exampleEntry 3 2, exampleEntry 4 2]) = true
        then (exampleThreeScripted.call listCodec
          (.append [exampleEntry 3 2, exampleEntry 4 2])).2 = exampleThreeScripted
        else ∃ ops, Call.operations listCodec exampleThreeScripted
            (exampleThreeScripted.call listCodec
              (.append [exampleEntry 3 2, exampleEntry 4 2])).2
            (.append [exampleEntry 3 2, exampleEntry 4 2]) = some ops ∧
          exampleThreeScripted.storageDriver.Batch ⟨ops⟩ =
            (none, (exampleThreeScripted.call listCodec
              (.append [exampleEntry 3 2, exampleEntry 4 2])).2.storageDriver)) :=
  ⟨by decide, rfl, rfl,
    call_issues_one_batch listCodec exampleThreeScripted _
      (.append [exampleEntry 3 2, exampleEntry 4 2]) (by decide) (Prod.ext (by decide) rfl)⟩

/-! ## The layout of the keys -/

/-- C22: for every index `i`, `entryKey(i)` is the byte 2 followed by the eight bytes of
`i`, most significant first: nine bytes, each below 256, the last eight of which
read as a base-256 number give `i` (reduced modulo 2^64). The snapshot key is the
single byte 0 and the hard state key the single byte 1, so neither is an entry
key. -/
theorem entryKey_layout (i : Nat) :
    entryKey i =
        [2, i / 2 ^ 56 % 256, i / 2 ^ 48 % 256, i / 2 ^ 40 % 256, i / 2 ^ 32 % 256,
          i / 2 ^ 24 % 256, i / 2 ^ 16 % 256, i / 2 ^ 8 % 256, i % 256] ∧
      (entryKey i).length = 9 ∧
      (∀ b ∈ entryKey i, b < 256) ∧
      (entryKey i).tail.foldl (fun acc b => acc * 256 + b) 0 = i % 2 ^ 64 ∧
      KeySnapshot = [0] ∧ KeyHardState = [1] ∧
      entryKey i ≠ KeySnapshot ∧ entryKey i ≠ KeyHardState := by
  refine ⟨rfl, rfl, ?_, ?_, rfl, rfl, ?_, ?_⟩
  · intro b hb
    simp only [entryKey, KeyPrefixEntry, putUint64, List.cons_append, List.nil_append,
      List.mem_cons, List.mem_singleton, List.not_mem_nil, or_false] at hb
    rcases hb with h | h | h | h | h | h | h | h | h <;> omega
  · simp only [entryKey, KeyPrefixEntry, putUint64, List.cons_append, List.nil_append,
      List.tail_cons, List.foldl_cons, List.foldl_nil]
    omega
  · intro h
    have := congrArg List.length h
    simp [entryKey, KeyPrefixEntry, putUint64, KeySnapshot] at this
  · intro h
    have := congrArg List.length h
    simp [entryKey, KeyPrefixEntry, putUint64, KeyHardState] at this

/-- C29: for every 64-bit index `i`, `entryIndex(entryKey(i))` returns `i` without error,
and `entryIndex` returns an error exactly for the byte strings whose length is
not 9. -/
theorem entryKey_round_trip (i : Nat) (e : Bytes) (h : i < U64) :
    entryIndex (entryKey i) = .ok i ∧
      ((∃ err, entryIndex e = .error err) ↔ e.length ≠ 9) := by
  refine ⟨entryIndex_entryKey i h, ?_⟩
  unfold entryIndex
  by_cases hlen : e.length = 9
  · simp [hlen, KeyPrefixEntry]
  · simp [hlen, KeyPrefixEntry]

/-- The index 5 and a key of two bytes. -/
theorem entryKey_round_trip_witness :
    5 < U64 ∧ entryIndex (entryKey 5) = .ok 5 ∧
      ((∃ err, entryIndex [2, 5] = .error err) ↔ [2, 5].length ≠ 9) :=
  ⟨by decide, entryKey_round_trip 5 [2, 5] (by decide)⟩

end Raft

/-! # Properties of the node -/

namespace Devicedb

open Raft (Bytes Op Batch NewBatch StorageDriver bytesLt mapGet mapSet mapDelete)

/-! ## Key families -/

theorem getUint32_putUint32 (i : Nat) (h : i < U32) : getUint32 (putUint32 i) = i := by
  rw [U32] at h
  simp only [getUint32, putUint32, List.take, List.foldl_cons, List.foldl_nil]
  omega

theorem nodeBytes_length (i : Nat) : (nodeBytes i).length = 4 := rfl

/-- C23: for every leaf id and every byte string `k`, `encodeMerkleLeafKey(id)` is the byte 0
followed by the four big-endian bytes of `id`, `encodePartitionMerkleLeafKey(id, k)`
is the byte 1 followed by those four bytes and then `k`, and
`encodePartitionDataKey(k)` is the byte 2 followed by `k`; the four bytes read as
a base-256 number give `id` (reduced modulo 2^32); no key of one family equals
a key of another family; and `decodePartitionDataKey` returns `k` for the data key of
`k`. -/
theorem key_families (id id1 : Nat) (k k1 : Bytes) :
    encodeMerkleLeafKey id =
        [0, id / 2 ^ 24 % 256, id / 2 ^ 16 % 256, id / 2 ^ 8 % 256, id % 256] ∧
      encodePartitionMerkleLeafKey id k =
        [1, id / 2 ^ 24 % 256, id / 2 ^ 16 % 256, id / 2 ^ 8 % 256, id % 256] ++ k ∧
      encodePartitionDataKey k = 2 :: k ∧
      (nodeBytes id).foldl (fun acc b => acc * 256 + b) 0 = id % 2 ^ 32 ∧
      encodeMerkleLeafKey id ≠ encodePartitionMerkleLeafKey id1 k1 ∧
      encodeMerkleLeafKey id ≠ encodePartitionDataKey k1 ∧
      encodePartitionMerkleLeafKey id k ≠ encodePartitionDataKey k1 ∧
      decodePartitionDataKey (encodePartitionDataKey k) = .ok k := by
  refine ⟨rfl, rfl, rfl, ?_, ?_, ?_, ?_, ?_⟩
  · simp only [nodeBytes, putUint32, List.foldl_cons, List.foldl_nil]
    omega
  · intro h
    have := congrArg List.head? h
    simp [encodeMerkleLeafKey, encodePartitionMerkleLeafKey, MASTER_MERKLE_TREE_PREFIX,
      PARTITION_MERKLE_LEAF_PREFIX] at this
  · intro h
    have := congrArg List.head? h
    simp [encodeMerkleLeafKey, encodePartitionDataKey, MASTER_MERKLE_TREE_PREFIX,
      PARTITION_DATA_PREFIX] at this
  · intro h
    have := congrArg List.head? h
    simp [encodePartitionMerkleLeafKey, encodePartitionDataKey, PARTITION_MERKLE_LEAF_PREFIX,
      PARTITION_DATA_PREFIX] at this
  · simp [decodePartitionDataKey, encodePartitionDataKey, PARTITION_DATA_PREFIX]

/-- C30: for every leaf id and every non-empty user key `k`,
`decodePartitionMerkleLeafKey` returns `(id, k)` for the partition Merkle leaf key of
`id` and `k`; for the empty user key it returns an error, and it returns an error
for every input shorter than 6 bytes. -/
theorem partition_leaf_key_round_trip (id : Nat) (k input : Bytes) (hid : id < U32) :
    (k ≠ [] → decodePartitionMerkleLeafKey (encodePartitionMerkleLeafKey id k) = .ok (id, k)) ∧
      (∃ err, decodePartitionMerkleLeafKey (encodePartitionMerkleLeafKey id []) = .error err) ∧
      (input.length < 6 → ∃ err, decodePartitionMerkleLeafKey input = .error err) := by
  refine ⟨?_, ⟨.invalidLeafKey, rfl⟩, ?_⟩
  · intro hk
    have hlen : 0 < k.length := List.length_pos.mpr hk
    have hget := getUint32_putUint32 id hid
    unfold decodePartitionMerkleLeafKey encodePartitionMerkleLeafKey
    have h1 : ¬ (PARTITION_MERKLE_LEAF_PREFIX ++ nodeBytes id ++ k).length <
        PARTITION_MERKLE_LEAF_PREFIX.length + 5 := by
      simp [PARTITION_MERKLE_LEAF_PREFIX, nodeBytes_length]
      omega
    rw [if_neg h1]
    simp only [PARTITION_MERKLE_LEAF_PREFIX, nodeBytes, putUint32, List.cons_append,
      List.nil_append, List.length_cons, List.length_nil, List.drop, List.take]
    simp only [putUint32, getUint32, List.take, List.foldl_cons, List.foldl_nil] at hget
    simp only [getUint32, List.take, List.foldl_cons, List.foldl_nil, hget]
    rfl
  · intro hlen
    refine ⟨.invalidLeafKey, ?_⟩
    unfold decodePartitionMerkleLeafKey
    rw [if_pos (by simpa [PARTITION_MERKLE_LEAF_PREFIX] using hlen)]

/-- The leaf 258 and the user key `ab`; an input of five bytes. -/
theorem partition_leaf_key_round_trip_witness :
    258 < U32 ∧
      (([97, 98] : Bytes) ≠ [] →
        decodePartitionMerkleLeafKey (encodePartitionMerkleLeafKey 258 [97, 98]) =
          .ok (258, [97, 98])) ∧
      (∃ err, decodePartitionMerkleLeafKey (encodePartitionMerkleLeafKey 258 []) = .error err) ∧
      (([1, 0, 0, 1, 2] : Bytes).length < 6 →
        ∃ err, decodePartitionMerkleLeafKey [1, 0, 0, 1, 2] = .error err) :=
  ⟨by decide, partition_leaf_key_round_trip 258 [97, 98] [1, 0, 0, 1, 2] (by decide)⟩

/-! ## The limit on the length of a key -/

theorem checkKeys_accepts (keys : List Bytes)
    (h : ∀ x ∈ keys, 1 ≤ x.length ∧ x.length ≤ MAX_SORTING_KEY_LENGTH) :
    checkKeys keys = (none, keys.map encodePartitionDataKey) := by
  induction keys with
  | nil => rfl
  | cons k rest ih =>
    have hk := h k (List.mem_cons_self _ _)
    have hrest := ih (fun x hx => h x (List.mem_cons_of_mem _ hx))
    have h0 : ¬ k.length = 0 := by omega
    have h1 : ¬ k.length > MAX_SORTING_KEY_LENGTH := by omega
    simp only [checkKeys, if_neg h0, if_neg h1, hrest, List.map_cons]

theorem checkKeys_rejects (pre post : List Bytes) (k : Bytes)
    (h : ∀ x ∈ pre, 1 ≤ x.length ∧ x.length ≤ MAX_SORTING_KEY_LENGTH)
    (hk : k.length = 0 ∨ MAX_SORTING_KEY_LENGTH < k.length) :
    (checkKeys (pre ++ k :: post)).1 =
      some (if k.length = 0 then DBerror.EEmpty else DBerror.ELength) := by
  induction pre with
  | nil =>
    by_cases h0 : k.length = 0
    · simp [checkKeys, h0]
    · have h1 : k.length > MAX_SORTING_KEY_LENGTH := by omega
      simp [checkKeys, h0, h1]
  | cons x rest ih =>
    have hx := h x (List.mem_cons_self _ _)
    have hrest := ih (fun y hy => h y (List.mem_cons_of_mem _ hy))
    have h0 : ¬ x.length = 0 := by omega
    have h1 : ¬ x.length > MAX_SORTING_KEY_LENGTH := by omega
    simp only [List.cons_append, checkKeys, if_neg h0, if_neg h1]
    exact hrest

theorem decodeValues_error (lib : Library) (keys : List Bytes) (values : List (Option Bytes))
    (e : DBerror) (h : decodeValues lib keys values = .error e) :
    e = .panic ∨ e = .EStorage := by
  induction keys generalizing values with
  | nil => simp [decodeValues] at h
  | cons k rest ih =>
    cases values with
    | nil =>
      simp only [decodeValues] at h
      injection h with h
      exact Or.inl h.symm
    | cons v vs =>
      cases v with
      | none =>
        simp only [decodeValues] at h
        cases hr : decodeValues lib rest vs with
        | error e1 =>
          rw [hr] at h
          injection h with h
          subst h
          exact ih vs hr
        | ok r => simp [hr] at h
      | some b =>
        simp only [decodeValues] at h
        cases hd : lib.Decode b with
        | error c =>
          rw [hd] at h
          injection h with h
          exact Or.inr h.symm
        | ok ss =>
          rw [hd] at h
          cases hr : decodeValues lib rest vs with
          | error e1 =>
            simp only [hr] at h
            injection h with h
            subst h
            exact ih vs hr
          | ok r => simp [hr] at h

theorem Get_rejected (lib : Library) (node : Node) (keys : List Bytes) (e : DBerror)
    (hne : keys ≠ []) (h : (checkKeys keys).1 = some e) :
    (node.Get lib keys).1 = .error e ∧ (node.Get lib keys).2.2 = node := by
  have hlen : ¬ keys.length = 0 := by
    intro h0
    exact hne (List.length_eq_zero.mp h0)
  unfold Node.Get
  rw [if_neg hlen]
  rcases hc : checkKeys keys with ⟨e1, keys1⟩
  rw [hc] at h
  simp only at h
  subst h
  exact ⟨rfl, rfl⟩

theorem Get_accepted (lib : Library) (node : Node) (keys : List Bytes) (hne : keys ≠ [])
    (h : ∀ x ∈ keys, 1 ≤ x.length ∧ x.length ≤ MAX_SORTING_KEY_LENGTH) :
    (node.Get lib keys).2.2.storageDriver =
        (node.storageDriver.Get (keys.map encodePartitionDataKey)).2 ∧
      (node.Get lib keys).1 ≠ .error .EEmpty ∧ (node.Get lib keys).1 ≠ .error .ELength := by
  have hlen : ¬ keys.length = 0 := by
    intro h0
    exact hne (List.length_eq_zero.mp h0)
  unfold Node.Get
  rw [if_neg hlen, checkKeys_accepts keys h]
  simp only
  rcases hg : node.storageDriver.Get (keys.map encodePartitionDataKey) with ⟨r, d⟩
  cases r with
  | error e => simp
  | ok values =>
    simp only
    refine ⟨trivial, ?_, ?_⟩
    · intro hd
      rcases decodeValues_error lib _ _ _ hd with h1 | h1 <;> cases h1
    · intro hd
      rcases decodeValues_error lib _ _ _ hd with h1 | h1 <;> cases h1

/-- C24: `UpdateBatch.Put` and `UpdateBatch.Delete` accept a key (with a context that is not
nil) exactly when its length is between 1 and 255; an empty key yields `EEmpty`, a
key longer than 255 bytes yields `ELength`, a nil context with a key of accepted
length yields `EEmpty`, and a rejected call leaves the batch as it was; an
accepted call stages the operation and records the context. `Node.Get` yields
`EEmpty` for an empty list of keys; when the first key that is not of accepted
length is empty it yields `EEmpty`, when it is longer than 255 bytes `ELength`,
and in both cases the node is as before: the storage driver was not called;
when the list is not empty and every key is of accepted length, the driver is
called once to read the data keys, and the result is neither `EEmpty` nor
`ELength`. -/
theorem key_length_limit (updateBatch : UpdateBatch) (key : Bytes) (value : Option Bytes)
    (context : Option DVV) (lib : Library) (node : Node) (pre post : List Bytes) :
    (((updateBatch.Put key value context).1 = none ↔
        1 ≤ key.length ∧ key.length ≤ 255 ∧ context.isSome = true) ∧
      (key.length = 0 → updateBatch.Put key value context = (some .EEmpty, updateBatch)) ∧
      (255 < key.length → updateBatch.Put key value context = (some .ELength, updateBatch)) ∧
      (1 ≤ key.length → key.length ≤ 255 → context = none →
        updateBatch.Put key value context = (some .EEmpty, updateBatch)) ∧
      (∀ c, 1 ≤ key.length → key.length ≤ 255 → context = some c →
        updateBatch.Put key value context =
          (none, { RawBatch := ⟨updateBatch.RawBatch.ops ++ [Op.put key (value.getD [])]⟩
                   Contexts := mapSet key c updateBatch.Contexts }))) ∧
    (((updateBatch.Delete key context).1 = none ↔
        1 ≤ key.length ∧ key.length ≤ 255 ∧ context.isSome = true) ∧
      (key.length = 0 → updateBatch.Delete key context = (some .EEmpty, updateBatch)) ∧
      (255 < key.length → updateBatch.Delete key context = (some .ELength, updateBatch)) ∧
      (1 ≤ key.length → key.length ≤ 255 → context = none →
        updateBatch.Delete key context = (some .EEmpty, updateBatch)) ∧
      (∀ c, 1 ≤ key.length → key.length ≤ 255 → context = some c →
        updateBatch.Delete key context =
          (none, { RawBatch := ⟨updateBatch.RawBatch.ops ++ [Op.delete key]⟩
                   Contexts := mapSet key c updateBatch.Contexts }))) ∧
    (node.Get lib [] = (.error .EEmpty, [], node) ∧
      ((∀ x ∈ pre, 1 ≤ x.length ∧ x.length ≤ 255) → key.length = 0 →
        (node.Get lib (pre ++ key :: post)).1 = .error .EEmpty ∧
          (node.Get lib (pre ++ key :: post)).2.2 = node) ∧
      ((∀ x ∈ pre, 1 ≤ x.length ∧ x.length ≤ 255) → 255 < key.length →
        (node.Get lib (pre ++ key :: post)).1 = .error .ELength ∧
          (node.Get lib (pre ++ key :: post)).2.2 = node) ∧
      (pre ≠ [] → (∀ x ∈ pre, 1 ≤ x.length ∧ x.length ≤ 255) →
        (node.Get lib pre).2.2.storageDriver =
            (node.storageDriver.Get (pre.map encodePartitionDataKey)).2 ∧
          (node.Get lib pre).1 ≠ .error .EEmpty ∧ (node.Get lib pre).1 ≠ .error .ELength)) := by
  refine ⟨⟨?_, ?_, ?_, ?_, ?_⟩, ⟨?_, ?_, ?_, ?_, ?_⟩, rfl, ?_, ?_, ?_⟩
  · unfold UpdateBatch.Put
    by_cases h0 : key.length = 0
    · simp [h0]
    · by_cases h1 : key.length > MAX_SORTING_KEY_LENGTH
      · have : ¬ key.length ≤ 255 := by
          simp only [MAX_SORTING_KEY_LENGTH] at h1
          omega
        simp [h0, h1, this]
      · have h2 : 1 ≤ key.length ∧ key.length ≤ 255 := by
          simp only [MAX_SORTING_KEY_LENGTH] at h1
          omega
        cases context <;> simp [h0, h1, h2]
  · intro h0
    simp [UpdateBatch.Put, h0]
  · intro h1
    have h0 : ¬ key.length = 0 := by omega
    simp [UpdateBatch.Put, h0, MAX_SORTING_KEY_LENGTH, h1]
  · intro h1 h2 hc
    have h0 : ¬ key.length = 0 := by omega
    have h3 : ¬ key.length > MAX_SORTING_KEY_LENGTH := by
      simp only [MAX_SORTING_KEY_LENGTH]
      omega
    simp [UpdateBatch.Put, h0, h3, hc]
  · intro c h1 h2 hc
    have h0 : ¬ key.length = 0 := by omega
    have h3 : ¬ key.length > MAX_SORTING_KEY_LENGTH := by
      simp only [MAX_SORTING_KEY_LENGTH]
      omega
    simp [UpdateBatch.Put, h0, h3, hc, UpdateBatch.Batch, UpdateBatch.Context, Batch.Put]
  · unfold UpdateBatch.Delete
    by_cases h0 : key.length = 0
    · simp [h0]
    · by_cases h1 : key.length > MAX_SORTING_KEY_LENGTH
      · have : ¬ key.length ≤ 255 := by
          simp only [MAX_SORTING_KEY_LENGTH] at h1
          omega
        simp [h0, h1, this]
      · have h2 : 1 ≤ key.length ∧ key.length ≤ 255 := by
          simp only [MAX_SORTING_KEY_LENGTH] at h1
          omega
        cases context <;> simp [h0, h1, h2]
  · intro h0
    simp [UpdateBatch.Delete, h0]
  · intro h1
    have h0 : ¬ key.length = 0 := by omega
    simp [UpdateBatch.Delete, h0, MAX_SORTING_KEY_LENGTH, h1]
  · intro h1 h2 hc
    have h0 : ¬ key.length = 0 := by omega
    have h3 : ¬ key.length > MAX_SORTING_KEY_LENGTH := by
      simp only [MAX_SORTING_KEY_LENGTH]
      omega
    simp [UpdateBatch.Delete, h0, h3, hc]
  · intro c h1 h2 hc
    have h0 : ¬ key.length = 0 := by omega
    have h3 : ¬ key.length > MAX_SORTING_KEY_LENGTH := by
      simp only [MAX_SORTING_KEY_LENGTH]
      omega
    simp [UpdateBatch.Delete, h0, h3, hc, UpdateBatch.Batch, UpdateBatch.Context, Batch.Delete]
  · intro hpre h0
    have := checkKeys_rejects pre post key hpre (Or.inl h0)
    rw [if_pos h0] at this
    exact Get_rejected lib node _ _ (by simp) this
  · intro hpre h1
    have h0 : ¬ key.length = 0 := by omega
    have := checkKeys_rejects pre post key hpre (Or.inr h1)
    rw [if_neg h0] at this
    exact Get_rejected lib node _ _ (by simp) this
  · intro hne hpre
    exact Get_accepted lib node pre hne hpre

/-- An empty key, a key of 256 bytes and the key `a` put into a new batch; a read of the
keys `a`, empty, `b`, and a read of the key `a`. -/
theorem key_length_limit_witness :
    NewUpdateBatch.Put [] (some [9]) (some exampleContext) = (some .EEmpty, NewUpdateBatch) ∧
      NewUpdateBatch.Put (List.replicate 256 97) (some [9]) (some exampleContext) =
        (some .ELength, NewUpdateBatch) ∧
      NewUpdateBatch.Put [97] (some [9]) (some exampleContext) =
        (none, { RawBatch := ⟨NewUpdateBatch.RawBatch.ops ++ [Op.put [97] ((some [9]).getD [])]⟩
                 Contexts := mapSet [97] exampleContext NewUpdateBatch.Contexts }) ∧
      NewUpdateBatch.Delete [97] none = (some .EEmpty, NewUpdateBatch) ∧
      ((Node.Get exampleLibrary (exampleNode Default) ([[97]] ++ [] :: [[98]])).1 =
          .error .EEmpty ∧
        (Node.Get exampleLibrary (exampleNode Default) ([[97]] ++ [] :: [[98]])).2.2 =
          exampleNode Default) ∧
      ((Node.Get exampleLibrary (exampleNode Default) [[97]]).2.2.storageDriver =
          ((exampleNode Default).storageDriver.Get ([[97]].map encodePartitionDataKey)).2 ∧
        (Node.Get exampleLibrary (exampleNode Default) [[97]]).1 ≠ .error .EEmpty ∧
        (Node.Get exampleLibrary (exampleNode Default) [[97]]).1 ≠ .error .ELength) :=
  ⟨(key_length_limit NewUpdateBatch [] (some [9]) (some exampleContext) exampleLibrary
      (exampleNode Default) [[97]] [[98]]).1.2.1 rfl,
    (key_length_limit NewUpdateBatch (List.replicate 256 97) (some [9]) (some exampleContext)
      exampleLibrary (exampleNode Default) [[97]] [[98]]).1.2.2.1
      (by rw [List.length_replicate]; omega),
    (key_length_limit NewUpdateBatch [97] (some [9]) (some exampleContext) exampleLibrary
      (exampleNode Default) [[97]] [[98]]).1.2.2.2.2 exampleContext (by decide) (by decide) rfl,
    (key_length_limit NewUpdateBatch [97] (some [9]) none exampleLibrary
      (exampleNode Default) [[97]] [[98]]).2.1.2.2.2.1 (by decide) (by decide) rfl,
    (key_length_limit NewUpdateBatch [] (some [9]) (some exampleContext) exampleLibrary
      (exampleNode Default) [[97]] [[98]]).2.2.2.1 (by decide) rfl,
    (key_length_limit NewUpdateBatch [] (some [9]) (some exampleContext) exampleLibrary
      (exampleNode Default) [[97]] [[98]]).2.2.2.2.2 (by decide) (by decide)⟩

/-! ## The order of the locks -/

theorem bytesLt_trans {a b c : Bytes} (h1 : bytesLt a b = true) (h2 : bytesLt b c = true) :
    bytesLt a c = true := by
  induction a generalizing b c with
  | nil =>
    cases b with
    | nil => simp [bytesLt] at h1
    | cons y ys =>
      cases c with
      | nil => simp [bytesLt] at h2
      | cons z zs => simp [bytesLt]
  | cons x xs ih =>
    cases b with
    | nil => simp [bytesLt] at h1
    | cons y ys =>
      cases c with
      | nil => simp [bytesLt] at h2
      | cons z zs =>
        simp only [bytesLt, Bool.or_eq_true, decide_eq_true_eq, Bool.and_eq_true,
          beq_iff_eq] at h1 h2 ⊢
        rcases h1 with h1 | ⟨h1, h3⟩
        · rcases h2 with h2 | ⟨h2, h4⟩
          · exact Or.inl (by omega)
          · exact Or.inl (by omega)
        · rcases h2 with h2 | ⟨h2, h4⟩
          · exact Or.inl (by omega)
          · exact Or.inr ⟨by omega, ih h3 h4⟩

theorem bytesLt_trichotomy (a b : Bytes) : bytesLt a b = true ∨ a = b ∨ bytesLt b a = true := by
  induction a generalizing b with
  | nil =>
    cases b with
    | nil => exact Or.inr (Or.inl rfl)
    | cons y ys => exact Or.inl (by simp [bytesLt])
  | cons x xs ih =>
    cases b with
    | nil => exact Or.inr (Or.inr (by simp [bytesLt]))
    | cons y ys =>
      simp only [bytesLt, Bool.or_eq_true, decide_eq_true_eq, Bool.and_eq_true, beq_iff_eq,
        List.cons.injEq]
      rcases Nat.lt_trichotomy x y with h | h | h
      · exact Or.inl (Or.inl h)
      · rcases ih ys with h1 | h1 | h1
        · exact Or.inl (Or.inr ⟨h, h1⟩)
        · exact Or.inr (Or.inl ⟨h, h1⟩)
        · exact Or.inr (Or.inr (Or.inr ⟨h.symm, h1⟩))
      · exact Or.inr (Or.inr (Or.inl h))

/-- Ascending byte-wise order: `a` is not greater than `b`. -/
theorem notLt_trans {a b c : Bytes} (h1 : bytesLt b a = false) (h2 : bytesLt c b = false) :
    bytesLt c a = false := by
  by_contra h
  have hca : bytesLt c a = true := by simpa using h
  rcases bytesLt_trichotomy a b with h3 | h3 | h3
  · have := bytesLt_trans hca h3
    rw [h2] at this
    cases this
  · subst h3
    rw [h2] at hca
    cases hca
  · rw [h1] at h3
    cases h3

theorem insertString_perm (s : Bytes) (l : List Bytes) : (insertString s l).Perm (s :: l) := by
  induction l with
  | nil => exact List.Perm.refl _
  | cons x rest ih =>
    unfold insertString
    split
    · exact List.Perm.refl _
    · exact (List.Perm.cons x ih).trans (List.Perm.swap s x rest)

theorem sortStrings_perm (l : List Bytes) : (sortStrings l).Perm l := by
  induction l with
  | nil => exact List.Perm.refl _
  | cons x rest ih =>
    show (insertString x (sortStrings rest)).Perm (x :: rest)
    exact (insertString_perm x _).trans (List.Perm.cons x ih)

theorem insertString_sorted (s : Bytes) (l : List Bytes)
    (h : l.Pairwise (fun a b => bytesLt b a = false)) :
    (insertString s l).Pairwise (fun a b => bytesLt b a = false) := by
  induction l with
  | nil => simp [insertString]
  | cons x rest ih =>
    rw [List.pairwise_cons] at h
    unfold insertString
    split
    · rename_i hlt
      refine List.pairwise_cons.mpr ⟨?_, List.pairwise_cons.mpr h⟩
      intro y hy
      rcases List.mem_cons.mp hy with hy | hy
      · subst hy
        exact Raft.bytesLt_asymm hlt
      · exact notLt_trans (Raft.bytesLt_asymm hlt) (h.1 y hy)
    · rename_i hlt
      have hsx : bytesLt s x = false := by simpa using hlt
      refine List.pairwise_cons.mpr ⟨?_, ih h.2⟩
      intro y hy
      rcases List.mem_cons.mp ((insertString_perm s rest).subset hy) with hy | hy
      · subst hy
        exact hsx
      · exact h.1 y hy

theorem sortStrings_sorted (l : List Bytes) :
    (sortStrings l).Pairwise (fun a b => bytesLt b a = false) := by
  induction l with
  | nil => exact List.Pairwise.nil
  | cons x rest ih => exact insertString_sorted x _ ih

/-- The keys of the map that the loop of `sortedLockKeys` builds. -/
theorem mem_mapSet_keys {β : Type} (key k : Bytes) (v : β) (m : List (Bytes × β)) :
    k ∈ (mapSet key v m).map Prod.fst ↔ k = key ∨ k ∈ m.map Prod.fst := by
  induction m with
  | nil => simp [mapSet]
  | cons p rest ih =>
    obtain ⟨k1, w⟩ := p
    by_cases hk : k1 = key
    · subst hk
      simp only [mapSet, if_true, List.map_cons, List.mem_cons]
      tauto
    · simp only [mapSet, if_neg hk, List.map_cons, List.mem_cons, ih]
      tauto

theorem mapSet_keys_nodup {β : Type} (key : Bytes) (v : β) (m : List (Bytes × β))
    (h : (m.map Prod.fst).Nodup) : ((mapSet key v m).map Prod.fst).Nodup := by
  induction m with
  | nil => simp [mapSet]
  | cons p rest ih =>
    obtain ⟨k1, w⟩ := p
    rw [List.map_cons, List.nodup_cons] at h
    by_cases hk : k1 = key
    · simp only [mapSet, if_pos hk, List.map_cons, List.nodup_cons]
      exact h
    · simp only [mapSet, if_neg hk, List.map_cons, List.nodup_cons]
      refine ⟨?_, ih h.2⟩
      intro hmem
      rcases (mem_mapSet_keys key k1 v rest).mp hmem with h1 | h1
      · exact hk h1
      · exact h.1 h1

theorem leafSet_keys (f : Bytes → Bytes) (keys : List Bytes) (m : List (Bytes × Bool))
    (hm : (m.map Prod.fst).Nodup) :
    ((keys.foldl (fun (leafSet : List (Bytes × Bool)) key => mapSet (f key) true leafSet)
        m).map Prod.fst).Nodup ∧
      ∀ s, s ∈ (keys.foldl (fun (leafSet : List (Bytes × Bool)) key =>
          mapSet (f key) true leafSet) m).map Prod.fst ↔
        s ∈ m.map Prod.fst ∨ ∃ k ∈ keys, f k = s := by
  induction keys generalizing m with
  | nil => simp [hm]
  | cons k rest ih =>
    simp only [List.foldl_cons]
    obtain ⟨h1, h2⟩ := ih (mapSet (f k) true m) (mapSet_keys_nodup _ _ _ hm)
    refine ⟨h1, ?_⟩
    intro s
    rw [h2, mem_mapSet_keys]
    simp only [List.mem_cons, exists_eq_or_imp]
    constructor
    · rintro ((h | h) | h)
      · exact Or.inr (Or.inl h.symm)
      · exact Or.inl h
      · exact Or.inr (Or.inr h)
    · rintro (h | h | h)
      · exact Or.inl (Or.inr h)
      · exact Or.inl (Or.inl h.symm)
      · exact Or.inr h

theorem bytesLt_nodeBytes (i j : Nat) (hi : i < U32) (hj : j < U32) :
    bytesLt (nodeBytes i) (nodeBytes j) = decide (i < j) := by
  have h := Raft.bytesLt_beDigits 4 i j
  have hU : U32 = 256 ^ 4 := by norm_num [U32]
  rw [← hU, Nat.mod_eq_of_lt hi, Nat.mod_eq_of_lt hj] at h
  rw [← h]
  have hb : ∀ v, nodeBytes v = Raft.beDigits 4 v := by
    intro v
    simp [nodeBytes, putUint32, Raft.beDigits]
  rw [hb, hb]

theorem getUint32_nodeBytes (i : Nat) (h : i < U32) : getUint32 (nodeBytes i) = i := by
  rw [U32] at h
  simp only [getUint32, nodeBytes, putUint32, List.take, List.foldl_cons, List.foldl_nil]
  omega

theorem leafNode_lt (lib : Library) (node : Node) (key : Bytes) : node.leafNode lib key < U32 :=
  Nat.mod_lt _ (by decide)

theorem mem_nodeStrings (lib : Library) (node : Node) (keys : List Bytes) (s : Bytes) :
    s ∈ (node.sortedLockKeys lib keys).2 ↔ ∃ k ∈ keys, nodeBytes (node.leafNode lib k) = s := by
  unfold Node.sortedLockKeys
  simp only
  rw [(sortStrings_perm _).mem_iff,
    (leafSet_keys (fun k => nodeBytes (node.leafNode lib k)) keys [] List.nodup_nil).2 s]
  simp

theorem nodeStrings_ascending (lib : Library) (node : Node) (keys : List Bytes) :
    (node.sortedLockKeys lib keys).2.Pairwise (fun a b => bytesLt a b = true) := by
  have hnodup : (node.sortedLockKeys lib keys).2.Nodup := by
    unfold Node.sortedLockKeys
    simp only
    exact (sortStrings_perm _).nodup_iff.mpr
      (leafSet_keys (fun k => nodeBytes (node.leafNode lib k)) keys [] List.nodup_nil).1
  have hsorted : (node.sortedLockKeys lib keys).2.Pairwise (fun a b => bytesLt b a = false) := by
    unfold Node.sortedLockKeys
    exact sortStrings_sorted _
  refine (hsorted.and hnodup).imp ?_
  intro a b hab
  rcases bytesLt_trichotomy a b with h | h | h
  · exact h
  · exact absurd h hab.2
  · rw [hab.1] at h
    cases h

/-- C28: for every list of keys, `sortedLockKeys` returns the keys, each as often as it
was passed, in ascending byte-wise order, and the encoded leaf ids of the keys
in strictly ascending byte-wise order, which is the strictly ascending numeric
order of the leaf ids: every leaf of a key once, and nothing else. `lock` then
takes the key locks in the first order and after them the leaf locks in the
second. -/
theorem sortedLockKeys_ascending (lib : Library) (node : Node) (keys : List Bytes) :
    (node.sortedLockKeys lib keys).1.Perm keys ∧
      (node.sortedLockKeys lib keys).1.Pairwise (fun a b => bytesLt b a = false) ∧
      (node.sortedLockKeys lib keys).2.Pairwise (fun a b => bytesLt a b = true) ∧
      (∃ ids : List Nat, (node.sortedLockKeys lib keys).2 = ids.map nodeBytes ∧
        ids.Pairwise (fun i j => i < j) ∧
        ∀ id, id ∈ ids ↔ ∃ k ∈ keys, node.leafNode lib k = id) ∧
      (node.lock lib keys).lockCalls =
        node.lockCalls ++
          (node.sortedLockKeys lib keys).1.map (LockCall.Lock .multiLock) ++
          (node.sortedLockKeys lib keys).2.map (LockCall.Lock .merkleLock) := by
  refine ⟨sortStrings_perm keys, sortStrings_sorted keys, nodeStrings_ascending lib node keys,
    ⟨(node.sortedLockKeys lib keys).2.map getUint32, ?_, ?_, ?_⟩, ?_⟩
  · rw [List.map_map]
    symm
    conv_rhs => rw [← List.map_id (node.sortedLockKeys lib keys).2]
    apply List.map_congr_left
    intro s hs
    obtain ⟨k, _, hk⟩ := (mem_nodeStrings lib node keys s).mp hs
    rw [← hk]
    simp [getUint32_nodeBytes _ (leafNode_lt lib node k)]
  · rw [List.pairwise_map]
    refine (nodeStrings_ascending lib node keys).imp_of_mem ?_
    intro a b ha hb hab
    obtain ⟨k1, _, hk1⟩ := (mem_nodeStrings lib node keys a).mp ha
    obtain ⟨k2, _, hk2⟩ := (mem_nodeStrings lib node keys b).mp hb
    rw [← hk1, ← hk2] at hab ⊢
    rw [bytesLt_nodeBytes _ _ (leafNode_lt lib node k1) (leafNode_lt lib node k2)] at hab
    rw [getUint32_nodeBytes _ (leafNode_lt lib node k1),
      getUint32_nodeBytes _ (leafNode_lt lib node k2)]
    simpa using hab
  · intro id
    rw [List.mem_map]
    constructor
    · rintro ⟨s, hs, hid⟩
      obtain ⟨k, hk, hks⟩ := (mem_nodeStrings lib node keys s).mp hs
      refine ⟨k, hk, ?_⟩
      rw [← hid, ← hks, getUint32_nodeBytes _ (leafNode_lt lib node k)]
    · rintro ⟨k, hk, hid⟩
      refine ⟨nodeBytes id, (mem_nodeStrings lib node keys _).mpr ⟨k, hk, by rw [hid]⟩, ?_⟩
      rw [← hid, getUint32_nodeBytes _ (leafNode_lt lib node k)]
  · rfl

/-! ## The age of a tombstone -/

/-- The step of the loop of `GetOldestTombstone`. -/
theorem oldest_fold (l : List Sibling) (a : Sibling)
    (hl : ∀ s ∈ l, s.IsTombstone = true) :
    ∃ o, l.foldl
        (fun oldest s =>
          if s.IsTombstone then
            match oldest with
            | none => some s
            | some o => if s.Timestamp < o.Timestamp then some s else some o
          else oldest)
        (some a) = some o ∧
      (o = a ∨ o ∈ l) ∧ o.timestamp ≤ a.timestamp ∧ ∀ s ∈ l, o.timestamp ≤ s.timestamp := by
  induction l generalizing a with
  | nil => exact ⟨a, rfl, Or.inl rfl, le_refl _, fun s hs => by cases hs⟩
  | cons x rest ih =>
    have hx := hl x (List.mem_cons_self _ _)
    have hrest := fun s hs => hl s (List.mem_cons_of_mem _ hs)
    simp only [List.foldl_cons, hx, if_true]
    by_cases hlt : x.Timestamp < a.Timestamp
    · simp only [if_pos hlt]
      obtain ⟨o, ho, hmem, hle, hall⟩ := ih x hrest
      have hlt1 : x.timestamp < a.timestamp := hlt
      refine ⟨o, ho, ?_, by omega, ?_⟩
      · rcases hmem with h | h
        · exact Or.inr (h ▸ List.mem_cons_self _ _)
        · exact Or.inr (List.mem_cons_of_mem _ h)
      · intro s hs
        rcases List.mem_cons.mp hs with h | h
        · rw [h]
          exact hle
        · exact hall s h
    · simp only [if_neg hlt]
      obtain ⟨o, ho, hmem, hle, hall⟩ := ih a hrest
      have hlt1 : ¬ x.timestamp < a.timestamp := hlt
      refine ⟨o, ho, ?_, hle, ?_⟩
      · rcases hmem with h | h
        · exact Or.inl h
        · exact Or.inr (List.mem_cons_of_mem _ h)
      · intro s hs
        rcases List.mem_cons.mp hs with h | h
        · rw [h]
          omega
        · exact hall s h

/-- The oldest tombstone of a set of tombstones that is not empty: a sibling of the set
whose timestamp no sibling of the set undercuts. -/
theorem GetOldestTombstone_spec (ss : SiblingSet) (hsize : ss.Size ≠ 0)
    (htomb : ss.IsTombstoneSet = true) :
    ∃ o, ss.GetOldestTombstone = some o ∧ o ∈ ss.siblings ∧
      ∀ s ∈ ss.siblings, o.timestamp ≤ s.timestamp := by
  obtain ⟨l⟩ := ss
  cases l with
  | nil => exact absurd rfl hsize
  | cons x rest =>
    have hall : ∀ s ∈ x :: rest, s.IsTombstone = true := by
      simpa [SiblingSet.IsTombstoneSet] using htomb
    have hx := hall x (List.mem_cons_self _ _)
    obtain ⟨o, ho, hmem, hle, hmin⟩ :=
      oldest_fold rest x (fun s hs => hall s (List.mem_cons_of_mem _ hs))
    refine ⟨o, ?_, ?_, ?_⟩
    · simp only [SiblingSet.GetOldestTombstone, List.foldl_cons, hx, if_true]
      exact ho
    · rcases hmem with h | h
      · exact h ▸ List.mem_cons_self _ _
      · exact List.mem_cons_of_mem _ h
    · intro s hs
      rcases List.mem_cons.mp hs with h | h
      · rw [h]
        exact hle
      · exact hmin s h

/-- C25: when the loop of `Node.Batch` comes to a delete of a key whose current sibling set
is not empty and holds only tombstones, the sibling it creates has a nil value,
carries the clock just derived from the context and the current set, and has
the timestamp of the oldest tombstone of the current set (a sibling of the set
whose timestamp no sibling of the set undercuts); the clock of the node is not
read. That sibling is the one synced into the set that the loop goes on
with. -/
theorem redelete_keeps_tombstone_age (lib : Library) (node : Node)
    (contexts : List (Bytes × DVV)) (key : Bytes) (op : Op) (rest : List (Bytes × Op))
    (siblingSets : List (Bytes × SiblingSet)) (update : Update) (context : DVV)
    (siblingSet : SiblingSet) (hdelete : op.IsDelete = true)
    (hset : mapGet key siblingSets = some siblingSet)
    (hcontext : mapGet key contexts = some context)
    (hsize : siblingSet.Size ≠ 0) (htombstones : siblingSet.IsTombstoneSet = true) :
    ∃ oldest ∈ siblingSet.siblings,
      (∀ s ∈ siblingSet.siblings, oldest.timestamp ≤ s.timestamp) ∧
      node.newSibling op (node.updateClock lib context siblingSet) siblingSet =
        ({ clock := node.updateClock lib context siblingSet
           value := none
           timestamp := oldest.timestamp }, node) ∧
      Node.applyOps lib contexts ((key, op) :: rest) siblingSets update node =
        Node.applyOps lib contexts rest
          (mapSet key
            (lib.Sync (lib.Discard siblingSet (node.updateClock lib context siblingSet))
              (NewSiblingSet
                [{ clock := node.updateClock lib context siblingSet
                   value := none
                   timestamp := oldest.timestamp }]))
            siblingSets)
          (update.AddDiff key siblingSet
            (node.resolveConflicts
              (lib.Sync (lib.Discard siblingSet (node.updateClock lib context siblingSet))
                (NewSiblingSet
                  [{ clock := node.updateClock lib context siblingSet
                     value := none
                     timestamp := oldest.timestamp }]))))
          node := by
  obtain ⟨o, ho, hmem, hmin⟩ := GetOldestTombstone_spec siblingSet hsize htombstones
  have hnew : node.newSibling op (node.updateClock lib context siblingSet) siblingSet =
      ({ clock := node.updateClock lib context siblingSet
         value := none
         timestamp := o.timestamp }, node) := by
    simp only [Node.newSibling, htombstones, if_true, Node.updateToSibling, hdelete, ho,
      NewSibling, Sibling.Timestamp]
  refine ⟨o, hmem, hmin, hnew, ?_⟩
  have hnot : (siblingSet.Size = 0 && op.IsDelete) = false := by
    simp [hsize]
  rw [Node.applyOps]
  simp only [hset, hcontext, hnot, hnew, Bool.false_eq_true, if_false]

/-- The delete of the key `b`, which holds tombstones of the times 7 and 4: the new
tombstone has the time 4, and so has the one that `Batch` returns. -/
theorem redelete_keeps_tombstone_age_witness :
    (∃ oldest ∈ exampleTombstones.siblings,
      (∀ s ∈ exampleTombstones.siblings, oldest.timestamp ≤ s.timestamp) ∧
      (exampleNode Default).newSibling (Op.delete [98])
          ((exampleNode Default).updateClock exampleLibrary exampleContext exampleTombstones)
          exampleTombstones =
        ({ clock := (exampleNode Default).updateClock exampleLibrary exampleContext
             exampleTombstones
           value := none
           timestamp := oldest.timestamp }, exampleNode Default) ∧
      Node.applyOps exampleLibrary exampleDelete.Contexts ((([98] : Bytes), Op.delete [98]) :: [])
          [([98], exampleTombstones)] NewUpdate (exampleNode Default) =
        Node.applyOps exampleLibrary exampleDelete.Contexts []
          (mapSet [98]
            (exampleLibrary.Sync
              (exampleLibrary.Discard exampleTombstones
                ((exampleNode Default).updateClock exampleLibrary exampleContext
                  exampleTombstones))
              (NewSiblingSet
                [{ clock := (exampleNode Default).updateClock exampleLibrary exampleContext
                     exampleTombstones
                   value := none
                   timestamp := oldest.timestamp }]))
            [([98], exampleTombstones)])
          (NewUpdate.AddDiff [98] exampleTombstones
            ((exampleNode Default).resolveConflicts
              (exampleLibrary.Sync
                (exampleLibrary.Discard exampleTombstones
                  ((exampleNode Default).updateClock exampleLibrary exampleContext
                    exampleTombstones))
                (NewSiblingSet
                  [{ clock := (exampleNode Default).updateClock exampleLibrary exampleContext
                       exampleTombstones
                     value := none
                     timestamp := oldest.timestamp }]))))
          (exampleNode Default)) ∧
      (Node.Batch exampleLibrary (exampleNode Default) (some exampleDelete)).1 =
        .ok [([98],
          ⟨[{ clock := { dot := ⟨[2], 1⟩, context := [] }, value := none, timestamp := 7 },
            { clock := { dot := ⟨[1], 1⟩, context := [([3], 1)] }, value := none,
              timestamp := 4 }]⟩)] :=
  ⟨redelete_keeps_tombstone_age exampleLibrary (exampleNode Default) exampleDelete.Contexts
      [98] (Op.delete [98]) [] [([98], exampleTombstones)] NewUpdate exampleContext
      exampleTombstones rfl rfl rfl (by decide) (by decide),
    rfl⟩

/-! ## What `Batch` returns and what it stores -/

theorem mapGet_mapSet_same {β : Type} (key : Bytes) (v : β) (m : List (Bytes × β)) :
    mapGet key (mapSet key v m) = some v := by
  induction m with
  | nil => simp [mapSet, mapGet]
  | cons p rest ih =>
    obtain ⟨k, w⟩ := p
    by_cases hk : k = key
    · simp [mapSet, mapGet, hk]
    · simp [mapSet, mapGet, hk, ih]

theorem mapGet_mapSet_other {β : Type} {key k : Bytes} (v : β) (m : List (Bytes × β))
    (h : k ≠ key) : mapGet k (mapSet key v m) = mapGet k m := by
  induction m with
  | nil => simp [mapSet, mapGet, Ne.symm h]
  | cons p rest ih =>
    obtain ⟨k1, w⟩ := p
    by_cases hk : k1 = key
    · subst hk
      simp [mapSet, mapGet, Ne.symm h]
    · by_cases hk1 : k1 = k
      · subst hk1
        simp [mapSet, mapGet, hk]
      · simp [mapSet, mapGet, hk, hk1, ih]

theorem mapGet_mapDelete_same {β : Type} (key : Bytes) (m : List (Bytes × β)) :
    mapGet key (mapDelete key m) = none := by
  induction m with
  | nil => rfl
  | cons p rest ih =>
    obtain ⟨k, w⟩ := p
    by_cases hk : k = key
    · simpa [mapDelete, List.filter_cons, hk] using ih
    · simpa [mapDelete, List.filter_cons, hk, mapGet] using ih

theorem mapGet_mapDelete_other {β : Type} {key k : Bytes} (m : List (Bytes × β))
    (h : k ≠ key) : mapGet k (mapDelete key m) = mapGet k m := by
  induction m with
  | nil => rfl
  | cons p rest ih =>
    obtain ⟨k1, w⟩ := p
    by_cases hk : k1 = key
    · subst hk
      simpa [mapDelete, List.filter_cons, mapGet, Ne.symm h] using ih
    · by_cases hk1 : k1 = k
      · subst hk1
        simp [mapDelete, List.filter_cons, hk, mapGet]
      · simpa [mapDelete, List.filter_cons, hk, mapGet, hk1] using ih

/-- The sibling that `Batch` creates carries the clock it was given and the value of the
operation; creating it changes nothing of the node but the readings of the
clock still to come. -/
theorem newSibling_spec (node : Node) (op : Op) (c : DVV) (ss : SiblingSet) :
    (node.newSibling op c ss).1.clock = c ∧ (node.newSibling op c ss).1.value = op.Value ∧
      ∃ t, (node.newSibling op c ss).2 = { node with time := t } := by
  have hnow : ∃ t, node.now.2 = { node with time := t } := by
    unfold Node.now
    split
    · exact ⟨node.time, rfl⟩
    · exact ⟨_, rfl⟩
  have hself : ∃ t, node = { node with time := t } := ⟨node.time, rfl⟩
  cases op with
  | put k v =>
    simp only [Node.newSibling, Node.updateToSibling, Op.IsDelete, Bool.false_eq_true, if_false,
      ite_self, NewSibling, Op.Value]
    exact ⟨trivial, trivial, hnow⟩
  | delete k =>
    simp only [Node.newSibling, Node.updateToSibling, Op.IsDelete, if_true, NewSibling, Op.Value]
    split
    · split
      · exact ⟨rfl, rfl, hnow⟩
      · exact ⟨rfl, rfl, hself⟩
    · exact ⟨rfl, rfl, hnow⟩

theorem updateClock_time (lib : Library) (node : Node) (t : List Nat) (context : DVV)
    (ss : SiblingSet) :
    Node.updateClock lib { node with time := t } context ss = node.updateClock lib context ss :=
  rfl

theorem mem_AddDiff (u : Update) (key : Bytes) (old new : SiblingSet) :
    (⟨key, old, new⟩ : Diff) ∈ (u.AddDiff key old new).diffs := by
  simp [Update.AddDiff]

theorem mem_AddDiff_other (u : Update) (key : Bytes) (old new : SiblingSet) (d : Diff)
    (hd : d ∈ u.diffs) (hk : d.key ≠ key) : d ∈ (u.AddDiff key old new).diffs := by
  simp only [Update.AddDiff, List.mem_append, List.mem_filter]
  exact Or.inl ⟨hd, by simpa using hk⟩

/-- What the loop of `Batch` leaves alone: the node but for its clock readings, the diffs
and the sibling sets of the keys that are not among the operations. -/
theorem applyOps_frame (lib : Library) (contexts : List (Bytes × DVV))
    (ops : List (Bytes × Op)) (sets : List (Bytes × SiblingSet)) (update : Update) (node : Node)
    (sets1 : List (Bytes × SiblingSet)) (update1 : Update) (node1 : Node)
    (h : Node.applyOps lib contexts ops sets update node = .ok (sets1, update1, node1)) :
    (∃ t, node1 = { node with time := t }) ∧
      (∀ d ∈ update.diffs, d.key ∉ ops.map Prod.fst → d ∈ update1.diffs) ∧
      (∀ key, key ∉ ops.map Prod.fst → mapGet key sets1 = mapGet key sets) := by
  induction ops generalizing sets update node with
  | nil =>
    simp only [Node.applyOps] at h
    injection h with h
    injection h with h1 h2
    injection h2 with h2 h3
    subst h1 h2 h3
    exact ⟨⟨node.time, rfl⟩, fun d hd _ => hd, fun key _ => rfl⟩
  | cons p rest ih =>
    obtain ⟨k, op⟩ := p
    rw [Node.applyOps] at h
    cases hget : mapGet k sets with
    | none => simp [hget] at h
    | some ss =>
      simp only [hget] at h
      by_cases hskip : (ss.Size = 0 && op.IsDelete) = true
      · rw [if_pos hskip] at h
        obtain ⟨ht, hd, hs⟩ := ih _ _ _ h
        refine ⟨ht, ?_, ?_⟩
        · intro d hd1 hk
          exact hd d hd1 (fun hmem => hk (List.mem_cons_of_mem _ hmem))
        · intro key hk
          have hne : key ≠ k := fun he => hk (he ▸ List.mem_cons_self _ _)
          rw [hs key (fun hmem => hk (List.mem_cons_of_mem _ hmem)),
            mapGet_mapDelete_other _ hne]
      · rw [if_neg hskip] at h
        cases hctx : mapGet k contexts with
        | none => simp [hctx] at h
        | some context =>
          simp only [hctx] at h
          obtain ⟨hc, hv, t0, ht0⟩ :=
            newSibling_spec node op (node.updateClock lib context ss) ss
          obtain ⟨⟨t, ht⟩, hd, hs⟩ := ih _ _ _ h
          refine ⟨⟨t, ?_⟩, ?_, ?_⟩
          · rw [ht, ht0]
          · intro d hd1 hk
            have hne : d.key ≠ k := fun he => hk (he ▸ List.mem_cons_self _ _)
            exact hd d (mem_AddDiff_other _ _ _ _ d hd1 hne)
              (fun hmem => hk (List.mem_cons_of_mem _ hmem))
          · intro key hk
            have hne : key ≠ k := fun he => hk (he ▸ List.mem_cons_self _ _)
            rw [hs key (fun hmem => hk (List.mem_cons_of_mem _ hmem)),
              mapGet_mapSet_other _ _ hne]

/-- What the loop of `Batch` does for the key of an operation that is still in the map of
sibling sets afterwards. -/
theorem applyOps_updated (lib : Library) (contexts : List (Bytes × DVV))
    (ops : List (Bytes × Op)) (sets : List (Bytes × SiblingSet)) (update : Update) (node : Node)
    (sets1 : List (Bytes × SiblingSet)) (update1 : Update) (node1 : Node)
    (hnodup : (ops.map Prod.fst).Nodup)
    (h : Node.applyOps lib contexts ops sets update node = .ok (sets1, update1, node1))
    (key : Bytes) (op : Op) (hop : (key, op) ∈ ops) (returned : SiblingSet)
    (hret : mapGet key sets1 = some returned) :
    ∃ current context newSibling,
      mapGet key sets = some current ∧ mapGet key contexts = some context ∧
      newSibling.clock = node.updateClock lib context current ∧
      newSibling.value = op.Value ∧
      returned = lib.Sync (lib.Discard current newSibling.clock) (NewSiblingSet [newSibling]) ∧
      (⟨key, current, node.resolveConflicts returned⟩ : Diff) ∈ update1.diffs := by
  induction ops generalizing sets update node with
  | nil => cases hop
  | cons p rest ih =>
    obtain ⟨k, op0⟩ := p
    rw [List.map_cons, List.nodup_cons] at hnodup
    rw [Node.applyOps] at h
    cases hget : mapGet k sets with
    | none => simp [hget] at h
    | some ss =>
      simp only [hget] at h
      by_cases hskip : (ss.Size = 0 && op0.IsDelete) = true
      · rw [if_pos hskip] at h
        rcases List.mem_cons.mp hop with hhead | htail
        · injection hhead with hk _
          subst hk
          have := (applyOps_frame lib contexts rest _ _ _ _ _ _ h).2.2 key hnodup.1
          rw [this, mapGet_mapDelete_same] at hret
          cases hret
        · have hne : key ≠ k := by
            intro he
            subst he
            exact hnodup.1 (List.mem_map.mpr ⟨(_, op), htail, rfl⟩)
          obtain ⟨current, context, newSibling, h1, h2, h3, h4, h5, h6⟩ :=
            ih _ _ _ hnodup.2 h htail
          rw [mapGet_mapDelete_other _ hne] at h1
          exact ⟨current, context, newSibling, h1, h2, h3, h4, h5, h6⟩
      · rw [if_neg hskip] at h
        cases hctx : mapGet k contexts with
        | none => simp [hctx] at h
        | some context =>
          simp only [hctx] at h
          obtain ⟨hc, hv, t0, ht0⟩ :=
            newSibling_spec node op0 (node.updateClock lib context ss) ss
          rcases List.mem_cons.mp hop with hhead | htail
          · injection hhead with hk hop0
            subst hk hop0
            obtain ⟨_, hd, hs⟩ := applyOps_frame lib contexts rest _ _ _ _ _ _ h
            rw [hs key hnodup.1, mapGet_mapSet_same] at hret
            injection hret with hret
            refine ⟨ss, context, (node.newSibling op (node.updateClock lib context ss) ss).1,
              hget, hctx, hc, hv, ?_, ?_⟩
            · rw [← hret, hc]
            · rw [← hret]
              exact hd _ (mem_AddDiff _ _ _ _) hnodup.1
          · have hne : key ≠ k := by
              intro he
              subst he
              exact hnodup.1 (List.mem_map.mpr ⟨(_, op), htail, rfl⟩)
            obtain ⟨current, context1, newSibling, h1, h2, h3, h4, h5, h6⟩ :=
              ih _ _ _ hnodup.2 h htail
            rw [mapGet_mapSet_other _ _ hne] at h1
            rw [ht0] at h3 h6
            exact ⟨current, context1, newSibling, h1, h2, h3, h4, h5, h6⟩

theorem foldl_Put_ops {α : Type} (f : α → Bytes) (g : α → Bytes) (l : List α) (b : Batch) :
    (l.foldl (fun (batch : Batch) x => batch.Put (f x) (g x)) b).ops =
      b.ops ++ l.map (fun x => Op.put (f x) (g x)) := by
  induction l generalizing b with
  | nil => simp
  | cons x rest ih =>
    rw [List.foldl_cons, ih]
    simp [Batch.Put]

/-- The storage batch of an update holds the put of every diff: the new sibling set of
the diff, encoded, under the data key of its key. -/
theorem mem_batch_ops (lib : Library) (update : Update) (merkleTree : MerkleTree) (d : Diff)
    (hd : d ∈ update.diffs) :
    Op.put (encodePartitionDataKey d.key) (lib.Encode d.newSiblingSet) ∈
      (Node.batch lib update merkleTree).1.ops := by
  unfold Node.batch
  simp only [foldl_Put_ops, List.mem_append, List.mem_map]
  exact Or.inr ⟨d, hd, rfl⟩

/-- The map of the operations of a batch has every key once. -/
theorem Ops_nodup (b : Batch) : (b.Ops.map Prod.fst).Nodup := by
  unfold Batch.Ops
  have : ∀ (l : List Op) (m : List (Bytes × Op)), (m.map Prod.fst).Nodup →
      ((l.foldl (fun m o => mapSet o.Key o m) m).map Prod.fst).Nodup := by
    intro l
    induction l with
    | nil => exact fun m hm => hm
    | cons o rest ih => exact fun m hm => ih _ (mapSet_keys_nodup _ _ _ hm)
  exact this _ _ List.nodup_nil

theorem mem_of_mapGet {β : Type} {key : Bytes} {v : β} {m : List (Bytes × β)}
    (h : mapGet key m = some v) : (key, v) ∈ m := by
  induction m with
  | nil => cases h
  | cons p rest ih =>
    obtain ⟨k, w⟩ := p
    by_cases hk : k = key
    · simp only [mapGet, if_pos hk] at h
      injection h with h
      subst hk h
      exact List.mem_cons_self _ _
    · simp only [mapGet, if_neg hk] at h
      exact List.mem_cons_of_mem _ (ih h)

theorem unlock_storageDriver (lib : Library) (node : Node) (keys : List Bytes) :
    (node.unlock lib keys).storageDriver = node.storageDriver := rfl

theorem lock_storageDriver (lib : Library) (node : Node) (keys : List Bytes) :
    (node.lock lib keys).storageDriver = node.storageDriver := rfl

theorem updateInit_node (lib : Library) (node : Node) (keys : List Bytes) :
    (node.updateInit lib keys).2.1 = keys.map encodePartitionDataKey ∧
      (node.updateInit lib keys).2.2 =
        { node with
          storageDriver := (node.storageDriver.Get (keys.map encodePartitionDataKey)).2 } := by
  unfold Node.updateInit
  simp only
  rcases node.storageDriver.Get (keys.map encodePartitionDataKey) with ⟨r, d⟩
  cases r <;> exact ⟨rfl, rfl⟩

/-- C27 refuted: the example node keeps only the latest sibling. A put under the key `a`,
with a context that has not seen the stored value, returns a set of two
siblings, the stored value and the new one, but stages for storage the encoding
of the set that holds the new sibling alone. -/
theorem batch_returns_unresolved_set :
    (Node.Batch exampleLibrary (exampleNode exampleLastWriterWins) (some examplePut)).1 =
        .ok [([97],
          ⟨[exampleValue,
            { clock := { dot := ⟨[1], 1⟩, context := [([3], 1)] }, value := some [9],
              timestamp := 10 }]⟩)] ∧
      Raft.kvGet
          (Node.Batch exampleLibrary (exampleNode exampleLastWriterWins)
            (some examplePut)).2.storageDriver.kv
          (encodePartitionDataKey [97]) =
        some (exampleLibrary.Encode
          ⟨[{ clock := { dot := ⟨[1], 1⟩, context := [([3], 1)] }, value := some [9],
              timestamp := 10 }]⟩) ∧
      exampleLastWriterWins
          ⟨[exampleValue,
            { clock := { dot := ⟨[1], 1⟩, context := [([3], 1)] }, value := some [9],
              timestamp := 10 }]⟩ =
        ⟨[{ clock := { dot := ⟨[1], 1⟩, context := [([3], 1)] }, value := some [9],
            timestamp := 10 }]⟩ ∧
      exampleLibrary.Encode
          ⟨[{ clock := { dot := ⟨[1], 1⟩, context := [([3], 1)] }, value := some [9],
              timestamp := 10 }]⟩ ≠
        exampleLibrary.Encode
          ⟨[exampleValue,
            { clock := { dot := ⟨[1], 1⟩, context := [([3], 1)] }, value := some [9],
              timestamp := 10 }]⟩ :=
  ⟨rfl, rfl, rfl, by decide⟩

/-- C27, amended: when `Node.Batch` returns without error, then for every key of an
operation of the batch that has a sibling set in the result, that set is the
current set of the key (the one read at the start) with the siblings discarded
that the new clock dominates and the new sibling synced in, the new sibling
carrying the clock derived from the context of the key and the current set, and
the value of the operation; the conflict-resolution policy is not applied to
it. What is staged for storage under the data key of the key, in the one batch
handed to the driver, is the encoding of the policy applied to the returned
set. -/
theorem Batch_returns_unresolved (lib : Library) (node node1 : Node) (batch : UpdateBatch)
    (result : List (Bytes × SiblingSet)) (key : Bytes) (op : Op) (returned : SiblingSet)
    (h : Node.Batch lib node (some batch) = (.ok result, node1))
    (hop : mapGet key batch.Batch.Ops = some op)
    (hreturned : mapGet key result = some returned) :
    ∃ (siblingSets : List (Bytes × SiblingSet)) (current : SiblingSet) (context : DVV)
        (newSibling : Sibling) (storageBatch : Batch),
      (Node.updateInit lib (node.lock lib (batch.Batch.Ops.map Prod.fst))
        (batch.Batch.Ops.map Prod.fst)).1 = .ok siblingSets ∧
      mapGet key siblingSets = some current ∧
      mapGet key batch.Context = some context ∧
      newSibling.clock = node.updateClock lib context current ∧
      newSibling.value = op.Value ∧
      returned = lib.Sync (lib.Discard current newSibling.clock) (NewSiblingSet [newSibling]) ∧
      (node.storageDriver.Get
          ((batch.Batch.Ops.map Prod.fst).map encodePartitionDataKey)).2.Batch storageBatch =
        (none, node1.storageDriver) ∧
      Op.put (encodePartitionDataKey key) (lib.Encode (node.resolveConflicts returned)) ∈
        storageBatch.ops := by
  unfold Node.Batch at h
  simp only at h
  have hnode := updateInit_node lib (node.lock lib (batch.Batch.Ops.map Prod.fst))
    (batch.Batch.Ops.map Prod.fst)
  rcases hinit : Node.updateInit lib (node.lock lib (batch.Batch.Ops.map Prod.fst))
    (batch.Batch.Ops.map Prod.fst) with ⟨r, keys1, nodeA⟩
  rw [hinit] at h hnode
  simp only at hnode
  obtain ⟨hkeys1, hnodeA⟩ := hnode
  cases r with
  | error e =>
    simp only at h
    injection h with h _
    cases h
  | ok siblingSets =>
    simp only at h
    cases happly : Node.applyOps lib batch.Context batch.Batch.Ops siblingSets NewUpdate nodeA with
    | error e =>
      rw [happly] at h
      simp only at h
      injection h with h _
      cases h
    | ok res =>
      obtain ⟨sets1, update, node2⟩ := res
      rw [happly] at h
      simp only at h
      rcases hb : Node.batch lib update node2.merkleTree with ⟨storageBatch, tree1⟩
      rw [hb] at h
      simp only at h
      rcases hdrv : node2.storageDriver.Batch storageBatch with ⟨_ | e, d⟩
      · rw [hdrv] at h
        simp only at h
        injection h with h1 h2
        injection h1 with h1
        subst h1
        obtain ⟨current, context, newSibling, g1, g2, g3, g4, g5, g6⟩ :=
          applyOps_updated lib batch.Context batch.Batch.Ops siblingSets NewUpdate nodeA
            sets1 update node2 (Ops_nodup _) happly key op (mem_of_mapGet hop) returned hreturned
        obtain ⟨⟨t, ht⟩, _, _⟩ :=
          applyOps_frame lib batch.Context batch.Batch.Ops siblingSets NewUpdate nodeA
            sets1 update node2 happly
        refine ⟨siblingSets, current, context, newSibling, storageBatch, rfl, g1, g2, ?_, g4, g5,
          ?_, ?_⟩
        · rw [g3, hnodeA]
          rfl
        · rw [← h2, unlock_storageDriver]
          simp only
          rw [ht, hnodeA] at hdrv
          exact hdrv
        · have := mem_batch_ops lib update node2.merkleTree _ g6
          rw [hb, hnodeA] at this
          exact this
      · rw [hdrv] at h
        simp only at h
        injection h with h _
        cases h

/-- The put of the batch `examplePut` on the node that keeps the latest sibling. -/
theorem Batch_returns_unresolved_witness :
    ∃ (siblingSets : List (Bytes × SiblingSet)) (current : SiblingSet) (context : DVV)
        (newSibling : Sibling) (storageBatch : Batch),
      (Node.updateInit exampleLibrary
        ((exampleNode exampleLastWriterWins).lock exampleLibrary
          (examplePut.Batch.Ops.map Prod.fst))
        (examplePut.Batch.Ops.map Prod.fst)).1 = .ok siblingSets ∧
      mapGet [97] siblingSets = some current ∧
      mapGet [97] examplePut.Context = some context ∧
      newSibling.clock =
        (exampleNode exampleLastWriterWins).updateClock exampleLibrary context current ∧
      newSibling.value = (Op.put [97] [9]).Value ∧
      (⟨[exampleValue,
          { clock := { dot := ⟨[1], 1⟩, context := [([3], 1)] }, value := some [9],
            timestamp := 10 }]⟩ : SiblingSet) =
        exampleLibrary.Sync (exampleLibrary.Discard current newSibling.clock)
          (NewSiblingSet [newSibling]) ∧
      ((exampleNode exampleLastWriterWins).storageDriver.Get
          ((examplePut.Batch.Ops.map Prod.fst).map encodePartitionDataKey)).2.Batch
          storageBatch =
        (none, (Node.Batch exampleLibrary (exampleNode exampleLastWriterWins)
          (some examplePut)).2.storageDriver) ∧
      Op.put (encodePartitionDataKey [97])
          (exampleLibrary.Encode
            ((exampleNode exampleLastWriterWins).resolveConflicts
              ⟨[exampleValue,
                { clock := { dot := ⟨[1], 1⟩, context := [([3], 1)] }, value := some [9],
                  timestamp := 10 }]⟩)) ∈
        storageBatch.ops :=
  Batch_returns_unresolved exampleLibrary (exampleNode exampleLastWriterWins)
    (Node.Batch exampleLibrary (exampleNode exampleLastWriterWins) (some examplePut)).2
    examplePut
    [([97],
      ⟨[exampleValue,
        { clock := { dot := ⟨[1], 1⟩, context := [([3], 1)] }, value := some [9],
          timestamp := 10 }]⟩)]
    [97] (Op.put [97] [9])
    ⟨[exampleValue,
      { clock := { dot := ⟨[1], 1⟩, context := [([3], 1)] }, value := some [9],
        timestamp := 10 }]⟩
    rfl rfl rfl

/-! ## Merge writes only what is new -/

theorem mem_AddDiff_cases (u : Update) (key : Bytes) (old new : SiblingSet) (d : Diff)
    (hd : d ∈ (u.AddDiff key old new).diffs) : d ∈ u.diffs ∨ d.key = key := by
  simp only [Update.AddDiff, List.mem_append, List.mem_filter, List.mem_singleton] at hd
  rcases hd with hd | hd
  · exact Or.inl hd.1
  · exact Or.inr (by rw [hd])

/-- The inner loop of `Merge`: a diff it stages is one of the key, and it stages one only
when some sibling of the synced set is not in the stored set. -/
theorem mergeSiblings_spec (node : Node) (key : Bytes) (my : SiblingSet) (l : List Sibling)
    (updated : SiblingSet) (update : Update) :
    (∀ d ∈ (node.mergeSiblings key my l updated update).2.diffs,
        d ∈ update.diffs ∨ (d.key = key ∧ ∃ s ∈ l, my.Has s = false)) ∧
      ((∀ s ∈ l, my.Has s = true) →
        node.mergeSiblings key my l updated update = (updated, update)) := by
  induction l generalizing updated update with
  | nil =>
    simp only [Node.mergeSiblings]
    exact ⟨fun d hd => Or.inl hd, fun _ => trivial⟩
  | cons s rest ih =>
    by_cases hs : my.Has s = true
    · simp only [Node.mergeSiblings, hs, Bool.not_true, Bool.false_eq_true, if_false]
      obtain ⟨h1, h2⟩ := ih updated update
      refine ⟨?_, ?_⟩
      · intro d hd
        rcases h1 d hd with h | ⟨hk, x, hx, hhas⟩
        · exact Or.inl h
        · exact Or.inr ⟨hk, x, List.mem_cons_of_mem _ hx, hhas⟩
      · intro hall
        exact h2 (fun x hx => hall x (List.mem_cons_of_mem _ hx))
    · have hs1 : my.Has s = false := by simpa using hs
      simp only [Node.mergeSiblings, hs1, Bool.not_false, if_true]
      obtain ⟨h1, _⟩ := ih (node.resolveConflicts updated)
        (update.AddDiff key my (node.resolveConflicts updated))
      refine ⟨?_, ?_⟩
      · intro d hd
        rcases h1 d hd with h | ⟨hk, x, hx, hhas⟩
        · rcases mem_AddDiff_cases _ _ _ _ d h with h | h
          · exact Or.inl h
          · exact Or.inr ⟨h, s, List.mem_cons_self _ _, hs1⟩
        · exact Or.inr ⟨hk, x, List.mem_cons_of_mem _ hx, hhas⟩
      · intro hall
        rw [hall s (List.mem_cons_self _ _)] at hs1
        cases hs1

theorem decode_encode (k : Bytes) : decodePartitionDataKey (encodePartitionDataKey k) = .ok k := by
  simp [decodePartitionDataKey, encodePartitionDataKey, PARTITION_DATA_PREFIX]

/-- The loop of `Merge` over the data keys that `updateInit` left behind ends without
error; a diff it stages is the diff of a key whose incoming set brings news; and
when the incoming set of no key brings news it stages nothing. -/
theorem mergeKeys_spec (lib : Library) (node : Node)
    (siblingSets : List (Bytes × Option SiblingSet)) (mySiblingSets : List (Bytes × SiblingSet))
    (keys : List Bytes) (update : Update) :
    ∃ update1,
      Node.mergeKeys lib node siblingSets mySiblingSets (keys.map encodePartitionDataKey)
        update = .ok update1 ∧
      (∀ d ∈ update1.diffs,
        d ∈ update.diffs ∨ bringsNews lib siblingSets mySiblingSets d.key = true) ∧
      ((∀ key ∈ keys, bringsNews lib siblingSets mySiblingSets key = false) →
        update1 = update) := by
  induction keys generalizing update with
  | nil => exact ⟨update, rfl, fun d hd => Or.inl hd, fun _ => rfl⟩
  | cons k rest ih =>
    simp only [List.map_cons, Node.mergeKeys, decode_encode]
    cases hin : (mapGet k siblingSets).join with
    | none =>
      simp only
      obtain ⟨u1, h1, h2, h3⟩ := ih update
      exact ⟨u1, h1, h2, fun hall => h3 (fun key hk => hall key (List.mem_cons_of_mem _ hk))⟩
    | some incoming =>
      simp only
      obtain ⟨u1, h1, h2, h3⟩ := ih
        (node.mergeSiblings k ((mapGet k mySiblingSets).getD (NewSiblingSet []))
          (lib.Sync incoming ((mapGet k mySiblingSets).getD (NewSiblingSet []))).Iter
          (lib.Sync incoming ((mapGet k mySiblingSets).getD (NewSiblingSet []))) update).2
      obtain ⟨g1, g2⟩ := mergeSiblings_spec node k
        ((mapGet k mySiblingSets).getD (NewSiblingSet []))
        (lib.Sync incoming ((mapGet k mySiblingSets).getD (NewSiblingSet []))).Iter
        (lib.Sync incoming ((mapGet k mySiblingSets).getD (NewSiblingSet []))) update
      refine ⟨u1, h1, ?_, ?_⟩
      · intro d hd
        rcases h2 d hd with h | h
        · rcases g1 d h with h | ⟨hk, s, hs, hhas⟩
          · exact Or.inl h
          · right
            rw [hk]
            simp only [bringsNews, hin, List.any_eq_true, Bool.not_eq_true']
            exact ⟨s, hs, hhas⟩
        · exact Or.inr h
      · intro hall
        have hk := hall k (List.mem_cons_self _ _)
        simp only [bringsNews, hin, List.any_eq_false, Bool.not_eq_true', Bool.not_eq_false] at hk
        rw [g2 (fun s hs => by simpa using hk s hs)] at h3
        exact h3 (fun key hkey => hall key (List.mem_cons_of_mem _ hkey))

theorem Get_kv (d : StorageDriver) (keys : List Bytes) : (d.Get keys).2.kv = d.kv := by
  unfold StorageDriver.Get StorageDriver.nextFault
  cases hf : d.faults with
  | nil => rfl
  | cons f fs => cases f <;> rfl

/-- C26 refuted: `Merge` of a nil map returns `EEmpty`, and `Merge` of an empty map on a node
whose driver fails the read returns `EStorage`; in both calls there is no key
whose incoming set brings news, and neither call returns nil. -/
theorem merge_without_news_returns_error :
    (Node.Merge exampleLibrary (exampleNode Default) none).1 = some .EEmpty ∧
      (Node.Merge exampleLibrary exampleNodeFailing (some [])).1 = some .EStorage ∧
      (Node.Merge exampleLibrary exampleNodeFailing (some [])).2.storageDriver.kv =
        exampleNodeFailing.storageDriver.kv ∧
      ∀ mySiblingSets key, bringsNews exampleLibrary [] mySiblingSets key = false :=
  ⟨rfl, rfl, rfl, fun _ _ => rfl⟩

/-- C26, amended: once `Merge` was given a map that is not nil and has read the stored
sibling sets of its keys without error, its loop ends with an update in which
every diff is the diff of a key whose incoming set brings news (syncing it with
the stored set gives a sibling that the stored set does not have); when the
update is not empty, `Merge` hands the batch of that update to the driver and
returns what the driver returns; and when the incoming set of no key brings
news, `Merge` returns nil without a storage batch: the driver is the one left by
the read, with the store as it was, and the Merkle tree is unchanged. -/
theorem Merge_writes_only_news (lib : Library) (node node1 : Node)
    (siblingSets : List (Bytes × Option SiblingSet)) (mySiblingSets : List (Bytes × SiblingSet))
    (keys1 : List Bytes)
    (hread : Node.updateInit lib (node.lock lib (siblingSets.map Prod.fst))
      (siblingSets.map Prod.fst) = (.ok mySiblingSets, keys1, node1)) :
    ∃ update,
      Node.mergeKeys lib node1 siblingSets mySiblingSets keys1 NewUpdate = .ok update ∧
      (∀ d ∈ update.diffs, bringsNews lib siblingSets mySiblingSets d.key = true) ∧
      (update.Size ≠ 0 →
        Node.Merge lib node (some siblingSets) =
          ((node1.storageDriver.Batch (Node.batch lib update node1.merkleTree).1).1.map
              DBerror.driver,
            Node.unlock lib
              { node1 with
                merkleTree := (Node.batch lib update node1.merkleTree).2
                storageDriver :=
                  (node1.storageDriver.Batch (Node.batch lib update node1.merkleTree).1).2 }
              keys1)) ∧
      ((∀ key ∈ siblingSets.map Prod.fst,
          bringsNews lib siblingSets mySiblingSets key = false) →
        Node.Merge lib node (some siblingSets) = (none, node1.unlock lib keys1) ∧
          (Node.Merge lib node (some siblingSets)).2.storageDriver =
            (node.storageDriver.Get
              ((siblingSets.map Prod.fst).map encodePartitionDataKey)).2 ∧
          (Node.Merge lib node (some siblingSets)).2.storageDriver.kv = node.storageDriver.kv ∧
          (Node.Merge lib node (some siblingSets)).2.merkleTree = node.merkleTree) := by
  have hafter := updateInit_node lib (node.lock lib (siblingSets.map Prod.fst))
    (siblingSets.map Prod.fst)
  rw [hread] at hafter
  simp only at hafter
  obtain ⟨hkeys1, hnode1⟩ := hafter
  obtain ⟨update, hu, hdiffs, hnone⟩ :=
    mergeKeys_spec lib node1 siblingSets mySiblingSets (siblingSets.map Prod.fst) NewUpdate
  rw [← hkeys1] at hu
  refine ⟨update, hu, ?_, ?_, ?_⟩
  · intro d hd
    rcases hdiffs d hd with h | h
    · cases h
    · exact h
  · intro hsize
    unfold Node.Merge
    simp only [hread, hu, hsize, ne_eq, not_false_eq_true, if_true]
  · intro hall
    have hupdate := hnone hall
    have hmerge : Node.Merge lib node (some siblingSets) = (none, node1.unlock lib keys1) := by
      rw [hupdate] at hu
      unfold Node.Merge
      simp only [hread, hu]
      simp [NewUpdate, Update.Size]
    refine ⟨hmerge, ?_, ?_, ?_⟩
    · rw [hmerge, hnode1]
      rfl
    · rw [hmerge, hnode1]
      exact Get_kv _ _
    · rw [hmerge, hnode1]
      rfl

/-- The stored value of the key `a` merged into the example node once more brings no news:
`Merge` returns nil and leaves the store and the Merkle tree as they were. -/
theorem Merge_writes_only_news_witness :
    (∀ key ∈ [([97], some (⟨[exampleValue]⟩ : SiblingSet))].map Prod.fst,
        bringsNews exampleLibrary [([97], some ⟨[exampleValue]⟩)] [([97], ⟨[exampleValue]⟩)]
          key = false) ∧
      (Node.Merge exampleLibrary (exampleNode Default)
          (some [([97], some ⟨[exampleValue]⟩)])).1 = none ∧
      (Node.Merge exampleLibrary (exampleNode Default)
          (some [([97], some ⟨[exampleValue]⟩)])).2.storageDriver.kv =
        (exampleNode Default).storageDriver.kv ∧
      (Node.Merge exampleLibrary (exampleNode Default)
          (some [([97], some ⟨[exampleValue]⟩)])).2.merkleTree =
        (exampleNode Default).merkleTree := by
  obtain ⟨_, _, _, _, h⟩ :=
    Merge_writes_only_news exampleLibrary (exampleNode Default)
      (Node.updateInit exampleLibrary ((exampleNode Default).lock exampleLibrary [[97]])
        [[97]]).2.2
      [([97], some ⟨[exampleValue]⟩)] [([97], ⟨[exampleValue]⟩)] [encodePartitionDataKey [97]]
      rfl
  have h1 := h (by decide)
  exact ⟨by decide, by rw [h1.1], h1.2.2.1, h1.2.2.2⟩

end Devicedb
